import Mathlib

/-!
# Cicada transaction core: shallow embedding

Embedding of `src/mica/transaction/row_access.h`, `transaction.h`,
`transaction_impl/operation.h`, `page_pool.h` and `hh_accounter.h`.

Conventions of the embedding
* Pointers to row versions and to row heads are natural numbers; a nullable
  pointer is an `Option Nat` (`none` is `nullptr`).
* A `RowCommon*` is either a row head or a row version (`RowCommonPtr`).
* A pointer into `accesses_` is the index of the element.
* Timestamps are natural numbers (a total order).
* One thread runs at a time: no other worker changes the shared memory while
  an operation runs.  A spin loop that waits for another worker therefore
  never ends (`Outcome.diverges`).
* `Timing` and `Stats` counters and `printf` are diagnostics and are left out.
* The pages of a `PagePool` are addresses (natural numbers); the only memory of
  a page that matters is its first word, which holds the link of the free list.
* 64-bit counters are natural numbers with the operations taken modulo `2^64`.
-/

namespace Cicada

/-! ## Results of running a piece of code -/

/-- Result of running a piece of the program. -/
inductive Outcome (α : Type) where
  /-- the code returned normally -/
  | ret (a : α)
  /-- an `assert` fired (only in builds without `NDEBUG`) -/
  | assertFailed
  /-- undefined behaviour: a null pointer was dereferenced or a store went past
  the end of a fixed-size array -/
  | undefined
  /-- the code never returns (or the walk ran out of fuel) -/
  | diverges

/-- Sequencing of two pieces of code. -/
def Outcome.bind {α β : Type} (x : Outcome α) (f : α → Outcome β) : Outcome β :=
  match x with
  | .ret a => f a
  | .assertFailed => .assertFailed
  | .undefined => .undefined
  | .diverges => .diverges

instance : Monad Outcome where
  pure := Outcome.ret
  bind := Outcome.bind

/-! ## Data model -/

/-- Modelled from the spec: `RowVersionStatus` (declared in `row.h`, which is
not part of the sources): `status ∈ {Pending, Committed, Aborted, Deleted,
Invalid}`. -/
inductive RowVersionStatus where
  | kInvalid
  | kPending
  | kAborted
  | kCommitted
  | kDeleted
  deriving DecidableEq

/-- The enum `RowAccessState` of `row_access.h`. -/
inductive RowAccessState where
  | kInvalid
  | kNew
  | kPeek
  | kRead
  | kReadWrite
  | kWrite
  | kDelete
  | kReadDelete
  deriving DecidableEq

/-- Modelled from the spec: the compile-time configuration `StaticConfig`
(declared outside the sources); only the constants the transaction code reads.
`NDEBUG` says whether the build defines `NDEBUG` (asserts compiled out). -/
structure StaticConfig where
  kMaxAccessSize : Nat
  kNoWaitForPending : Bool
  kSkipPending : Bool
  kInsertNewestVersionOnly : Bool
  kReserveAfterAbort : Bool
  kInlinedRowVersion : Bool
  kInlineWithAltRow : Bool
  kPromoteNonInlinedVersion : Bool
  kCollectExtraCommitStats : Bool
  NDEBUG : Bool
  deriving DecidableEq

/-- Modelled from the spec: a row version `RowVersion` (declared in `row.h`,
not part of the sources) with the fields the transaction code reads and
writes: `wts`, `rts`, `status`, `older_rv`, `data_size`, `deleted`, `data`, and
`is_inlined` for the result of `is_inlined()`. -/
structure RowVersion where
  wts : Nat
  rts : Nat
  status : RowVersionStatus
  older_rv : Option Nat
  data_size : Nat
  is_inlined : Bool
  deleted : Bool
  data : List Nat
  deriving DecidableEq

/-- Modelled from the spec: a row head `RowHead` (declared in `row.h`, not part
of the sources): the sentinel with `older_rv` pointing to the newest version,
and the address of its inlined version slot `inlined_rv`. -/
structure RowHead where
  older_rv : Option Nat
  inlined_rv : Nat
  deriving DecidableEq

/-- A `RowCommon<StaticConfig>*`: a pointer to a row head or to a row version. -/
inductive RowCommonPtr where
  | head (h : Nat)
  | version (p : Nat)
  deriving DecidableEq

/-- Modelled from the spec: the state outside the transaction that the
operations reach through `ctx_` and `tbl` (`context.h`, `table.h`, `db.h` are
not part of the sources): the memory of row versions and row heads,
`Table::head`, `Table::inlining`, `Table::row_count`, `db_->min_rts()`, and a
record of the `deallocate_version` and `deallocate_row` calls made so far. -/
structure Context where
  versions : Nat → RowVersion
  heads : Nat → RowHead
  table_head : Nat → Nat → Nat → Nat
  table_inlining : Nat → Nat → Bool
  table_row_count : Nat → Nat
  min_rts : Nat
  deallocated_versions : List (Option Nat)
  deallocated_rows : List (Nat × Nat)

/-- The field `older_rv` read through a `RowCommon*`. -/
def Context.older_rv (ctx : Context) : RowCommonPtr → Option Nat
  | .head h => (ctx.heads h).older_rv
  | .version p => (ctx.versions p).older_rv

/-- The struct `RowAccessItem` of `row_access.h`. -/
structure RowAccessItem where
  i : Nat
  inserted : Nat
  state : RowAccessState
  tbl : Nat
  cf_id : Nat
  row_id : Nat
  head : Nat
  newer_rv : RowCommonPtr
  write_rv : Option Nat
  read_rv : Option Nat
  deriving DecidableEq

/-- The private fields of `RowAccessHandle`: `valid_`, `set_item_` (the index of
the element of `accesses_` it points to) and `local_item_`. -/
structure RowAccessHandle where
  valid_ : Bool
  set_item_ : Option Nat
  local_item_ : RowAccessItem
  deriving DecidableEq

/-- The key `AccessKey` of the duplicate-access map. -/
structure AccessKey where
  tbl : Nat
  row_id : Nat
  cf_id : Nat
  deriving DecidableEq

/-- The struct `ReserveItem` of `transaction.h`. -/
structure ReserveItem where
  tbl : Nat
  cf_id : Nat
  row_id : Nat
  read_hint : Bool
  write_hint : Bool
  deriving DecidableEq

/-- The private state of a `Transaction` that the operations use.
`access_history_` (a `std::unordered_map`) is an association list in which a
key occurs at most once; `abort_reason_target_` is `true` once the abort reason
was pointed at `aborted_by_get_row`. -/
structure Transaction where
  began_ : Bool
  peek_only_ : Bool
  ts_ : Nat
  access_size_ : Nat
  iset_size_ : Nat
  rset_size_ : Nat
  wset_size_ : Nat
  accesses_ : Nat → RowAccessItem
  iset_idx_ : Nat → Nat
  rset_idx_ : Nat → Nat
  wset_idx_ : Nat → Nat
  access_history_ : List (AccessKey × Nat)
  to_reserve_ : List ReserveItem
  abort_reason_target_ : Bool

/-- The value `static_cast<uint64_t>(-1)`. -/
def uint64_minus_one : Nat := 2 ^ 64 - 1

/-- The constant `kNewRowID = static_cast<uint64_t>(-1)`. -/
def kNewRowID : Nat := uint64_minus_one

/-- The constant `kDefaultWriteDataSize = static_cast<uint64_t>(-1)`. -/
def kDefaultWriteDataSize : Nat := uint64_minus_one

/-- An `assert(cond)`: nothing with `NDEBUG`, otherwise it stops the program
when `cond` is false. -/
def cassert (cfg : StaticConfig) (cond : Bool) : Outcome Unit :=
  if cfg.NDEBUG || cond then .ret () else .assertFailed

/-! ## Version-chain walk (`locate`) -/

/-- `Transaction::wait_for_pending`: spins while the status is `kPending`.  With
no other worker running the status never changes, so the loop ends only when
the version is not pending. -/
def wait_for_pending (cfg : StaticConfig) (rv : RowVersion) : Outcome RowVersionStatus := do
  if cfg.kNoWaitForPending then cassert cfg false
  if rv.status = .kPending then .diverges else .ret rv.status

/-- What the first `if` of the loop body of `locate` decides. -/
inductive LoopCtl where
  /-- `break` with this value of `rv` -/
  | brk (rv : Option Nat)
  /-- go on with the rest of the body, with this value of `newer_rv` -/
  | cont (newer_rv : RowCommonPtr)

/-- The block `if (rv->wts < ts_) { ... } else newer_rv = rv;` of `locate`, for
the version `rv` stored at address `p`. -/
def locate_visit (cfg : StaticConfig) (ts : Nat) (ForValidation : Bool)
    (newer_rv : RowCommonPtr) (p : Nat) (rv : RowVersion) : Outcome LoopCtl :=
  if rv.wts < ts then
    (if cfg.kNoWaitForPending then
      (if (!cfg.kSkipPending || ForValidation) && rv.status = .kPending then
        (.ret none : Outcome (Option RowVersionStatus))
      else .ret (some rv.status))
    else (wait_for_pending cfg rv).bind fun s => .ret (some s)).bind fun sampled =>
    match sampled with
    | none => .ret (.brk none)
    | some status =>
      if status = .kDeleted then .ret (.brk none)
      else if status = .kCommitted then .ret (.brk (some p))
      else (cassert cfg ((!cfg.kNoWaitForPending && status = .kAborted) ||
              cfg.kNoWaitForPending)).bind fun _ => .ret (.cont newer_rv)
  else .ret (.cont (.version p))

/-- The `while (true)` loop of `locate`; `fuel` bounds the number of
iterations.  The two `return` statements inside the loop leave `rv` null. -/
def locate_loop (cfg : StaticConfig) (ts : Nat) (ForRead ForWrite ForValidation : Bool)
    (versions : Nat → RowVersion) :
    Nat → RowCommonPtr → Option Nat → Outcome (RowCommonPtr × Option Nat)
  | 0, _, _ => .diverges
  | _ + 1, newer_rv, none => .ret (newer_rv, none)
  | fuel + 1, newer_rv, some p =>
    match locate_visit cfg ts ForValidation newer_rv p (versions p) with
    | .ret (.brk rv) => .ret (newer_rv, rv)
    | .ret (.cont newer_rv) =>
      if cfg.kInsertNewestVersionOnly && ForRead && ForWrite &&
          (versions p).status ≠ .kAborted && (versions p).wts ≠ ts then
        .ret (newer_rv, none)
      else if !cfg.NDEBUG && (versions p).older_rv = none then
        .ret (newer_rv, none)
      else locate_loop cfg ts ForRead ForWrite ForValidation versions fuel newer_rv
        (versions p).older_rv
    | .assertFailed => .assertFailed
    | .undefined => .undefined
    | .diverges => .diverges

/-- The post-check `if (ForWrite) { if (rv != nullptr && rv->rts.get() > ts_)
rv = nullptr; }` of `locate`. -/
def locate_post (ts : Nat) (ForWrite : Bool) (versions : Nat → RowVersion) :
    Option Nat → Option Nat
  | none => none
  | some p => if ForWrite && ts < (versions p).rts then none else some p

/-- `Transaction::locate<ForRead, ForWrite, ForValidation>(newer_rv, rv)`: the
new values of the two reference parameters.  The post-check does nothing to a
null `rv`, so it is applied to the result of the loop whether the loop was left
by `break` or by `return`. -/
def locate (cfg : StaticConfig) (ts : Nat) (ForRead ForWrite ForValidation : Bool)
    (versions : Nat → RowVersion) (fuel : Nat) (newer_rv : RowCommonPtr) (rv : Option Nat) :
    Outcome (RowCommonPtr × Option Nat) :=
  (locate_loop cfg ts ForRead ForWrite ForValidation versions fuel newer_rv rv).bind
    fun r => .ret (r.1, locate_post ts ForWrite versions r.2)

/-- `Transaction::auto_locate(newer_rv, rv, hint_flags)`. -/
def auto_locate (cfg : StaticConfig) (ts : Nat) (versions : Nat → RowVersion) (fuel : Nat)
    (newer_rv : RowCommonPtr) (rv : Option Nat) (hint_flags : Nat) :
    Outcome (RowCommonPtr × Option Nat) :=
  match hint_flags with
  | 1 => locate cfg ts false true false versions fuel newer_rv rv
  | 2 => locate cfg ts true false false versions fuel newer_rv rv
  | 3 => locate cfg ts true true false versions fuel newer_rv rv
  | _ => locate cfg ts false false false versions fuel newer_rv rv

/-! ## Row access handles (`row_access.h`) -/

/-- The conversion `operator bool()` of `RowAccessHandle`. -/
def RowAccessHandle.bound (rah : RowAccessHandle) : Bool := rah.valid_

/-- `RowAccessHandle::item()`: the element of `accesses_` the handle points to,
or its local item. -/
def RowAccessHandle.item (cfg : StaticConfig) (tx : Transaction) (rah : RowAccessHandle) :
    Outcome RowAccessItem := do
  cassert cfg rah.valid_
  match rah.set_item_ with
  | some idx => .ret (tx.accesses_ idx)
  | none => .ret rah.local_item_

/-- A store through the reference returned by `RowAccessHandle::item()`: it
lands in `accesses_` when `set_item_` is set and in `local_item_` otherwise. -/
def store_item (tx : Transaction) (rah : RowAccessHandle) (it : RowAccessItem) :
    Transaction × RowAccessHandle :=
  match rah.set_item_ with
  | some idx => ({ tx with accesses_ := Function.update tx.accesses_ idx it }, rah)
  | none => (tx, { rah with local_item_ := it })

/-- `RowAccessHandle::state()`. -/
def RowAccessHandle.state (cfg : StaticConfig) (tx : Transaction) (rah : RowAccessHandle) :
    Outcome RowAccessState :=
  if rah.valid_ then (rah.item cfg tx).bind fun it => .ret it.state else .ret .kInvalid

/-- `RowAccessHandle::cdata()`: the result points to the `data` of a version,
so it is given as the address of that version. -/
def RowAccessHandle.cdata (cfg : StaticConfig) (tx : Transaction) (rah : RowAccessHandle) :
    Outcome (Option Nat) :=
  (rah.item cfg tx).bind fun it =>
    if it.write_rv ≠ none then .ret it.write_rv
    else if it.read_rv ≠ none then .ret it.read_rv
    else .ret none

/-- `RowAccessHandle::reset()`. -/
def RowAccessHandle.reset (rah : RowAccessHandle) : RowAccessHandle :=
  { rah with valid_ := false, set_item_ := none }

/-- `RowAccessHandle::add_fresh_item(item)`. -/
def RowAccessHandle.add_fresh_item (cfg : StaticConfig) (rah : RowAccessHandle)
    (it : RowAccessItem) : Outcome RowAccessHandle := do
  cassert cfg (!rah.valid_ && rah.set_item_ = none)
  .ret { rah with valid_ := true, local_item_ := it }

/-- `RowAccessHandle::add_set_item(tx_accesses, index)`. -/
def RowAccessHandle.add_set_item (cfg : StaticConfig) (rah : RowAccessHandle)
    (tx_accesses : Nat → RowAccessItem) (index : Nat) : Outcome RowAccessHandle := do
  cassert cfg (!rah.valid_ && rah.set_item_ = none)
  cassert cfg (index ≤ 65535)
  cassert cfg ((tx_accesses index).i = index % 65536)
  .ret { rah with valid_ := true, set_item_ := some index }

/-- A store to `accesses_[index]`; the array has `kMaxAccessSize` elements. -/
def store_access (cfg : StaticConfig) (tx_accesses : Nat → RowAccessItem) (index : Nat)
    (it : RowAccessItem) : Outcome (Nat → RowAccessItem) :=
  if index < cfg.kMaxAccessSize then .ret (Function.update tx_accesses index it)
  else .undefined

/-- `RowAccessHandle::add_item_to_set(tx_accesses, index)`: the new array and
the new handle. -/
def RowAccessHandle.add_item_to_set (cfg : StaticConfig) (rah : RowAccessHandle)
    (tx_accesses : Nat → RowAccessItem) (index : Nat) :
    Outcome ((Nat → RowAccessItem) × RowAccessHandle) := do
  cassert cfg (rah.valid_ && rah.set_item_ = none)
  cassert cfg (index ≤ 65535)
  let local_item := { rah.local_item_ with i := index % 65536 }
  let accesses ← store_access cfg tx_accesses index local_item
  .ret (accesses, { rah with local_item_ := local_item, set_item_ := some index })

/-! ## The external collaborators reached through `ctx_` -/

/-- Modelled from the spec: the timestamp cell operations `rts.init(t)`,
`rts.update(t)` and `rts.get()` (`timestamp.h` is not part of the sources):
`rts.update(t)` raises the stored value to `max(current, t)`. -/
def rts_update (rv : RowVersion) (t : Nat) : RowVersion :=
  { rv with rts := max rv.rts t }

/-- A store to the version at address `p`. -/
def Context.set_version (ctx : Context) (p : Nat) (rv : RowVersion) : Context :=
  { ctx with versions := Function.update ctx.versions p rv }

/-- A store to the field `older_rv` through a `RowCommon*`. -/
def Context.set_older_rv (ctx : Context) (node : RowCommonPtr) (older : Option Nat) : Context :=
  match node with
  | .head h =>
    { ctx with heads := Function.update ctx.heads h { ctx.heads h with older_rv := older } }
  | .version p =>
    { ctx with versions :=
        Function.update ctx.versions p { ctx.versions p with older_rv := older } }

/-- Modelled from the spec: `Context::allocate_version_for_new_row` and
`Context::allocate_version_for_existing_row` (`context.h` is not part of the
sources): "Allocate a Version sized `size`".  The address the version pool
hands out is the argument `p`; the version there gets the requested
`data_size`. -/
def Context.allocate_version (ctx : Context) (p : Nat) (data_size : Nat) : Context :=
  ctx.set_version p { ctx.versions p with data_size := data_size }

/-- Modelled from the spec: `Context::deallocate_version` (`context.h` is not
part of the sources); the call is recorded. -/
def Context.deallocate_version (ctx : Context) (p : Option Nat) : Context :=
  { ctx with deallocated_versions := ctx.deallocated_versions ++ [p] }

/-- Modelled from the spec: `Context::deallocate_row` (`context.h` is not part
of the sources); the call is recorded. -/
def Context.deallocate_row (ctx : Context) (tbl row_id : Nat) : Context :=
  { ctx with deallocated_rows := ctx.deallocated_rows ++ [(tbl, row_id)] }

/-- A data copier `(cf_id, dest, src) → bool`: it moves payload bytes, so its
effect is the new content of `dest->data` next to the returned flag. -/
abbrev DataCopier := Nat → RowVersion → Option RowVersion → Outcome (Bool × List Nat)

/-- `Transaction::NoopDataCopier`. -/
def NoopDataCopier : DataCopier := fun _ dest _ => .ret (true, dest.data)

/-- `Transaction::TrivialDataCopier`, with `memcpy(dest->data, src->data,
src->data_size)` writing the first `src->data_size` bytes of `dest->data`. -/
def TrivialDataCopier (cfg : StaticConfig) : DataCopier := fun _ dest src =>
  match src with
  | some s =>
    if dest.data_size ≠ 0 then do
      cassert cfg (decide (dest.data_size ≥ s.data_size))
      .ret (true, s.data.take s.data_size ++ dest.data.drop s.data_size)
    else .ret (true, dest.data)
  | none => .ret (true, dest.data)

/-- Runs a copier on the version at `dest` and stores the bytes it wrote. -/
def run_copier (ctx : Context) (data_copier : DataCopier) (cf_id dest : Nat)
    (src : Option Nat) : Outcome (Bool × Context) :=
  (data_copier cf_id (ctx.versions dest) (src.map ctx.versions)).bind fun r =>
    .ret (r.1, ctx.set_version dest { ctx.versions dest with data := r.2 })

/-! ## Transaction operations (`transaction_impl/operation.h`) -/

/-- What an operation leaves behind: the returned flag, the shared state, the
transaction and the handle. -/
structure OpResult where
  result : Bool
  ctx : Context
  tx : Transaction
  rah : RowAccessHandle

/-- The statement `if (StaticConfig::kCollectExtraCommitStats) { abort_reason_target_count_ =
...aborted_by_get_row_count; ... }`. -/
def note_abort_reason (cfg : StaticConfig) (tx : Transaction) : Transaction :=
  if cfg.kCollectExtraCommitStats then { tx with abort_reason_target_ := true } else tx

/-- `Transaction::reserve`, called under `if (StaticConfig::kReserveAfterAbort)`. -/
def reserve (cfg : StaticConfig) (tx : Transaction) (tbl cf_id row_id : Nat)
    (read_hint write_hint : Bool) : Transaction :=
  if cfg.kReserveAfterAbort then
    { tx with to_reserve_ := tx.to_reserve_ ++ [⟨tbl, cf_id, row_id, read_hint, write_hint⟩] }
  else tx

/-- The block `if (check_dup_access) { find; assert(it == end); insert;
assert(ins_res.second); }` of `new_row` and `write_row`:
`unordered_map::insert` leaves the map alone when the key is present. -/
def record_access (cfg : StaticConfig) (tx : Transaction) (key : AccessKey)
    (check_dup_access : Bool) : Outcome Transaction :=
  if check_dup_access then do
    cassert cfg (tx.access_history_.lookup key = none)
    match tx.access_history_.lookup key with
    | none => .ret { tx with access_history_ := tx.access_history_ ++ [(key, tx.access_size_)] }
    | some _ => do
      cassert cfg false
      .ret tx
  else .ret tx

/-- The block `if (access_size_ >= kMaxAccessSize) { printf(...); assert(false); }`. -/
def check_access_size (cfg : StaticConfig) (tx : Transaction) : Outcome Unit :=
  if tx.access_size_ ≥ cfg.kMaxAccessSize then cassert cfg false else .ret ()

/-- `Transaction::new_row`.  `allocated_row` is what `ctx_->allocate_row(tbl)`
returns when it is called and `allocated_version` what
`ctx_->allocate_version_for_new_row` returns when it is called. -/
def new_row (cfg : StaticConfig) (ctx : Context) (tx : Transaction) (rah : RowAccessHandle)
    (tbl cf_id row_id : Nat) (check_dup_access : Bool) (data_size : Nat)
    (data_copier : DataCopier) (allocated_row : Nat) (allocated_version : Option Nat) :
    Outcome OpResult := do
  cassert cfg tx.began_
  cassert cfg (!tx.peek_only_)
  cassert cfg (data_size != kDefaultWriteDataSize)
  if rah.valid_ then .ret ⟨false, ctx, tx, rah⟩
  else
    -- the row id to use, or `none` where the code returns false
    let chosen : Option Nat × Transaction :=
      if cf_id = 0 then
        if row_id ≠ kNewRowID then (none, tx)
        else if allocated_row = uint64_minus_one then (none, note_abort_reason cfg tx)
        else (some allocated_row, tx)
      else if row_id = kNewRowID then (none, tx)
      else (some row_id, tx)
    match chosen with
    | (none, tx) => .ret ⟨false, ctx, tx, rah⟩
    | (some row_id, tx) =>
      let head := ctx.table_head tbl cf_id row_id
      match allocated_version with
      | none =>
        let ctx := if cf_id = 0 then ctx.deallocate_row tbl row_id else ctx
        .ret ⟨false, ctx, tx, rah⟩
      | some write_rv =>
        let ctx := ctx.allocate_version write_rv data_size
        let ctx := ctx.set_version write_rv
          { ctx.versions write_rv with
            older_rv := none, wts := tx.ts_, rts := tx.ts_, status := .kPending }
        let (copied, ctx) ← run_copier ctx data_copier cf_id write_rv none
        if !copied then
          let ctx := ctx.deallocate_version (some write_rv)
          let ctx := if cf_id = 0 then ctx.deallocate_row tbl row_id else ctx
          .ret ⟨false, ctx, tx, rah⟩
        else
          let tx ← record_access cfg tx ⟨tbl, row_id, cf_id⟩ check_dup_access
          check_access_size cfg tx
          let tx := { tx with
            iset_idx_ := Function.update tx.iset_idx_ tx.iset_size_ tx.access_size_,
            iset_size_ := (tx.iset_size_ + 1) % 65536 }
          let rah := { rah with valid_ := true, set_item_ := some tx.access_size_ }
          let accesses ← store_access cfg tx.accesses_ tx.access_size_
            { i := tx.access_size_, inserted := 0, state := .kNew, tbl := tbl, cf_id := cf_id,
              row_id := row_id, head := head, newer_rv := .head head,
              write_rv := some write_rv, read_rv := none }
          let tx := { tx with accesses_ := accesses,
                              access_size_ := (tx.access_size_ + 1) % 65536 }
          .ret ⟨true, ctx, tx, rah⟩

/-- The hint flags of `peek_row`:
`(static_cast<uint32_t>(read_hint) << 1) | static_cast<uint32_t>(write_hint)`. -/
def hint_flags (read_hint write_hint : Bool) : Nat := 2 * read_hint.toNat + write_hint.toNat

/-- The part of `peek_row(RAH&, ...)` after the dedup lookup, from
`auto head = tbl->head(cf_id, row_id);` to the end: two chain walks from the
row head and the fresh item. -/
def peek_row_locate (cfg : StaticConfig) (fuel : Nat) (ctx : Context) (tx : Transaction)
    (rah : RowAccessHandle) (tbl cf_id row_id : Nat) (read_hint write_hint : Bool) :
    Outcome OpResult := do
  let head := ctx.table_head tbl cf_id row_id
  let (_, rv) ← auto_locate cfg tx.ts_ ctx.versions fuel (.head head)
    (ctx.heads head).older_rv (hint_flags read_hint write_hint)
  match rv with
  | none =>
    let tx := reserve cfg tx tbl cf_id row_id read_hint write_hint
    .ret ⟨false, ctx, note_abort_reason cfg tx, rah⟩
  | some first_rv =>
    let ctx := ctx.set_version first_rv (rts_update (ctx.versions first_rv) tx.ts_)
    let (newer_rv, rv) ← auto_locate cfg tx.ts_ ctx.versions fuel (.head head)
      (ctx.heads head).older_rv (hint_flags read_hint write_hint)
    if rv ≠ some first_rv then
      let tx := reserve cfg tx tbl cf_id row_id read_hint write_hint
      .ret ⟨false, ctx, note_abort_reason cfg tx, rah⟩
    else
      let rah ← rah.add_fresh_item cfg
        { i := tx.access_size_, inserted := 0, state := .kPeek, tbl := tbl, cf_id := cf_id,
          row_id := row_id, head := head, newer_rv := newer_rv,
          write_rv := none, read_rv := rv }
      .ret ⟨true, ctx, tx, rah⟩

/-- `Transaction::peek_row(RAH&, ...)`.  `fuel` bounds each of the two chain
walks. -/
def peek_row (cfg : StaticConfig) (fuel : Nat) (ctx : Context) (tx : Transaction)
    (rah : RowAccessHandle) (tbl cf_id row_id : Nat)
    (check_dup_access read_hint write_hint : Bool) : Outcome OpResult := do
  cassert cfg tx.began_
  if rah.valid_ then .ret ⟨false, ctx, tx, rah⟩
  else
    cassert cfg (decide (row_id < ctx.table_row_count tbl))
    match (if check_dup_access then tx.access_history_.lookup ⟨tbl, row_id, cf_id⟩ else none) with
    | some idx =>
      cassert cfg (decide (idx < tx.access_size_))
      let rah ← rah.add_set_item cfg tx.accesses_ idx
      .ret ⟨true, ctx, tx, rah⟩
    | none => peek_row_locate cfg fuel ctx tx rah tbl cf_id row_id read_hint write_hint

/-- The block `if (rah.set_item_ == nullptr) { ... }` of `write_row`, which
adds the item of the handle to the access set if it is not there yet. -/
def write_row_add_to_set (cfg : StaticConfig) (tx : Transaction) (rah : RowAccessHandle)
    (item : RowAccessItem) (check_dup_access : Bool) :
    Outcome (Transaction × RowAccessHandle) :=
  if rah.set_item_ = none then do
    let tx ← record_access cfg tx ⟨item.tbl, item.row_id, item.cf_id⟩ check_dup_access
    check_access_size cfg tx
    let (accesses, rah) ← rah.add_item_to_set cfg tx.accesses_ tx.access_size_
    .ret ({ tx with accesses_ := accesses,
                    access_size_ := (tx.access_size_ + 1) % 65536 }, rah)
  else .ret (tx, rah)

/-- The part of `write_row` from the second `item = &rah.item();` to the end:
the state check, the allocation of the new version, the copy and the
transition. -/
def write_row_upgrade (cfg : StaticConfig) (ctx : Context) (tx : Transaction)
    (rah : RowAccessHandle) (data_size : Nat) (data_copier : DataCopier)
    (allocated_version : Option Nat) : Outcome OpResult := do
  let item ← rah.item cfg tx
  cassert cfg (item.state != .kPeek)
  if item.state = .kNew then .ret ⟨true, ctx, tx, rah⟩
  else if item.state = .kWrite ∨ item.state = .kReadWrite then .ret ⟨true, ctx, tx, rah⟩
  else if item.state ≠ .kPeek ∧ item.state ≠ .kRead then .ret ⟨false, ctx, tx, rah⟩
  else
    let data_size ←
      (if data_size = kDefaultWriteDataSize then
        match item.read_rv with
        | some r => .ret (ctx.versions r).data_size
        | none => .undefined
      else .ret data_size : Outcome Nat)
    let ctx := match allocated_version with
      | some p => ctx.allocate_version p data_size
      | none => ctx
    let item := { item with write_rv := allocated_version }
    let (tx, rah) := store_item tx rah item
    match allocated_version with
    | none => .ret ⟨false, ctx, note_abort_reason cfg tx, rah⟩
    | some write_rv =>
      let ctx := ctx.set_version write_rv
        { ctx.versions write_rv with wts := tx.ts_, rts := tx.ts_, status := .kPending }
      let (copied, ctx) ← run_copier ctx data_copier item.cf_id write_rv
        (if item.state = .kPeek then none else item.read_rv)
      if !copied then .ret ⟨false, ctx, tx, rah⟩
      else
        let item := { item with
          state := if item.state = .kPeek then .kWrite else .kReadWrite }
        let (tx, rah) := store_item tx rah item
        let tx := { tx with
          wset_idx_ := Function.update tx.wset_idx_ tx.wset_size_ item.i,
          wset_size_ := (tx.wset_size_ + 1) % 65536 }
        .ret ⟨true, ctx, tx, rah⟩

/-- `Transaction::write_row`.  `allocated_version` is what
`ctx_->allocate_version_for_existing_row` returns when it is called. -/
def write_row (cfg : StaticConfig) (ctx : Context) (tx : Transaction) (rah : RowAccessHandle)
    (data_size : Nat) (data_copier : DataCopier) (check_dup_access : Bool)
    (allocated_version : Option Nat) : Outcome OpResult := do
  cassert cfg tx.began_
  if !rah.valid_ then .ret ⟨false, ctx, tx, rah⟩
  else
    cassert cfg (!tx.peek_only_)
    let item ← rah.item cfg tx
    let (tx, rah) ← write_row_add_to_set cfg tx rah item check_dup_access
    write_row_upgrade cfg ctx tx rah data_size data_copier allocated_version

/-- The test of `read_row` that decides whether the version just read is
promoted to the inlined slot of the row head. -/
def promotes (cfg : StaticConfig) (ctx : Context) (item : RowAccessItem) : Outcome Bool :=
  if cfg.kInlinedRowVersion && cfg.kPromoteNonInlinedVersion &&
      ctx.table_inlining item.tbl item.cf_id then
    match item.read_rv with
    | none => .undefined
    | some r =>
      .ret (!(ctx.versions r).is_inlined && decide ((ctx.versions r).wts < ctx.min_rts) &&
        decide ((ctx.versions (ctx.heads item.head).inlined_rv).status = .kInvalid))
  else .ret false

/-- `Transaction::read_row`.  `allocated_version` is what
`ctx_->allocate_version_for_existing_row` returns if the promotion calls
`write_row`. -/
def read_row (cfg : StaticConfig) (ctx : Context) (tx : Transaction) (rah : RowAccessHandle)
    (data_copier : DataCopier) (allocated_version : Option Nat) : Outcome OpResult := do
  cassert cfg tx.began_
  if !rah.valid_ then .ret ⟨false, ctx, tx, rah⟩
  else
    cassert cfg (!tx.peek_only_)
    let item ← rah.item cfg tx
    if item.state = .kNew then .ret ⟨true, ctx, tx, rah⟩
    else if item.state = .kRead ∨ item.state = .kReadWrite then .ret ⟨true, ctx, tx, rah⟩
    else if item.state ≠ .kPeek then .ret ⟨false, ctx, tx, rah⟩
    else
      let item := { item with state := .kRead }
      let (tx, rah) := store_item tx rah item
      let promote ← promotes cfg ctx item
      if promote then
        write_row cfg ctx tx rah kDefaultWriteDataSize data_copier true allocated_version
      else .ret ⟨true, ctx, tx, rah⟩

/-- `Transaction::delete_row`. -/
def delete_row (cfg : StaticConfig) (ctx : Context) (tx : Transaction)
    (rah : RowAccessHandle) : Outcome OpResult := do
  cassert cfg tx.began_
  cassert cfg (!tx.peek_only_)
  if !rah.valid_ then .ret ⟨false, ctx, tx, rah⟩
  else
    let item ← rah.item cfg tx
    match item.state with
    | .kNew =>
      let ctx := ctx.deallocate_version item.write_rv
      let ctx := if item.cf_id = 0 then ctx.deallocate_row item.tbl item.row_id else ctx
      let (tx, rah) := store_item tx rah { item with state := .kInvalid, write_rv := none }
      .ret ⟨true, ctx, tx, rah.reset⟩
    | .kWrite =>
      let (tx, rah) := store_item tx rah { item with state := .kDelete }
      .ret ⟨true, ctx, tx, rah.reset⟩
    | .kReadWrite =>
      let (tx, rah) := store_item tx rah { item with state := .kReadDelete }
      .ret ⟨true, ctx, tx, rah.reset⟩
    | _ => .ret ⟨false, ctx, tx, rah⟩

/-- The `while (true)` loop of `insert_version_deferred` for the write-set item
`accesses_[i]`; `retries` bounds the number of iterations and `fuel` each
chain walk.  The flag is `false` where the code returns false. -/
def insert_version_item (cfg : StaticConfig) (fuel : Nat) (i : Nat) :
    Nat → Context → Transaction → Outcome (Bool × Context × Transaction)
  | 0, _, _ => .diverges
  | retries + 1, ctx, tx => do
    let item := tx.accesses_ i
    let rv := ctx.older_rv item.newer_rv
    let with_read : Bool := item.state = .kReadWrite ∨ item.state = .kReadDelete
    if !with_read then cassert cfg (item.state = .kWrite ∨ item.state = .kDelete)
    let (newer_rv, rv) ← locate cfg tx.ts_ with_read true false ctx.versions fuel item.newer_rv rv
    let item := { item with newer_rv := newer_rv }
    let tx := { tx with accesses_ := Function.update tx.accesses_ i item }
    if with_read ∧ rv ≠ item.read_rv then
      .ret (false, ctx, reserve cfg tx item.tbl item.cf_id item.row_id true true)
    else
      match rv with
      | none => .ret (false, ctx, reserve cfg tx item.tbl item.cf_id item.row_id false true)
      | some r =>
        match ctx.older_rv item.newer_rv with
        | none => .undefined
        | some older_rv =>
          if (ctx.versions older_rv).wts > tx.ts_ then
            insert_version_item cfg fuel i retries ctx tx
          else
            match item.write_rv with
            | none => .undefined
            | some write_rv =>
              let ctx := ctx.set_version write_rv
                { ctx.versions write_rv with older_rv := some older_rv }
              -- __sync_bool_compare_and_swap(&item->newer_rv->older_rv, older_rv, write_rv)
              if ctx.older_rv item.newer_rv = some older_rv then
                let ctx := ctx.set_older_rv item.newer_rv (some write_rv)
                let item := { item with inserted := 1 }
                let tx := { tx with accesses_ := Function.update tx.accesses_ i item }
                if (ctx.versions r).rts > tx.ts_ then
                  .ret (false, ctx,
                    reserve cfg tx item.tbl item.cf_id item.row_id with_read true)
                else .ret (true, ctx, tx)
              else insert_version_item cfg fuel i retries ctx tx

/-- The `for` loop of `insert_version_deferred` over the positions `js` of
`wset_idx_`. -/
def insert_version_loop (cfg : StaticConfig) (fuel : Nat) :
    List Nat → Context → Transaction → Outcome (Bool × Context × Transaction)
  | [], ctx, tx => .ret (true, ctx, tx)
  | j :: js, ctx, tx => do
    let i := tx.wset_idx_ j
    cassert cfg ((tx.accesses_ i).write_rv ≠ none)
    let (inserted, ctx, tx) ← insert_version_item cfg fuel i fuel ctx tx
    if inserted then insert_version_loop cfg fuel js ctx tx
    else .ret (false, ctx, tx)

/-- `Transaction::insert_version_deferred`. -/
def insert_version_deferred (cfg : StaticConfig) (fuel : Nat) (ctx : Context)
    (tx : Transaction) : Outcome (Bool × Context × Transaction) :=
  insert_version_loop cfg fuel (List.range tx.wset_size_) ctx tx

/-! ## Further members of the handles and of `Transaction` -/

/-- `RowAccessHandle::is_deleted()`: `!valid_`, or the write version is there
and flagged `deleted`, or the read version is there and flagged `deleted`. -/
def RowAccessHandle.is_deleted (cfg : StaticConfig) (ctx : Context) (tx : Transaction)
    (rah : RowAccessHandle) : Outcome Bool :=
  if !rah.valid_ then .ret true
  else (rah.item cfg tx).bind fun it =>
    let write_deleted : Bool :=
      match it.write_rv with
      | some w => (ctx.versions w).deleted
      | none => false
    let read_deleted : Bool :=
      match it.read_rv with
      | some r => (ctx.versions r).deleted
      | none => false
    .ret (write_deleted || read_deleted)

/-- The class `RowAccessHandlePeekOnly` of `row_access.h` (without the
back pointer `tx_`). -/
structure RowAccessHandlePeekOnly where
  tbl_ : Option Nat
  cf_id_ : Nat
  row_id_ : Nat
  read_rv_ : Option Nat
deriving DecidableEq

/-- The constructor `RowAccessHandlePeekOnly(tx)`. -/
def RowAccessHandlePeekOnly.fresh : RowAccessHandlePeekOnly :=
  { tbl_ := none, cf_id_ := 0, row_id_ := 0, read_rv_ := none }

/-- The conversion `operator bool()` of `RowAccessHandlePeekOnly`. -/
def RowAccessHandlePeekOnly.bound (rah : RowAccessHandlePeekOnly) : Bool :=
  rah.read_rv_ != none

/-- `RowAccessHandlePeekOnly::state()`. -/
def RowAccessHandlePeekOnly.state (rah : RowAccessHandlePeekOnly) : RowAccessState :=
  if rah.bound then .kPeek else .kInvalid

/-- `RowAccessHandlePeekOnly::can_read()`. -/
def RowAccessHandlePeekOnly.can_read (rah : RowAccessHandlePeekOnly) : Bool :=
  rah.read_rv_ != none

/-- `RowAccessHandlePeekOnly::can_write()`. -/
def RowAccessHandlePeekOnly.can_write (_rah : RowAccessHandlePeekOnly) : Bool := false

/-- `RowAccessHandlePeekOnly::is_deleted()`:
`read_rv_ != nullptr && read_rv_->deleted`. -/
def RowAccessHandlePeekOnly.is_deleted (ctx : Context) (rah : RowAccessHandlePeekOnly) : Bool :=
  match rah.read_rv_ with
  | some r => (ctx.versions r).deleted
  | none => false

/-- `RowAccessHandlePeekOnly::cdata()`, as the address of the version whose
`data` is returned. -/
def RowAccessHandlePeekOnly.cdata (rah : RowAccessHandlePeekOnly) : Option Nat := rah.read_rv_

/-- `RowAccessHandlePeekOnly::reset()`. -/
def RowAccessHandlePeekOnly.reset (rah : RowAccessHandlePeekOnly) : RowAccessHandlePeekOnly :=
  { rah with read_rv_ := none }

/-- `Transaction::peek_row(RAHPO&, ...)`: the returned flag and the handle.
Neither the transaction nor the shared memory is written. -/
def peek_row_peek_only (cfg : StaticConfig) (fuel : Nat) (ctx : Context) (tx : Transaction)
    (rah : RowAccessHandlePeekOnly) (tbl cf_id row_id : Nat) (check_dup_access : Bool) :
    Outcome (Bool × RowAccessHandlePeekOnly) := do
  cassert cfg tx.began_
  if rah.bound then .ret (false, rah)
  else
    cassert cfg (decide (row_id < ctx.table_row_count tbl))
    match (if check_dup_access then tx.access_history_.lookup ⟨tbl, row_id, cf_id⟩ else none) with
    | some idx =>
      cassert cfg (decide (idx < tx.access_size_))
      let item := tx.accesses_ idx
      .ret (true, { tbl_ := some item.tbl, cf_id_ := item.cf_id, row_id_ := item.row_id,
                    read_rv_ := if item.write_rv ≠ none then item.write_rv else item.read_rv })
    | none =>
      let head := ctx.table_head tbl cf_id row_id
      let (_, rv) ← locate cfg tx.ts_ false false false ctx.versions fuel (.head head)
        (ctx.heads head).older_rv
      match rv with
      | none => .ret (false, rah)
      | some r =>
        .ret (true, { tbl_ := some tbl, cf_id_ := cf_id, row_id_ := row_id, read_rv_ := some r })

/-- The body of the loop of `insert_row_deferred` for the item at index `i` of
`accesses_`. -/
def insert_row_item (cfg : StaticConfig) (i : Nat) (ctx : Context) (tx : Transaction) :
    Outcome (Context × Transaction) :=
  let item := tx.accesses_ i
  if item.state = .kInvalid then .ret (ctx, tx)
  else do
    cassert cfg (item.write_rv ≠ none)
    let ctx := ctx.set_older_rv (.head item.head) item.write_rv
    match item.write_rv with
    | none => .undefined
    | some write_rv =>
      let ctx := ctx.set_version write_rv { ctx.versions write_rv with status := .kCommitted }
      let tx := { tx with
        accesses_ := Function.update tx.accesses_ i { item with inserted := 1 } }
      .ret (ctx, tx)

/-- The loop of `insert_row_deferred` over the positions `js` of the insert
set. -/
def insert_row_loop (cfg : StaticConfig) :
    List Nat → Context → Transaction → Outcome (Context × Transaction)
  | [], ctx, tx => .ret (ctx, tx)
  | j :: js, ctx, tx => do
    let (ctx, tx) ← insert_row_item cfg (tx.iset_idx_ j) ctx tx
    insert_row_loop cfg js ctx tx

/-- `Transaction::insert_row_deferred`. -/
def insert_row_deferred (cfg : StaticConfig) (ctx : Context) (tx : Transaction) :
    Outcome (Context × Transaction) :=
  insert_row_loop cfg (List.range tx.iset_size_) ctx tx

/-- `RowAccessHandlePeekOnly::new_row(tbl, cf_id, row_id, check_dup_access,
data_size, data_copier)`: every argument is ignored. -/
def RowAccessHandlePeekOnly.new_row (_rah : RowAccessHandlePeekOnly) (_tbl _cf_id _row_id : Nat)
    (_check_dup_access : Bool) (_data_size : Nat) (_data_copier : DataCopier) : Bool := false

/-- `RowAccessHandlePeekOnly::peek_row(tbl, cf_id, row_id, check_dup_access,
read_hint, write_hint)`: the hints are ignored and the call goes to
`Transaction::peek_row(RAHPO&, ...)`. -/
def RowAccessHandlePeekOnly.peek_row (cfg : StaticConfig) (fuel : Nat) (ctx : Context)
    (tx : Transaction) (rah : RowAccessHandlePeekOnly) (tbl cf_id row_id : Nat)
    (check_dup_access _read_hint _write_hint : Bool) :
    Outcome (Bool × RowAccessHandlePeekOnly) :=
  peek_row_peek_only cfg fuel ctx tx rah tbl cf_id row_id check_dup_access

/-- `RowAccessHandlePeekOnly::read_row(data_copier)`. -/
def RowAccessHandlePeekOnly.read_row (_rah : RowAccessHandlePeekOnly)
    (_data_copier : DataCopier) : Bool := false

/-- `RowAccessHandlePeekOnly::write_row(data_size, data_copier,
check_dup_access)`. -/
def RowAccessHandlePeekOnly.write_row (_rah : RowAccessHandlePeekOnly) (_data_size : Nat)
    (_data_copier : DataCopier) (_check_dup_access : Bool) : Bool := false

/-- `RowAccessHandlePeekOnly::delete_row()`. -/
def RowAccessHandlePeekOnly.delete_row (_rah : RowAccessHandlePeekOnly) : Bool := false

/-! ## Page pool (`page_pool.h`) -/

/-- The constant `PagePool::kPageSize = 2 * 1048576`. -/
def kPageSize : Nat := 2 * 1048576

/-- Modelled from the spec: the "per-core (`lcore`) NUMA discovery"
(`mica/util/lcore.h` is not part of the sources), as far as the constructor of
`PagePool` uses it: `numa_count()`, `lcore_count()` and `numa_id(lcore)`. -/
structure LCore where
  numa_count : Nat
  lcore_count : Nat
  numa_id : Nat → Nat

/-- The members of `PagePool` (without `alloc_`).  `pages_` is the address of
the region and `next_` the address of the first free page, `none` for
`nullptr`. -/
structure PagePool where
  size_ : Nat
  numa_id_ : Nat
  total_count_ : Nat
  pages_ : Nat
  lock_ : Nat
  free_count_ : Nat
  next_ : Option Nat
  deriving DecidableEq

/-- The first machine word of each page, which holds a `char*` while the page
is free: the word at an address, `none` for `nullptr`. -/
abbrev PageMem := Nat → Option Nat

/-- `PagePool::total_count()`. -/
def PagePool.total_count (pool : PagePool) : Nat := pool.total_count_

/-- `PagePool::free_count()`. -/
def PagePool.free_count (pool : PagePool) : Nat := pool.free_count_

/-- The statement `uint64_t page_count = (size + kPageSize - 1) / kPageSize;`
in 64-bit unsigned arithmetic. -/
def PagePool.page_count (size : Nat) : Nat := ((size + kPageSize - 1) % 2 ^ 64) / kPageSize

/-- The loop of the constructor that looks for the lowest lcore of the NUMA
node, started at `lcore`: `none` where the code throws
`"mica::util::lcore internal error."`.  Each iteration moves to the next
lcore, which is below `lcore_count()`, so `fuel = lcore_count()` is enough. -/
def lowest_lcore_in_numa_node (lc : LCore) (numa_id : Nat) : Nat → Nat → Option Nat
  | fuel, lcore =>
    if lc.numa_id lcore = numa_id then some lcore
    else if lcore + 1 ≥ lc.lcore_count then none
    else match fuel with
      | 0 => none
      | fuel + 1 => lowest_lcore_in_numa_node lc numa_id fuel (lcore + 1)

/-- The loop `for (i = 0; i < page_count; i++) *(char**)(pages_ + i * kPageSize)
= pages_ + (i + 1) * kPageSize;` of the constructor. -/
def link_pages (pages page_count : Nat) (mem : PageMem) : PageMem :=
  (List.range page_count).foldl
    (fun m i => Function.update m (pages + i * kPageSize) (some (pages + (i + 1) * kPageSize)))
    mem

/-- A store to the first word of page number `index` of a region of
`page_count` pages at `pages`; a store outside the region is undefined. -/
def store_page_word (pages page_count : Nat) (mem : PageMem) (index : Nat)
    (value : Option Nat) : Outcome PageMem :=
  if index < page_count then .ret (Function.update mem (pages + index * kPageSize) value)
  else .undefined

/-- The constructor `PagePool(alloc, size, numa_id)`.  `allocated` is what
`alloc_->malloc_contiguous(size_, lowest_lcore_in_numa_node)` returns when it
is called (`none` for `nullptr`), and `mem` the memory before.  An exception is
an `Except.error` with the message. -/
def PagePool.create (lc : LCore) (size numa_id : Nat) (allocated : Option Nat) (mem : PageMem) :
    Outcome (Except String (PagePool × PageMem)) :=
  if numa_id ≥ lc.numa_count then .ret (.error "Invalid numa_id.")
  else
    let page_count := PagePool.page_count size
    let size_ := (page_count * kPageSize) % 2 ^ 64
    match lowest_lcore_in_numa_node lc numa_id lc.lcore_count 0 with
    | none => .ret (.error "mica::util::lcore internal error.")
    | some _ =>
      match allocated with
      | none => .ret (.error "Failed to construct PagePool.")
      | some pages =>
        let mem := link_pages pages page_count mem
        (store_page_word pages page_count mem ((page_count + 2 ^ 64 - 1) % 2 ^ 64) none).bind
          fun mem =>
          .ret (.ok ({ size_ := size_, numa_id_ := numa_id, total_count_ := page_count,
                       pages_ := pages, lock_ := 0, free_count_ := page_count,
                       next_ := some pages }, mem))

/-- `PagePool::allocate()`: the returned page (`none` for `nullptr`) and the
pool.  The spin lock is taken and released; when it is held (`lock_ == 1`) the
call spins, for ever when no other thread runs. -/
def PagePool.allocate (pool : PagePool) (mem : PageMem) : Outcome (Option Nat × PagePool) :=
  if pool.lock_ = 1 then .diverges
  else
    let p := pool.next_
    match pool.next_ with
    | some next =>
      .ret (p, { pool with next_ := mem next,
                           free_count_ := (pool.free_count_ + 2 ^ 64 - 1) % 2 ^ 64,
                           lock_ := 0 })
    | none => .ret (p, { pool with lock_ := 0 })

/-- `PagePool::free(p)`: the pool and the memory afterwards.  Freeing
`nullptr` stores through a null pointer. -/
def PagePool.free (pool : PagePool) (mem : PageMem) (p : Option Nat) :
    Outcome (PagePool × PageMem) :=
  if pool.lock_ = 1 then .diverges
  else
    match p with
    | none => .undefined
    | some page =>
      .ret ({ pool with next_ := some page,
                        free_count_ := (pool.free_count_ + 1) % 2 ^ 64,
                        lock_ := 0 },
            Function.update mem page pool.next_)

/-! ## Heavy-hitter accounting (`hh_accounter.h`) -/

/-- The struct `HHAccounter::CntElem`: a key and its counter. -/
structure CntElem (K : Type) where
  k_ : K
  cnt_ : Nat

/-- The members `n_` and `cnts_` of `HHAccounter` (the array as a function of
the index); `item_reverse_map` serves `dump_stats` only and is left out. -/
structure HHAccounter (K : Type) where
  n_ : Nat
  cnts_ : Nat → CntElem K

/-- The constructor `HHAccounter(num_cnts, map)`: `new CntElem[num_cnts]()`
gives every element the key `KeyType()` and the count 0. -/
def HHAccounter.create {K : Type} [Inhabited K] (num_cnts : Nat) : HHAccounter K :=
  { n_ := num_cnts, cnts_ := fun _ => { k_ := default, cnt_ := 0 } }

/-- How the first loop of `account` ends: with the `return` at the slot whose
key is `key`, or at the end of the array with this value of `empty_slot`. -/
inductive ScanResult where
  | found (i : Nat)
  | not_found (empty_slot : Nat)
  deriving DecidableEq

/-- The first loop of `HHAccounter::account`, from index `i` on, with
`remaining` slots to go. -/
def account_scan {K : Type} [DecidableEq K] (cnts : Nat → CntElem K) (key : K) (n : Nat) :
    Nat → Nat → Nat → ScanResult
  | 0, _, empty_slot => .not_found empty_slot
  | remaining + 1, i, empty_slot =>
    if (cnts i).k_ = key then .found i
    else account_scan cnts key n remaining (i + 1)
      (if empty_slot = n ∧ (cnts i).cnt_ = 0 then i else empty_slot)

/-- `HHAccounter::account(key)`; the counters are `uint64_t`. -/
def HHAccounter.account {K : Type} [DecidableEq K] (h : HHAccounter K) (key : K) :
    HHAccounter K :=
  match account_scan h.cnts_ key h.n_ h.n_ 0 h.n_ with
  | .found i =>
    { h with cnts_ := (Function.update h.cnts_ i
        { h.cnts_ i with cnt_ := ((h.cnts_ i).cnt_ + 1) % 2 ^ 64 }) }
  | .not_found empty_slot =>
    if empty_slot ≠ h.n_ then
      { h with cnts_ := (Function.update h.cnts_ empty_slot
          { k_ := key, cnt_ := ((h.cnts_ empty_slot).cnt_ + 1) % 2 ^ 64 }) }
    else
      { h with cnts_ := (fun i =>
          if i < h.n_ ∧ (h.cnts_ i).cnt_ ≠ 0 then
            { h.cnts_ i with cnt_ := ((h.cnts_ i).cnt_ + 2 ^ 64 - 1) % 2 ^ 64 }
          else h.cnts_ i) }

/-! ## Notions used to state the properties -/

/-- A finite version chain: `chain` lists the addresses met when following
`older_rv` from `rv` down to the null pointer. -/
def IsChain (versions : Nat → RowVersion) : Option Nat → List Nat → Prop
  | none, [] => True
  | some p, q :: rest => p = q ∧ IsChain versions (versions p).older_rv rest
  | none, _ :: _ => False
  | some _, [] => False

/-- The version the walk should select: the first one in chain order with
`wts < ts` whose status is not `kAborted`. -/
def first_visible (versions : Nat → RowVersion) (ts : Nat) (chain : List Nat) : Option Nat :=
  chain.find? fun p => decide ((versions p).wts < ts) && decide ((versions p).status ≠ .kAborted)

/-- The item a handle stands for: what `item()` returns on a bound handle. -/
def held_item (tx : Transaction) (rah : RowAccessHandle) : RowAccessItem :=
  match rah.set_item_ with
  | some idx => tx.accesses_ idx
  | none => rah.local_item_

/-- The version `new_row` hands to the copier: the allocated slot `rv` with the
requested size, no older version, `wts = rts = ts` and status Pending. -/
def pending_new_version (rv : RowVersion) (ts data_size : Nat) : RowVersion :=
  { rv with data_size := data_size, older_rv := none, wts := ts, rts := ts, status := .kPending }

/-- The key `(tbl, cf_id, row_id)` of an access item. -/
def RowAccessItem.key (it : RowAccessItem) : Nat × Nat × Nat := (it.tbl, it.cf_id, it.row_id)

/-- The flag an operation returned. -/
def Outcome.flag (x : Outcome OpResult) : Outcome Bool := x.bind fun r => .ret r.result

/-! ## Concrete configurations and states used by the examples -/

/-- A release build: `NDEBUG` defined, waiting for pending versions, no
inlining, room for four access items. -/
def cfgRelease : StaticConfig :=
  { kMaxAccessSize := 4, kNoWaitForPending := false, kSkipPending := false,
    kInsertNewestVersionOnly := false, kReserveAfterAbort := false,
    kInlinedRowVersion := false, kInlineWithAltRow := false,
    kPromoteNonInlinedVersion := false, kCollectExtraCommitStats := false, NDEBUG := true }

/-- The same configuration with asserts compiled in. -/
def cfgDebug : StaticConfig := { cfgRelease with NDEBUG := false }

/-- A build with asserts that inlines row versions and promotes non-inlined
versions when they are read. -/
def cfgPromote : StaticConfig :=
  { cfgDebug with kInlinedRowVersion := true, kPromoteNonInlinedVersion := true }

/-- A version slot that is not in use. -/
def freeVersion : RowVersion :=
  { wts := 0, rts := 0, status := .kInvalid, older_rv := none, data_size := 0,
    is_inlined := false, deleted := false, data := [] }

/-- A committed version written at `wts` and last read at `rts`. -/
def committedVersion (wts rts : Nat) (older : Option Nat) (data : List Nat) : RowVersion :=
  { wts := wts, rts := rts, status := .kCommitted, older_rv := older,
    data_size := data.length, is_inlined := false, deleted := false, data := data }

/-- Three versions: address 1 written at 30, address 2 aborted at 7, address 3
committed at 5; the chain is 1 → 2 → 3. -/
def versionsThree : Nat → RowVersion := fun p =>
  if p = 1 then committedVersion 30 30 (some 2) [1]
  else if p = 2 then { committedVersion 7 7 (some 3) [2] with status := .kAborted }
  else if p = 3 then committedVersion 5 5 none [3]
  else freeVersion

/-- An item slot of `accesses_` that was never written. -/
def blankItem : RowAccessItem :=
  { i := 0, inserted := 0, state := .kInvalid, tbl := 0, cf_id := 0, row_id := 0, head := 0,
    newer_rv := .head 0, write_rv := none, read_rv := none }

/-- A handle as its constructor leaves it: not bound. -/
def freshHandle : RowAccessHandle :=
  { valid_ := false, set_item_ := none, local_item_ := blankItem }

/-- A transaction that has just begun at timestamp `ts`. -/
def beginTx (ts : Nat) : Transaction :=
  { began_ := true, peek_only_ := false, ts_ := ts, access_size_ := 0, iset_size_ := 0,
    rset_size_ := 0, wset_size_ := 0, accesses_ := fun _ => blankItem, iset_idx_ := fun _ => 0,
    rset_idx_ := fun _ => 0, wset_idx_ := fun _ => 0, access_history_ := [], to_reserve_ := [],
    abort_reason_target_ := false }

/-- One table with eight rows and one column family; the head of row `r` is at
address `r`; row 0 holds one version, at address 1, committed at 10 and last
read at `rts`. -/
def ctxOneRow (rts : Nat) : Context :=
  { versions := fun p => if p = 1 then committedVersion 10 rts none [65] else freeVersion,
    heads := fun h => if h = 0 then { older_rv := some 1, inlined_rv := 9 }
                      else { older_rv := none, inlined_rv := 9 },
    table_head := fun _ _ row_id => row_id,
    table_inlining := fun _ _ => false,
    table_row_count := fun _ => 8,
    min_rts := 0,
    deallocated_versions := [],
    deallocated_rows := [] }

/-- Scenario S6 at commit time: the writer at 15 peeks, reads and writes row 0
while its version was last read at 10; a reader at 20 then peeks and reads the
row; then the writer runs `insert_version_deferred`.  The value is the flag
that call returns. -/
def scenarioS6 : Outcome Bool :=
  (peek_row cfgDebug 4 (ctxOneRow 10) (beginTx 15) freshHandle 0 0 0 true true true).bind fun w1 =>
  (read_row cfgDebug w1.ctx w1.tx w1.rah NoopDataCopier none).bind fun w2 =>
  (write_row cfgDebug w2.ctx w2.tx w2.rah 1 NoopDataCopier true (some 2)).bind fun w3 =>
  (peek_row cfgDebug 4 w3.ctx (beginTx 20) freshHandle 0 0 0 true true false).bind fun r1 =>
  (read_row cfgDebug r1.ctx r1.tx r1.rah NoopDataCopier none).bind fun r2 =>
  (insert_version_deferred cfgDebug 4 r2.ctx w3.tx).bind fun done => .ret done.1

/-- The handle `peek_row` leaves for row 0 of `ctxOneRow`: bound to a local item
in state Peek whose read version is the one at address 1. -/
def peekedHandle : RowAccessHandle :=
  { valid_ := true, set_item_ := none,
    local_item_ := { i := 0, inserted := 0, state := .kPeek, tbl := 0, cf_id := 0, row_id := 0,
                     head := 0, newer_rv := .head 0, write_rv := none, read_rv := some 1 } }

/-- A transaction at timestamp 20 whose access set holds one item, for row 0 of
`ctxOneRow`, in state `st`, with read version 1 and write version 2. -/
def txOneItem (st : RowAccessState) : Transaction :=
  { beginTx 20 with
    access_size_ := 1,
    accesses_ := fun i =>
      if i = 0 then
        { i := 0, inserted := 0, state := st, tbl := 0, cf_id := 0, row_id := 0, head := 0,
          newer_rv := .head 0, write_rv := some 2, read_rv := some 1 }
      else blankItem,
    access_history_ := [(⟨0, 0, 0⟩, 0)] }

/-- A handle bound to `accesses_[0]`. -/
def boundHandle : RowAccessHandle :=
  { valid_ := true, set_item_ := some 0, local_item_ := blankItem }

/-- The sequence of C7 in one transaction at timestamp 20, every call with
`check_dup_access = true`: `peek_row` on row 0 with handle `h1`, `peek_row` on
row 0 with handle `h2`, then (only if `with_reads`) `read_row(h1)` and
`read_row(h2)`, then `write_row(h1)` and (only if `second_write`) `write_row(h2)`.  The value
is what the last call leaves. -/
def scenarioTwoPeeks (cfg : StaticConfig) (with_reads second_write : Bool) :
    Outcome OpResult :=
  (peek_row cfg 4 (ctxOneRow 10) (beginTx 20) freshHandle 0 0 0 true true true).bind fun p1 =>
  (peek_row cfg 4 p1.ctx p1.tx freshHandle 0 0 0 true true true).bind fun p2 =>
  (if with_reads then read_row cfg p2.ctx p2.tx p1.rah NoopDataCopier none
   else .ret ⟨true, p2.ctx, p2.tx, p1.rah⟩).bind fun r1 =>
  (if with_reads then read_row cfg r1.ctx r1.tx p2.rah NoopDataCopier none
   else .ret ⟨true, r1.ctx, r1.tx, p2.rah⟩).bind fun r2 =>
  (write_row cfg r2.ctx r2.tx r1.rah 1 NoopDataCopier true (some 2)).bind fun w1 =>
  if second_write then write_row cfg w1.ctx w1.tx r2.rah 1 NoopDataCopier true (some 3)
  else .ret w1

/-- The row of `ctxOneRow` in a table that inlines versions, with `min_rts = 15`:
the version at address 1 (written at 10) is old enough to be promoted into the
inlined slot of the row head, address 9, which is not in use. -/
def ctxPromotable : Context :=
  { ctxOneRow 10 with
    versions := fun p =>
      if p = 9 then { freeVersion with is_inlined := true } else (ctxOneRow 10).versions p,
    table_inlining := fun _ _ => true,
    min_rts := 15 }

/-- The handle `peekedHandle` after a `read_row`: its local item is in state
Read. -/
def readHandle : RowAccessHandle :=
  { peekedHandle with local_item_ := { peekedHandle.local_item_ with state := .kRead } }

/-- A copier that refuses: it returns false and writes nothing. -/
def RefusingDataCopier : DataCopier := fun _ dest _ => .ret (false, dest.data)

/-- A handle bound to a local item in state Read for row 0 of `ctxOneRow`, as
`peek_row` and `read_row` leave it. -/
def readLocalHandle : RowAccessHandle :=
  { peekedHandle with local_item_ := { peekedHandle.local_item_ with state := .kRead } }

/-- Row 0 of `ctxOneRow` after a committed delete at 10: its only version, at
address 1, has status Deleted (and the `deleted` flag set). -/
def ctxDeleted : Context :=
  { ctxOneRow 10 with
    versions := fun p =>
      if p = 1 then { committedVersion 10 10 none [65] with status := .kDeleted, deleted := true }
      else freeVersion }

/-- A peek-only transaction that has just begun at timestamp `ts`. -/
def beginPeekOnlyTx (ts : Nat) : Transaction := { beginTx ts with peek_only_ := true }

/-- Modelled from the spec: phase 9 of `commit`, "Publish writes. Flip each
inserted write_rv's status to Committed" (`commit.h` is not part of the
sources), for the one version at address `p`. -/
def publish_write (ctx : Context) (p : Nat) : Context :=
  ctx.set_version p { ctx.versions p with status := .kCommitted }

/-- Scenario S4.  Row 0 holds one version, at address 1, committed at 10.  A
transaction at 20 peeks it.  A writer at 30 then peeks, reads and writes the
row (its version is at address 2), links the version with
`insert_version_deferred` and publishes it.  Last, the transaction at 20 runs
`locate<true, false, true>` from the row head.  The value is: the flag of the
first peek, its `read_rv`, the flag of the writer's insert, the chain from the
head (the head's `older_rv`, then the `older_rv` of the version at 2), the
`wts` of the writer's version, and the version the last walk returns. -/
def scenarioS4 (cfg : StaticConfig) :
    Outcome (Bool × Option Nat × Bool × Option Nat × Option Nat × Nat × Option Nat) :=
  (peek_row cfg 4 (ctxOneRow 10) (beginTx 20) freshHandle 0 0 0 true true false).bind fun r1 =>
  (peek_row cfg 4 r1.ctx (beginTx 30) freshHandle 0 0 0 true true true).bind fun w1 =>
  (read_row cfg w1.ctx w1.tx w1.rah NoopDataCopier none).bind fun w2 =>
  (write_row cfg w2.ctx w2.tx w2.rah 1 NoopDataCopier true (some 2)).bind fun w3 =>
  (insert_version_deferred cfg 4 w3.ctx w3.tx).bind fun w4 =>
  let ctx := publish_write w4.2.1 2
  (locate cfg r1.tx.ts_ true false true ctx.versions 4 (.head (held_item r1.tx r1.rah).head)
    (ctx.heads (held_item r1.tx r1.rah).head).older_rv).bind fun located =>
  .ret (r1.result, (held_item r1.tx r1.rah).read_rv, w4.1, (ctx.heads 0).older_rv,
    (ctx.versions 2).older_rv, (ctx.versions 2).wts, located.2)

/-- The value a computation returned, or `d` when it did not return. -/
def Outcome.getD {α : Type} (x : Outcome α) (d : α) : α :=
  match x with
  | .ret a => a
  | _ => d

/-- Scenario S5 next to a row that stays: a transaction at timestamp 20 creates
row 5 (version at address 2) and row 6 (version at address 3) with `new_row`,
then removes row 6 again with `delete_row`.  The value is what `delete_row`
leaves. -/
def scenarioS5 (cfg : StaticConfig) : Outcome OpResult :=
  (new_row cfg (ctxOneRow 10) (beginTx 20) freshHandle 0 0 kNewRowID true 8 NoopDataCopier 5
    (some 2)).bind fun a =>
  (new_row cfg a.ctx a.tx freshHandle 0 0 kNewRowID true 8 NoopDataCopier 6 (some 3)).bind fun b =>
  delete_row cfg b.ctx b.tx b.rah

/-- The state `scenarioS5` leaves in a build with asserts. -/
def stateS5 : OpResult :=
  (scenarioS5 cfgDebug).getD ⟨false, ctxOneRow 10, beginTx 20, freshHandle⟩

/-- A copier that fills the `data_size` bytes of `dest->data` with the byte `b`
and returns true. -/
def FillDataCopier (b : Nat) : DataCopier := fun _ dest _ =>
  .ret (true, List.replicate dest.data_size b)

/-- Whether the write-set item was read before it was written: its state is
ReadWrite or ReadDelete (the test of `insert_version_deferred`). -/
def RowAccessItem.with_read (it : RowAccessItem) : Bool :=
  it.state = .kReadWrite ∨ it.state = .kReadDelete

/-- The splice: the version at `w` gets the `older_rv` of `node`, and `node`
then points to `w`. -/
def splice_version (ctx : Context) (node : RowCommonPtr) (w : Nat) : Context :=
  (ctx.set_version w { ctx.versions w with older_rv := ctx.older_rv node }).set_older_rv node
    (some w)

/-- The item at index `i` after a splice: `newer_rv` is the node the walk
ended with and `inserted` is 1. -/
def mark_inserted (tx : Transaction) (i : Nat) (node : RowCommonPtr) : Transaction :=
  { tx with accesses_ := (Function.update tx.accesses_ i
      { tx.accesses_ i with newer_rv := node, inserted := 1 }) }

/-- The item at index `i` with `newer_rv` set to the node a walk ended with. -/
def set_newer (tx : Transaction) (i : Nat) (node : RowCommonPtr) : Transaction :=
  { tx with accesses_ := (Function.update tx.accesses_ i
      { tx.accesses_ i with newer_rv := node }) }

/-- The walk `insert_version_deferred` runs for the item at index `i`:
`locate<with_read, true, false>` from the item's `newer_rv`. -/
def insert_locate (cfg : StaticConfig) (fuel : Nat) (ctx : Context) (tx : Transaction)
    (i : Nat) : Outcome (RowCommonPtr × Option Nat) :=
  locate cfg tx.ts_ (tx.accesses_ i).with_read true false ctx.versions fuel
    (tx.accesses_ i).newer_rv (ctx.older_rv (tx.accesses_ i).newer_rv)

/-- For the item at index `i` the walk returns a version, which is `read_rv`
when the item was read before it was written; the walk ends with
`newer_rv = node`; the item's `write_rv` is `w`; and the item is in one of the
four write states (which the code asserts). -/
def item_splices (cfg : StaticConfig) (fuel : Nat) (ctx : Context) (tx : Transaction)
    (i : Nat) (node : RowCommonPtr) (w : Nat) : Prop :=
  (∃ r, insert_locate cfg fuel ctx tx i = .ret (node, some r) ∧
    ((tx.accesses_ i).with_read = true → (tx.accesses_ i).read_rv = some r)) ∧
  (tx.accesses_ i).write_rv = some w ∧
  (cfg.NDEBUG = false → (tx.accesses_ i).with_read = false →
    (tx.accesses_ i).state = .kWrite ∨ (tx.accesses_ i).state = .kDelete)

/-- For the item at index `i` the walk returns null, or a version different
from `read_rv` when the item was read before it was written; the walk ends
with `newer_rv = node`. -/
def item_fails (cfg : StaticConfig) (fuel : Nat) (ctx : Context) (tx : Transaction)
    (i : Nat) (node : RowCommonPtr) : Prop :=
  (∃ rv, insert_locate cfg fuel ctx tx i = .ret (node, rv) ∧
    (rv = none ∨ ((tx.accesses_ i).with_read = true ∧ rv ≠ (tx.accesses_ i).read_rv))) ∧
  (cfg.NDEBUG = false → (tx.accesses_ i).with_read = false →
    (tx.accesses_ i).state = .kWrite ∨ (tx.accesses_ i).state = .kDelete)

/-- What a transaction at timestamp 20 leaves after it has peeked, read and
written row 0 of `ctxOneRow 10` (every call with `check_dup_access`, the new
version at address 2) in a build with asserts. -/
def stateWritten : OpResult :=
  ((peek_row cfgDebug 4 (ctxOneRow 10) (beginTx 20) freshHandle 0 0 0 true true true).bind fun p =>
   (read_row cfgDebug p.ctx p.tx p.rah NoopDataCopier none).bind fun q =>
   write_row cfgDebug q.ctx q.tx q.rah 1 NoopDataCopier true (some 2)).getD
    ⟨false, ctxOneRow 10, beginTx 20, freshHandle⟩

/-- One transaction at timestamp 20 on `ctxOneRow 10`, every call with
`check_dup_access = false` (dedup disabled): `peek_row` on row 0 with handle
`h1` and with handle `h2`, `read_row` on both, `write_row(h1)` (new version at
address 2), `write_row(h2)` (new version at address 3), then
`insert_version_deferred`.  The value is: the flag of the insert; the chain
from the head of row 0 (the head's `older_rv`, then the `older_rv` of the
versions at 2, 3 and 1); the `wts` of the versions at 2, 3 and 1; the size of
the write set; and for the second item its `newer_rv`, `write_rv`, `read_rv`
and `inserted`. -/
def scenarioSameRowTwice (cfg : StaticConfig) :
    Outcome (Bool × (Option Nat × Option Nat × Option Nat × Option Nat) × (Nat × Nat × Nat) ×
      Nat × (RowCommonPtr × Option Nat × Option Nat × Nat)) :=
  (peek_row cfg 4 (ctxOneRow 10) (beginTx 20) freshHandle 0 0 0 false true true).bind fun p1 =>
  (peek_row cfg 4 p1.ctx p1.tx freshHandle 0 0 0 false true true).bind fun p2 =>
  (read_row cfg p2.ctx p2.tx p1.rah NoopDataCopier none).bind fun r1 =>
  (read_row cfg r1.ctx r1.tx p2.rah NoopDataCopier none).bind fun r2 =>
  (write_row cfg r2.ctx r2.tx r1.rah 1 NoopDataCopier false (some 2)).bind fun w1 =>
  (write_row cfg w1.ctx w1.tx r2.rah 1 NoopDataCopier false (some 3)).bind fun w2 =>
  (insert_version_deferred cfg 4 w2.ctx w2.tx).bind fun d =>
  .ret (d.1,
    ((d.2.1.heads 0).older_rv, (d.2.1.versions 2).older_rv, (d.2.1.versions 3).older_rv,
      (d.2.1.versions 1).older_rv),
    ((d.2.1.versions 2).wts, (d.2.1.versions 3).wts, (d.2.1.versions 1).wts),
    d.2.2.wset_size_,
    ((d.2.2.accesses_ 1).newer_rv, (d.2.2.accesses_ 1).write_rv, (d.2.2.accesses_ 1).read_rv,
      (d.2.2.accesses_ 1).inserted))

/-- Row 0 with the chain the claim C26 names: the head points to the version at
address 1, aborted at 7, which points to the version at address 2, committed
at 5. -/
def ctxAbortedAbove : Context :=
  { ctxOneRow 10 with
    versions := fun p =>
      if p = 1 then { committedVersion 7 7 (some 2) [1] with status := .kAborted }
      else if p = 2 then committedVersion 5 5 none [2]
      else freeVersion }

/-- The walk from `rv` along `older_rv` passes the versions of `above`, in
this order, and then arrives at the pointer `dest`. -/
def ChainPath (versions : Nat → RowVersion) : Option Nat → List Nat → Option Nat → Prop
  | rv, [], dest => rv = dest
  | some p, q :: rest, dest => p = q ∧ ChainPath versions (versions p).older_rv rest dest
  | none, _ :: _, _ => False

/-- A build with asserts and with `kInsertNewestVersionOnly` set. -/
def cfgNewestOnly : StaticConfig := { cfgDebug with kInsertNewestVersionOnly := true }

/-- A build with asserts that neither waits for Pending versions
(`kNoWaitForPending`) nor stops at them (`kSkipPending`). -/
def cfgSkipPending : StaticConfig :=
  { cfgDebug with kNoWaitForPending := true, kSkipPending := true }

/-- The build `cfgSkipPending` with `kInsertNewestVersionOnly` set as well. -/
def cfgSkipPendingNewestOnly : StaticConfig :=
  { cfgSkipPending with kInsertNewestVersionOnly := true }

/-- Row 0 with a Pending version on top: the head points to the version at
address 1, Pending with `wts = 7`, which points to the version at address 2,
committed at 5. -/
def ctxPendingAbove : Context :=
  { ctxOneRow 10 with
    versions := fun p =>
      if p = 1 then { committedVersion 7 7 (some 2) [1] with status := .kPending }
      else if p = 2 then committedVersion 5 5 none [2]
      else freeVersion }

/-- The size `write_row` asks for: `data_size`, or the size of the version read
when `data_size` is `kDefaultWriteDataSize`. -/
def write_size (ctx : Context) (data_size rd : Nat) : Nat :=
  if data_size = kDefaultWriteDataSize then (ctx.versions rd).data_size else data_size

/-! ## Notions used to state the properties of `PagePool` -/

/-- The addresses of the pages of the pool, lowest first. -/
def PagePool.page_list (pool : PagePool) : List Nat :=
  (List.range pool.total_count_).map fun i => pool.pages_ + i * kPageSize

/-- The free list as a list: `fl` lists the pages met when following the first
words from `next` down to the null pointer. -/
def FreeList (mem : PageMem) : Option Nat → List Nat → Prop
  | none, [] => True
  | some p, q :: rest => p = q ∧ FreeList mem (mem p) rest
  | none, _ :: _ => False
  | some _, [] => False

/-- The first `n` pages met when following the first words from `next`. -/
def follow_free (mem : PageMem) : Nat → Option Nat → List Nat
  | 0, _ => []
  | _ + 1, none => []
  | n + 1, some p => p :: follow_free mem n (mem p)

/-- The pages on the free list: the `free_count_` pages reached from `next_`. -/
def PagePool.free_pages (pool : PagePool) (mem : PageMem) : List Nat :=
  follow_free mem pool.free_count_ pool.next_

/-- A call in a history of a pool. -/
inductive PoolOp where
  | allocate
  | free (p : Nat)
  deriving DecidableEq

/-- A pool, the memory it threads its free list through, and the pages that
are currently allocated: those returned by `allocate` and not freed since. -/
structure PoolState where
  pool : PagePool
  mem : PageMem
  allocated : List Nat

/-- One call of a history. -/
def PoolState.step (s : PoolState) : PoolOp → Outcome PoolState
  | .allocate =>
    (s.pool.allocate s.mem).bind fun r =>
      .ret { pool := r.2, mem := s.mem,
             allocated := match r.1 with
               | some a => a :: s.allocated
               | none => s.allocated }
  | .free p =>
    (s.pool.free s.mem (some p)).bind fun r =>
      .ret { pool := r.1, mem := r.2, allocated := s.allocated.erase p }

/-- The calls of a history, one after the other. -/
def run_history : List PoolOp → PoolState → Outcome PoolState
  | [], s => .ret s
  | op :: rest, s => (s.step op).bind fun s => run_history rest s

/-- Every `free` of the history is given a page that is allocated at that
time. -/
def frees_allocated : List PoolOp → PoolState → Prop
  | [], _ => True
  | op :: rest, s =>
    (match op with
      | .allocate => True
      | .free p => p ∈ s.allocated) ∧
    match s.step op with
    | .ret s => frees_allocated rest s
    | _ => True

/-- What holds of a pool between calls: the lock is free, the free list is
`fl`, `free_count_` is its length, and the free pages together with the
allocated ones are the pages of the pool, each once. -/
def PoolInv (s : PoolState) (fl : List Nat) : Prop :=
  s.pool.lock_ = 0 ∧ FreeList s.mem s.pool.next_ fl ∧ s.pool.free_count_ = fl.length ∧
  (fl ++ s.allocated).Perm s.pool.page_list ∧ s.pool.total_count_ < 2 ^ 64

/-- `n` calls of `allocate()`: the returned pages, first call first, and the
pool. -/
def allocate_n : Nat → PagePool → PageMem → Outcome (List (Option Nat) × PagePool)
  | 0, pool, _ => .ret ([], pool)
  | n + 1, pool, mem =>
    (pool.allocate mem).bind fun r =>
      (allocate_n n r.2 mem).bind fun rest => .ret (r.1 :: rest.1, rest.2)

/-- The calls `free(p1); ...; free(pk)`. -/
def free_all : List Nat → PagePool → PageMem → Outcome (PagePool × PageMem)
  | [], pool, mem => .ret (pool, mem)
  | p :: rest, pool, mem => (pool.free mem (some p)).bind fun r => free_all rest r.1 r.2

/-- A machine with one NUMA node and one lcore. -/
def lcoreOne : LCore := { numa_count := 1, lcore_count := 1, numa_id := fun _ => 0 }

/-- A memory whose words are all null. -/
def memZero : PageMem := fun _ => none

/-- The pool that the constructor makes for a size of 3 MiB on the machine
`lcoreOne` in the region at address 4096: two pages. -/
def poolTwoPages : PagePool :=
  { size_ := 4194304, numa_id_ := 0, total_count_ := 2, pages_ := 4096, lock_ := 0,
    free_count_ := 2, next_ := some 4096 }

/-- The memory that constructor leaves, starting from `memZero`: the page at
4096 points to the page at 4096 + 2097152, which holds null. -/
def memTwoPages : PageMem :=
  Function.update (link_pages 4096 2 memZero) (4096 + 2097152) none

/-- The fresh pool of two pages, with no page allocated. -/
def stateTwoPages : PoolState := ⟨poolTwoPages, memTwoPages, []⟩

/-! ## Notions used to state the properties of `HHAccounter` -/

/-- The calls `account(k1); ...; account(kN)`, in this order. -/
def account_all {K : Type} [DecidableEq K] (keys : List K) (h : HHAccounter K) :
    HHAccounter K :=
  keys.foldl (fun acc k => acc.account k) h

/-- The count the table holds for the key `x`: the sum of the counters of the
slots whose key is `x`. -/
def HHAccounter.count_of {K : Type} [DecidableEq K] (h : HHAccounter K) (x : K) : Nat :=
  (Finset.range h.n_).sum fun i => if (h.cnts_ i).k_ = x then (h.cnts_ i).cnt_ else 0

/-- A table of two slots that holds the key 7 twice and the key 9 once. -/
def tableTwoSlots : HHAccounter Nat :=
  { n_ := 2, cnts_ := fun i => if i = 0 then ⟨7, 2⟩ else if i = 1 then ⟨9, 1⟩ else ⟨0, 0⟩ }

/-- What holds of the table after the keys `keys` were accounted, with `d` the
number of calls that decremented all counters: of the slots that hold one key
only the lowest can have a count; a count is at most the frequency of its key;
the counts and `n + 1` times `d` add up to the number of calls; and the
frequency of a key exceeds its count by at most `d`. -/
def SketchInv {K : Type} [DecidableEq K] (h : HHAccounter K) (keys : List K) (d : Nat) : Prop :=
  (∀ i j, i < j → j < h.n_ → (h.cnts_ i).k_ = (h.cnts_ j).k_ → (h.cnts_ j).cnt_ = 0) ∧
  (∀ i, i < h.n_ → (h.cnts_ i).cnt_ ≤ keys.count (h.cnts_ i).k_) ∧
  ((Finset.range h.n_).sum (fun i => (h.cnts_ i).cnt_) + (h.n_ + 1) * d = keys.length) ∧
  (∀ x, keys.count x ≤ d ∨
    ∃ i, i < h.n_ ∧ (h.cnts_ i).k_ = x ∧ keys.count x ≤ (h.cnts_ i).cnt_ + d)

/-! ## Notions used to state the well-formedness of the write set and the insert set -/

/-- The states of an item of the write set: Write, ReadWrite, Delete and
ReadDelete. -/
def is_write_state (s : RowAccessState) : Prop :=
  s = .kWrite ∨ s = .kReadWrite ∨ s = .kDelete ∨ s = .kReadDelete

/-- Well-formedness of the write set and the insert set: every entry of
`wset_idx_` is an index below `access_size_`; no index occurs twice in
`wset_idx_`; `accesses_[idx].i == idx` for every published item; each item of
the write set has a `write_rv` and is in state Write, ReadWrite, Delete or
ReadDelete; each item of the insert set is in state Invalid or has a
`write_rv`. -/
def WellFormedSets (tx : Transaction) : Prop :=
  (∀ k, k < tx.wset_size_ → tx.wset_idx_ k < tx.access_size_) ∧
  (∀ k l, k < tx.wset_size_ → l < tx.wset_size_ → tx.wset_idx_ k = tx.wset_idx_ l → k = l) ∧
  (∀ idx, idx < tx.access_size_ → (tx.accesses_ idx).i = idx) ∧
  (∀ k, k < tx.wset_size_ → (tx.accesses_ (tx.wset_idx_ k)).write_rv ≠ none ∧
    is_write_state (tx.accesses_ (tx.wset_idx_ k)).state) ∧
  (∀ k, k < tx.iset_size_ → (tx.accesses_ (tx.iset_idx_ k)).state = .kInvalid ∨
    (tx.accesses_ (tx.iset_idx_ k)).write_rv ≠ none)

/-- The invariant that carries the well-formedness through the operations: the
facts of `WellFormedSets` about the write set and `i`, and in addition every
entry of `iset_idx_` is an index below `access_size_`, no index occurs twice
in `iset_idx_`, each item of the insert set is in state Invalid or is in state
New with a `write_rv`, every index in the dedup map is below `access_size_`,
and `access_size_` is at most 65535. -/
def SetsInv (tx : Transaction) : Prop :=
  (∀ k, k < tx.wset_size_ → tx.wset_idx_ k < tx.access_size_) ∧
  (∀ k l, k < tx.wset_size_ → l < tx.wset_size_ → tx.wset_idx_ k = tx.wset_idx_ l → k = l) ∧
  (∀ idx, idx < tx.access_size_ → (tx.accesses_ idx).i = idx) ∧
  (∀ k, k < tx.wset_size_ → (tx.accesses_ (tx.wset_idx_ k)).write_rv ≠ none ∧
    is_write_state (tx.accesses_ (tx.wset_idx_ k)).state) ∧
  (∀ k, k < tx.iset_size_ → (tx.accesses_ (tx.iset_idx_ k)).state = .kInvalid ∨
    ((tx.accesses_ (tx.iset_idx_ k)).state = .kNew ∧
      (tx.accesses_ (tx.iset_idx_ k)).write_rv ≠ none)) ∧
  (∀ k, k < tx.iset_size_ → tx.iset_idx_ k < tx.access_size_) ∧
  (∀ k l, k < tx.iset_size_ → l < tx.iset_size_ → tx.iset_idx_ k = tx.iset_idx_ l → k = l) ∧
  (∀ p, p ∈ tx.access_history_ → p.2 < tx.access_size_) ∧
  tx.access_size_ ≤ 65535

/-- The handle, if it points into the access set, points to a published
item. -/
def HandleOk (tx : Transaction) (rah : RowAccessHandle) : Prop :=
  ∀ idx, rah.set_item_ = some idx → idx < tx.access_size_

/-- What an operation that turned `tx` into the result `r` keeps: the invariant
holds after it, the handle it leaves points to a published item if it points
into the access set, and so does every handle that did before. -/
def KeepsSets (tx : Transaction) (r : OpResult) : Prop :=
  SetsInv r.tx ∧ HandleOk r.tx r.rah ∧ ∀ rah2, HandleOk tx rah2 → HandleOk r.tx rah2

/-! ## Two items of the insert set on one row head -/

/-- What a transaction at timestamp 20 leaves after two calls of `new_row` for
row 3 of column family 1 with `check_dup_access = false`: the first call gets
the version at address 2 and fills its eight bytes with `0xAA`, the second
gets the version at address 3 and fills them with `0xBB` (a build with
asserts). -/
def stateTwoNew : OpResult :=
  ((new_row cfgDebug (ctxOneRow 10) (beginTx 20) freshHandle 0 1 3 false 8
      (FillDataCopier 170) 0 (some 2)).bind fun a =>
   new_row cfgDebug a.ctx a.tx freshHandle 0 1 3 false 8 (FillDataCopier 187) 0
      (some 3)).getD ⟨false, ctxOneRow 10, beginTx 20, freshHandle⟩

/-! ## Notions used to state the round trip of a new row -/

/-- Sequencing after a normal return runs the rest. -/
@[simp] theorem Outcome.bind_ret {α β : Type} (a : α) (f : α → Outcome β) :
    (Outcome.ret a).bind f = f a := rfl

/-- The first block of the loop body on a version whose status is Deleted,
Committed or Aborted, and on a version that is too new. -/
theorem locate_visit_cases (cfg : StaticConfig) (ts : Nat) (fv : Bool)
    (newer_rv : RowCommonPtr) (p : Nat) (rv : RowVersion) :
    (rv.wts < ts → rv.status = .kDeleted →
      locate_visit cfg ts fv newer_rv p rv = .ret (.brk none)) ∧
    (rv.wts < ts → rv.status = .kCommitted →
      locate_visit cfg ts fv newer_rv p rv = .ret (.brk (some p))) ∧
    (rv.wts < ts → rv.status = .kAborted →
      locate_visit cfg ts fv newer_rv p rv = .ret (.cont newer_rv)) ∧
    (¬ rv.wts < ts → locate_visit cfg ts fv newer_rv p rv = .ret (.cont (.version p))) := by
  refine ⟨?_, ?_, ?_, ?_⟩
  · intro hw hs
    cases hc : cfg.kNoWaitForPending <;>
      simp [locate_visit, hw, hs, hc, wait_for_pending, cassert, bind, Outcome.bind]
  · intro hw hs
    cases hc : cfg.kNoWaitForPending <;>
      simp [locate_visit, hw, hs, hc, wait_for_pending, cassert, bind, Outcome.bind]
  · intro hw hs
    cases hc : cfg.kNoWaitForPending <;>
      simp [locate_visit, hw, hs, hc, wait_for_pending, cassert, bind, Outcome.bind]
  · intro hw
    simp [locate_visit, hw]

/-- A `break` that keeps a version happens only on a committed version with
`wts < ts`, and keeps the version being visited. -/
theorem locate_visit_brk_some (cfg : StaticConfig) (ts : Nat) (fv : Bool)
    (newer_rv : RowCommonPtr) (p q : Nat) (rv : RowVersion)
    (h : locate_visit cfg ts fv newer_rv p rv = .ret (.brk (some q))) :
    q = p ∧ rv.status = .kCommitted ∧ rv.wts < ts := by
  unfold locate_visit at h
  by_cases hw : rv.wts < ts
  · simp only [hw, if_true] at h
    cases hc : cfg.kNoWaitForPending <;> cases hs : rv.status <;>
      cases hk : cfg.kSkipPending <;> cases fv <;> cases hn : cfg.NDEBUG <;>
      simp [hc, hs, hk, hn, wait_for_pending, cassert, bind, Outcome.bind] at h ⊢
    all_goals exact ⟨h.symm, hw⟩
  · simp [hw] at h

/-- Whatever the loop of `locate` keeps is a committed version with `wts < ts`. -/
theorem locate_loop_some (cfg : StaticConfig) (ts : Nat) (fr fw fv : Bool)
    (versions : Nat → RowVersion) :
    ∀ (fuel : Nat) (newer_rv : RowCommonPtr) (rv : Option Nat) (n : RowCommonPtr) (p : Nat),
      locate_loop cfg ts fr fw fv versions fuel newer_rv rv = .ret (n, some p) →
      (versions p).status = .kCommitted ∧ (versions p).wts < ts := by
  intro fuel
  induction fuel with
  | zero => intro newer_rv rv n p h; simp [locate_loop] at h
  | succ fuel ih =>
    intro newer_rv rv n p h
    cases rv with
    | none => simp [locate_loop] at h
    | some q =>
      simp only [locate_loop] at h
      split at h
      · rename_i r hv
        simp only [Outcome.ret.injEq, Prod.mk.injEq] at h
        obtain ⟨-, rfl⟩ := h
        obtain ⟨rfl, hs, hw⟩ := locate_visit_brk_some cfg ts fv newer_rv q p _ hv
        exact ⟨hs, hw⟩
      · split at h
        · simp at h
        · split at h
          · simp at h
          · exact ih _ _ _ _ h
      · simp at h
      · simp at h
      · simp at h

/-- The statement of the walk on a chain without pending versions, for the loop. -/
theorem locate_loop_chain (cfg : StaticConfig) (ts : Nat) (fr fw fv : Bool)
    (versions : Nat → RowVersion)
    (hguard : cfg.kInsertNewestVersionOnly = false ∨ fr = false ∨ fw = false) :
    ∀ (chain : List Nat) (fuel : Nat) (newer_rv : RowCommonPtr) (rv : Option Nat),
      IsChain versions rv chain →
      chain.length < fuel →
      (first_visible versions ts chain = none →
        ∃ n, locate_loop cfg ts fr fw fv versions fuel newer_rv rv = .ret (n, none)) ∧
      (∀ v, first_visible versions ts chain = some v →
        ((versions v).status = .kCommitted →
          ∃ n, locate_loop cfg ts fr fw fv versions fuel newer_rv rv = .ret (n, some v)) ∧
        ((versions v).status = .kDeleted →
          ∃ n, locate_loop cfg ts fr fw fv versions fuel newer_rv rv = .ret (n, none))) := by
  have hg : (cfg.kInsertNewestVersionOnly && fr && fw) = false := by
    rcases hguard with h | h | h <;> simp [h]
  intro chain
  induction chain with
  | nil =>
    intro fuel newer_rv rv hc hf
    cases rv with
    | some p => simp [IsChain] at hc
    | none =>
      obtain ⟨f, rfl⟩ : ∃ f, fuel = f + 1 := ⟨fuel - 1, by simp at hf; omega⟩
      simp [locate_loop, first_visible]
  | cons q rest ih =>
    intro fuel newer_rv rv hc hf
    cases rv with
    | none => simp [IsChain] at hc
    | some p =>
      obtain ⟨rfl, hrest⟩ : p = q ∧ IsChain versions (versions p).older_rv rest := by
        simpa [IsChain] using hc
      obtain ⟨f, rfl⟩ : ∃ f, fuel = f + 1 := ⟨fuel - 1, by simp at hf; omega⟩
      have hf' : rest.length < f := by simpa using hf
      obtain ⟨hD, hC, hA, hN⟩ := locate_visit_cases cfg ts fv newer_rv p (versions p)
      -- what the rest of the body does once the first block says `cont`
      have htail : ∀ n0 : RowCommonPtr,
          (first_visible versions ts rest = none →
            ∃ n, (if (cfg.kInsertNewestVersionOnly && fr && fw &&
                      decide ((versions p).status ≠ .kAborted) &&
                      decide ((versions p).wts ≠ ts)) = true then
                    (.ret (n0, none) : Outcome (RowCommonPtr × Option Nat))
                  else if (!cfg.NDEBUG && decide ((versions p).older_rv = none)) = true then
                    .ret (n0, none)
                  else locate_loop cfg ts fr fw fv versions f n0 (versions p).older_rv)
                = .ret (n, none)) ∧
          (∀ v, first_visible versions ts rest = some v →
            ((versions v).status = .kCommitted →
              ∃ n, (if (cfg.kInsertNewestVersionOnly && fr && fw &&
                      decide ((versions p).status ≠ .kAborted) &&
                      decide ((versions p).wts ≠ ts)) = true then
                    (.ret (n0, none) : Outcome (RowCommonPtr × Option Nat))
                  else if (!cfg.NDEBUG && decide ((versions p).older_rv = none)) = true then
                    .ret (n0, none)
                  else locate_loop cfg ts fr fw fv versions f n0 (versions p).older_rv)
                = .ret (n, some v)) ∧
            ((versions v).status = .kDeleted →
              ∃ n, (if (cfg.kInsertNewestVersionOnly && fr && fw &&
                      decide ((versions p).status ≠ .kAborted) &&
                      decide ((versions p).wts ≠ ts)) = true then
                    (.ret (n0, none) : Outcome (RowCommonPtr × Option Nat))
                  else if (!cfg.NDEBUG && decide ((versions p).older_rv = none)) = true then
                    .ret (n0, none)
                  else locate_loop cfg ts fr fw fv versions f n0 (versions p).older_rv)
                = .ret (n, none))) := by
        intro n0
        simp only [hg, Bool.false_and, Bool.false_eq_true, if_false]
        by_cases hd : (!cfg.NDEBUG && decide ((versions p).older_rv = none)) = true
        · simp only [hd, if_true]
          have hnone : (versions p).older_rv = none := by
            simp only [Bool.and_eq_true, decide_eq_true_eq] at hd
            exact hd.2
          rw [hnone] at hrest
          have : rest = [] := by
            cases rest with
            | nil => rfl
            | cons a l => simp [IsChain] at hrest
          subst this
          simp [first_visible]
        · simp only [hd, if_false]
          exact ih f n0 _ hrest hf'
      by_cases hw : (versions p).wts < ts
      · by_cases ha : (versions p).status = .kAborted
        · have hfv : first_visible versions ts (p :: rest) = first_visible versions ts rest := by
            simp [first_visible, List.find?, ha]
          rw [hfv]
          simp only [locate_loop, hA hw ha]
          exact htail newer_rv
        · have hfv : first_visible versions ts (p :: rest) = some p := by
            simp [first_visible, List.find?, ha, hw]
          rw [hfv]
          refine ⟨by simp, ?_⟩
          intro v hv
          obtain rfl : p = v := by simpa using hv
          refine ⟨fun hs => ⟨newer_rv, ?_⟩, fun hs => ⟨newer_rv, ?_⟩⟩
          · simp [locate_loop, hC hw hs]
          · simp [locate_loop, hD hw hs]
      · have hfv : first_visible versions ts (p :: rest) = first_visible versions ts rest := by
          simp [first_visible, List.find?, hw]
        rw [hfv]
        simp only [locate_loop, hN hw]
        exact htail (.version p)

/-- C1.  On a finite version chain, with the newest-only guard inactive: `locate`
returns null for a null `rv`; with `v` the first version of the chain with
`wts < ts` whose status is not Aborted, it returns `v` when `v` is Committed
(for `ForWrite` only when `v.rts <= ts`, null otherwise), null when `v` is
Deleted and null when there is no such `v`; and whatever non-null version it
returns is Committed with `wts < ts`.  Versions that are Pending are covered
too, since the cases only speak of a Committed or Deleted `v`. -/
theorem locate_first_visible (cfg : StaticConfig) (ts : Nat) (ForRead ForWrite ForValidation : Bool)
    (versions : Nat → RowVersion) (fuel : Nat) (newer_rv : RowCommonPtr) (rv : Option Nat)
    (chain : List Nat)
    (hchain : IsChain versions rv chain)
    (hguard : cfg.kInsertNewestVersionOnly = false ∨ ForRead = false ∨ ForWrite = false)
    (hfuel : chain.length < fuel) :
    (rv = none →
      locate cfg ts ForRead ForWrite ForValidation versions fuel newer_rv rv
        = .ret (newer_rv, none)) ∧
    (first_visible versions ts chain = none →
      ∃ n, locate cfg ts ForRead ForWrite ForValidation versions fuel newer_rv rv
        = .ret (n, none)) ∧
    (∀ v, first_visible versions ts chain = some v →
      ((versions v).status = .kCommitted →
        ∃ n, locate cfg ts ForRead ForWrite ForValidation versions fuel newer_rv rv
          = .ret (n, if ForWrite = true ∧ ts < (versions v).rts then none else some v)) ∧
      ((versions v).status = .kDeleted →
        ∃ n, locate cfg ts ForRead ForWrite ForValidation versions fuel newer_rv rv
          = .ret (n, none))) ∧
    (∀ n p, locate cfg ts ForRead ForWrite ForValidation versions fuel newer_rv rv
        = .ret (n, some p) →
      (versions p).status = .kCommitted ∧ (versions p).wts < ts) := by
  obtain ⟨hnone, hsome⟩ :=
    locate_loop_chain cfg ts ForRead ForWrite ForValidation versions hguard chain fuel
      newer_rv rv hchain hfuel
  refine ⟨?_, ?_, ?_, ?_⟩
  · rintro rfl
    obtain ⟨f, rfl⟩ : ∃ f, fuel = f + 1 := ⟨fuel - 1, by omega⟩
    simp [locate, locate_loop, locate_post]
  · intro h
    obtain ⟨n, hn⟩ := hnone h
    exact ⟨n, by simp [locate, hn, locate_post]⟩
  · intro v hv
    refine ⟨fun hs => ?_, fun hs => ?_⟩
    · obtain ⟨n, hn⟩ := (hsome v hv).1 hs
      refine ⟨n, ?_⟩
      by_cases hw : ForWrite = true ∧ ts < (versions v).rts
      · rw [if_pos hw]
        simp only [locate, hn, Outcome.bind_ret, locate_post]
        simp [hw.1, hw.2]
      · rw [if_neg hw]
        simp only [locate, hn, Outcome.bind_ret, locate_post]
        have : (ForWrite && decide (ts < (versions v).rts)) = false := by
          cases ForWrite <;> simp_all
        simp [this]
    · obtain ⟨n, hn⟩ := (hsome v hv).2 hs
      exact ⟨n, by simp [locate, hn, locate_post]⟩
  · intro n p h
    unfold locate at h
    cases hl : locate_loop cfg ts ForRead ForWrite ForValidation versions fuel newer_rv rv with
    | ret r =>
      obtain ⟨n0, r0⟩ := r
      rw [hl] at h
      simp only [Outcome.bind_ret, Outcome.ret.injEq, Prod.mk.injEq] at h
      cases r0 with
      | none => simp [locate_post] at h
      | some q =>
        have hq : q = p := by
          simp only [locate_post] at h
          split at h
          · simp at h
          · simpa using h.2
        subst hq
        exact locate_loop_some cfg ts ForRead ForWrite ForValidation versions fuel newer_rv rv
          n0 q hl
    | assertFailed => rw [hl] at h; simp [Outcome.bind] at h
    | undefined => rw [hl] at h; simp [Outcome.bind] at h
    | diverges => rw [hl] at h; simp [Outcome.bind] at h

/-- The chain 1 → 2 → 3 read at `ts = 10` without hints: the version at 1 is too
new, the one at 2 is aborted, so the committed version at 3 is returned. -/
theorem locate_first_visible_witness :
    IsChain versionsThree (some 1) [1, 2, 3] ∧
    first_visible versionsThree 10 [1, 2, 3] = some 3 ∧
    (∃ n, locate cfgDebug 10 false false false versionsThree 4 (.head 0) (some 1)
      = .ret (n, some 3)) := by
  have h := locate_first_visible cfgDebug 10 false false false versionsThree 4 (.head 0)
    (some 1) [1, 2, 3] (by simp [IsChain, versionsThree, committedVersion])
    (Or.inl rfl) (by decide)
  have hfv : first_visible versionsThree 10 [1, 2, 3] = some 3 := by decide
  refine ⟨by simp [IsChain, versionsThree, committedVersion], hfv, ?_⟩
  simpa using (h.2.2.1 3 hfv).1 (by decide)

/-! ## C2: the write post-check of `locate` -/

/-- The post-check of `locate` keeps a version only if `ForWrite` is off or its
`rts` is at most `ts`. -/
theorem locate_post_some (ts : Nat) (fw : Bool) (versions : Nat → RowVersion)
    (r : Option Nat) (p : Nat) (h : locate_post ts fw versions r = some p) :
    r = some p ∧ (fw = true → (versions p).rts ≤ ts) := by
  cases r with
  | none => simp [locate_post] at h
  | some q =>
    simp only [locate_post] at h
    split at h
    · simp at h
    · rename_i hc
      obtain rfl : q = p := by simpa using h
      refine ⟨rfl, fun hfw => ?_⟩
      simp only [hfw, Bool.true_and, decide_eq_true_eq] at hc
      omega

/-- What `locate` returns is what its loop returns, passed through the
post-check. -/
theorem locate_ret (cfg : StaticConfig) (ts : Nat) (fr fw fv : Bool)
    (versions : Nat → RowVersion) (fuel : Nat) (newer_rv : RowCommonPtr) (rv : Option Nat)
    (n : RowCommonPtr) (r : Option Nat)
    (h : locate cfg ts fr fw fv versions fuel newer_rv rv = .ret (n, r)) :
    ∃ r0, locate_loop cfg ts fr fw fv versions fuel newer_rv rv = .ret (n, r0) ∧
      r = locate_post ts fw versions r0 := by
  unfold locate at h
  cases hl : locate_loop cfg ts fr fw fv versions fuel newer_rv rv with
  | ret x =>
    rw [hl] at h
    simp only [Outcome.bind_ret, Outcome.ret.injEq, Prod.mk.injEq] at h
    exact ⟨x.2, by rw [← h.1], h.2.symm⟩
  | assertFailed => rw [hl] at h; simp [Outcome.bind] at h
  | undefined => rw [hl] at h; simp [Outcome.bind] at h
  | diverges => rw [hl] at h; simp [Outcome.bind] at h

/-- C2.  `locate` with `ForWrite = true` never returns a version whose `rts` is
greater than `ts`: if the version its walk selects has `rts > ts` the result is
null.  Scenario S6: a row committed at 10 whose `rts` a reader raised to 20; a
writer at 15 gets null from `locate`, `peek_row` with `write_hint` returns
false, and `insert_version_deferred` of a writer that peeked before the reader
came returns false. -/
theorem locate_for_write_respects_rts :
    (∀ (cfg : StaticConfig) (ts : Nat) (ForRead ForValidation : Bool)
        (versions : Nat → RowVersion) (fuel : Nat) (newer_rv : RowCommonPtr) (rv : Option Nat)
        (n : RowCommonPtr) (p : Nat),
      locate cfg ts ForRead true ForValidation versions fuel newer_rv rv = .ret (n, some p) →
      (versions p).rts ≤ ts) ∧
    (∀ (cfg : StaticConfig) (ts : Nat) (ForRead ForValidation : Bool)
        (versions : Nat → RowVersion) (fuel : Nat) (newer_rv : RowCommonPtr) (rv : Option Nat)
        (n : RowCommonPtr) (p : Nat),
      locate_loop cfg ts ForRead true ForValidation versions fuel newer_rv rv
        = .ret (n, some p) →
      ts < (versions p).rts →
      locate cfg ts ForRead true ForValidation versions fuel newer_rv rv = .ret (n, none)) ∧
    locate cfgDebug 15 false true false (ctxOneRow 20).versions 4 (.head 0) (some 1)
      = .ret (.head 0, none) ∧
    (peek_row cfgDebug 4 (ctxOneRow 20) (beginTx 15) freshHandle 0 0 0 true false true).flag
      = .ret false ∧
    scenarioS6 = .ret false := by
  refine ⟨?_, ?_, rfl, rfl, rfl⟩
  · intro cfg ts fr fv versions fuel newer_rv rv n p h
    obtain ⟨r0, -, hr⟩ := locate_ret cfg ts fr true fv versions fuel newer_rv rv n _ h
    exact (locate_post_some ts true versions r0 p hr.symm).2 rfl
  · intro cfg ts fr fv versions fuel newer_rv rv n p h hlt
    simp [locate, h, locate_post, hlt]

/-- The first part of C2 is not vacuous: the writer at 15 is given the version
committed at 10 while its `rts` is still 10. -/
theorem locate_for_write_respects_rts_witness :
    locate cfgDebug 15 false true false (ctxOneRow 10).versions 4 (.head 0) (some 1)
      = .ret (.head 0, some 1) ∧
    ((ctxOneRow 10).versions 1).rts ≤ 15 :=
  ⟨rfl, locate_for_write_respects_rts.1 cfgDebug 15 false false (ctxOneRow 10).versions 4
    (.head 0) (some 1) (.head 0) 1 rfl⟩

/-! ## Asserts -/

/-- An assert passes when its condition holds in every build that checks it. -/
theorem cassert_ok (cfg : StaticConfig) (c : Bool) (h : cfg.NDEBUG = false → c = true) :
    cassert cfg c = .ret () := by
  cases hn : cfg.NDEBUG
  · simp [cassert, hn, h hn]
  · simp [cassert, hn]

/-! ## Handles -/

/-- On a bound handle `item()` returns the held item. -/
theorem item_of_bound (cfg : StaticConfig) (tx : Transaction) (rah : RowAccessHandle)
    (h : rah.valid_ = true) : rah.item cfg tx = .ret (held_item tx rah) := by
  unfold RowAccessHandle.item held_item
  cases hs : rah.set_item_ <;> simp [cassert, h, bind, Outcome.bind]

/-- A store through `item()` is what the handle holds afterwards. -/
theorem held_item_store (tx : Transaction) (rah : RowAccessHandle) (it : RowAccessItem) :
    held_item (store_item tx rah it).1 (store_item tx rah it).2 = it := by
  unfold held_item store_item
  cases hs : rah.set_item_ <;> simp [hs]

/-- A store through `item()` leaves the handle's binding and the transaction's
flags alone. -/
theorem store_item_valid (tx : Transaction) (rah : RowAccessHandle) (it : RowAccessItem) :
    (store_item tx rah it).2.valid_ = rah.valid_ ∧
    (store_item tx rah it).2.set_item_ = rah.set_item_ ∧
    (store_item tx rah it).1.began_ = tx.began_ ∧
    (store_item tx rah it).1.peek_only_ = tx.peek_only_ := by
  unfold store_item
  cases hs : rah.set_item_ <;> simp [hs]

/-! ## C4: `read_row` -/

/-- `read_row` on a bound handle whose item is in state Peek, when the
promotion is not triggered: it returns true and the item is in state Read. -/
theorem read_row_peek (cfg : StaticConfig) (ctx : Context) (tx : Transaction)
    (rah : RowAccessHandle) (data_copier : DataCopier) (allocated_version : Option Nat)
    (hpre : cfg.NDEBUG = false → tx.began_ = true ∧ tx.peek_only_ = false)
    (hv : rah.valid_ = true) (hpk : (held_item tx rah).state = .kPeek)
    (hpromo : promotes cfg ctx (held_item tx rah) = .ret false) :
    read_row cfg ctx tx rah data_copier allocated_version =
      .ret ⟨true, ctx, (store_item tx rah { held_item tx rah with state := .kRead }).1,
        (store_item tx rah { held_item tx rah with state := .kRead }).2⟩ := by
  have hb : cassert cfg tx.began_ = .ret () := cassert_ok _ _ fun hn => (hpre hn).1
  have hp : cassert cfg (!tx.peek_only_) = .ret () :=
    cassert_ok _ _ fun hn => by simp [(hpre hn).2]
  have hitem := item_of_bound cfg tx rah hv
  have hpr : promotes cfg ctx { held_item tx rah with state := .kRead } = .ret false := hpromo
  simp [read_row, hb, hp, hv, hitem, hpk, hpr, bind, Outcome.bind]

/-- `read_row` on an unbound handle, or on a handle whose item is not in state
Peek: it changes nothing and returns true exactly in the states New, Read and
ReadWrite of a bound handle. -/
theorem read_row_not_peek (cfg : StaticConfig) (ctx : Context) (tx : Transaction)
    (rah : RowAccessHandle) (data_copier : DataCopier) (allocated_version : Option Nat)
    (hpre : cfg.NDEBUG = false → tx.began_ = true ∧ tx.peek_only_ = false)
    (hnp : ¬ (rah.valid_ = true ∧ (held_item tx rah).state = .kPeek)) :
    ∃ b, read_row cfg ctx tx rah data_copier allocated_version = .ret ⟨b, ctx, tx, rah⟩ ∧
      (b = true ↔ rah.valid_ = true ∧
        ((held_item tx rah).state = .kNew ∨ (held_item tx rah).state = .kRead ∨
         (held_item tx rah).state = .kReadWrite)) := by
  have hb : cassert cfg tx.began_ = .ret () := cassert_ok _ _ fun hn => (hpre hn).1
  have hp : cassert cfg (!tx.peek_only_) = .ret () :=
    cassert_ok _ _ fun hn => by simp [(hpre hn).2]
  cases hv : rah.valid_ with
  | false => exact ⟨false, by simp [read_row, hb, hv, bind, Outcome.bind], by simp⟩
  | true =>
    have hitem := item_of_bound cfg tx rah hv
    have hpk : (held_item tx rah).state ≠ .kPeek := fun h => hnp ⟨hv, h⟩
    by_cases hok : (held_item tx rah).state = .kNew ∨ (held_item tx rah).state = .kRead ∨
        (held_item tx rah).state = .kReadWrite
    · refine ⟨true, ?_, by simp [hok]⟩
      rcases hok with h | h | h <;>
        simp [read_row, hb, hp, hv, hitem, h, bind, Outcome.bind]
    · refine ⟨false, ?_, by simp [hok]⟩
      simp only [not_or] at hok
      simp [read_row, hb, hp, hv, hitem, hok.1, hok.2.1, hok.2.2, hpk, bind, Outcome.bind]

/-- C4.  `read_row` returns true exactly when the handle is bound and its item
is in state New, Peek, Read or ReadWrite; when the promotion to the inlined
slot is not triggered it changes Peek to Read and nothing else, and leaves
every other state (and the handle and the shared memory) unchanged.  A second
call then returns true and leaves the transaction and the handle, hence the
state, `read_rv`, `write_rv` and the result of `cdata()`, as the first call
left them.  In a build with asserts the transaction must have begun and not be
peek-only, as `read_row` asserts. -/
theorem read_row_state_chart (cfg : StaticConfig) (ctx : Context) (tx : Transaction)
    (rah : RowAccessHandle) (data_copier : DataCopier) (allocated_version : Option Nat)
    (hpre : cfg.NDEBUG = false → tx.began_ = true ∧ tx.peek_only_ = false)
    (hpromo : rah.valid_ = true → (held_item tx rah).state = .kPeek →
      promotes cfg ctx (held_item tx rah) = .ret false) :
    ∃ r, read_row cfg ctx tx rah data_copier allocated_version = .ret r ∧
      (r.result = true ↔ rah.valid_ = true ∧
        ((held_item tx rah).state = .kNew ∨ (held_item tx rah).state = .kPeek ∨
         (held_item tx rah).state = .kRead ∨ (held_item tx rah).state = .kReadWrite)) ∧
      r.ctx = ctx ∧
      (rah.valid_ = true → (held_item tx rah).state = .kPeek →
        (r.tx, r.rah) = store_item tx rah { held_item tx rah with state := .kRead } ∧
        held_item r.tx r.rah = { held_item tx rah with state := .kRead }) ∧
      (¬ (rah.valid_ = true ∧ (held_item tx rah).state = .kPeek) → r.tx = tx ∧ r.rah = rah) ∧
      (r.result = true →
        ∃ r2, read_row cfg r.ctx r.tx r.rah data_copier allocated_version = .ret r2 ∧
          r2.result = true ∧ r2.ctx = r.ctx ∧ r2.tx = r.tx ∧ r2.rah = r.rah ∧
          r2.rah.cdata cfg r2.tx = r.rah.cdata cfg r.tx) := by
  by_cases hpk : rah.valid_ = true ∧ (held_item tx rah).state = .kPeek
  · -- Peek → Read
    obtain ⟨hv, hst⟩ := hpk
    obtain ⟨hv', -, hb', hp'⟩ :=
      store_item_valid tx rah { held_item tx rah with state := .kRead }
    have hheld := held_item_store tx rah { held_item tx rah with state := .kRead }
    refine ⟨_, read_row_peek cfg ctx tx rah data_copier allocated_version hpre hv hst
      (hpromo hv hst), ?_, rfl, fun _ _ => ⟨rfl, hheld⟩, fun h => absurd ⟨hv, hst⟩ h, fun _ => ?_⟩
    · simp [hv, hst]
    · -- the second call finds the item in state Read
      obtain ⟨b, hrun, hb⟩ := read_row_not_peek cfg ctx
        (store_item tx rah { held_item tx rah with state := .kRead }).1
        (store_item tx rah { held_item tx rah with state := .kRead }).2
        data_copier allocated_version (fun hn => by rw [hb', hp']; exact hpre hn)
        (fun h => by rw [hheld] at h; simp at h)
      have hbt : b = true := hb.2 ⟨by rw [hv', hv], Or.inr (Or.inl (by rw [hheld]))⟩
      subst hbt
      exact ⟨_, hrun, rfl, rfl, rfl, rfl, rfl⟩
  · -- every other state: nothing changes
    obtain ⟨b, hrun, hb⟩ :=
      read_row_not_peek cfg ctx tx rah data_copier allocated_version hpre hpk
    refine ⟨_, hrun, ?_, rfl, fun hv hst => absurd ⟨hv, hst⟩ hpk, fun _ => ⟨rfl, rfl⟩,
      fun hbt => ⟨_, hrun, hbt, rfl, rfl, rfl, rfl⟩⟩
    show b = true ↔ _
    rw [hb]
    constructor
    · rintro ⟨hv, h | h | h⟩
      · exact ⟨hv, Or.inl h⟩
      · exact ⟨hv, Or.inr (Or.inr (Or.inl h))⟩
      · exact ⟨hv, Or.inr (Or.inr (Or.inr h))⟩
    · rintro ⟨hv, h | h | h | h⟩
      · exact ⟨hv, Or.inl h⟩
      · exact absurd ⟨hv, h⟩ hpk
      · exact ⟨hv, Or.inr (Or.inl h)⟩
      · exact ⟨hv, Or.inr (Or.inr h)⟩

/-- A handle that peeked row 0 of `ctxOneRow` is read at timestamp 20: the call
returns true and the item is in state Read. -/
theorem read_row_state_chart_witness :
    ∃ r, read_row cfgDebug (ctxOneRow 20) (beginTx 20) peekedHandle NoopDataCopier none = .ret r ∧
      r.result = true ∧ (held_item r.tx r.rah).state = .kRead := by
  obtain ⟨r, hr, hres, -, hst, -, -⟩ :=
    read_row_state_chart cfgDebug (ctxOneRow 20) (beginTx 20) peekedHandle NoopDataCopier none
      (fun _ => ⟨rfl, rfl⟩) (fun _ _ => rfl)
  refine ⟨r, hr, hres.2 ⟨rfl, Or.inr (Or.inl rfl)⟩, ?_⟩
  rw [(hst rfl rfl).2]

/-! ## C5: `delete_row` -/

/-- C5.  `delete_row` returns true if and only if the handle is bound and its
item is in state New, Write or ReadWrite.  On success New becomes Invalid with
`write_rv` cleared, the pending version is handed to `deallocate_version` and
the row to `deallocate_row` exactly when `cf_id == 0`; Write becomes Delete;
ReadWrite becomes ReadDelete; nothing else of the item changes and the handle
is reset.  On failure (an unbound handle or any other state, Delete and
ReadDelete among them) the shared state, the transaction and the handle are
unchanged.  In a build with asserts the transaction must have begun and not be
peek-only, as `delete_row` asserts. -/
theorem delete_row_state_chart (cfg : StaticConfig) (ctx : Context) (tx : Transaction)
    (rah : RowAccessHandle)
    (hpre : cfg.NDEBUG = false → tx.began_ = true ∧ tx.peek_only_ = false) :
    ∃ r, delete_row cfg ctx tx rah = .ret r ∧
      (r.result = true ↔ rah.valid_ = true ∧
        ((held_item tx rah).state = .kNew ∨ (held_item tx rah).state = .kWrite ∨
         (held_item tx rah).state = .kReadWrite)) ∧
      (rah.valid_ = true → (held_item tx rah).state = .kNew →
        r.tx = (store_item tx rah
          { held_item tx rah with state := .kInvalid, write_rv := none }).1 ∧
        r.rah = (store_item tx rah
          { held_item tx rah with state := .kInvalid, write_rv := none }).2.reset ∧
        r.ctx.deallocated_versions = ctx.deallocated_versions ++ [(held_item tx rah).write_rv] ∧
        r.ctx.deallocated_rows = (if (held_item tx rah).cf_id = 0 then
          ctx.deallocated_rows ++ [((held_item tx rah).tbl, (held_item tx rah).row_id)]
          else ctx.deallocated_rows) ∧
        r.ctx.versions = ctx.versions ∧ r.ctx.heads = ctx.heads) ∧
      (rah.valid_ = true → (held_item tx rah).state = .kWrite →
        r.tx = (store_item tx rah { held_item tx rah with state := .kDelete }).1 ∧
        r.rah = (store_item tx rah { held_item tx rah with state := .kDelete }).2.reset ∧
        r.ctx = ctx) ∧
      (rah.valid_ = true → (held_item tx rah).state = .kReadWrite →
        r.tx = (store_item tx rah { held_item tx rah with state := .kReadDelete }).1 ∧
        r.rah = (store_item tx rah { held_item tx rah with state := .kReadDelete }).2.reset ∧
        r.ctx = ctx) ∧
      (r.result = true → r.rah.valid_ = false ∧ r.rah.set_item_ = none) ∧
      (r.result = false → r.ctx = ctx ∧ r.tx = tx ∧ r.rah = rah) := by
  have hb : cassert cfg tx.began_ = .ret () := by
    cases hn : cfg.NDEBUG
    · simp [cassert, hn, (hpre hn).1]
    · simp [cassert, hn]
  have hp : cassert cfg (!tx.peek_only_) = .ret () := by
    cases hn : cfg.NDEBUG
    · simp [cassert, hn, (hpre hn).2]
    · simp [cassert, hn]
  cases hv : rah.valid_ with
  | false =>
    refine ⟨⟨false, ctx, tx, rah⟩, ?_, ?_⟩
    · simp [delete_row, hb, hp, hv, bind, Outcome.bind]
    · simp
  | true =>
    have hitem := item_of_bound cfg tx rah hv
    by_cases hN : (held_item tx rah).state = .kNew
    · refine ⟨⟨true,
        (if (held_item tx rah).cf_id = 0 then
          (ctx.deallocate_version (held_item tx rah).write_rv).deallocate_row
            (held_item tx rah).tbl (held_item tx rah).row_id
         else ctx.deallocate_version (held_item tx rah).write_rv),
        (store_item tx rah { held_item tx rah with state := .kInvalid, write_rv := none }).1,
        (store_item tx rah
          { held_item tx rah with state := .kInvalid, write_rv := none }).2.reset⟩, ?_, ?_⟩
      · simp only [delete_row, hb, hp, hv, hitem, hN, bind, Outcome.bind]
        rfl
      · by_cases hc : (held_item tx rah).cf_id = 0 <;>
          simp [hN, hc, RowAccessHandle.reset, Context.deallocate_version,
            Context.deallocate_row]
    · by_cases hW : (held_item tx rah).state = .kWrite
      · refine ⟨⟨true, ctx,
          (store_item tx rah { held_item tx rah with state := .kDelete }).1,
          (store_item tx rah { held_item tx rah with state := .kDelete }).2.reset⟩, ?_, ?_⟩
        · simp only [delete_row, hb, hp, hv, hitem, hW, bind, Outcome.bind]
          rfl
        · simp [hW, RowAccessHandle.reset]
      · by_cases hRW : (held_item tx rah).state = .kReadWrite
        · refine ⟨⟨true, ctx,
            (store_item tx rah { held_item tx rah with state := .kReadDelete }).1,
            (store_item tx rah { held_item tx rah with state := .kReadDelete }).2.reset⟩,
            ?_, ?_⟩
          · simp only [delete_row, hb, hp, hv, hitem, hRW, bind, Outcome.bind]
            rfl
          · simp [hRW, RowAccessHandle.reset]
        · refine ⟨⟨false, ctx, tx, rah⟩, ?_, ?_⟩
          · simp only [delete_row, hb, hp, hv, hitem, bind, Outcome.bind]
            cases hs : (held_item tx rah).state <;> simp_all
          · simp [hN, hW, hRW]

/-- A handle bound to a published New item of column family 0 is deleted: the
call returns true, the item becomes Invalid and the row is handed back. -/
theorem delete_row_state_chart_witness :
    ∃ r, delete_row cfgDebug (ctxOneRow 10) (txOneItem .kNew) boundHandle = .ret r ∧
      r.result = true ∧ (r.tx.accesses_ 0).state = .kInvalid ∧
      r.ctx.deallocated_rows = [(0, 0)] ∧ r.rah.valid_ = false := by
  obtain ⟨r, hr, hres, hnew, -, -, hreset, -⟩ :=
    delete_row_state_chart cfgDebug (ctxOneRow 10) (txOneItem .kNew) boundHandle
      (fun _ => ⟨rfl, rfl⟩)
  obtain ⟨htx, -, -, hrows, -⟩ := hnew rfl rfl
  have htrue : r.result = true := hres.2 ⟨rfl, Or.inl rfl⟩
  refine ⟨r, hr, htrue, ?_, ?_, (hreset htrue).1⟩
  · rw [htx]; rfl
  · rw [hrows]; rfl

/-! ## C6: `new_row` -/

/-- The dedup bookkeeping of `new_row` and `write_row` returns, touches only the
dedup map, and enters the key with the current `access_size_` when it is new. -/
theorem record_access_ok (cfg : StaticConfig) (tx : Transaction) (key : AccessKey)
    (check : Bool)
    (h : cfg.NDEBUG = false → check = true → tx.access_history_.lookup key = none) :
    ∃ tx', record_access cfg tx key check = .ret tx' ∧
      tx'.access_size_ = tx.access_size_ ∧ tx'.iset_size_ = tx.iset_size_ ∧
      tx'.wset_size_ = tx.wset_size_ ∧ tx'.accesses_ = tx.accesses_ ∧
      tx'.iset_idx_ = tx.iset_idx_ ∧ tx'.wset_idx_ = tx.wset_idx_ ∧ tx'.ts_ = tx.ts_ ∧
      tx'.began_ = tx.began_ ∧ tx'.peek_only_ = tx.peek_only_ ∧
      (check = false → tx' = tx) ∧
      (check = true → tx.access_history_.lookup key = none →
        tx' = { tx with access_history_ := tx.access_history_ ++ [(key, tx.access_size_)] }) ∧
      (check = true → ∀ idx, tx.access_history_.lookup key = some idx → tx' = tx) := by
  cases check with
  | false => exact ⟨tx, by simp [record_access]⟩
  | true =>
    cases hl : tx.access_history_.lookup key with
    | none =>
      refine ⟨{ tx with access_history_ := tx.access_history_ ++ [(key, tx.access_size_)] },
        ?_, by simp⟩
      simp [record_access, hl, cassert, bind, Outcome.bind]
    | some idx =>
      have hn : cfg.NDEBUG = true := by
        cases hn : cfg.NDEBUG
        · have := h hn rfl; rw [hl] at this; simp at this
        · rfl
      refine ⟨tx, ?_, by simp⟩
      simp [record_access, hl, cassert, hn, bind, Outcome.bind]

/-- C6.  `new_row` on an unbound handle with room in the access set succeeds
exactly when (`cf_id == 0`, `row_id == kNewRowID` and a row id can be allocated)
or (`cf_id != 0` and `row_id != kNewRowID`), and a version can be allocated and
the copier returns true.  On success `access_size` and `iset_size` grow by one,
the last `iset_idx` entry is the old `access_size`, the new item has
`i = ` old `access_size`, `inserted = 0`, state New, `head = newer_rv = ` the
row head, `read_rv = null` and `write_rv` the allocated version, which has
`older_rv = null`, `wts = rts = ts`, status Pending and the bytes the copier
wrote; the handle is bound to that item.  The counters are 16-bit, so the
capacity is at most 65535; in a build with asserts the asserted preconditions
hold (began, not peek-only, an explicit data size, the key not yet in the
dedup map). -/
theorem new_row_spec (cfg : StaticConfig) (ctx : Context) (tx : Transaction)
    (rah : RowAccessHandle) (tbl cf_id row_id : Nat) (check_dup_access : Bool)
    (data_size : Nat) (data_copier : DataCopier) (allocated_row : Nat)
    (allocated_version : Option Nat)
    (hunbound : rah.valid_ = false)
    (hsize : tx.access_size_ < cfg.kMaxAccessSize)
    (hcap : cfg.kMaxAccessSize ≤ 65535)
    (hiset : tx.iset_size_ ≤ tx.access_size_)
    (hpre : cfg.NDEBUG = false →
      tx.began_ = true ∧ tx.peek_only_ = false ∧ data_size ≠ kDefaultWriteDataSize ∧
      (check_dup_access = true → tx.access_history_.lookup
        ⟨tbl, if cf_id = 0 then allocated_row else row_id, cf_id⟩ = none))
    (hcopier : ∀ w, allocated_version = some w →
      ∃ c, data_copier cf_id (pending_new_version (ctx.versions w) tx.ts_ data_size) none
        = .ret c) :
    ∃ r, new_row cfg ctx tx rah tbl cf_id row_id check_dup_access data_size data_copier
        allocated_row allocated_version = .ret r ∧
      (r.result = true ↔
        ((cf_id = 0 ∧ row_id = kNewRowID ∧ allocated_row ≠ uint64_minus_one) ∨
         (cf_id ≠ 0 ∧ row_id ≠ kNewRowID)) ∧
        ∃ w c, allocated_version = some w ∧
          data_copier cf_id (pending_new_version (ctx.versions w) tx.ts_ data_size) none
            = .ret c ∧ c.1 = true) ∧
      (r.result = true → ∀ w c, allocated_version = some w →
        data_copier cf_id (pending_new_version (ctx.versions w) tx.ts_ data_size) none
          = .ret c →
        r.tx.access_size_ = tx.access_size_ + 1 ∧
        r.tx.iset_size_ = tx.iset_size_ + 1 ∧
        r.tx.iset_idx_ tx.iset_size_ = tx.access_size_ ∧
        r.tx.accesses_ tx.access_size_ =
          { i := tx.access_size_, inserted := 0, state := .kNew, tbl := tbl, cf_id := cf_id,
            row_id := if cf_id = 0 then allocated_row else row_id,
            head := ctx.table_head tbl cf_id (if cf_id = 0 then allocated_row else row_id),
            newer_rv := .head
              (ctx.table_head tbl cf_id (if cf_id = 0 then allocated_row else row_id)),
            write_rv := some w, read_rv := none } ∧
        r.ctx.versions w =
          { pending_new_version (ctx.versions w) tx.ts_ data_size with data := c.2 } ∧
        r.rah.valid_ = true ∧ r.rah.set_item_ = some tx.access_size_) := by
  have hb : cassert cfg tx.began_ = .ret () := cassert_ok _ _ fun hn => (hpre hn).1
  have hp : cassert cfg (!tx.peek_only_) = .ret () :=
    cassert_ok _ _ fun hn => by simp [(hpre hn).2.1]
  have hd : cassert cfg (data_size != kDefaultWriteDataSize) = .ret () :=
    cassert_ok _ _ fun hn => by simpa using (hpre hn).2.2.1
  by_cases hrow : (cf_id = 0 ∧ row_id = kNewRowID ∧ allocated_row ≠ uint64_minus_one) ∨
      (cf_id ≠ 0 ∧ row_id ≠ kNewRowID)
  · -- a row id is available
    have hchosen : (if cf_id = 0 then
          if row_id ≠ kNewRowID then ((none : Option Nat), tx)
          else if allocated_row = uint64_minus_one then (none, note_abort_reason cfg tx)
          else (some allocated_row, tx)
        else if row_id = kNewRowID then (none, tx)
        else (some row_id, tx)) = (some (if cf_id = 0 then allocated_row else row_id), tx) := by
      rcases hrow with ⟨h0, h1, h2⟩ | ⟨h0, h1⟩
      · simp [h0, h1, h2]
      · simp [h0, h1]
    cases hav : allocated_version with
    | none =>
      refine ⟨⟨false, if cf_id = 0 then ctx.deallocate_row tbl
          (if cf_id = 0 then allocated_row else row_id) else ctx, tx, rah⟩, ?_, ?_, ?_⟩
      · simp only [new_row, hb, hp, hd, hunbound, hchosen, bind, Outcome.bind]
        rfl
      · simp
      · simp
    | some w =>
      obtain ⟨c, hc⟩ := hcopier w hav
      have hdest : ((ctx.allocate_version w data_size).set_version w
          { (ctx.allocate_version w data_size).versions w with
            older_rv := none, wts := tx.ts_, rts := tx.ts_, status := .kPending }).versions w
          = pending_new_version (ctx.versions w) tx.ts_ data_size := by
        simp [Context.allocate_version, Context.set_version, pending_new_version]
      simp only [new_row, hb, hp, hd, hunbound, hchosen, bind, Outcome.bind, run_copier,
        Option.map, hdest, hc]
      obtain ⟨ok, data⟩ := c
      cases ok with
      | false =>
        refine ⟨_, rfl, ?_, ?_⟩
        · simp only [Bool.false_eq_true, false_iff, not_and, not_exists]
          intro _ w' c' hw' hc'
          obtain rfl : w = w' := by simpa using hw'
          rw [hc] at hc'
          simp only [Outcome.ret.injEq] at hc'
          rw [← hc']
          simp
        · simp
      | true =>
        obtain ⟨tx', htx', hacc, his, -, haccs, hidx, -, -, -, -, -, -, -⟩ :=
          record_access_ok cfg tx ⟨tbl, if cf_id = 0 then allocated_row else row_id, cf_id⟩
            check_dup_access (fun hn => (hpre hn).2.2.2)
        have hcheck : check_access_size cfg tx' = .ret () := by
          simp [check_access_size, hacc, Nat.not_le.mpr hsize]
        have hstore : ∀ it, store_access cfg tx'.accesses_ tx'.access_size_ it
            = .ret (Function.update tx.accesses_ tx.access_size_ it) := by
          intro it
          simp [store_access, hacc, haccs, hsize]
        simp only [htx', hcheck, hstore, Bool.not_true, Bool.false_eq_true, if_false]
        refine ⟨_, rfl, ?_, ?_⟩
        · simp only [true_iff]
          exact ⟨hrow, w, (true, data), rfl, hc, rfl⟩
        · intro _ w' c' hw' hc'
          obtain rfl : w = w' := by simpa using hw'
          rw [hc] at hc'
          simp only [Outcome.ret.injEq] at hc'
          subst hc'
          refine ⟨?_, ?_, ?_, ?_, ?_, rfl, ?_⟩
          · simp only [hacc]; exact Nat.mod_eq_of_lt (by omega)
          · simp only [his]; exact Nat.mod_eq_of_lt (by omega)
          · show Function.update tx'.iset_idx_ tx'.iset_size_ tx'.access_size_ tx.iset_size_
              = tx.access_size_
            rw [his, hacc]
            exact Function.update_same _ _ _
          · simp only [hacc, Function.update_same]
          · simp [Context.set_version, pending_new_version]
          · simp [hacc]
  · -- no row id: the call returns false before anything is allocated
    have hchosen : ∃ tx', (if cf_id = 0 then
          if row_id ≠ kNewRowID then ((none : Option Nat), tx)
          else if allocated_row = uint64_minus_one then (none, note_abort_reason cfg tx)
          else (some allocated_row, tx)
        else if row_id = kNewRowID then (none, tx)
        else (some row_id, tx)) = (none, tx') := by
      by_cases h0 : cf_id = 0
      · by_cases h1 : row_id = kNewRowID
        · by_cases h2 : allocated_row = uint64_minus_one
          · exact ⟨note_abort_reason cfg tx, by simp [h0, h1, h2]⟩
          · exact absurd (Or.inl ⟨h0, h1, h2⟩) hrow
        · exact ⟨tx, by simp [h0, h1]⟩
      · by_cases h1 : row_id = kNewRowID
        · exact ⟨tx, by simp [h0, h1]⟩
        · exact absurd (Or.inr ⟨h0, h1⟩) hrow
    obtain ⟨tx', hchosen⟩ := hchosen
    refine ⟨⟨false, ctx, tx', rah⟩, ?_, ?_, ?_⟩
    · simp only [new_row, hb, hp, hd, hunbound, hchosen, bind, Outcome.bind]
      rfl
    · simp [hrow]
    · simp

/-- A new row of column family 0 is created at timestamp 20 with row id 5 and
the version at address 2: the call succeeds, the access set holds one item in
state New and the version is pending. -/
theorem new_row_spec_witness :
    ∃ r, new_row cfgDebug (ctxOneRow 10) (beginTx 20) freshHandle 0 0 kNewRowID true 8
        NoopDataCopier 5 (some 2) = .ret r ∧
      r.result = true ∧ r.tx.access_size_ = 1 ∧ (r.tx.accesses_ 0).state = .kNew ∧
      (r.tx.accesses_ 0).row_id = 5 ∧ (r.ctx.versions 2).status = .kPending ∧
      r.rah.set_item_ = some 0 := by
  obtain ⟨r, hr, hres, hpost⟩ :=
    new_row_spec cfgDebug (ctxOneRow 10) (beginTx 20) freshHandle 0 0 kNewRowID true 8
      NoopDataCopier 5 (some 2) rfl (by decide) (by decide) (Nat.le_refl _)
      (fun _ => ⟨rfl, rfl, by decide, fun _ => rfl⟩) (fun w _ => ⟨_, rfl⟩)
  have htrue : r.result = true :=
    hres.2 ⟨Or.inl ⟨rfl, rfl, by decide⟩, 2, _, rfl, rfl, rfl⟩
  obtain ⟨h1, -, -, h4, h5, -, h7⟩ := hpost htrue 2 _ rfl rfl
  refine ⟨r, hr, htrue, h1, ?_, ?_, ?_, h7⟩
  · have := congrArg RowAccessItem.state h4; exact this
  · have := congrArg RowAccessItem.row_id h4; exact this
  · rw [h5]; rfl

/-! ## C8: `peek_row` on a dedup hit -/

/-- C8.  `peek_row` on an unbound regular handle with `check_dup_access` and the
key already in the dedup map at index `idx` returns true and binds the handle
to `accesses_[idx]`; the shared state and the transaction are returned as they
were, so the item's state, `read_rv`, `write_rv` and `newer_rv`, the counters,
the dedup map and every version's `rts` are unchanged.  No chain walk is run:
the result does not depend on `fuel` (it holds with `fuel = 0`).  In a build
with asserts the asserted preconditions hold (began, a valid row id,
`idx < access_size`, `accesses_[idx].i == idx`). -/
theorem peek_row_dedup_hit (cfg : StaticConfig) (fuel : Nat) (ctx : Context) (tx : Transaction)
    (rah : RowAccessHandle) (tbl cf_id row_id : Nat) (read_hint write_hint : Bool) (idx : Nat)
    (hunbound : rah.valid_ = false ∧ rah.set_item_ = none)
    (hhit : tx.access_history_.lookup ⟨tbl, row_id, cf_id⟩ = some idx)
    (hpre : cfg.NDEBUG = false →
      tx.began_ = true ∧ row_id < ctx.table_row_count tbl ∧ idx < tx.access_size_ ∧
      idx ≤ 65535 ∧ (tx.accesses_ idx).i = idx) :
    ∃ r, peek_row cfg fuel ctx tx rah tbl cf_id row_id true read_hint write_hint = .ret r ∧
      r.result = true ∧ r.ctx = ctx ∧ r.tx = tx ∧
      r.rah = { rah with valid_ := true, set_item_ := some idx } ∧
      held_item r.tx r.rah = tx.accesses_ idx := by
  have hb : cassert cfg tx.began_ = .ret () := cassert_ok _ _ fun hn => (hpre hn).1
  have hr : cassert cfg (decide (row_id < ctx.table_row_count tbl)) = .ret () :=
    cassert_ok _ _ fun hn => by simpa using (hpre hn).2.1
  have hi : cassert cfg (decide (idx < tx.access_size_)) = .ret () :=
    cassert_ok _ _ fun hn => by simpa using (hpre hn).2.2.1
  have h1 : cassert cfg (decide (rah.set_item_ = none)) = .ret () :=
    cassert_ok _ _ fun _ => by simp [hunbound.2]
  have h2 : cassert cfg (decide (idx ≤ 65535)) = .ret () :=
    cassert_ok _ _ fun hn => by simpa using (hpre hn).2.2.2.1
  have h3 : cassert cfg (decide ((tx.accesses_ idx).i = idx % 65536)) = .ret () :=
    cassert_ok _ _ fun hn => by
      have h := (hpre hn).2.2.2
      simp only [decide_eq_true_eq]
      rw [Nat.mod_eq_of_lt (by omega)]
      exact h.2
  refine ⟨⟨true, ctx, tx, { rah with valid_ := true, set_item_ := some idx }⟩, ?_, rfl, rfl, rfl,
    rfl, ?_⟩
  · simp [peek_row, hb, hr, hi, h1, h2, h3, hunbound.1, hhit, RowAccessHandle.add_set_item,
      bind, Outcome.bind]
  · simp [held_item]

/-- The transaction whose access set holds row 0 peeks that row again with a
fresh handle: the handle is bound to `accesses_[0]` and nothing else changes. -/
theorem peek_row_dedup_hit_witness :
    ∃ r, peek_row cfgDebug 0 (ctxOneRow 10) (txOneItem .kWrite) freshHandle 0 0 0 true true
        false = .ret r ∧
      r.result = true ∧ r.rah.set_item_ = some 0 ∧ (held_item r.tx r.rah).state = .kWrite := by
  obtain ⟨r, hr, hres, -, -, hrah, hitem⟩ :=
    peek_row_dedup_hit cfgDebug 0 (ctxOneRow 10) (txOneItem .kWrite) freshHandle 0 0 0 true
      false 0 ⟨rfl, rfl⟩ rfl (fun _ => ⟨rfl, by decide, by decide, by decide, rfl⟩)
  refine ⟨r, hr, hres, ?_, ?_⟩
  · rw [hrah]
  · rw [hitem]; rfl

/-! ## C3: `write_row` from state Peek -/

/-- C3 (the code departs from it).  In a build with asserts `write_row` on a
handle that has just peeked a row (state Peek) stops at
`assert(item->state != RowAccessState::kPeek)` instead of returning true; with
`NDEBUG` the same call returns true, moves the item to Write and appends its
index to `wset_idx`. -/
theorem write_row_from_peek_asserts :
    write_row cfgDebug (ctxOneRow 20) (beginTx 20) peekedHandle 1 NoopDataCopier true (some 2)
      = .assertFailed ∧
    ((peek_row cfgDebug 4 (ctxOneRow 10) (beginTx 20) freshHandle 0 0 0 true false true).bind
      fun p => write_row cfgDebug p.ctx p.tx p.rah 1 NoopDataCopier true (some 2))
      = .assertFailed ∧
    (write_row cfgRelease (ctxOneRow 20) (beginTx 20) peekedHandle 1 NoopDataCopier true
        (some 2)).bind (fun r => .ret (r.result, (held_item r.tx r.rah).state,
          r.tx.wset_size_, r.tx.wset_idx_ 0, (r.ctx.versions 2).status))
      = .ret (true, .kWrite, 1, 0, .kPending) :=
  ⟨rfl, rfl, rfl⟩

/-! ## C7: one access item per key -/

/-- C7 (the code departs from it).  Two handles peek the same row, then both
write it, every call with `check_dup_access = true`.  With `NDEBUG` both writes
return true and the access set ends with two items, `accesses_[0]` and
`accesses_[1]`, that have the same `(tbl, cf_id, row_id)`, both in the write
set, while the dedup map holds the key once.  In a build with asserts the
first `write_row` succeeds and the second stops at
`assert(it == access_history_.end())` (shown on the sequence with a `read_row`
on each handle before the writes, since a write straight after a peek already
stops at the assert of C3). -/
theorem two_peeks_two_items :
    (scenarioTwoPeeks cfgRelease false true).bind (fun r =>
        .ret (r.result, r.tx.access_size_, (r.tx.accesses_ 0).key, (r.tx.accesses_ 1).key,
          (r.tx.accesses_ 0).state, (r.tx.accesses_ 1).state, r.tx.wset_size_,
          r.tx.access_history_))
      = .ret (true, 2, (0, 0, 0), (0, 0, 0), .kWrite, .kWrite, 2, [(⟨0, 0, 0⟩, 0)]) ∧
    (scenarioTwoPeeks cfgRelease true true).bind (fun r =>
        .ret (r.result, r.tx.access_size_, (r.tx.accesses_ 0).key, (r.tx.accesses_ 1).key))
      = .ret (true, 2, (0, 0, 0), (0, 0, 0)) ∧
    (scenarioTwoPeeks cfgDebug true false).bind (fun r =>
        .ret (r.result, r.tx.access_size_, r.tx.access_history_))
      = .ret (true, 1, [(⟨0, 0, 0⟩, 0)]) ∧
    scenarioTwoPeeks cfgDebug true true = .assertFailed :=
  ⟨rfl, rfl, rfl, rfl⟩

/-! ## `peek_row` on the path that walks the chain -/

/-- Recording an abort leaves the access set, the counters and the dedup map
alone. -/
theorem abort_frame (cfg : StaticConfig) (tx : Transaction) (tbl cf_id row_id : Nat)
    (rh wh : Bool) :
    (note_abort_reason cfg (reserve cfg tx tbl cf_id row_id rh wh)).access_size_
      = tx.access_size_ ∧
    (note_abort_reason cfg (reserve cfg tx tbl cf_id row_id rh wh)).iset_size_ = tx.iset_size_ ∧
    (note_abort_reason cfg (reserve cfg tx tbl cf_id row_id rh wh)).wset_size_ = tx.wset_size_ ∧
    (note_abort_reason cfg (reserve cfg tx tbl cf_id row_id rh wh)).accesses_ = tx.accesses_ ∧
    (note_abort_reason cfg (reserve cfg tx tbl cf_id row_id rh wh)).access_history_
      = tx.access_history_ ∧
    (note_abort_reason cfg (reserve cfg tx tbl cf_id row_id rh wh)).ts_ = tx.ts_ ∧
    (note_abort_reason cfg (reserve cfg tx tbl cf_id row_id rh wh)).began_ = tx.began_ ∧
    (note_abort_reason cfg (reserve cfg tx tbl cf_id row_id rh wh)).peek_only_
      = tx.peek_only_ := by
  unfold note_abort_reason reserve
  cases cfg.kCollectExtraCommitStats <;> cases cfg.kReserveAfterAbort <;> simp

/-- Every way the chain-walking part of `peek_row` can return. -/
theorem peek_row_locate_ret (cfg : StaticConfig) (fuel : Nat) (ctx : Context)
    (tx : Transaction) (rah : RowAccessHandle) (tbl cf_id row_id : Nat)
    (read_hint write_hint : Bool) (r : OpResult)
    (h : peek_row_locate cfg fuel ctx tx rah tbl cf_id row_id read_hint write_hint = .ret r) :
    (∃ n1 rv1,
      auto_locate cfg tx.ts_ ctx.versions fuel (.head (ctx.table_head tbl cf_id row_id))
        (ctx.heads (ctx.table_head tbl cf_id row_id)).older_rv
        (hint_flags read_hint write_hint) = .ret (n1, rv1) ∧
      (rv1 = none → r.ctx = ctx ∧ r.result = false) ∧
      (∀ v, rv1 = some v →
        r.ctx = ctx.set_version v (rts_update (ctx.versions v) tx.ts_) ∧
        (r.result = true → ∃ n2,
          auto_locate cfg tx.ts_ r.ctx.versions fuel (.head (ctx.table_head tbl cf_id row_id))
            (ctx.heads (ctx.table_head tbl cf_id row_id)).older_rv
            (hint_flags read_hint write_hint) = .ret (n2, some v) ∧
          r.rah = { rah with valid_ := true, local_item_ :=
            { i := tx.access_size_, inserted := 0, state := .kPeek, tbl := tbl,
              cf_id := cf_id, row_id := row_id, head := ctx.table_head tbl cf_id row_id,
              newer_rv := n2, write_rv := none, read_rv := some v } }))) ∧
    r.tx.access_size_ = tx.access_size_ ∧ r.tx.iset_size_ = tx.iset_size_ ∧
    r.tx.wset_size_ = tx.wset_size_ ∧ r.tx.accesses_ = tx.accesses_ ∧
    r.tx.access_history_ = tx.access_history_ ∧ r.tx.ts_ = tx.ts_ ∧
    r.tx.began_ = tx.began_ ∧ r.tx.peek_only_ = tx.peek_only_ ∧
    (r.result = false → r.rah = rah) ∧
    (r.result = true → r.tx = tx) := by
  obtain ⟨f1, f2, f3, f4, f5, f6, f7, f8⟩ :=
    abort_frame cfg tx tbl cf_id row_id read_hint write_hint
  unfold peek_row_locate at h
  simp only [bind, Outcome.bind] at h
  cases hL1 : auto_locate cfg tx.ts_ ctx.versions fuel (.head (ctx.table_head tbl cf_id row_id))
      (ctx.heads (ctx.table_head tbl cf_id row_id)).older_rv (hint_flags read_hint write_hint) with
  | ret x =>
    obtain ⟨n1, rv1⟩ := x
    rw [hL1] at h
    cases rv1 with
    | none =>
      simp only [Outcome.ret.injEq] at h
      subst h
      exact ⟨⟨n1, none, rfl, fun _ => ⟨rfl, rfl⟩, fun v hv => by simp at hv⟩,
        f1, f2, f3, f4, f5, f6, f7, f8, fun _ => rfl, fun hh => by simp at hh⟩
    | some v =>
      simp only at h
      cases hL2 : auto_locate cfg tx.ts_
          (ctx.set_version v (rts_update (ctx.versions v) tx.ts_)).versions fuel
          (.head (ctx.table_head tbl cf_id row_id))
          ((ctx.set_version v (rts_update (ctx.versions v) tx.ts_)).heads
            (ctx.table_head tbl cf_id row_id)).older_rv (hint_flags read_hint write_hint) with
      | ret y =>
        obtain ⟨n2, rv2⟩ := y
        rw [hL2] at h
        simp only at h
        by_cases hsame : rv2 = some v
        · subst hsame
          simp only [ne_eq, not_true_eq_false, if_false, RowAccessHandle.add_fresh_item, bind,
            Outcome.bind] at h
          cases hA : cassert cfg (!rah.valid_ && decide (rah.set_item_ = none)) with
          | ret u =>
            rw [hA] at h
            simp only [Outcome.ret.injEq] at h
            subst h
            refine ⟨⟨n1, some v, rfl, fun hv => by simp at hv, fun v' hv' => ?_⟩,
              rfl, rfl, rfl, rfl, rfl, rfl, rfl, rfl, fun hh => by simp at hh, fun _ => rfl⟩
            obtain rfl : v = v' := by simpa using hv'
            exact ⟨rfl, fun _ => ⟨n2, hL2, rfl⟩⟩
          | assertFailed => rw [hA] at h; simp at h
          | undefined => rw [hA] at h; simp at h
          | diverges => rw [hA] at h; simp at h
        · simp only [ne_eq, hsame, not_false_eq_true, if_true, Outcome.ret.injEq] at h
          subst h
          refine ⟨⟨n1, some v, rfl, fun hv => by simp at hv, fun v' hv' => ?_⟩,
            f1, f2, f3, f4, f5, f6, f7, f8, fun _ => rfl, fun hh => by simp at hh⟩
          obtain rfl : v = v' := by simpa using hv'
          exact ⟨rfl, fun hh => by simp at hh⟩
      | assertFailed => rw [hL2] at h; simp at h
      | undefined => rw [hL2] at h; simp at h
      | diverges => rw [hL2] at h; simp at h
  | assertFailed => rw [hL1] at h; simp at h
  | undefined => rw [hL1] at h; simp at h
  | diverges => rw [hL1] at h; simp at h

/-- The three ways `peek_row` can return: at once on a bound handle, on a dedup
hit, or through the chain walk. -/
theorem peek_row_ret (cfg : StaticConfig) (fuel : Nat) (ctx : Context) (tx : Transaction)
    (rah : RowAccessHandle) (tbl cf_id row_id : Nat)
    (check_dup_access read_hint write_hint : Bool) (r : OpResult)
    (h : peek_row cfg fuel ctx tx rah tbl cf_id row_id check_dup_access read_hint write_hint
      = .ret r) :
    (rah.valid_ = true ∧ r = ⟨false, ctx, tx, rah⟩) ∨
    (rah.valid_ = false ∧ ∃ idx, check_dup_access = true ∧
      tx.access_history_.lookup ⟨tbl, row_id, cf_id⟩ = some idx ∧
      r = ⟨true, ctx, tx, { rah with valid_ := true, set_item_ := some idx }⟩) ∨
    (rah.valid_ = false ∧
      (check_dup_access = false ∨ tx.access_history_.lookup ⟨tbl, row_id, cf_id⟩ = none) ∧
      peek_row_locate cfg fuel ctx tx rah tbl cf_id row_id read_hint write_hint = .ret r) := by
  unfold peek_row at h
  simp only [bind, Outcome.bind] at h
  cases hb : cassert cfg tx.began_ with
  | ret u =>
    rw [hb] at h
    simp only at h
    cases hv : rah.valid_ with
    | true =>
      simp only [hv, if_true, Outcome.ret.injEq] at h
      exact Or.inl ⟨rfl, h.symm⟩
    | false =>
      simp only [hv, Bool.false_eq_true, if_false] at h
      cases hr : cassert cfg (decide (row_id < ctx.table_row_count tbl)) with
      | ret u2 =>
        rw [hr] at h
        simp only at h
        cases hl : (if check_dup_access = true then
            tx.access_history_.lookup ⟨tbl, row_id, cf_id⟩ else none) with
        | none =>
          rw [hl] at h
          refine Or.inr (Or.inr ⟨rfl, ?_, h⟩)
          cases check_dup_access with
          | false => exact Or.inl rfl
          | true => exact Or.inr (by simpa using hl)
        | some idx =>
          rw [hl] at h
          have hc : check_dup_access = true := by
            cases check_dup_access with
            | false => simp at hl
            | true => rfl
          subst hc
          simp only [if_true] at hl
          simp only [RowAccessHandle.add_set_item, bind, Outcome.bind] at h
          cases h1 : cassert cfg (decide (idx < tx.access_size_)) with
          | ret u3 =>
            rw [h1] at h
            simp only at h
            cases h2 : cassert cfg (!rah.valid_ && decide (rah.set_item_ = none)) with
            | ret u4 =>
              rw [h2] at h
              simp only at h
              cases h3 : cassert cfg (decide (idx ≤ 65535)) with
              | ret u5 =>
                rw [h3] at h
                simp only at h
                cases h4 : cassert cfg (decide ((tx.accesses_ idx).i = idx % 65536)) with
                | ret u6 =>
                  rw [h4] at h
                  simp only [Outcome.ret.injEq] at h
                  exact Or.inr (Or.inl ⟨rfl, idx, rfl, hl, h.symm⟩)
                | assertFailed => rw [h4] at h; simp at h
                | undefined => rw [h4] at h; simp at h
                | diverges => rw [h4] at h; simp at h
              | assertFailed => rw [h3] at h; simp at h
              | undefined => rw [h3] at h; simp at h
              | diverges => rw [h3] at h; simp at h
            | assertFailed => rw [h2] at h; simp at h
            | undefined => rw [h2] at h; simp at h
            | diverges => rw [h2] at h; simp at h
          | assertFailed => rw [h1] at h; simp at h
          | undefined => rw [h1] at h; simp at h
          | diverges => rw [h1] at h; simp at h
      | assertFailed => rw [hr] at h; simp at h
      | undefined => rw [hr] at h; simp at h
      | diverges => rw [hr] at h; simp at h
  | assertFailed => rw [hb] at h; simp at h
  | undefined => rw [hb] at h; simp at h
  | diverges => rw [hb] at h; simp at h

/-! ## `write_row` block by block -/

/-- What the upgrade part of `write_row` can change when the handle points
into the access set: only `state` and `write_rv` of that item, the write set,
the abort reason and the shared memory. -/
theorem write_row_upgrade_frame (cfg : StaticConfig) (ctx : Context) (tx : Transaction)
    (rah : RowAccessHandle) (data_size : Nat) (data_copier : DataCopier)
    (allocated_version : Option Nat) (idx : Nat) (r : OpResult)
    (hv : rah.valid_ = true) (hs : rah.set_item_ = some idx)
    (h : write_row_upgrade cfg ctx tx rah data_size data_copier allocated_version = .ret r) :
    r.rah = rah ∧ r.tx.access_size_ = tx.access_size_ ∧ r.tx.iset_size_ = tx.iset_size_ ∧
    r.tx.access_history_ = tx.access_history_ ∧
    (∀ j, j ≠ idx → r.tx.accesses_ j = tx.accesses_ j) ∧
    (r.tx.accesses_ idx).i = (tx.accesses_ idx).i ∧
    (r.tx.accesses_ idx).inserted = (tx.accesses_ idx).inserted ∧
    (r.tx.accesses_ idx).tbl = (tx.accesses_ idx).tbl ∧
    (r.tx.accesses_ idx).cf_id = (tx.accesses_ idx).cf_id ∧
    (r.tx.accesses_ idx).row_id = (tx.accesses_ idx).row_id ∧
    (r.tx.accesses_ idx).head = (tx.accesses_ idx).head ∧
    (r.tx.accesses_ idx).newer_rv = (tx.accesses_ idx).newer_rv ∧
    (r.tx.accesses_ idx).read_rv = (tx.accesses_ idx).read_rv := by
  have hitem : rah.item cfg tx = .ret (tx.accesses_ idx) := by
    rw [item_of_bound cfg tx rah hv]; simp [held_item, hs]
  unfold write_row_upgrade at h
  simp only [bind, Outcome.bind, hitem, store_item, hs] at h
  repeat' (split at h)
  all_goals first
    | (simp at h; done)
    | (simp only [Outcome.ret.injEq] at h; subst h; simp; done)
    | (simp only [Outcome.ret.injEq] at h
       subst h
       cases hk : cfg.kCollectExtraCommitStats <;>
         simp +contextual [note_abort_reason, hk, Function.update_apply])

/-- The block of `write_row` that adds a local item to the access set, when it
has room: the item is copied to `accesses_[access_size_]` with `i` set to that
index, `access_size_` grows by one and the handle points to the new element. -/
theorem write_row_add_to_set_local (cfg : StaticConfig) (tx tx0 : Transaction)
    (rah : RowAccessHandle) (item : RowAccessItem) (check_dup_access : Bool)
    (hv : rah.valid_ = true) (hs : rah.set_item_ = none)
    (hsize : tx.access_size_ < cfg.kMaxAccessSize) (hcap : cfg.kMaxAccessSize ≤ 65535)
    (htx0 : record_access cfg tx ⟨item.tbl, item.row_id, item.cf_id⟩ check_dup_access
      = .ret tx0)
    (hacc : tx0.access_size_ = tx.access_size_) (haccs : tx0.accesses_ = tx.accesses_) :
    write_row_add_to_set cfg tx rah item check_dup_access =
      .ret ({ tx0 with
              accesses_ := Function.update tx.accesses_ tx.access_size_
                { rah.local_item_ with i := tx.access_size_ },
              access_size_ := tx.access_size_ + 1 },
            { rah with local_item_ := { rah.local_item_ with i := tx.access_size_ },
                       set_item_ := some tx.access_size_ }) := by
  have hcheck : check_access_size cfg tx0 = .ret () := by
    simp [check_access_size, hacc, Nat.not_le.mpr hsize]
  have h1 : cassert cfg (rah.valid_ && decide (rah.set_item_ = none)) = .ret () :=
    cassert_ok _ _ fun _ => by simp [hv, hs]
  have h2 : cassert cfg (decide (tx0.access_size_ ≤ 65535)) = .ret () :=
    cassert_ok _ _ fun _ => by simp only [decide_eq_true_eq, hacc]; omega
  have hmod : tx.access_size_ % 65536 = tx.access_size_ := Nat.mod_eq_of_lt (by omega)
  have hmod1 : (tx.access_size_ + 1) % 65536 = tx.access_size_ + 1 :=
    Nat.mod_eq_of_lt (by omega)
  simp only [write_row_add_to_set, if_pos hs, htx0, hcheck, RowAccessHandle.add_item_to_set,
    h1, h2, bind, Outcome.bind]
  simp only [store_access, hacc, hsize, haccs, hmod, hmod1, if_true]

/-- The upgrade part of `write_row` on an item of the access set in state New,
Write or ReadWrite returns true and changes nothing; in state Delete,
ReadDelete or Invalid it returns false and changes nothing. -/
theorem write_row_upgrade_idle (cfg : StaticConfig) (ctx : Context) (tx : Transaction)
    (rah : RowAccessHandle) (data_size : Nat) (data_copier : DataCopier)
    (allocated_version : Option Nat) (hv : rah.valid_ = true) :
    (((held_item tx rah).state = .kNew ∨ (held_item tx rah).state = .kWrite ∨
        (held_item tx rah).state = .kReadWrite) →
      write_row_upgrade cfg ctx tx rah data_size data_copier allocated_version
        = .ret ⟨true, ctx, tx, rah⟩) ∧
    (((held_item tx rah).state = .kDelete ∨ (held_item tx rah).state = .kReadDelete ∨
        (held_item tx rah).state = .kInvalid) →
      write_row_upgrade cfg ctx tx rah data_size data_copier allocated_version
        = .ret ⟨false, ctx, tx, rah⟩) := by
  have hitem := item_of_bound cfg tx rah hv
  constructor
  · intro h
    rcases h with h | h | h <;>
      simp [write_row_upgrade, hitem, h, cassert, bind, Outcome.bind]
  · intro h
    rcases h with h | h | h <;>
      simp [write_row_upgrade, hitem, h, cassert, bind, Outcome.bind]

/-- The upgrade part of `write_row` on an item of the access set in state Read
(or Peek, in a build without asserts): it returns; without a version it
returns false; with a version at `w` it sets `wts = rts = ts` and status
Pending there, runs the copier with source `read_rv` (null from Peek), returns
the copier's flag, and on success moves the item to ReadWrite (Write from
Peek), stores `w` in `write_rv` and appends the item's `i` to `wset_idx`. -/
theorem write_row_upgrade_transition (cfg : StaticConfig) (ctx : Context) (tx : Transaction)
    (rah : RowAccessHandle) (data_size : Nat) (data_copier : DataCopier)
    (allocated_version : Option Nat) (idx : Nat)
    (hv : rah.valid_ = true) (hs : rah.set_item_ = some idx)
    (hstate : (tx.accesses_ idx).state = .kRead ∨
      ((tx.accesses_ idx).state = .kPeek ∧ cfg.NDEBUG = true))
    (hds : data_size = kDefaultWriteDataSize → (tx.accesses_ idx).read_rv ≠ none)
    (hcopier : ∀ dest src, ∃ c, data_copier (tx.accesses_ idx).cf_id dest src = .ret c) :
    ∃ r, write_row_upgrade cfg ctx tx rah data_size data_copier allocated_version = .ret r ∧
      r.rah = rah ∧
      (allocated_version = none → r.result = false ∧ r.ctx = ctx) ∧
      (∀ w, allocated_version = some w →
        (r.ctx.versions w).wts = tx.ts_ ∧ (r.ctx.versions w).rts = tx.ts_ ∧
        (r.ctx.versions w).status = .kPending ∧
        (∀ p, p ≠ w → r.ctx.versions p = ctx.versions p) ∧ r.ctx.heads = ctx.heads ∧
        ∃ (m : Nat → RowVersion) (c : Bool × List Nat),
          (∀ p, p ≠ w → m p = ctx.versions p) ∧
          (m w).wts = tx.ts_ ∧ (m w).rts = tx.ts_ ∧ (m w).status = .kPending ∧
          data_copier (tx.accesses_ idx).cf_id (m w)
            (if (tx.accesses_ idx).state = .kPeek then none
             else (tx.accesses_ idx).read_rv.map m) = .ret c ∧
          r.result = c.1 ∧ (r.ctx.versions w).data = c.2 ∧
          (c.1 = true →
            r.tx = { tx with
              accesses_ := Function.update tx.accesses_ idx
                { tx.accesses_ idx with
                  write_rv := some w,
                  state := if (tx.accesses_ idx).state = .kPeek then .kWrite
                           else .kReadWrite },
              wset_idx_ := Function.update tx.wset_idx_ tx.wset_size_ (tx.accesses_ idx).i,
              wset_size_ := (tx.wset_size_ + 1) % 65536 })) := by
  have hitem : rah.item cfg tx = .ret (tx.accesses_ idx) := by
    rw [item_of_bound cfg tx rah hv]; simp [held_item, hs]
  have hpk : cassert cfg ((tx.accesses_ idx).state != .kPeek) = .ret () :=
    cassert_ok _ _ fun hn => by
      rcases hstate with h | ⟨_, h⟩
      · simp [h]
      · rw [hn] at h; simp at h
  have hN : (tx.accesses_ idx).state ≠ .kNew := by rcases hstate with h | ⟨h, _⟩ <;> simp [h]
  have hW : ¬ ((tx.accesses_ idx).state = .kWrite ∨ (tx.accesses_ idx).state = .kReadWrite) := by
    rcases hstate with h | ⟨h, _⟩ <;> simp [h]
  have hPR : ¬ ((tx.accesses_ idx).state ≠ .kPeek ∧ (tx.accesses_ idx).state ≠ .kRead) := by
    rcases hstate with h | ⟨h, _⟩ <;> simp [h]
  -- the data size
  obtain ⟨ds, hdsz⟩ : ∃ ds, (if data_size = kDefaultWriteDataSize then
        match (tx.accesses_ idx).read_rv with
        | some r => .ret (ctx.versions r).data_size
        | none => .undefined
      else .ret data_size : Outcome Nat) = .ret ds := by
    by_cases hd : data_size = kDefaultWriteDataSize
    · cases hr : (tx.accesses_ idx).read_rv with
      | none => exact absurd hr (hds hd)
      | some p => exact ⟨(ctx.versions p).data_size, by simp [hd]⟩
    · exact ⟨data_size, by simp [hd]⟩
  unfold write_row_upgrade
  simp only [bind, Outcome.bind, hitem, hpk, hN, hW, hPR, if_false, hdsz, store_item, hs]
  cases hav : allocated_version with
  | none =>
    refine ⟨_, rfl, rfl, fun _ => ⟨rfl, rfl⟩, fun w hw => by simp at hw⟩
  | some w =>
    simp only [run_copier]
    obtain ⟨c, hc⟩ := hcopier
      ((((ctx.allocate_version w ds).set_version w
        { (ctx.allocate_version w ds).versions w with
          wts := tx.ts_, rts := tx.ts_, status := .kPending })).versions w)
      (Option.map ((ctx.allocate_version w ds).set_version w
        { (ctx.allocate_version w ds).versions w with
          wts := tx.ts_, rts := tx.ts_, status := .kPending }).versions
        (if (tx.accesses_ idx).state = .kPeek then none else (tx.accesses_ idx).read_rv))
    rw [hc]
    have hsrc : Option.map ((ctx.allocate_version w ds).set_version w
        { (ctx.allocate_version w ds).versions w with
          wts := tx.ts_, rts := tx.ts_, status := .kPending }).versions
        (if (tx.accesses_ idx).state = .kPeek then none else (tx.accesses_ idx).read_rv)
        = (if (tx.accesses_ idx).state = .kPeek then none
           else (tx.accesses_ idx).read_rv.map ((ctx.allocate_version w ds).set_version w
            { (ctx.allocate_version w ds).versions w with
              wts := tx.ts_, rts := tx.ts_, status := .kPending }).versions) := by
      split <;> rfl
    rw [hsrc] at hc
    have hframe : ∀ p, p ≠ w → ((ctx.allocate_version w ds).set_version w
        { (ctx.allocate_version w ds).versions w with
          wts := tx.ts_, rts := tx.ts_, status := .kPending }).versions p = ctx.versions p := by
      intro p hp
      simp [Context.set_version, Context.allocate_version, Function.update_noteq hp]
    obtain ⟨ok, data⟩ := c
    cases ok with
    | false =>
      refine ⟨_, rfl, rfl, fun hh => by simp at hh, fun w' hw' => ?_⟩
      obtain rfl : w = w' := by simpa using hw'
      refine ⟨by simp [Context.set_version], by simp [Context.set_version],
        by simp [Context.set_version], ?_, by simp [Context.set_version, Context.allocate_version],
        _, (false, data), hframe, by simp [Context.set_version],
        by simp [Context.set_version], by simp [Context.set_version], hc, rfl,
        by simp [Context.set_version], fun hh => by simp at hh⟩
      intro p hp
      simp [Context.set_version, Context.allocate_version, Function.update_noteq hp]
    | true =>
      refine ⟨_, rfl, rfl, fun hh => by simp at hh, fun w' hw' => ?_⟩
      obtain rfl : w = w' := by simpa using hw'
      refine ⟨by simp [Context.set_version], by simp [Context.set_version],
        by simp [Context.set_version], ?_, by simp [Context.set_version, Context.allocate_version],
        _, (true, data), hframe, by simp [Context.set_version],
        by simp [Context.set_version], by simp [Context.set_version], hc, rfl,
        by simp [Context.set_version], fun _ => ?_⟩
      · intro p hp
        simp [Context.set_version, Context.allocate_version, Function.update_noteq hp]
      · simp

/-! ## C9: where the peeked item lives -/

/-- A key entered at the end of a map that lacked it is found there. -/
theorem lookup_append_new (key : AccessKey) (v : Nat) :
    ∀ l : List (AccessKey × Nat), l.lookup key = none →
      (l ++ [(key, v)]).lookup key = some v := by
  intro l
  induction l with
  | nil => intro _; simp [List.lookup]
  | cons x l ih =>
    intro h
    obtain ⟨k, w⟩ := x
    rw [List.cons_append, List.lookup_cons]
    rw [List.lookup_cons] at h
    cases hk : key == k with
    | true => rw [hk] at h; simp at h
    | false => rw [hk] at h; exact ih h

/-- `write_row` on a bound handle whose item is still local, in state Read (or
Peek in a build without asserts), with room in the access set: it returns,
the item is in `accesses_[old access_size]` with `i` set to that index and its
other identity fields as in the local item, `access_size` has grown by one, the
other elements are untouched, the handle points to the new element, and with
`check_dup_access` the key is in the dedup map (mapped to the new index if it
was not there before). -/
theorem write_row_local (cfg : StaticConfig) (ctx : Context) (tx : Transaction)
    (rah : RowAccessHandle) (data_size : Nat) (data_copier : DataCopier)
    (check_dup_access : Bool) (allocated_version : Option Nat)
    (hv : rah.valid_ = true) (hs : rah.set_item_ = none)
    (hstate : rah.local_item_.state = .kRead ∨
      (rah.local_item_.state = .kPeek ∧ cfg.NDEBUG = true))
    (hsize : tx.access_size_ < cfg.kMaxAccessSize) (hcap : cfg.kMaxAccessSize ≤ 65535)
    (hpre : cfg.NDEBUG = false → tx.began_ = true ∧ tx.peek_only_ = false ∧
      (check_dup_access = true → tx.access_history_.lookup
        ⟨rah.local_item_.tbl, rah.local_item_.row_id, rah.local_item_.cf_id⟩ = none))
    (hds : data_size = kDefaultWriteDataSize → rah.local_item_.read_rv ≠ none)
    (hcopier : ∀ dest src, ∃ c, data_copier rah.local_item_.cf_id dest src = .ret c) :
    ∃ r, write_row cfg ctx tx rah data_size data_copier check_dup_access allocated_version
        = .ret r ∧
      r.tx.access_size_ = tx.access_size_ + 1 ∧
      r.rah.valid_ = true ∧ r.rah.set_item_ = some tx.access_size_ ∧
      (r.tx.accesses_ tx.access_size_).i = tx.access_size_ ∧
      (r.tx.accesses_ tx.access_size_).inserted = rah.local_item_.inserted ∧
      (r.tx.accesses_ tx.access_size_).tbl = rah.local_item_.tbl ∧
      (r.tx.accesses_ tx.access_size_).cf_id = rah.local_item_.cf_id ∧
      (r.tx.accesses_ tx.access_size_).row_id = rah.local_item_.row_id ∧
      (r.tx.accesses_ tx.access_size_).head = rah.local_item_.head ∧
      (r.tx.accesses_ tx.access_size_).newer_rv = rah.local_item_.newer_rv ∧
      (r.tx.accesses_ tx.access_size_).read_rv = rah.local_item_.read_rv ∧
      (∀ j, j ≠ tx.access_size_ → r.tx.accesses_ j = tx.accesses_ j) ∧
      r.tx.iset_size_ = tx.iset_size_ ∧
      (check_dup_access = false → r.tx.access_history_ = tx.access_history_) ∧
      (check_dup_access = true →
        (tx.access_history_.lookup
          ⟨rah.local_item_.tbl, rah.local_item_.row_id, rah.local_item_.cf_id⟩ = none →
          r.tx.access_history_ = tx.access_history_ ++
            [(⟨rah.local_item_.tbl, rah.local_item_.row_id, rah.local_item_.cf_id⟩,
              tx.access_size_)]) ∧
        r.tx.access_history_.lookup
          ⟨rah.local_item_.tbl, rah.local_item_.row_id, rah.local_item_.cf_id⟩ ≠ none) := by
  have hb : cassert cfg tx.began_ = .ret () := cassert_ok _ _ fun hn => (hpre hn).1
  have hp : cassert cfg (!tx.peek_only_) = .ret () :=
    cassert_ok _ _ fun hn => by simp [(hpre hn).2.1]
  have hitem : rah.item cfg tx = .ret rah.local_item_ := by
    rw [item_of_bound cfg tx rah hv]; simp [held_item, hs]
  obtain ⟨tx0, htx0, hacc, his, -, haccs, -, -, hts, -, -, hk0, hk1, hk2⟩ :=
    record_access_ok cfg tx
      ⟨rah.local_item_.tbl, rah.local_item_.row_id, rah.local_item_.cf_id⟩ check_dup_access
      (fun hn => (hpre hn).2.2)
  have hadd := write_row_add_to_set_local cfg tx tx0 rah rah.local_item_ check_dup_access
    hv hs hsize hcap htx0 hacc haccs
  -- the upgrade runs on the published item
  obtain ⟨r, hr, hrah, -, -⟩ := write_row_upgrade_transition cfg ctx
    { tx0 with
      accesses_ := Function.update tx.accesses_ tx.access_size_
        { rah.local_item_ with i := tx.access_size_ },
      access_size_ := tx.access_size_ + 1 }
    { rah with local_item_ := { rah.local_item_ with i := tx.access_size_ },
               set_item_ := some tx.access_size_ }
    data_size data_copier allocated_version tx.access_size_ hv rfl
    (by simpa using hstate) (by simpa using hds) (by simpa using hcopier)
  obtain ⟨-, g1, g2, g3, g4, g5, g6, g7, g8, g9, g10, g11, g12⟩ :=
    write_row_upgrade_frame cfg ctx
      { tx0 with
        accesses_ := Function.update tx.accesses_ tx.access_size_
          { rah.local_item_ with i := tx.access_size_ },
        access_size_ := tx.access_size_ + 1 }
      { rah with local_item_ := { rah.local_item_ with i := tx.access_size_ },
                 set_item_ := some tx.access_size_ }
      data_size data_copier allocated_version tx.access_size_ r hv rfl hr
  refine ⟨r, ?_, ?_⟩
  · have hnv : (!rah.valid_) = false := by simp [hv]
    simp only [write_row, hb, hnv, hp, hitem, hadd, bind, Outcome.bind, Bool.false_eq_true,
      if_false]
    exact hr
  · simp only [Function.update_same] at g5 g6 g7 g8 g9 g10 g11 g12
    refine ⟨g1, by rw [hrah]; exact hv, by rw [hrah], g5, g6, g7, g8, g9, g10, g11, g12, ?_, ?_, ?_, ?_⟩
    · intro j hj
      rw [g4 j hj]
      exact Function.update_noteq hj _ _
    · rw [g2]; exact his
    · intro hc
      rw [g3]
      show tx0.access_history_ = _
      rw [hk0 hc]
    · intro hc
      constructor
      · intro hl
        rw [g3]
        show tx0.access_history_ = _
        rw [hk1 hc hl]
      · rw [g3]
        show tx0.access_history_.lookup _ ≠ none
        cases hl : tx.access_history_.lookup
            ⟨rah.local_item_.tbl, rah.local_item_.row_id, rah.local_item_.cf_id⟩ with
        | none =>
          rw [hk1 hc hl]
          simp [lookup_append_new _ _ _ hl]
        | some i0 =>
          rw [hk2 hc i0 hl, hl]
          simp

/-- C9 as stated fails: with the promotion of non-inlined versions enabled, a
`read_row` that follows a successful `peek_row` (no dedup hit; it left
`access_size = 0`, `wset_size = 0` and an empty dedup map) calls `write_row`,
which adds the item to the access set: afterwards `access_size = 1`,
`wset_size = 1`, `accesses_[0]` is in state ReadWrite and the dedup map holds
the key. -/
theorem read_row_promotion_changes_access_set :
    (peek_row cfgPromote 4 ctxPromotable (beginTx 20) freshHandle 0 0 0 true true false).bind
      (fun p => (read_row cfgPromote p.ctx p.tx p.rah NoopDataCopier (some 9)).bind fun r =>
        .ret (p.result, p.rah.set_item_, p.tx.access_size_, p.tx.wset_size_,
          p.tx.access_history_, (p.tx.accesses_ 0).state,
          r.result, r.tx.access_size_, r.tx.wset_size_, r.tx.access_history_,
          (r.tx.accesses_ 0).state))
      = .ret (true, none, 0, 0, [], .kInvalid, true, 1, 1, [(⟨0, 0, 0⟩, 0)], .kReadWrite) :=
  rfl

/-- C9, amended.  (a) A successful `peek_row` without a dedup hit, on a handle
that points nowhere, leaves the transaction as it was (so `access_size`,
`iset_size`, `wset_size`, the accesses array and the dedup map are unchanged)
and binds the handle to a local item in state Peek with `write_rv = null` and
`read_rv` the version the first chain walk located.  (b) A following
`read_row`, when the promotion to the inlined slot is not triggered, returns
true, leaves the shared state and the transaction unchanged and only turns the
local item to Read.  (c) A following `write_row` on the still-local item (in
state Read, or in state Peek in a build without asserts), with room in the
access set, returns, stores the item in `accesses_[old access_size]` with `i`
set to that index, increments `access_size` by one, leaves the other elements
alone and, with `check_dup_access`, leaves the key in the dedup map (mapped to
that index when it was not there before). -/
theorem peek_then_write_publishes :
    (∀ (cfg : StaticConfig) (fuel : Nat) (ctx : Context) (tx : Transaction)
        (rah : RowAccessHandle) (tbl cf_id row_id : Nat)
        (check_dup_access read_hint write_hint : Bool) (r : OpResult),
      rah.set_item_ = none →
      (check_dup_access = false ∨ tx.access_history_.lookup ⟨tbl, row_id, cf_id⟩ = none) →
      peek_row cfg fuel ctx tx rah tbl cf_id row_id check_dup_access read_hint write_hint
        = .ret r →
      r.result = true →
      r.tx = tx ∧ r.rah.valid_ = true ∧ r.rah.set_item_ = none ∧
      r.rah.local_item_.state = .kPeek ∧ r.rah.local_item_.write_rv = none ∧
      r.rah.local_item_.tbl = tbl ∧ r.rah.local_item_.cf_id = cf_id ∧
      r.rah.local_item_.row_id = row_id ∧
      ∃ n v, auto_locate cfg tx.ts_ ctx.versions fuel (.head (ctx.table_head tbl cf_id row_id))
          (ctx.heads (ctx.table_head tbl cf_id row_id)).older_rv
          (hint_flags read_hint write_hint) = .ret (n, some v) ∧
        r.rah.local_item_.read_rv = some v) ∧
    (∀ (cfg : StaticConfig) (ctx : Context) (tx : Transaction) (rah : RowAccessHandle)
        (data_copier : DataCopier) (allocated_version : Option Nat),
      (cfg.NDEBUG = false → tx.began_ = true ∧ tx.peek_only_ = false) →
      rah.valid_ = true → rah.set_item_ = none → rah.local_item_.state = .kPeek →
      promotes cfg ctx rah.local_item_ = .ret false →
      read_row cfg ctx tx rah data_copier allocated_version =
        .ret ⟨true, ctx, tx,
          { rah with local_item_ := { rah.local_item_ with state := .kRead } }⟩) ∧
    (∀ (cfg : StaticConfig) (ctx : Context) (tx : Transaction) (rah : RowAccessHandle)
        (data_size : Nat) (data_copier : DataCopier) (check_dup_access : Bool)
        (allocated_version : Option Nat),
      rah.valid_ = true → rah.set_item_ = none →
      (rah.local_item_.state = .kRead ∨
        (rah.local_item_.state = .kPeek ∧ cfg.NDEBUG = true)) →
      tx.access_size_ < cfg.kMaxAccessSize → cfg.kMaxAccessSize ≤ 65535 →
      (cfg.NDEBUG = false → tx.began_ = true ∧ tx.peek_only_ = false ∧
        (check_dup_access = true → tx.access_history_.lookup
          ⟨rah.local_item_.tbl, rah.local_item_.row_id, rah.local_item_.cf_id⟩ = none)) →
      (data_size = kDefaultWriteDataSize → rah.local_item_.read_rv ≠ none) →
      (∀ dest src, ∃ c, data_copier rah.local_item_.cf_id dest src = .ret c) →
      ∃ r, write_row cfg ctx tx rah data_size data_copier check_dup_access allocated_version
          = .ret r ∧
        r.tx.access_size_ = tx.access_size_ + 1 ∧
        r.rah.valid_ = true ∧ r.rah.set_item_ = some tx.access_size_ ∧
        (r.tx.accesses_ tx.access_size_).i = tx.access_size_ ∧
        (r.tx.accesses_ tx.access_size_).inserted = rah.local_item_.inserted ∧
        (r.tx.accesses_ tx.access_size_).tbl = rah.local_item_.tbl ∧
        (r.tx.accesses_ tx.access_size_).cf_id = rah.local_item_.cf_id ∧
        (r.tx.accesses_ tx.access_size_).row_id = rah.local_item_.row_id ∧
        (r.tx.accesses_ tx.access_size_).head = rah.local_item_.head ∧
        (r.tx.accesses_ tx.access_size_).newer_rv = rah.local_item_.newer_rv ∧
        (r.tx.accesses_ tx.access_size_).read_rv = rah.local_item_.read_rv ∧
        (∀ j, j ≠ tx.access_size_ → r.tx.accesses_ j = tx.accesses_ j) ∧
        r.tx.iset_size_ = tx.iset_size_ ∧
        (check_dup_access = false → r.tx.access_history_ = tx.access_history_) ∧
        (check_dup_access = true →
          (tx.access_history_.lookup
            ⟨rah.local_item_.tbl, rah.local_item_.row_id, rah.local_item_.cf_id⟩ = none →
            r.tx.access_history_ = tx.access_history_ ++
              [(⟨rah.local_item_.tbl, rah.local_item_.row_id, rah.local_item_.cf_id⟩,
                tx.access_size_)]) ∧
          r.tx.access_history_.lookup
            ⟨rah.local_item_.tbl, rah.local_item_.row_id, rah.local_item_.cf_id⟩ ≠ none)) := by
  refine ⟨?_, ?_, ?_⟩
  · intro cfg fuel ctx tx rah tbl cf_id row_id check rh wh r hs hmiss h htrue
    rcases peek_row_ret cfg fuel ctx tx rah tbl cf_id row_id check rh wh r h with
      ⟨-, hr⟩ | ⟨-, idx, hc, hl, -⟩ | ⟨-, -, hloc⟩
    · rw [hr] at htrue; simp at htrue
    · rcases hmiss with hm | hm
      · rw [hm] at hc; simp at hc
      · rw [hm] at hl; simp at hl
    · obtain ⟨⟨n1, rv1, hL1, hnone, hsome⟩, -, -, -, -, -, -, -, -, -, htx⟩ :=
        peek_row_locate_ret cfg fuel ctx tx rah tbl cf_id row_id rh wh r hloc
      cases rv1 with
      | none => rw [(hnone rfl).2] at htrue; simp at htrue
      | some v =>
        obtain ⟨n2, -, hrah⟩ := (hsome v rfl).2 htrue
        rw [hrah]
        exact ⟨htx htrue, rfl, hs, rfl, rfl, rfl, rfl, rfl, n1, v, hL1, rfl⟩
  · intro cfg ctx tx rah data_copier allocated_version hpre hv hs hpk hpromo
    have hheld : held_item tx rah = rah.local_item_ := by simp [held_item, hs]
    have := read_row_peek cfg ctx tx rah data_copier allocated_version hpre hv
      (by rw [hheld]; exact hpk) (by rw [hheld]; exact hpromo)
    rw [this, hheld]
    simp [store_item, hs]
  · intro cfg ctx tx rah data_size data_copier check allocated_version hv hs hstate hsize hcap
      hpre hds hcopier
    exact write_row_local cfg ctx tx rah data_size data_copier check allocated_version hv hs
      hstate hsize hcap hpre hds hcopier

/-- The three steps on row 0 of `ctxOneRow` at timestamp 20, in a build with
asserts: the peek succeeds and the access set stays empty, the read keeps it
empty, the write puts the item in `accesses_[0]` and the key in the dedup map. -/
theorem peek_then_write_publishes_witness :
    (∃ r, write_row cfgDebug (ctxOneRow 20) (beginTx 20) readHandle 1 NoopDataCopier true
        (some 2) = .ret r ∧
      r.tx.access_size_ = 1 ∧ (r.tx.accesses_ 0).i = 0 ∧ (r.tx.accesses_ 0).read_rv = some 1 ∧
      r.tx.access_history_ = [(⟨0, 0, 0⟩, 0)]) ∧
    read_row cfgDebug (ctxOneRow 20) (beginTx 20) peekedHandle NoopDataCopier none
      = .ret ⟨true, ctxOneRow 20, beginTx 20, readHandle⟩ ∧
    (peek_row cfgDebug 4 (ctxOneRow 10) (beginTx 20) freshHandle 0 0 0 true true true).bind
      (fun p => .ret (p.result, p.rah, p.tx.access_size_, p.tx.access_history_,
        (p.ctx.versions 1).rts))
      = .ret (true, peekedHandle, 0, [], 20) := by
  refine ⟨?_, ?_, rfl⟩
  · obtain ⟨r, hr, h1, -, -, h4, -, -, -, -, -, -, h11, -, -, -, h15⟩ :=
      peek_then_write_publishes.2.2 cfgDebug (ctxOneRow 20) (beginTx 20) readHandle 1
        NoopDataCopier true (some 2) rfl rfl (Or.inl rfl) (by decide) (by decide)
        (fun _ => ⟨rfl, rfl, fun _ => rfl⟩) (fun h => by simp [kDefaultWriteDataSize,
          uint64_minus_one] at h) (fun _ _ => ⟨_, rfl⟩)
    exact ⟨r, hr, h1, h4, h11, (h15 rfl).1 rfl⟩
  · exact peek_then_write_publishes.2.1 cfgDebug (ctxOneRow 20) (beginTx 20) peekedHandle
      NoopDataCopier none (fun _ => ⟨rfl, rfl⟩) rfl rfl rfl rfl

/-! ## C10: what `peek_row` and `read_row` do to the shared state -/

/-- C10 as stated fails in two places.  With the promotion of non-inlined
versions enabled, a `read_row` after a successful `peek_row` allocates the
inlined slot of the row head (address 9) and changes that version's status
from Invalid to Pending and its `wts` and `rts` from 0 to 20.  And a
successful `peek_row` need not leave a `read_rv` at all: after `new_row`
entered a key in the dedup map, `peek_row` on that key returns true with the
handle on the New item, whose `read_rv` is null. -/
theorem read_row_promotion_changes_version :
    (peek_row cfgPromote 4 ctxPromotable (beginTx 20) freshHandle 0 0 0 true true false).bind
      (fun p => (read_row cfgPromote p.ctx p.tx p.rah NoopDataCopier (some 9)).bind fun r =>
        .ret (p.result, (p.ctx.versions 9).status, (p.ctx.versions 9).wts,
          (p.ctx.versions 9).rts,
          r.result, (r.ctx.versions 9).status, (r.ctx.versions 9).wts, (r.ctx.versions 9).rts))
      = .ret (true, .kInvalid, 0, 0, true, .kPending, 20, 20) ∧
    (new_row cfgDebug (ctxOneRow 10) (beginTx 20) freshHandle 0 0 kNewRowID true 8
        NoopDataCopier 5 (some 2)).bind
      (fun n => (peek_row cfgDebug 4 n.ctx n.tx freshHandle 0 0 5 true true false).bind fun p =>
        .ret (n.result, p.result, (held_item p.tx p.rah).state, (held_item p.tx p.rah).read_rv))
      = .ret (true, true, .kNew, none) :=
  ⟨rfl, rfl⟩

/-- Raising `rts` changes no other field. -/
theorem set_rts_frame (ctx : Context) (v t : Nat) :
    (ctx.set_version v (rts_update (ctx.versions v) t)).heads = ctx.heads ∧
    ∀ p, ((ctx.set_version v (rts_update (ctx.versions v) t)).versions p).wts
          = (ctx.versions p).wts ∧
      ((ctx.set_version v (rts_update (ctx.versions v) t)).versions p).status
          = (ctx.versions p).status ∧
      ((ctx.set_version v (rts_update (ctx.versions v) t)).versions p).older_rv
          = (ctx.versions p).older_rv ∧
      ((ctx.set_version v (rts_update (ctx.versions v) t)).versions p).data
          = (ctx.versions p).data ∧
      ((ctx.set_version v (rts_update (ctx.versions v) t)).versions p).rts
          = (if p = v then max (ctx.versions p).rts t else (ctx.versions p).rts) := by
  refine ⟨rfl, fun p => ?_⟩
  by_cases hp : p = v
  · subst hp
    simp [Context.set_version, rts_update]
  · simp [Context.set_version, Function.update_noteq hp, hp]

/-- C10, amended.  (a) Whenever `peek_row` on a regular handle returns, no
version's `wts`, `status`, `older_rv` or `data` and no row head has changed,
and no `rts` has decreased: the shared state is as before, or differs only in
that the version found by the first chain walk has `rts = max(old rts, ts)`.
(b) After a successful `peek_row` that did not hit the dedup map the local
item's `read_rv` is a version whose `rts` is at least `ts`; on a dedup hit
nothing changes at all.  (c) `read_row`, when the promotion to the inlined
slot is not triggered, returns and leaves the shared state unchanged. -/
theorem peek_read_shared_state :
    (∀ (cfg : StaticConfig) (fuel : Nat) (ctx : Context) (tx : Transaction)
        (rah : RowAccessHandle) (tbl cf_id row_id : Nat)
        (check_dup_access read_hint write_hint : Bool) (r : OpResult),
      peek_row cfg fuel ctx tx rah tbl cf_id row_id check_dup_access read_hint write_hint
        = .ret r →
      r.ctx.heads = ctx.heads ∧
      (∀ p, (r.ctx.versions p).wts = (ctx.versions p).wts ∧
        (r.ctx.versions p).status = (ctx.versions p).status ∧
        (r.ctx.versions p).older_rv = (ctx.versions p).older_rv ∧
        (r.ctx.versions p).data = (ctx.versions p).data ∧
        (ctx.versions p).rts ≤ (r.ctx.versions p).rts) ∧
      (r.ctx = ctx ∨
        ∃ n v, auto_locate cfg tx.ts_ ctx.versions fuel
            (.head (ctx.table_head tbl cf_id row_id))
            (ctx.heads (ctx.table_head tbl cf_id row_id)).older_rv
            (hint_flags read_hint write_hint) = .ret (n, some v) ∧
          r.ctx = ctx.set_version v (rts_update (ctx.versions v) tx.ts_) ∧
          (r.ctx.versions v).rts = max (ctx.versions v).rts tx.ts_)) ∧
    (∀ (cfg : StaticConfig) (fuel : Nat) (ctx : Context) (tx : Transaction)
        (rah : RowAccessHandle) (tbl cf_id row_id : Nat)
        (check_dup_access read_hint write_hint : Bool) (r : OpResult),
      peek_row cfg fuel ctx tx rah tbl cf_id row_id check_dup_access read_hint write_hint
        = .ret r →
      r.result = true →
      ((check_dup_access = false ∨ tx.access_history_.lookup ⟨tbl, row_id, cf_id⟩ = none) →
        r.rah.set_item_ = rah.set_item_ ∧
        ∃ v, r.rah.local_item_.read_rv = some v ∧ tx.ts_ ≤ (r.ctx.versions v).rts) ∧
      (∀ idx, check_dup_access = true →
        tx.access_history_.lookup ⟨tbl, row_id, cf_id⟩ = some idx →
        r.ctx = ctx ∧ r.tx = tx ∧ r.rah.set_item_ = some idx)) ∧
    (∀ (cfg : StaticConfig) (ctx : Context) (tx : Transaction) (rah : RowAccessHandle)
        (data_copier : DataCopier) (allocated_version : Option Nat),
      (cfg.NDEBUG = false → tx.began_ = true ∧ tx.peek_only_ = false) →
      (rah.valid_ = true → (held_item tx rah).state = .kPeek →
        promotes cfg ctx (held_item tx rah) = .ret false) →
      ∃ r, read_row cfg ctx tx rah data_copier allocated_version = .ret r ∧ r.ctx = ctx) := by
  refine ⟨?_, ?_, ?_⟩
  · intro cfg fuel ctx tx rah tbl cf_id row_id check rh wh r h
    have key : r.ctx = ctx ∨
        ∃ n v, auto_locate cfg tx.ts_ ctx.versions fuel
            (.head (ctx.table_head tbl cf_id row_id))
            (ctx.heads (ctx.table_head tbl cf_id row_id)).older_rv
            (hint_flags rh wh) = .ret (n, some v) ∧
          r.ctx = ctx.set_version v (rts_update (ctx.versions v) tx.ts_) := by
      rcases peek_row_ret cfg fuel ctx tx rah tbl cf_id row_id check rh wh r h with
        ⟨-, hr⟩ | ⟨-, idx, -, -, hr⟩ | ⟨-, -, hloc⟩
      · exact Or.inl (by rw [hr])
      · exact Or.inl (by rw [hr])
      · obtain ⟨⟨n1, rv1, hL1, hnone, hsome⟩, -⟩ :=
          peek_row_locate_ret cfg fuel ctx tx rah tbl cf_id row_id rh wh r hloc
        cases rv1 with
        | none => exact Or.inl (hnone rfl).1
        | some v => exact Or.inr ⟨n1, v, hL1, (hsome v rfl).1⟩
    rcases key with hc | ⟨n, v, hL, hc⟩
    · rw [hc]
      exact ⟨rfl, fun p => ⟨rfl, rfl, rfl, rfl, Nat.le_refl _⟩, Or.inl rfl⟩
    · obtain ⟨hh, hv⟩ := set_rts_frame ctx v tx.ts_
      rw [hc]
      refine ⟨hh, fun p => ?_, Or.inr ⟨n, v, hL, rfl, ?_⟩⟩
      · obtain ⟨h1, h2, h3, h4, h5⟩ := hv p
        refine ⟨h1, h2, h3, h4, ?_⟩
        rw [h5]
        split
        · exact Nat.le_max_left _ _
        · exact Nat.le_refl _
      · rw [(hv v).2.2.2.2]; simp
  · intro cfg fuel ctx tx rah tbl cf_id row_id check rh wh r h htrue
    rcases peek_row_ret cfg fuel ctx tx rah tbl cf_id row_id check rh wh r h with
      ⟨-, hr⟩ | ⟨-, idx, hck, hl, hr⟩ | ⟨-, hmiss, hloc⟩
    · rw [hr] at htrue; simp at htrue
    · refine ⟨fun hm => ?_, fun idx' _ hl' => ?_⟩
      · rcases hm with hm | hm
        · rw [hm] at hck; simp at hck
        · rw [hm] at hl; simp at hl
      · rw [hl] at hl'
        obtain rfl : idx = idx' := by simpa using hl'
        rw [hr]
        exact ⟨rfl, rfl, rfl⟩
    · refine ⟨fun _ => ?_, fun idx hck hl => ?_⟩
      · obtain ⟨⟨n1, rv1, hL1, hnone, hsome⟩, -⟩ :=
          peek_row_locate_ret cfg fuel ctx tx rah tbl cf_id row_id rh wh r hloc
        cases rv1 with
        | none => rw [(hnone rfl).2] at htrue; simp at htrue
        | some v =>
          obtain ⟨hctx, hrest⟩ := hsome v rfl
          obtain ⟨n2, -, hrah⟩ := hrest htrue
          rw [hrah, hctx]
          refine ⟨rfl, v, rfl, ?_⟩
          rw [(set_rts_frame ctx v tx.ts_).2 v |>.2.2.2.2]
          simp
      · rcases hmiss with hm | hm
        · rw [hm] at hck; simp at hck
        · rw [hm] at hl; simp at hl
  · intro cfg ctx tx rah data_copier allocated_version hpre hpromo
    by_cases hpk : rah.valid_ = true ∧ (held_item tx rah).state = .kPeek
    · exact ⟨_, read_row_peek cfg ctx tx rah data_copier allocated_version hpre hpk.1 hpk.2
        (hpromo hpk.1 hpk.2), rfl⟩
    · obtain ⟨b, hrun, -⟩ :=
        read_row_not_peek cfg ctx tx rah data_copier allocated_version hpre hpk
      exact ⟨_, hrun, rfl⟩

/-- Scenario S2 at timestamp 20 on the row committed at 10: `peek_row` succeeds
and raises `rts` of the version at address 1 from 10 to 20, `read_row` changes
nothing in the shared state, and the chain is still the one committed version. -/
theorem peek_read_shared_state_witness :
    (∃ p, peek_row cfgDebug 4 (ctxOneRow 10) (beginTx 20) freshHandle 0 0 0 true true false
        = .ret p ∧ p.result = true ∧
      ((ctxOneRow 10).versions 1).rts = 10 ∧ (p.ctx.versions 1).rts = 20 ∧
      (p.ctx.versions 1).status = .kCommitted ∧ (p.ctx.versions 1).wts = 10 ∧
      IsChain p.ctx.versions (p.ctx.heads 0).older_rv [1]) ∧
    (∃ r, read_row cfgDebug (ctxOneRow 20) (beginTx 20) peekedHandle NoopDataCopier none
        = .ret r ∧ r.ctx = ctxOneRow 20) := by
  constructor
  · refine ⟨⟨true, (ctxOneRow 10).set_version 1 (rts_update ((ctxOneRow 10).versions 1) 20),
      beginTx 20, peekedHandle⟩, rfl, rfl, rfl, ?_⟩
    obtain ⟨hheads, hvers, -⟩ := peek_read_shared_state.1 cfgDebug 4 (ctxOneRow 10) (beginTx 20)
      freshHandle 0 0 0 true true false
      ⟨true, (ctxOneRow 10).set_version 1 (rts_update ((ctxOneRow 10).versions 1) 20),
        beginTx 20, peekedHandle⟩ rfl
    refine ⟨rfl, ?_, ?_, ?_⟩
    · rw [(hvers 1).2.1]; rfl
    · rw [(hvers 1).1]; rfl
    · show IsChain _ ((ctxOneRow 10).heads 0).older_rv [1]
      simp [IsChain, ctxOneRow, Context.set_version, rts_update, committedVersion]
  · exact peek_read_shared_state.2.2 cfgDebug (ctxOneRow 20) (beginTx 20) peekedHandle
      NoopDataCopier none (fun _ => ⟨rfl, rfl⟩) (fun _ _ => rfl)

/-! ## `write_row` on an item of the access set -/

/-- `write_row` on an unbound handle returns false and changes nothing. -/
theorem write_row_unbound (cfg : StaticConfig) (ctx : Context) (tx : Transaction)
    (rah : RowAccessHandle) (data_size : Nat) (data_copier : DataCopier)
    (check_dup_access : Bool) (allocated_version : Option Nat)
    (hpre : cfg.NDEBUG = false → tx.began_ = true) (hv : rah.valid_ = false) :
    write_row cfg ctx tx rah data_size data_copier check_dup_access allocated_version
      = .ret ⟨false, ctx, tx, rah⟩ := by
  have hb : cassert cfg tx.began_ = .ret () := cassert_ok _ _ hpre
  simp [write_row, hb, hv, bind, Outcome.bind]

/-- `write_row` on a handle that points into the access set adds nothing to
the set: it is the upgrade part alone. -/
theorem write_row_on_set_item (cfg : StaticConfig) (ctx : Context) (tx : Transaction)
    (rah : RowAccessHandle) (data_size : Nat) (data_copier : DataCopier)
    (check_dup_access : Bool) (allocated_version : Option Nat) (idx : Nat)
    (hpre : cfg.NDEBUG = false → tx.began_ = true ∧ tx.peek_only_ = false)
    (hv : rah.valid_ = true) (hs : rah.set_item_ = some idx) :
    write_row cfg ctx tx rah data_size data_copier check_dup_access allocated_version
      = write_row_upgrade cfg ctx tx rah data_size data_copier allocated_version := by
  have hb : cassert cfg tx.began_ = .ret () := cassert_ok _ _ fun hn => (hpre hn).1
  have hp : cassert cfg (!tx.peek_only_) = .ret () :=
    cassert_ok _ _ fun hn => by simp [(hpre hn).2]
  have hitem := item_of_bound cfg tx rah hv
  have hnv : (!rah.valid_) = false := by simp [hv]
  simp only [write_row, hb, hnv, hp, hitem, write_row_add_to_set, hs, bind, Outcome.bind,
    Bool.false_eq_true, if_false]
  simp

/-- The state chart of `write_row` for a handle that points to `accesses_[idx]`,
leaving out the state Peek in builds with asserts (see C3): from New, Write and
ReadWrite the call returns true and changes nothing; from Delete, ReadDelete
and Invalid it returns false and changes nothing; from Read (and from Peek
with `NDEBUG`), with a version at `w` and a copier that returns true, it
returns true, the item is in state ReadWrite (Write from Peek) with
`write_rv = w`, the version has `wts = rts = ts` and status Pending, and the
item's `i` is appended to `wset_idx` once. -/
theorem write_row_state_chart (cfg : StaticConfig) (ctx : Context) (tx : Transaction)
    (rah : RowAccessHandle) (data_size : Nat) (data_copier : DataCopier)
    (check_dup_access : Bool) (w idx : Nat)
    (hpre : cfg.NDEBUG = false → tx.began_ = true ∧ tx.peek_only_ = false)
    (hv : rah.valid_ = true) (hs : rah.set_item_ = some idx)
    (hds : data_size = kDefaultWriteDataSize → (tx.accesses_ idx).read_rv ≠ none)
    (hcopier : ∀ dest src, ∃ data, data_copier (tx.accesses_ idx).cf_id dest src
      = .ret (true, data)) :
    (((tx.accesses_ idx).state = .kNew ∨ (tx.accesses_ idx).state = .kWrite ∨
        (tx.accesses_ idx).state = .kReadWrite) →
      write_row cfg ctx tx rah data_size data_copier check_dup_access (some w)
        = .ret ⟨true, ctx, tx, rah⟩) ∧
    (((tx.accesses_ idx).state = .kDelete ∨ (tx.accesses_ idx).state = .kReadDelete ∨
        (tx.accesses_ idx).state = .kInvalid) →
      write_row cfg ctx tx rah data_size data_copier check_dup_access (some w)
        = .ret ⟨false, ctx, tx, rah⟩) ∧
    (((tx.accesses_ idx).state = .kRead ∨
        ((tx.accesses_ idx).state = .kPeek ∧ cfg.NDEBUG = true)) →
      ∃ r, write_row cfg ctx tx rah data_size data_copier check_dup_access (some w)
          = .ret r ∧
        r.result = true ∧ r.rah = rah ∧
        (r.tx.accesses_ idx).state =
          (if (tx.accesses_ idx).state = .kPeek then .kWrite else .kReadWrite) ∧
        (r.tx.accesses_ idx).write_rv = some w ∧
        (r.ctx.versions w).wts = tx.ts_ ∧ (r.ctx.versions w).rts = tx.ts_ ∧
        (r.ctx.versions w).status = .kPending ∧
        r.tx.wset_idx_ tx.wset_size_ = (tx.accesses_ idx).i ∧
        r.tx.wset_size_ = (tx.wset_size_ + 1) % 65536 ∧
        (∀ j, j ≠ tx.wset_size_ → r.tx.wset_idx_ j = tx.wset_idx_ j)) := by
  have hrun := write_row_on_set_item cfg ctx tx rah data_size data_copier check_dup_access
    (some w) idx hpre hv hs
  have hheld : held_item tx rah = tx.accesses_ idx := by simp [held_item, hs]
  obtain ⟨hidle, hrej⟩ := write_row_upgrade_idle cfg ctx tx rah data_size data_copier (some w) hv
  rw [hheld] at hidle hrej
  refine ⟨fun h => by rw [hrun]; exact hidle h, fun h => by rw [hrun]; exact hrej h, fun h => ?_⟩
  obtain ⟨r, hr, hrah, -, hsome⟩ := write_row_upgrade_transition cfg ctx tx rah data_size
    data_copier (some w) idx hv hs h hds
    (fun dest src => by obtain ⟨d, hd⟩ := hcopier dest src; exact ⟨_, hd⟩)
  obtain ⟨h1, h2, h3, -, -, m, c, -, -, -, -, hc, hres, -, htx⟩ := hsome w rfl
  have hct : c.1 = true := by
    obtain ⟨d, hd⟩ := hcopier (m w)
      (if (tx.accesses_ idx).state = .kPeek then none else (tx.accesses_ idx).read_rv.map m)
    rw [hd] at hc
    simp only [Outcome.ret.injEq] at hc
    rw [← hc]
  have htx' := htx hct
  refine ⟨r, by rw [hrun]; exact hr, by rw [hres]; exact hct, hrah, ?_, ?_, h1, h2, h3, ?_, ?_,
    ?_⟩
  · rw [htx']; simp
  · rw [htx']; simp
  · rw [htx']; simp
  · rw [htx']
  · intro j hj
    rw [htx']
    simp [Function.update_noteq hj]

/-- The transition Read → ReadWrite on `accesses_[0]` in a build with asserts. -/
theorem write_row_state_chart_example :
    ∃ r, write_row cfgDebug (ctxOneRow 20) (txOneItem .kRead) boundHandle 1 NoopDataCopier
        true (some 2) = .ret r ∧
      r.result = true ∧ (r.tx.accesses_ 0).state = .kReadWrite ∧
      (r.ctx.versions 2).status = .kPending ∧ r.tx.wset_size_ = 1 := by
  obtain ⟨r, hr, h1, -, h3, -, -, -, h7, -, h9, -⟩ :=
    (write_row_state_chart cfgDebug (ctxOneRow 20) (txOneItem .kRead) boundHandle 1
      NoopDataCopier true 2 0 (fun _ => ⟨rfl, rfl⟩) rfl rfl
      (fun h => by simp [kDefaultWriteDataSize, uint64_minus_one] at h)
      (fun _ _ => ⟨_, rfl⟩)).2.2 (Or.inl rfl)
  exact ⟨r, hr, h1, h3, h7, h9⟩

/-! ## Returning computations -/

/-- A sequenced computation returns exactly when both parts return. -/
theorem Outcome.bind_eq_ret {α β : Type} (x : Outcome α) (f : α → Outcome β) (b : β) :
    x.bind f = .ret b ↔ ∃ a, x = .ret a ∧ f a = .ret b := by
  cases x <;> simp [Outcome.bind]

/-- An `assert` is passed exactly when asserts are compiled out or the
condition holds. -/
theorem cassert_eq_ret (cfg : StaticConfig) (c : Bool) (u : Unit) :
    cassert cfg c = .ret u ↔ (cfg.NDEBUG = false → c = true) := by
  cases hn : cfg.NDEBUG <;> cases c <;> simp [cassert, hn]

/-- Every way in which `new_row` returns false: at once on a bound handle or
without a usable row id, after a failed version allocation, or after the
copier refused. -/
theorem new_row_ret_false (cfg : StaticConfig) (ctx : Context) (tx : Transaction)
    (rah : RowAccessHandle) (tbl cf_id row_id : Nat) (check_dup_access : Bool)
    (data_size : Nat) (data_copier : DataCopier) (allocated_row : Nat)
    (allocated_version : Option Nat) (r : OpResult)
    (h : new_row cfg ctx tx rah tbl cf_id row_id check_dup_access data_size data_copier
      allocated_row allocated_version = .ret r)
    (hf : r.result = false) :
    r.rah = rah ∧ (r.tx = tx ∨ r.tx = note_abort_reason cfg tx) ∧
    ((rah.valid_ = true ∧ r.ctx = ctx) ∨
     (rah.valid_ = false ∧
      ¬ ((cf_id = 0 ∧ row_id = kNewRowID ∧ allocated_row ≠ uint64_minus_one) ∨
         (cf_id ≠ 0 ∧ row_id ≠ kNewRowID)) ∧ r.ctx = ctx) ∨
     (rah.valid_ = false ∧ cf_id = 0 ∧ row_id = kNewRowID ∧
      allocated_row ≠ uint64_minus_one ∧ allocated_version = none ∧
      r.ctx = ctx.deallocate_row tbl allocated_row) ∨
     (rah.valid_ = false ∧ cf_id ≠ 0 ∧ row_id ≠ kNewRowID ∧ allocated_version = none ∧
      r.ctx = ctx) ∨
     (rah.valid_ = false ∧
      ((cf_id = 0 ∧ row_id = kNewRowID ∧ allocated_row ≠ uint64_minus_one) ∨
         (cf_id ≠ 0 ∧ row_id ≠ kNewRowID)) ∧
      ∃ w c, allocated_version = some w ∧
        data_copier cf_id (pending_new_version (ctx.versions w) tx.ts_ data_size) none
          = .ret c ∧ c.1 = false ∧
        r.ctx.heads = ctx.heads ∧
        r.ctx.deallocated_versions = ctx.deallocated_versions ++ [some w] ∧
        r.ctx.deallocated_rows = ctx.deallocated_rows ++
          (if cf_id = 0 then [(tbl, allocated_row)] else []))) := by
  unfold new_row at h
  simp only [bind, Outcome.bind_eq_ret, cassert_eq_ret] at h
  obtain ⟨-, -, -, -, -, -, h⟩ := h
  cases hv : rah.valid_ with
  | true =>
    simp only [hv, if_true, Outcome.ret.injEq] at h
    subst h
    exact ⟨rfl, Or.inl rfl, Or.inl ⟨rfl, rfl⟩⟩
  | false =>
    simp only [hv, Bool.false_eq_true, if_false] at h
    have hprep : ∀ w, ((ctx.allocate_version w data_size).set_version w
        { (ctx.allocate_version w data_size).versions w with
          older_rv := none, wts := tx.ts_, rts := tx.ts_, status := .kPending }).versions w
        = pending_new_version (ctx.versions w) tx.ts_ data_size := by
      intro w
      simp [Context.allocate_version, Context.set_version, pending_new_version]
    by_cases hrow : (cf_id = 0 ∧ row_id = kNewRowID ∧ allocated_row ≠ uint64_minus_one) ∨
        (cf_id ≠ 0 ∧ row_id ≠ kNewRowID)
    · have hchosen : (if cf_id = 0 then
            if row_id ≠ kNewRowID then ((none : Option Nat), tx)
            else if allocated_row = uint64_minus_one then (none, note_abort_reason cfg tx)
            else (some allocated_row, tx)
          else if row_id = kNewRowID then (none, tx)
          else (some row_id, tx)) = (some (if cf_id = 0 then allocated_row else row_id), tx) := by
        rcases hrow with ⟨h0, h1, h2⟩ | ⟨h0, h1⟩
        · simp [h0, h1, h2]
        · simp [h0, h1]
      rw [hchosen] at h
      simp only at h
      cases hav : allocated_version with
      | none =>
        rw [hav] at h
        simp only [Outcome.ret.injEq] at h
        subst h
        refine ⟨rfl, Or.inl rfl, ?_⟩
        rcases hrow with ⟨h0, h1, h2⟩ | ⟨h0, h1⟩
        · exact Or.inr (Or.inr (Or.inl ⟨rfl, h0, h1, h2, rfl, by simp [h0]⟩))
        · exact Or.inr (Or.inr (Or.inr (Or.inl ⟨rfl, h0, h1, rfl, by simp [h0]⟩)))
      | some w =>
        rw [hav] at h
        simp only [run_copier, Outcome.bind_eq_ret, Option.map_none'] at h
        obtain ⟨⟨copied, ctx1⟩, ⟨c, hc, hc1⟩, h⟩ := h
        rw [hprep] at hc
        simp only [Outcome.ret.injEq, Prod.mk.injEq] at hc1
        obtain ⟨hcop, hctx1⟩ := hc1
        cases hcc : copied with
        | true =>
          simp only [hcc, Bool.not_true, Bool.false_eq_true, if_false, Outcome.bind_eq_ret] at h
          obtain ⟨_, _, _, _, _, _, h⟩ := h
          simp only [Outcome.ret.injEq] at h
          subst h
          simp at hf
        | false =>
          simp only [hcc, Bool.not_false, if_true, Outcome.ret.injEq] at h
          subst h
          refine ⟨rfl, Or.inl rfl, Or.inr (Or.inr (Or.inr (Or.inr ⟨rfl, hrow, w, c, rfl, hc,
            by rw [hcop, hcc], ?_⟩)))⟩
          subst hctx1
          rcases hrow with ⟨h0, h1, h2⟩ | ⟨h0, h1⟩
          · simp [h0, Context.deallocate_version, Context.deallocate_row, Context.set_version,
              Context.allocate_version]
          · simp [h0, Context.deallocate_version, Context.deallocate_row, Context.set_version,
              Context.allocate_version]
    · have hchosen : ∃ tx0, (tx0 = tx ∨ tx0 = note_abort_reason cfg tx) ∧ (if cf_id = 0 then
            if row_id ≠ kNewRowID then ((none : Option Nat), tx)
            else if allocated_row = uint64_minus_one then (none, note_abort_reason cfg tx)
            else (some allocated_row, tx)
          else if row_id = kNewRowID then (none, tx)
          else (some row_id, tx)) = (none, tx0) := by
        by_cases h0 : cf_id = 0
        · by_cases h1 : row_id = kNewRowID
          · by_cases h2 : allocated_row = uint64_minus_one
            · exact ⟨note_abort_reason cfg tx, Or.inr rfl, by simp [h0, h1, h2]⟩
            · exact absurd (Or.inl ⟨h0, h1, h2⟩) hrow
          · exact ⟨tx, Or.inl rfl, by simp [h0, h1]⟩
        · by_cases h1 : row_id = kNewRowID
          · exact ⟨tx, Or.inl rfl, by simp [h0, h1]⟩
          · exact absurd (Or.inr ⟨h0, h1⟩) hrow
      obtain ⟨tx0, htx0, hchosen⟩ := hchosen
      rw [hchosen] at h
      simp only [Outcome.ret.injEq] at h
      subst h
      exact ⟨rfl, htx0, Or.inr (Or.inl ⟨rfl, hrow, rfl⟩)⟩

/-! ## C20: `new_row` is atomic on failure -/

/-- C20.  Whenever `new_row` returns false, the handle, `access_size`,
`iset_size`, the accesses array, the insert-set index and the dedup map are as
before the call and no row head changed; the version it allocated (which
happens only when the row id is usable, and then the failure is a copier
refusal) has been deallocated, and the row id has been deallocated exactly
when `new_row` allocated it (`cf_id == 0` with a successful `allocate_row`).
Each of the listed causes (handle already bound, cf_id/row_id mismatch or no
row id, no version, copier refusal) makes the call return false, in a build
with asserts provided the asserted preconditions hold. -/
theorem new_row_failure_atomic (cfg : StaticConfig) (ctx : Context) (tx : Transaction)
    (rah : RowAccessHandle) (tbl cf_id row_id : Nat) (check_dup_access : Bool)
    (data_size : Nat) (data_copier : DataCopier) (allocated_row : Nat)
    (allocated_version : Option Nat) :
    (∀ r, new_row cfg ctx tx rah tbl cf_id row_id check_dup_access data_size data_copier
        allocated_row allocated_version = .ret r → r.result = false →
      r.rah = rah ∧ r.tx.access_size_ = tx.access_size_ ∧ r.tx.iset_size_ = tx.iset_size_ ∧
      r.tx.accesses_ = tx.accesses_ ∧ r.tx.iset_idx_ = tx.iset_idx_ ∧
      r.tx.access_history_ = tx.access_history_ ∧ r.tx.wset_size_ = tx.wset_size_ ∧
      r.ctx.heads = ctx.heads ∧
      r.ctx.deallocated_versions = ctx.deallocated_versions ++
        (if rah.valid_ = false ∧
            ((cf_id = 0 ∧ row_id = kNewRowID ∧ allocated_row ≠ uint64_minus_one) ∨
             (cf_id ≠ 0 ∧ row_id ≠ kNewRowID)) then
          (match allocated_version with
           | some w => [some w]
           | none => [])
         else []) ∧
      r.ctx.deallocated_rows = ctx.deallocated_rows ++
        (if rah.valid_ = false ∧ cf_id = 0 ∧ row_id = kNewRowID ∧
            allocated_row ≠ uint64_minus_one then [(tbl, allocated_row)] else [])) ∧
    ((cfg.NDEBUG = false →
        tx.began_ = true ∧ tx.peek_only_ = false ∧ data_size ≠ kDefaultWriteDataSize) →
      (rah.valid_ = true ∨
       ¬ ((cf_id = 0 ∧ row_id = kNewRowID ∧ allocated_row ≠ uint64_minus_one) ∨
          (cf_id ≠ 0 ∧ row_id ≠ kNewRowID)) ∨
       allocated_version = none ∨
       ∃ w c, allocated_version = some w ∧
        data_copier cf_id (pending_new_version (ctx.versions w) tx.ts_ data_size) none
          = .ret c ∧ c.1 = false) →
      ∃ r, new_row cfg ctx tx rah tbl cf_id row_id check_dup_access data_size data_copier
          allocated_row allocated_version = .ret r ∧ r.result = false) := by
  constructor
  · intro r h hf
    obtain ⟨hrah, htx, hcases⟩ := new_row_ret_false cfg ctx tx rah tbl cf_id row_id
      check_dup_access data_size data_copier allocated_row allocated_version r h hf
    have htxf : r.tx.access_size_ = tx.access_size_ ∧ r.tx.iset_size_ = tx.iset_size_ ∧
        r.tx.accesses_ = tx.accesses_ ∧ r.tx.iset_idx_ = tx.iset_idx_ ∧
        r.tx.access_history_ = tx.access_history_ ∧ r.tx.wset_size_ = tx.wset_size_ := by
      rcases htx with htx | htx
      · rw [htx]; simp
      · rw [htx]; unfold note_abort_reason; split <;> simp
    obtain ⟨t1, t2, t3, t4, t5, t6⟩ := htxf
    refine ⟨hrah, t1, t2, t3, t4, t5, t6, ?_⟩
    rcases hcases with ⟨hv, hc⟩ | ⟨hv, hrow, hc⟩ | ⟨hv, h0, h1, h2, hav, hc⟩ |
      ⟨hv, h0, h1, hav, hc⟩ | ⟨hv, hrow, w, c, hav, -, -, hh, hdv, hdr⟩
    · rw [hc]; simp [hv]
    · have hno : ¬ (cf_id = 0 ∧ row_id = kNewRowID ∧ allocated_row ≠ uint64_minus_one) :=
        fun hx => hrow (Or.inl hx)
      rw [hc, if_neg (fun hx => hrow hx.2), if_neg (fun hx => hno hx.2)]
      simp
    · rw [hc]; simp [hv, h0, h1, h2, hav, Context.deallocate_row]
    · rw [hc]; simp [hv, h0, h1, hav]
    · refine ⟨hh, ?_, ?_⟩
      · rw [hdv]; simp [hv, hrow, hav]
      · rw [hdr]
        rcases hrow with ⟨h0, h1, h2⟩ | ⟨h0, h1⟩
        · simp [hv, h0, h1, h2]
        · simp [h0]
  · intro hpre hcause
    have hb : cassert cfg tx.began_ = .ret () := cassert_ok _ _ fun hn => (hpre hn).1
    have hp : cassert cfg (!tx.peek_only_) = .ret () :=
      cassert_ok _ _ fun hn => by simp [(hpre hn).2.1]
    have hd : cassert cfg (data_size != kDefaultWriteDataSize) = .ret () :=
      cassert_ok _ _ fun hn => by simpa using (hpre hn).2.2
    cases hv : rah.valid_ with
    | true =>
      exact ⟨⟨false, ctx, tx, rah⟩, by simp [new_row, hb, hp, hd, hv, bind, Outcome.bind], rfl⟩
    | false =>
      by_cases hrow : (cf_id = 0 ∧ row_id = kNewRowID ∧ allocated_row ≠ uint64_minus_one) ∨
          (cf_id ≠ 0 ∧ row_id ≠ kNewRowID)
      · have hchosen : (if cf_id = 0 then
              if row_id ≠ kNewRowID then ((none : Option Nat), tx)
              else if allocated_row = uint64_minus_one then (none, note_abort_reason cfg tx)
              else (some allocated_row, tx)
            else if row_id = kNewRowID then (none, tx)
            else (some row_id, tx)) = (some (if cf_id = 0 then allocated_row else row_id), tx) := by
          rcases hrow with ⟨h0, h1, h2⟩ | ⟨h0, h1⟩
          · simp [h0, h1, h2]
          · simp [h0, h1]
        rcases hcause with hc | hc | hc | ⟨w, c, hav, hc, hc1⟩
        · rw [hv] at hc; cases hc
        · exact absurd hrow hc
        · refine ⟨⟨false, if cf_id = 0 then ctx.deallocate_row tbl
              (if cf_id = 0 then allocated_row else row_id) else ctx, tx, rah⟩, ?_, rfl⟩
          simp only [new_row, hb, hp, hd, hv, hchosen, hc, bind, Outcome.bind]
          rfl
        · have hprep : ((ctx.allocate_version w data_size).set_version w
              { (ctx.allocate_version w data_size).versions w with
                older_rv := none, wts := tx.ts_, rts := tx.ts_, status := .kPending }).versions w
              = pending_new_version (ctx.versions w) tx.ts_ data_size := by
            simp [Context.allocate_version, Context.set_version, pending_new_version]
          have hrun : ∃ ctx1, run_copier ((ctx.allocate_version w data_size).set_version w
              { (ctx.allocate_version w data_size).versions w with
                older_rv := none, wts := tx.ts_, rts := tx.ts_, status := .kPending })
              data_copier cf_id w none = .ret (false, ctx1) := by
            unfold run_copier
            rw [hprep]
            simp only [Option.map_none']
            rw [hc]
            obtain ⟨c1, c2⟩ := c
            simp only at hc1
            subst hc1
            exact ⟨_, rfl⟩
          obtain ⟨ctx1, hrun⟩ := hrun
          refine ⟨⟨false, if cf_id = 0 then (ctx1.deallocate_version (some w)).deallocate_row tbl
              (if cf_id = 0 then allocated_row else row_id)
            else ctx1.deallocate_version (some w), tx, rah⟩, ?_, rfl⟩
          simp only [new_row, hb, hp, hd, hv, hchosen, hav, bind, Outcome.bind, hrun]
          rfl
      · have hchosen : ∃ tx0, (if cf_id = 0 then
              if row_id ≠ kNewRowID then ((none : Option Nat), tx)
              else if allocated_row = uint64_minus_one then (none, note_abort_reason cfg tx)
              else (some allocated_row, tx)
            else if row_id = kNewRowID then (none, tx)
            else (some row_id, tx)) = (none, tx0) := by
          by_cases h0 : cf_id = 0
          · by_cases h1 : row_id = kNewRowID
            · by_cases h2 : allocated_row = uint64_minus_one
              · exact ⟨note_abort_reason cfg tx, by simp [h0, h1, h2]⟩
              · exact absurd (Or.inl ⟨h0, h1, h2⟩) hrow
            · exact ⟨tx, by simp [h0, h1]⟩
          · by_cases h1 : row_id = kNewRowID
            · exact ⟨tx, by simp [h0, h1]⟩
            · exact absurd (Or.inr ⟨h0, h1⟩) hrow
        obtain ⟨tx0, hchosen⟩ := hchosen
        refine ⟨⟨false, ctx, tx0, rah⟩, ?_, rfl⟩
        simp only [new_row, hb, hp, hd, hv, hchosen, bind, Outcome.bind]
        rfl

/-- A new row of column family 0 gets row id 5 and the version at address 2,
and the copier refuses: the call returns false, the transaction and the handle
are as before, and both the version and the row id are deallocated. -/
theorem new_row_failure_atomic_witness :
    ∃ r, new_row cfgDebug (ctxOneRow 10) (beginTx 20) freshHandle 0 0 kNewRowID true 8
        RefusingDataCopier 5 (some 2) = .ret r ∧
      r.result = false ∧ r.rah = freshHandle ∧ r.tx.access_size_ = 0 ∧
      r.tx.access_history_ = [] ∧ r.ctx.deallocated_versions = [some 2] ∧
      r.ctx.deallocated_rows = [(0, 5)] := by
  have hthm := new_row_failure_atomic cfgDebug (ctxOneRow 10) (beginTx 20) freshHandle 0 0
    kNewRowID true 8 RefusingDataCopier 5 (some 2)
  obtain ⟨r, hr, hres⟩ := hthm.2 (fun _ => ⟨rfl, rfl, by decide⟩)
    (Or.inr (Or.inr (Or.inr ⟨2, _, rfl, rfl, rfl⟩)))
  obtain ⟨h1, h2, -, -, -, h6, -, -, h9, h10⟩ := hthm.1 r hr hres
  refine ⟨r, hr, hres, h1, h2, h6, ?_, ?_⟩
  · rw [h9]; rfl
  · rw [h10]; rfl

/-! ## C18: the access set is full -/

/-- When the upgrade part of `write_row` returns false on an item of the access
set, the item keeps its state, the write set and the deallocation log are as
before and no row head changed; from Read or Peek the item's `write_rv` is what
the allocation returned, and after a failed allocation the shared state is
unchanged. -/
theorem write_row_upgrade_failure (cfg : StaticConfig) (ctx : Context) (tx : Transaction)
    (rah : RowAccessHandle) (data_size : Nat) (data_copier : DataCopier)
    (allocated_version : Option Nat) (idx : Nat) (r : OpResult)
    (hv : rah.valid_ = true) (hs : rah.set_item_ = some idx)
    (h : write_row_upgrade cfg ctx tx rah data_size data_copier allocated_version = .ret r)
    (hf : r.result = false) :
    (r.tx.accesses_ idx).state = (tx.accesses_ idx).state ∧
    r.tx.wset_size_ = tx.wset_size_ ∧ r.tx.wset_idx_ = tx.wset_idx_ ∧
    r.ctx.deallocated_versions = ctx.deallocated_versions ∧ r.ctx.heads = ctx.heads ∧
    (((tx.accesses_ idx).state = .kRead ∨ (tx.accesses_ idx).state = .kPeek) →
      (r.tx.accesses_ idx).write_rv = allocated_version) ∧
    (allocated_version = none → r.ctx = ctx) := by
  have hitem : rah.item cfg tx = .ret (tx.accesses_ idx) := by
    rw [item_of_bound cfg tx rah hv]; simp [held_item, hs]
  unfold write_row_upgrade at h
  simp only [bind, Outcome.bind_eq_ret, hitem, Outcome.ret.injEq, exists_eq_left'] at h
  obtain ⟨-, -, h⟩ := h
  by_cases hN : (tx.accesses_ idx).state = .kNew
  · rw [if_pos hN] at h
    simp only [Outcome.ret.injEq] at h
    subst h
    simp at hf
  rw [if_neg hN] at h
  by_cases hW : (tx.accesses_ idx).state = .kWrite ∨ (tx.accesses_ idx).state = .kReadWrite
  · rw [if_pos hW] at h
    simp only [Outcome.ret.injEq] at h
    subst h
    simp at hf
  rw [if_neg hW] at h
  by_cases hO : (tx.accesses_ idx).state ≠ .kPeek ∧ (tx.accesses_ idx).state ≠ .kRead
  · rw [if_pos hO] at h
    simp only [Outcome.ret.injEq] at h
    subst h
    refine ⟨rfl, rfl, rfl, rfl, rfl, ?_, fun _ => rfl⟩
    rintro (hx | hx)
    · exact absurd hx hO.2
    · exact absurd hx hO.1
  rw [if_neg hO, Outcome.bind_eq_ret] at h
  obtain ⟨ds, -, h⟩ := h
  simp only [store_item, hs] at h
  cases hav : allocated_version with
  | none =>
    rw [hav] at h
    simp only [Outcome.ret.injEq] at h
    subst h
    cases hk : cfg.kCollectExtraCommitStats <;> simp [note_abort_reason, hk]
  | some w =>
    rw [hav] at h
    simp only [run_copier, Outcome.bind_eq_ret] at h
    obtain ⟨⟨copied, ctx1⟩, ⟨c, -, hc1⟩, h⟩ := h
    simp only [Outcome.ret.injEq, Prod.mk.injEq] at hc1
    obtain ⟨hcop, hctx1⟩ := hc1
    cases hcc : copied with
    | true =>
      simp only [hcc, Bool.not_true, Bool.false_eq_true, if_false, Outcome.ret.injEq] at h
      subst h
      simp at hf
    | false =>
      simp only [hcc, Bool.not_false, if_true, Outcome.ret.injEq] at h
      subst h
      subst hctx1
      simp [Context.set_version, Context.allocate_version]

/-! ## C19: `write_row` fails without cleanup -/

/-- C19 (counterexample).  A transaction at timestamp 20 peeks and reads row 0
(so far `access_size = 0` and the dedup map is empty) and then calls
`write_row` with `check_dup_access`.  When no version can be allocated the call
returns false, yet afterwards `access_size = 1` and the dedup map holds the
key.  When the copier refuses, the call returns false, `access_size = 1`, the
dedup map holds the key, the item's `write_rv` is the allocated version (at
address 2) and no version has been deallocated. -/
theorem write_row_failure_leaves_item :
    ((peek_row cfgDebug 4 (ctxOneRow 10) (beginTx 20) freshHandle 0 0 0 true true true).bind
      fun p => (read_row cfgDebug p.ctx p.tx p.rah NoopDataCopier none).bind
      fun q => .ret (q.result, q.tx.access_size_, q.tx.access_history_, (held_item q.tx q.rah).state,
        (held_item q.tx q.rah).write_rv))
      = .ret (true, 0, [], .kRead, none) ∧
    ((peek_row cfgDebug 4 (ctxOneRow 10) (beginTx 20) freshHandle 0 0 0 true true true).bind
      fun p => (read_row cfgDebug p.ctx p.tx p.rah NoopDataCopier none).bind
      fun q => (write_row cfgDebug q.ctx q.tx q.rah 1 NoopDataCopier true none).bind
      fun r => .ret (r.result, r.tx.access_size_, r.tx.access_history_,
        (held_item r.tx r.rah).state, (held_item r.tx r.rah).write_rv,
        r.ctx.deallocated_versions))
      = .ret (false, 1, [(⟨0, 0, 0⟩, 0)], .kRead, none, []) ∧
    ((peek_row cfgDebug 4 (ctxOneRow 10) (beginTx 20) freshHandle 0 0 0 true true true).bind
      fun p => (read_row cfgDebug p.ctx p.tx p.rah NoopDataCopier none).bind
      fun q => (write_row cfgDebug q.ctx q.tx q.rah 1 RefusingDataCopier true (some 2)).bind
      fun r => .ret (r.result, r.tx.access_size_, r.tx.access_history_,
        (held_item r.tx r.rah).state, (held_item r.tx r.rah).write_rv,
        r.ctx.deallocated_versions))
      = .ret (false, 1, [(⟨0, 0, 0⟩, 0)], .kRead, some 2, []) :=
  ⟨rfl, rfl, rfl⟩

/-- C19 (amended).  `write_row` on a bound handle whose item is in state Read
(or Peek, in a build without asserts) returns; it returns false when no
version can be allocated and when the copier returns false.  Whenever it
returns false it has undone nothing: the item keeps its state, the write set
and the row heads are as before, and an item that was still local is now in
the access set (`access_size` has grown by one, the handle points to the new
element and, with `check_dup_access`, the key has been entered in the dedup
map); for an item that was already in the access set `access_size` and the
dedup map are as before.  After a failed allocation `write_rv` is null and the
shared state is unchanged.  The capacity is at most 65535, a local item has
room in the access set, and in a build with asserts the asserted preconditions
hold. -/
theorem write_row_failure_no_cleanup (cfg : StaticConfig) (ctx : Context) (tx : Transaction)
    (rah : RowAccessHandle) (data_size : Nat) (data_copier : DataCopier)
    (check_dup_access : Bool) (allocated_version : Option Nat)
    (hv : rah.valid_ = true)
    (hstate : (held_item tx rah).state = .kRead ∨
      ((held_item tx rah).state = .kPeek ∧ cfg.NDEBUG = true))
    (hroom : rah.set_item_ = none → tx.access_size_ < cfg.kMaxAccessSize)
    (hcap : cfg.kMaxAccessSize ≤ 65535)
    (hpre : cfg.NDEBUG = false → tx.began_ = true ∧ tx.peek_only_ = false ∧
      (rah.set_item_ = none → check_dup_access = true → tx.access_history_.lookup
        ⟨rah.local_item_.tbl, rah.local_item_.row_id, rah.local_item_.cf_id⟩ = none))
    (hds : data_size = kDefaultWriteDataSize → (held_item tx rah).read_rv ≠ none)
    (hcopier : ∀ dest src, ∃ c, data_copier (held_item tx rah).cf_id dest src = .ret c) :
    ∃ r, write_row cfg ctx tx rah data_size data_copier check_dup_access allocated_version
        = .ret r ∧
      (allocated_version = none → r.result = false ∧ r.ctx = ctx ∧
        (held_item r.tx r.rah).write_rv = none) ∧
      ((∀ dest src c, data_copier (held_item tx rah).cf_id dest src = .ret c → c.1 = false) →
        r.result = false) ∧
      (r.result = false →
        (held_item r.tx r.rah).state = (held_item tx rah).state ∧
        r.tx.wset_size_ = tx.wset_size_ ∧ r.ctx.heads = ctx.heads ∧
        (rah.set_item_ = none →
          r.tx.access_size_ = tx.access_size_ + 1 ∧
          r.rah.set_item_ = some tx.access_size_ ∧
          (check_dup_access = false → r.tx.access_history_ = tx.access_history_) ∧
          (check_dup_access = true → tx.access_history_.lookup
              ⟨rah.local_item_.tbl, rah.local_item_.row_id, rah.local_item_.cf_id⟩ = none →
            r.tx.access_history_ = tx.access_history_ ++
              [(⟨rah.local_item_.tbl, rah.local_item_.row_id, rah.local_item_.cf_id⟩,
                tx.access_size_)])) ∧
        (∀ idx, rah.set_item_ = some idx →
          r.tx.access_size_ = tx.access_size_ ∧
          r.tx.access_history_ = tx.access_history_ ∧ r.rah = rah)) := by
  have hb : cassert cfg tx.began_ = .ret () := cassert_ok _ _ fun hn => (hpre hn).1
  have hp : cassert cfg (!tx.peek_only_) = .ret () :=
    cassert_ok _ _ fun hn => by simp [(hpre hn).2.1]
  have hnv : (!rah.valid_) = false := by simp [hv]
  cases hs : rah.set_item_ with
  | none =>
    have hheld : held_item tx rah = rah.local_item_ := by simp [held_item, hs]
    rw [hheld] at hstate hds hcopier ⊢
    have hitem : rah.item cfg tx = .ret rah.local_item_ := by
      rw [item_of_bound cfg tx rah hv, hheld]
    obtain ⟨tx0, htx0, hacc, -, hws, haccs, -, -, -, -, -, hk0, hk1, -⟩ :=
      record_access_ok cfg tx
        ⟨rah.local_item_.tbl, rah.local_item_.row_id, rah.local_item_.cf_id⟩ check_dup_access
        (fun hn => (hpre hn).2.2 hs)
    have hadd := write_row_add_to_set_local cfg tx tx0 rah rah.local_item_ check_dup_access
      hv hs (hroom hs) hcap htx0 hacc haccs
    obtain ⟨r, hr, hrah, hnone, hsome⟩ := write_row_upgrade_transition cfg ctx
      { tx0 with
        accesses_ := Function.update tx.accesses_ tx.access_size_
          { rah.local_item_ with i := tx.access_size_ },
        access_size_ := tx.access_size_ + 1 }
      { rah with local_item_ := { rah.local_item_ with i := tx.access_size_ },
                 set_item_ := some tx.access_size_ }
      data_size data_copier allocated_version tx.access_size_ hv rfl
      (by simpa using hstate) (by simpa using hds) (by simpa using hcopier)
    obtain ⟨-, g1, -, g3, -⟩ :=
      write_row_upgrade_frame cfg ctx
        { tx0 with
          accesses_ := Function.update tx.accesses_ tx.access_size_
            { rah.local_item_ with i := tx.access_size_ },
          access_size_ := tx.access_size_ + 1 }
        { rah with local_item_ := { rah.local_item_ with i := tx.access_size_ },
                   set_item_ := some tx.access_size_ }
        data_size data_copier allocated_version tx.access_size_ r hv rfl hr
    have hfail := write_row_upgrade_failure cfg ctx
        { tx0 with
          accesses_ := Function.update tx.accesses_ tx.access_size_
            { rah.local_item_ with i := tx.access_size_ },
          access_size_ := tx.access_size_ + 1 }
        { rah with local_item_ := { rah.local_item_ with i := tx.access_size_ },
                   set_item_ := some tx.access_size_ }
        data_size data_copier allocated_version tx.access_size_ r hv rfl hr
    have hheld' : held_item r.tx r.rah = r.tx.accesses_ tx.access_size_ := by
      rw [hrah]; simp [held_item]
    have hst : (rah.local_item_.state = .kRead ∨ rah.local_item_.state = .kPeek) := by
      rcases hstate with h | ⟨h, _⟩
      · exact Or.inl h
      · exact Or.inr h
    refine ⟨r, ?_, ?_, ?_, ?_⟩
    · simp only [write_row, hb, hnv, hp, hitem, hadd, bind, Outcome.bind, Bool.false_eq_true,
        if_false]
      exact hr
    · intro hav
      obtain ⟨h1, h2⟩ := hnone hav
      obtain ⟨-, -, -, -, -, f6, -⟩ := hfail h1
      refine ⟨h1, h2, ?_⟩
      rw [hheld', f6 (by simpa using hst), hav]
    · intro href
      cases hav : allocated_version with
      | none => exact (hnone hav).1
      | some w =>
        obtain ⟨-, -, -, -, -, m, c, -, -, -, -, hc, hres, -⟩ := hsome w hav
        rw [hres]
        simp only [Function.update_same] at hc
        exact href _ _ c hc
    · intro hf
      obtain ⟨f1, f2, -, -, f5, -, -⟩ := hfail hf
      refine ⟨?_, ?_, f5, ?_, ?_⟩
      · rw [hheld', f1]; simp
      · rw [f2]; exact hws
      · intro _
        refine ⟨g1, by rw [hrah], ?_, ?_⟩
        · intro hc
          rw [g3]
          show tx0.access_history_ = _
          rw [hk0 hc]
        · intro hc hl
          rw [g3]
          show tx0.access_history_ = _
          rw [hk1 hc hl]
      · intro idx hidx
        cases hidx
  | some idx =>
    have hheld : held_item tx rah = tx.accesses_ idx := by simp [held_item, hs]
    rw [hheld] at hstate hds hcopier ⊢
    have heq := write_row_on_set_item cfg ctx tx rah data_size data_copier check_dup_access
      allocated_version idx (fun hn => ⟨(hpre hn).1, (hpre hn).2.1⟩) hv hs
    obtain ⟨r, hr, hrah, hnone, hsome⟩ := write_row_upgrade_transition cfg ctx tx rah
      data_size data_copier allocated_version idx hv hs hstate hds hcopier
    obtain ⟨-, g1, -, g3, -⟩ := write_row_upgrade_frame cfg ctx tx rah
      data_size data_copier allocated_version idx r hv hs hr
    have hfail := write_row_upgrade_failure cfg ctx tx rah
      data_size data_copier allocated_version idx r hv hs hr
    have hheld' : held_item r.tx r.rah = r.tx.accesses_ idx := by
      rw [hrah]; simp [held_item, hs]
    have hst : ((tx.accesses_ idx).state = .kRead ∨ (tx.accesses_ idx).state = .kPeek) := by
      rcases hstate with h | ⟨h, _⟩
      · exact Or.inl h
      · exact Or.inr h
    refine ⟨r, by rw [heq]; exact hr, ?_, ?_, ?_⟩
    · intro hav
      obtain ⟨h1, h2⟩ := hnone hav
      obtain ⟨-, -, -, -, -, f6, -⟩ := hfail h1
      refine ⟨h1, h2, ?_⟩
      rw [hheld', f6 hst, hav]
    · intro href
      cases hav : allocated_version with
      | none => exact (hnone hav).1
      | some w =>
        obtain ⟨-, -, -, -, -, m, c, -, -, -, -, hc, hres, -⟩ := hsome w hav
        rw [hres]
        exact href _ _ c hc
    · intro hf
      obtain ⟨f1, f2, -, -, f5, -, -⟩ := hfail hf
      refine ⟨by rw [hheld', f1], f2, f5, ?_, ?_⟩
      · intro hx; cases hx
      · intro idx2 _
        exact ⟨g1, g3, hrah⟩

/-- The handle holds a local item in state Read and no version can be
allocated: `write_row` returns false, the item is still Read with a null
`write_rv`, and it is now in the access set, `access_size = 1`. -/
theorem write_row_failure_no_cleanup_witness :
    ∃ r, write_row cfgDebug (ctxOneRow 20) (beginTx 20) readLocalHandle 1 NoopDataCopier true none
        = .ret r ∧
      r.result = false ∧ (held_item r.tx r.rah).state = .kRead ∧
      (held_item r.tx r.rah).write_rv = none ∧ r.tx.access_size_ = 1 ∧
      r.tx.access_history_ = [(⟨0, 0, 0⟩, 0)] := by
  obtain ⟨r, hr, hnone, -, hfalse⟩ :=
    write_row_failure_no_cleanup cfgDebug (ctxOneRow 20) (beginTx 20) readLocalHandle 1
      NoopDataCopier true none rfl (Or.inl rfl) (fun _ => by decide) (by decide)
      (fun _ => ⟨rfl, rfl, fun _ _ => rfl⟩) (fun h => absurd h (by decide)) (fun _ _ => ⟨_, rfl⟩)
  obtain ⟨h1, -, h3⟩ := hnone rfl
  obtain ⟨g1, -, -, g4, -⟩ := hfalse h1
  obtain ⟨g5, -, -, g6⟩ := g4 rfl
  exact ⟨r, hr, h1, by rw [g1]; rfl, h3, g5, by rw [g6 rfl rfl]; rfl⟩

/-! ## The walk on a row whose visible version is Deleted -/

/-- On a finite chain on which no version is selected, or the selected one is
Deleted, the loop of `locate` returns null, whatever the flags and the
configuration. -/
theorem locate_loop_null (cfg : StaticConfig) (ts : Nat) (fr fw fv : Bool)
    (versions : Nat → RowVersion) :
    ∀ (chain : List Nat) (fuel : Nat) (newer_rv : RowCommonPtr) (rv : Option Nat),
      IsChain versions rv chain →
      chain.length < fuel →
      (first_visible versions ts chain = none ∨
        ∃ v, first_visible versions ts chain = some v ∧ (versions v).status = .kDeleted) →
      ∃ n, locate_loop cfg ts fr fw fv versions fuel newer_rv rv = .ret (n, none) := by
  intro chain
  induction chain with
  | nil =>
    intro fuel newer_rv rv hc hf _
    cases rv with
    | some p => simp [IsChain] at hc
    | none =>
      obtain ⟨f, rfl⟩ : ∃ f, fuel = f + 1 := ⟨fuel - 1, by simp at hf; omega⟩
      simp [locate_loop]
  | cons q rest ih =>
    intro fuel newer_rv rv hc hf hfv
    cases rv with
    | none => simp [IsChain] at hc
    | some p =>
      obtain ⟨rfl, hrest⟩ : p = q ∧ IsChain versions (versions p).older_rv rest := by
        simpa [IsChain] using hc
      obtain ⟨f, rfl⟩ : ∃ f, fuel = f + 1 := ⟨fuel - 1, by simp at hf; omega⟩
      have hf' : rest.length < f := by simpa using hf
      obtain ⟨hD, -, hA, hN⟩ := locate_visit_cases cfg ts fv newer_rv p (versions p)
      have htail : ∀ n0 : RowCommonPtr,
          (first_visible versions ts rest = none ∨
            ∃ v, first_visible versions ts rest = some v ∧ (versions v).status = .kDeleted) →
          ∃ n, (if (cfg.kInsertNewestVersionOnly && fr && fw &&
                    decide ((versions p).status ≠ .kAborted) &&
                    decide ((versions p).wts ≠ ts)) = true then
                  (.ret (n0, none) : Outcome (RowCommonPtr × Option Nat))
                else if (!cfg.NDEBUG && decide ((versions p).older_rv = none)) = true then
                  .ret (n0, none)
                else locate_loop cfg ts fr fw fv versions f n0 (versions p).older_rv)
              = .ret (n, none) := by
        intro n0 hrestfv
        split
        · exact ⟨n0, rfl⟩
        · split
          · exact ⟨n0, rfl⟩
          · exact ih f n0 _ hrest hf' hrestfv
      by_cases hw : (versions p).wts < ts
      · by_cases ha : (versions p).status = .kAborted
        · have hfv2 : first_visible versions ts (p :: rest) = first_visible versions ts rest := by
            simp [first_visible, List.find?, ha]
          rw [hfv2] at hfv
          simp only [locate_loop, hA hw ha]
          exact htail newer_rv hfv
        · have hfv2 : first_visible versions ts (p :: rest) = some p := by
            simp [first_visible, List.find?, ha, hw]
          rw [hfv2] at hfv
          have hs : (versions p).status = .kDeleted := by
            rcases hfv with h | ⟨v, hv, hs⟩
            · simp at h
            · obtain rfl : p = v := by simpa using hv
              exact hs
          exact ⟨newer_rv, by simp [locate_loop, hD hw hs]⟩
      · have hfv2 : first_visible versions ts (p :: rest) = first_visible versions ts rest := by
          simp [first_visible, List.find?, hw]
        rw [hfv2] at hfv
        simp only [locate_loop, hN hw]
        exact htail (.version p) hfv

/-- On such a chain `locate` returns null for every choice of its flags, and so
does `auto_locate` for every value of the hint flags. -/
theorem locate_null (cfg : StaticConfig) (ts : Nat) (versions : Nat → RowVersion)
    (chain : List Nat) (fuel : Nat) (newer_rv : RowCommonPtr) (rv : Option Nat)
    (hc : IsChain versions rv chain) (hf : chain.length < fuel)
    (hfv : first_visible versions ts chain = none ∨
      ∃ v, first_visible versions ts chain = some v ∧ (versions v).status = .kDeleted) :
    (∀ fr fw fv, ∃ n, locate cfg ts fr fw fv versions fuel newer_rv rv = .ret (n, none)) ∧
    (∀ flags, ∃ n, auto_locate cfg ts versions fuel newer_rv rv flags = .ret (n, none)) := by
  have h1 : ∀ fr fw fv, ∃ n, locate cfg ts fr fw fv versions fuel newer_rv rv
      = .ret (n, none) := by
    intro fr fw fv
    obtain ⟨n, hn⟩ := locate_loop_null cfg ts fr fw fv versions chain fuel newer_rv rv hc hf hfv
    exact ⟨n, by simp [locate, hn, locate_post]⟩
  refine ⟨h1, ?_⟩
  intro flags
  unfold auto_locate
  split
  · exact h1 _ _ _
  · exact h1 _ _ _
  · exact h1 _ _ _
  · exact h1 _ _ _

/-! ## C15: a deleted row seen through a regular handle -/

/-- On a row whose visible version is Deleted, `peek_row` of a fresh peek-only
handle returns false and leaves the handle as it was, so `is_deleted()` on it
returns false. -/
theorem peek_row_peek_only_deleted (cfg : StaticConfig) (fuel : Nat) (ctx : Context)
    (tx : Transaction) (rah : RowAccessHandlePeekOnly) (tbl cf_id row_id : Nat)
    (check_dup_access : Bool) (chain : List Nat) (d : Nat)
    (hunbound : rah.read_rv_ = none)
    (hchain : IsChain ctx.versions (ctx.heads (ctx.table_head tbl cf_id row_id)).older_rv chain)
    (hfuel : chain.length < fuel)
    (hvisible : first_visible ctx.versions tx.ts_ chain = some d)
    (hdeleted : (ctx.versions d).status = .kDeleted)
    (hfirst : check_dup_access = false ∨
      tx.access_history_.lookup ⟨tbl, row_id, cf_id⟩ = none)
    (hpre : cfg.NDEBUG = false → tx.began_ = true ∧ row_id < ctx.table_row_count tbl) :
    peek_row_peek_only cfg fuel ctx tx rah tbl cf_id row_id check_dup_access = .ret (false, rah) ∧
    rah.is_deleted ctx = false := by
  have hb : cassert cfg tx.began_ = .ret () := cassert_ok _ _ fun hn => (hpre hn).1
  have hr : cassert cfg (decide (row_id < ctx.table_row_count tbl)) = .ret () :=
    cassert_ok _ _ fun hn => by simpa using (hpre hn).2
  have hl : (if check_dup_access = true then
      tx.access_history_.lookup ⟨tbl, row_id, cf_id⟩ else none) = none := by
    rcases hfirst with h | h
    · simp [h]
    · simp [h]
  obtain ⟨n, hn⟩ := (locate_null cfg tx.ts_ ctx.versions chain fuel
    (.head (ctx.table_head tbl cf_id row_id)) _ hchain hfuel
    (Or.inr ⟨d, hvisible, hdeleted⟩)).1 false false false
  constructor
  · simp only [peek_row_peek_only, hb, RowAccessHandlePeekOnly.bound, hunbound, hr, hl, hn,
      bind, Outcome.bind]
    rfl
  · simp [RowAccessHandlePeekOnly.is_deleted, hunbound]

/-- C16 (the code departs from it).  Row 0 was deleted by a delete committed at
10: its only version has status Deleted.  A peek-only transaction at 20 calls
`peek_row` on it with a fresh `RowAccessHandlePeekOnly`: the call returns false,
the handle stays unbound, and `is_deleted()` on it returns false.  On the same
row the regular handle of C15 reports `is_deleted() == true`. -/
theorem peek_only_deleted_row_not_reported :
    IsChain ctxDeleted.versions (ctxDeleted.heads (ctxDeleted.table_head 0 0 0)).older_rv [1] ∧
    first_visible ctxDeleted.versions 20 [1] = some 1 ∧
    (ctxDeleted.versions 1).status = .kDeleted ∧
    (peek_row_peek_only cfgDebug 4 ctxDeleted (beginPeekOnlyTx 20) RowAccessHandlePeekOnly.fresh
        0 0 0 true).bind (fun r => .ret (r.1, r.2.bound, r.2.is_deleted ctxDeleted))
      = .ret (false, false, false) ∧
    (peek_row_peek_only cfgRelease 4 ctxDeleted (beginPeekOnlyTx 20)
        RowAccessHandlePeekOnly.fresh 0 0 0 false).bind
        (fun r => .ret (r.1, r.2.bound, r.2.is_deleted ctxDeleted))
      = .ret (false, false, false) ∧
    (peek_row cfgDebug 4 ctxDeleted (beginTx 20) freshHandle 0 0 0 true false false).bind
        (fun r => (r.rah.is_deleted cfgDebug r.ctx r.tx).bind fun b => .ret (r.result, b))
      = .ret (false, true) := by
  refine ⟨by simp [IsChain, ctxDeleted, ctxOneRow, committedVersion], by decide, rfl, rfl, rfl,
    rfl⟩

/-! ## C17: validation of a read after a later writer committed -/

/-- C17 (counterexample).  Scenario S4 run on the code: the transaction at 20
peeks the row and holds `read_rv` = the version at address 1; the writer at 30
links its version (address 2, `wts = 30`) between the head and that version;
`locate<true, false, true>` at `ts = 20` from the row head then returns the
version at address 1 again, which is `read_rv`: the comparison succeeds. -/
theorem validation_after_later_writer_passes :
    scenarioS4 cfgDebug = .ret (true, some 1, true, some 2, some 1, 30, some 1) ∧
    scenarioS4 cfgRelease = .ret (true, some 1, true, some 2, some 1, 30, some 1) :=
  ⟨rfl, rfl⟩

/-- C17 (amended).  When a version `w` with `wts >= ts` stands directly above
a committed version `v` with `wts < ts` (scenario S4: `ts = 20`, `v` written at
10, `w` written by a writer at 30, whatever the status of `w`), then
`locate<true, false, true>` at `ts`, started at `w`, passes over `w` and
returns `v`: for a transaction whose `read_rv` is `v` the comparison of the
located version with `read_rv` succeeds. -/
theorem validation_passes_over_newer (cfg : StaticConfig) (ts : Nat)
    (versions : Nat → RowVersion) (fuel : Nat) (newer_rv : RowCommonPtr) (w v : Nat)
    (hnew : ts ≤ (versions w).wts) (hlink : (versions w).older_rv = some v)
    (hold : (versions v).wts < ts) (hcommitted : (versions v).status = .kCommitted)
    (hfuel : 2 ≤ fuel) :
    locate cfg ts true false true versions fuel newer_rv (some w) = .ret (.version w, some v) := by
  obtain ⟨f, rfl⟩ : ∃ f, fuel = f + 2 := ⟨fuel - 2, by omega⟩
  have hw := (locate_visit_cases cfg ts true newer_rv w (versions w)).2.2.2 (by omega)
  have hv := (locate_visit_cases cfg ts true (.version w) v (versions v)).2.1 hold hcommitted
  simp [locate, locate_loop, hw, hv, hlink, locate_post]

/-- Scenario S4 in memory: the version at address 2, written at 30, stands
above the version at address 1, committed at 10; the walk at `ts = 20` returns
the version at address 1. -/
theorem validation_passes_over_newer_witness :
    locate cfgDebug 20 true false true
      (fun p => if p = 2 then committedVersion 30 30 (some 1) [66]
                else if p = 1 then committedVersion 10 20 none [65] else freeVersion)
      4 (.head 0) (some 2) = .ret (.version 2, some 1) :=
  validation_passes_over_newer cfgDebug 20 _ 4 (.head 0) 2 1 (by decide) rfl (by decide) rfl
    (by decide)

/-! ## `insert_row_deferred` -/

/-- The loop body of `insert_row_deferred` skips an item in state Invalid. -/
theorem insert_row_item_invalid (cfg : StaticConfig) (i : Nat) (ctx : Context)
    (tx : Transaction) (h : (tx.accesses_ i).state = .kInvalid) :
    insert_row_item cfg i ctx tx = .ret (ctx, tx) := by
  simp [insert_row_item, h]

/-- The loop body of `insert_row_deferred` on an item in another state, whose
`write_rv` is `w`: the row head points to `w`, `w` is Committed and the item is
marked inserted. -/
theorem insert_row_item_publish (cfg : StaticConfig) (i : Nat) (ctx : Context)
    (tx : Transaction) (w : Nat) (h : (tx.accesses_ i).state ≠ .kInvalid)
    (hw : (tx.accesses_ i).write_rv = some w) :
    insert_row_item cfg i ctx tx = .ret
      ((ctx.set_older_rv (.head (tx.accesses_ i).head) (some w)).set_version w
          { ctx.versions w with status := .kCommitted },
        { tx with accesses_ := (Function.update tx.accesses_ i
            { tx.accesses_ i with inserted := 1 }) }) := by
  simp [insert_row_item, h, hw, cassert, bind, Outcome.bind, Context.set_older_rv,
    Context.set_version]

/-- What the loop of `insert_row_deferred` does over the positions `js`, when
every item it publishes has a `write_rv`: it returns; an access item is left as
it was or only gets `inserted = 1`, and it is left as it was unless a position
of `js` names it and its state is not Invalid; a version is left as it was or
only gets status Committed, and it is left as it was unless it is the
`write_rv` of such an item; a row head keeps its `inlined_rv`, and is left as
it was unless it is the head of such an item; nothing else changes. -/
theorem insert_row_loop_frame (cfg : StaticConfig) :
    ∀ (js : List Nat) (ctx : Context) (tx : Transaction),
      (∀ j ∈ js, (tx.accesses_ (tx.iset_idx_ j)).state ≠ .kInvalid →
        (tx.accesses_ (tx.iset_idx_ j)).write_rv ≠ none) →
      ∃ ctx' tx', insert_row_loop cfg js ctx tx = .ret (ctx', tx') ∧
        tx' = { tx with accesses_ := tx'.accesses_ } ∧
        ctx' = { ctx with versions := ctx'.versions, heads := ctx'.heads } ∧
        (∀ i, tx'.accesses_ i = tx.accesses_ i ∨
          tx'.accesses_ i = { tx.accesses_ i with inserted := 1 }) ∧
        (∀ i, (∀ j ∈ js, tx.iset_idx_ j = i → (tx.accesses_ i).state = .kInvalid) →
          tx'.accesses_ i = tx.accesses_ i) ∧
        (∀ p, ctx'.versions p = ctx.versions p ∨
          ctx'.versions p = { ctx.versions p with status := .kCommitted }) ∧
        (∀ p, (∀ j ∈ js, (tx.accesses_ (tx.iset_idx_ j)).state ≠ .kInvalid →
            (tx.accesses_ (tx.iset_idx_ j)).write_rv ≠ some p) →
          ctx'.versions p = ctx.versions p) ∧
        (∀ h, (ctx'.heads h).inlined_rv = (ctx.heads h).inlined_rv) ∧
        (∀ h, (∀ j ∈ js, (tx.accesses_ (tx.iset_idx_ j)).state ≠ .kInvalid →
            (tx.accesses_ (tx.iset_idx_ j)).head ≠ h) →
          ctx'.heads h = ctx.heads h) := by
  intro js
  induction js with
  | nil =>
    intro ctx tx _
    exact ⟨ctx, tx, rfl, rfl, rfl, fun _ => Or.inl rfl, fun _ _ => rfl, fun _ => Or.inl rfl,
      fun _ _ => rfl, fun _ => rfl, fun _ _ => rfl⟩
  | cons j js ih =>
    intro ctx tx hw
    by_cases hinv : (tx.accesses_ (tx.iset_idx_ j)).state = .kInvalid
    · -- the item is skipped
      obtain ⟨ctx', tx', hrun, e1, e2, a1, a2, v1, v2, h1, h2⟩ := ih ctx tx
        (fun k hk => hw k (List.mem_cons_of_mem _ hk))
      refine ⟨ctx', tx', ?_, e1, e2, a1, ?_, v1, ?_, h1, ?_⟩
      · simp only [insert_row_loop, insert_row_item_invalid cfg _ ctx tx hinv, bind,
          Outcome.bind]
        exact hrun
      · intro i hi
        exact a2 i fun k hk => hi k (List.mem_cons_of_mem _ hk)
      · intro p hp
        exact v2 p fun k hk => hp k (List.mem_cons_of_mem _ hk)
      · intro h hh
        exact h2 h fun k hk => hh k (List.mem_cons_of_mem _ hk)
    · -- the item is published
      obtain ⟨w, hwj⟩ : ∃ w, (tx.accesses_ (tx.iset_idx_ j)).write_rv = some w :=
        Option.ne_none_iff_exists'.mp (hw j (List.mem_cons_self _ _) hinv)
      have hstep := insert_row_item_publish cfg _ ctx tx w hinv hwj
      -- the items keep their state, head and write_rv
      have hsame : ∀ i,
          ((Function.update tx.accesses_ (tx.iset_idx_ j)
            { tx.accesses_ (tx.iset_idx_ j) with inserted := 1 }) i).state
            = (tx.accesses_ i).state ∧
          ((Function.update tx.accesses_ (tx.iset_idx_ j)
            { tx.accesses_ (tx.iset_idx_ j) with inserted := 1 }) i).write_rv
            = (tx.accesses_ i).write_rv ∧
          ((Function.update tx.accesses_ (tx.iset_idx_ j)
            { tx.accesses_ (tx.iset_idx_ j) with inserted := 1 }) i).head
            = (tx.accesses_ i).head := by
        intro i
        by_cases hi : i = tx.iset_idx_ j
        · subst hi; simp
        · simp [Function.update_noteq hi]
      obtain ⟨ctx', tx', hrun, e1, e2, a1, a2, v1, v2, h1, h2⟩ := ih
        ((ctx.set_older_rv (.head (tx.accesses_ (tx.iset_idx_ j)).head) (some w)).set_version w
          { ctx.versions w with status := .kCommitted })
        { tx with accesses_ := (Function.update tx.accesses_ (tx.iset_idx_ j)
            { tx.accesses_ (tx.iset_idx_ j) with inserted := 1 }) }
        (by
          intro k hk
          simp only [(hsame _).1, (hsame _).2.1]
          exact hw k (List.mem_cons_of_mem _ hk))
      simp only [(hsame _).1, (hsame _).2.1, (hsame _).2.2] at a2 v2 h2
      refine ⟨ctx', tx', ?_, ?_, ?_, ?_, ?_, ?_, ?_, ?_, ?_⟩
      · simp only [insert_row_loop, hstep, bind, Outcome.bind]
        exact hrun
      · rw [e1]
      · rw [e2]; simp [Context.set_version, Context.set_older_rv]
      · intro i
        rcases a1 i with h | h
        · by_cases hi : i = tx.iset_idx_ j
          · subst hi
            right
            rw [h]; simp
          · left
            rw [h]; simp [Function.update_noteq hi]
        · right
          by_cases hi : i = tx.iset_idx_ j
          · subst hi
            rw [h]; simp
          · rw [h]; simp [Function.update_noteq hi]
      · intro i hi
        have hne : i ≠ tx.iset_idx_ j := by
          rintro rfl
          exact hinv (hi j (List.mem_cons_self _ _) rfl)
        rw [a2 i fun k hk => hi k (List.mem_cons_of_mem _ hk)]
        simp [Function.update_noteq hne]
      · intro p
        rcases v1 p with h | h
        · by_cases hp : p = w
          · subst hp
            right
            rw [h]; simp [Context.set_version, Context.set_older_rv]
          · left
            rw [h]; simp [Context.set_version, Context.set_older_rv, Function.update_noteq hp]
        · right
          by_cases hp : p = w
          · subst hp
            rw [h]; simp [Context.set_version, Context.set_older_rv]
          · rw [h]; simp [Context.set_version, Context.set_older_rv, Function.update_noteq hp]
      · intro p hp
        have hne : p ≠ w := by
          rintro rfl
          exact hp j (List.mem_cons_self _ _) hinv hwj
        rw [v2 p fun k hk => hp k (List.mem_cons_of_mem _ hk)]
        simp [Context.set_version, Context.set_older_rv, Function.update_noteq hne]
      · intro h
        rw [h1 h]
        by_cases hh : h = (tx.accesses_ (tx.iset_idx_ j)).head
        · subst hh; simp [Context.set_version, Context.set_older_rv]
        · simp [Context.set_version, Context.set_older_rv, Function.update_noteq hh]
      · intro h hh
        have hne : h ≠ (tx.accesses_ (tx.iset_idx_ j)).head :=
          fun e => hh j (List.mem_cons_self _ _) hinv e.symm
        rw [h2 h fun k hk => hh k (List.mem_cons_of_mem _ hk)]
        simp [Context.set_version, Context.set_older_rv, Function.update_noteq hne]

/-- What the loop of `insert_row_deferred` leaves for an item it publishes,
when the positions are in increasing order: its `write_rv` is Committed and
`inserted = 1`; and its row head points to its `write_rv` when no later
position names an item that is not Invalid and has the same row head. -/
theorem insert_row_loop_published (cfg : StaticConfig) :
    ∀ (js : List Nat) (ctx : Context) (tx : Transaction),
      (∀ j ∈ js, (tx.accesses_ (tx.iset_idx_ j)).state ≠ .kInvalid →
        (tx.accesses_ (tx.iset_idx_ j)).write_rv ≠ none) →
      js.Pairwise (fun a b => a < b) →
      ∀ ctx' tx', insert_row_loop cfg js ctx tx = .ret (ctx', tx') →
      ∀ j ∈ js, (tx.accesses_ (tx.iset_idx_ j)).state ≠ .kInvalid →
        ∃ w, (tx.accesses_ (tx.iset_idx_ j)).write_rv = some w ∧
          (ctx'.versions w).status = .kCommitted ∧
          (tx'.accesses_ (tx.iset_idx_ j)).inserted = 1 ∧
          ((∀ k ∈ js, j < k → (tx.accesses_ (tx.iset_idx_ k)).state ≠ .kInvalid →
              (tx.accesses_ (tx.iset_idx_ k)).head ≠ (tx.accesses_ (tx.iset_idx_ j)).head) →
            (ctx'.heads (tx.accesses_ (tx.iset_idx_ j)).head).older_rv = some w) := by
  intro js
  induction js with
  | nil => intro ctx tx _ _ ctx' tx' _ j hj; cases hj
  | cons j js ih =>
    intro ctx tx hw hpair ctx' tx' hrun k hk hvalid
    obtain ⟨hlt, hrest⟩ := List.pairwise_cons.mp hpair
    by_cases hinv : (tx.accesses_ (tx.iset_idx_ j)).state = .kInvalid
    · simp only [insert_row_loop, insert_row_item_invalid cfg _ ctx tx hinv, bind,
        Outcome.bind] at hrun
      rcases List.mem_cons.mp hk with rfl | hk'
      · exact absurd hinv hvalid
      · obtain ⟨w, g1, g2, g3, g4⟩ :=
          ih ctx tx (fun k hk => hw k (List.mem_cons_of_mem _ hk)) hrest ctx' tx' hrun k hk'
            hvalid
        exact ⟨w, g1, g2, g3, fun hlater =>
          g4 fun k' hk' hlt' hv' => hlater k' (List.mem_cons_of_mem _ hk') hlt' hv'⟩
    · obtain ⟨w, hwj⟩ : ∃ w, (tx.accesses_ (tx.iset_idx_ j)).write_rv = some w :=
        Option.ne_none_iff_exists'.mp (hw j (List.mem_cons_self _ _) hinv)
      have hstep := insert_row_item_publish cfg _ ctx tx w hinv hwj
      simp only [insert_row_loop, hstep, bind, Outcome.bind] at hrun
      have hsame : ∀ i,
          ((Function.update tx.accesses_ (tx.iset_idx_ j)
            { tx.accesses_ (tx.iset_idx_ j) with inserted := 1 }) i).state
            = (tx.accesses_ i).state ∧
          ((Function.update tx.accesses_ (tx.iset_idx_ j)
            { tx.accesses_ (tx.iset_idx_ j) with inserted := 1 }) i).write_rv
            = (tx.accesses_ i).write_rv ∧
          ((Function.update tx.accesses_ (tx.iset_idx_ j)
            { tx.accesses_ (tx.iset_idx_ j) with inserted := 1 }) i).head
            = (tx.accesses_ i).head := by
        intro i
        by_cases hi : i = tx.iset_idx_ j
        · subst hi; simp
        · simp [Function.update_noteq hi]
      have hw1 : ∀ k ∈ js,
          (({ tx with accesses_ := (Function.update tx.accesses_ (tx.iset_idx_ j)
              { tx.accesses_ (tx.iset_idx_ j) with inserted := 1 }) } : Transaction).accesses_
            (tx.iset_idx_ k)).state ≠ .kInvalid →
          (({ tx with accesses_ := (Function.update tx.accesses_ (tx.iset_idx_ j)
              { tx.accesses_ (tx.iset_idx_ j) with inserted := 1 }) } : Transaction).accesses_
            (tx.iset_idx_ k)).write_rv ≠ none := by
        intro k hk
        simp only [(hsame _).1, (hsame _).2.1]
        exact hw k (List.mem_cons_of_mem _ hk)
      rcases List.mem_cons.mp hk with rfl | hk'
      · -- the item published first: the rest of the loop leaves its head alone
        obtain ⟨ctx2, tx2, hrun2, -, -, a1, -, v1, -, -, h2⟩ := insert_row_loop_frame cfg js
          ((ctx.set_older_rv (.head (tx.accesses_ (tx.iset_idx_ k)).head) (some w)).set_version w
            { ctx.versions w with status := .kCommitted })
          { tx with accesses_ := (Function.update tx.accesses_ (tx.iset_idx_ k)
              { tx.accesses_ (tx.iset_idx_ k) with inserted := 1 }) } hw1
        rw [hrun2] at hrun
        simp only [Outcome.ret.injEq, Prod.mk.injEq] at hrun
        obtain ⟨rfl, rfl⟩ := hrun
        simp only [(hsame _).1, (hsame _).2.2] at h2
        refine ⟨w, hwj, ?_, ?_, ?_⟩
        · rcases v1 w with h | h
          · rw [h]; simp [Context.set_version]
          · rw [h]
        · rcases a1 (tx.iset_idx_ k) with h | h
          · rw [h]; simp
          · rw [h]
        · intro hlater
          rw [h2 _ fun k' hk' hv' =>
            hlater k' (List.mem_cons_of_mem _ hk') (hlt k' hk') hv']
          simp [Context.set_version, Context.set_older_rv]
      · have := ih _ _ hw1 hrest ctx' tx' hrun k hk'
        simp only [(hsame _).1, (hsame _).2.1, (hsame _).2.2] at this
        obtain ⟨w2, g1, g2, g3, g4⟩ := this hvalid
        exact ⟨w2, g1, g2, g3, fun hlater =>
          g4 fun k' hk' hlt' hv' => hlater k' (List.mem_cons_of_mem _ hk') hlt' hv'⟩

/-! ## C13: what `insert_row_deferred` publishes -/

/-- C13 (counterexample).  The claim as written fails when two items of the
insert set have the same row head.  A transaction calls `new_row` twice for
row 3 of column family 1 with `check_dup_access = false` (versions at
addresses 2 and 3); both calls return true and leave two items in state New
with the row head 3.
`insert_row_deferred` then returns with both versions Committed and both items
marked inserted, but the row head points to the version at address 3, not to
the `write_rv` of the first item, the version at address 2. -/
theorem insert_row_deferred_shared_head :
    stateTwoNew.result = true ∧ stateTwoNew.tx.iset_size_ = 2 ∧
    stateTwoNew.tx.iset_idx_ 0 = 0 ∧ stateTwoNew.tx.iset_idx_ 1 = 1 ∧
    (stateTwoNew.tx.accesses_ 0).state = .kNew ∧ (stateTwoNew.tx.accesses_ 1).state = .kNew ∧
    (stateTwoNew.tx.accesses_ 0).head = 3 ∧ (stateTwoNew.tx.accesses_ 1).head = 3 ∧
    (stateTwoNew.tx.accesses_ 0).write_rv = some 2 ∧
    (stateTwoNew.tx.accesses_ 1).write_rv = some 3 ∧
    ∃ ctx' tx', insert_row_deferred cfgDebug stateTwoNew.ctx stateTwoNew.tx = .ret (ctx', tx') ∧
      (ctx'.heads 3).older_rv = some 3 ∧
      (ctx'.heads 3).older_rv ≠ (stateTwoNew.tx.accesses_ 0).write_rv ∧
      (ctx'.versions 2).status = .kCommitted ∧ (ctx'.versions 3).status = .kCommitted ∧
      (tx'.accesses_ 0).inserted = 1 ∧ (tx'.accesses_ 1).inserted = 1 := by
  refine ⟨rfl, rfl, rfl, rfl, rfl, rfl, rfl, rfl, rfl, rfl, _, _, rfl, rfl, ?_, rfl, rfl, rfl,
    rfl⟩
  decide

/-- C13 (amended).  `insert_row_deferred` returns and publishes exactly the
insert-set items whose state is not Invalid: for each of them afterwards its
`write_rv` has status Committed and `inserted = 1`, and `head.older_rv` is its
`write_rv` unless a later item of the insert set that is not Invalid has the
same row head.  An access item that no insert-set position names, or whose
state is Invalid, is left as it was; a row head that is not the head of a
published item is left as it was; no version's `older_rv`, `wts`, `rts` or data
changes and a version that is not the `write_rv` of a published item is left as
it was; when every insert-set item is Invalid the shared state and the
transaction are unchanged.  The published items have a `write_rv` (asserted by
the code). -/
theorem insert_row_deferred_publishes (cfg : StaticConfig) (ctx : Context) (tx : Transaction)
    (hwrite : ∀ j, j < tx.iset_size_ → (tx.accesses_ (tx.iset_idx_ j)).state ≠ .kInvalid →
      (tx.accesses_ (tx.iset_idx_ j)).write_rv ≠ none) :
    ∃ ctx' tx', insert_row_deferred cfg ctx tx = .ret (ctx', tx') ∧
      (∀ j, j < tx.iset_size_ → (tx.accesses_ (tx.iset_idx_ j)).state ≠ .kInvalid →
        ∃ w, (tx.accesses_ (tx.iset_idx_ j)).write_rv = some w ∧
          (ctx'.versions w).status = .kCommitted ∧
          (tx'.accesses_ (tx.iset_idx_ j)).inserted = 1 ∧
          ((∀ k, j < k → k < tx.iset_size_ →
              (tx.accesses_ (tx.iset_idx_ k)).state ≠ .kInvalid →
              (tx.accesses_ (tx.iset_idx_ k)).head ≠ (tx.accesses_ (tx.iset_idx_ j)).head) →
            (ctx'.heads (tx.accesses_ (tx.iset_idx_ j)).head).older_rv = some w)) ∧
      (∀ i, (∀ j, j < tx.iset_size_ → tx.iset_idx_ j = i →
          (tx.accesses_ i).state = .kInvalid) → tx'.accesses_ i = tx.accesses_ i) ∧
      (∀ h, (∀ j, j < tx.iset_size_ → (tx.accesses_ (tx.iset_idx_ j)).state ≠ .kInvalid →
          (tx.accesses_ (tx.iset_idx_ j)).head ≠ h) → ctx'.heads h = ctx.heads h) ∧
      (∀ p, (ctx'.versions p).older_rv = (ctx.versions p).older_rv ∧
        (ctx'.versions p).wts = (ctx.versions p).wts ∧
        (ctx'.versions p).rts = (ctx.versions p).rts ∧
        (ctx'.versions p).data = (ctx.versions p).data) ∧
      (∀ p, (∀ j, j < tx.iset_size_ → (tx.accesses_ (tx.iset_idx_ j)).state ≠ .kInvalid →
          (tx.accesses_ (tx.iset_idx_ j)).write_rv ≠ some p) →
        ctx'.versions p = ctx.versions p) ∧
      ((∀ j, j < tx.iset_size_ → (tx.accesses_ (tx.iset_idx_ j)).state = .kInvalid) →
        ctx' = ctx ∧ tx' = tx) := by
  have hw : ∀ j ∈ List.range tx.iset_size_,
      (tx.accesses_ (tx.iset_idx_ j)).state ≠ .kInvalid →
      (tx.accesses_ (tx.iset_idx_ j)).write_rv ≠ none :=
    fun j hj => hwrite j (List.mem_range.mp hj)
  obtain ⟨ctx', tx', hrun, e1, e2, a1, a2, v1, v2, h1, h2⟩ :=
    insert_row_loop_frame cfg (List.range tx.iset_size_) ctx tx hw
  have hpub := insert_row_loop_published cfg (List.range tx.iset_size_) ctx tx hw
    (List.pairwise_lt_range tx.iset_size_) ctx' tx' hrun
  refine ⟨ctx', tx', hrun, ?_, ?_, ?_, ?_, ?_, ?_⟩
  · intro j hj hv
    obtain ⟨w, g1, g2, g3, g4⟩ := hpub j (List.mem_range.mpr hj) hv
    exact ⟨w, g1, g2, g3, fun hlater =>
      g4 fun k hk hlt hvk => hlater k hlt (List.mem_range.mp hk) hvk⟩
  · intro i hi
    exact a2 i fun j hj => hi j (List.mem_range.mp hj)
  · intro h hh
    exact h2 h fun j hj => hh j (List.mem_range.mp hj)
  · intro p
    rcases v1 p with h | h <;> (rw [h]; simp)
  · intro p hp
    exact v2 p fun j hj => hp j (List.mem_range.mp hj)
  · intro hall
    have hacc : tx'.accesses_ = tx.accesses_ := by
      funext i
      exact a2 i fun j hj _ => by
        have := hall j (List.mem_range.mp hj)
        rename_i hji
        rw [← hji]; exact this
    have hver : ctx'.versions = ctx.versions := by
      funext p
      exact v2 p fun j hj hv => absurd (hall j (List.mem_range.mp hj)) hv
    have hhd : ctx'.heads = ctx.heads := by
      funext h
      exact h2 h fun j hj hv => absurd (hall j (List.mem_range.mp hj)) hv
    constructor
    · rw [e2, hver, hhd]
    · rw [e1, hacc]

/-- Scenario S5 next to a row that stays: the transaction created rows 5 and 6
and removed row 6 again.  `insert_row_deferred` publishes row 5 (its head
points to the version at address 2, which is Committed, and the item is marked
inserted) and leaves the head of row 6 and the removed item as they were. -/
theorem insert_row_deferred_publishes_witness :
    (stateS5.tx.accesses_ 0).state = .kNew ∧ (stateS5.tx.accesses_ 1).state = .kInvalid ∧
    ∃ ctx' tx', insert_row_deferred cfgDebug stateS5.ctx stateS5.tx = .ret (ctx', tx') ∧
      (ctx'.heads 5).older_rv = some 2 ∧ (ctx'.versions 2).status = .kCommitted ∧
      (tx'.accesses_ 0).inserted = 1 ∧
      ctx'.heads 6 = stateS5.ctx.heads 6 ∧ tx'.accesses_ 1 = stateS5.tx.accesses_ 1 := by
  have hsize : stateS5.tx.iset_size_ = 2 := rfl
  have hidx0 : stateS5.tx.iset_idx_ 0 = 0 := rfl
  have hidx1 : stateS5.tx.iset_idx_ 1 = 1 := rfl
  have hs0 : (stateS5.tx.accesses_ 0).state = .kNew := rfl
  have hs1 : (stateS5.tx.accesses_ 1).state = .kInvalid := rfl
  have hcases : ∀ j, j < stateS5.tx.iset_size_ → j = 0 ∨ j = 1 := by
    intro j hj; rw [hsize] at hj; omega
  obtain ⟨ctx', tx', hrun, hpub, hacc, hheads, -, -, -⟩ :=
    insert_row_deferred_publishes cfgDebug stateS5.ctx stateS5.tx
      (by
        intro j hj hv
        rcases hcases j hj with rfl | rfl
        · rw [hidx0]; exact (by decide : (some 2 : Option Nat) ≠ none)
        · rw [hidx1, hs1] at hv; exact absurd rfl hv)
  obtain ⟨w, hw, h2, h3, h1⟩ := hpub 0 (by rw [hsize]; omega) (by rw [hidx0, hs0]; decide)
  have hw2 : w = 2 := by
    have : (stateS5.tx.accesses_ (stateS5.tx.iset_idx_ 0)).write_rv = some 2 := rfl
    rw [this] at hw
    exact (Option.some.inj hw).symm
  subst hw2
  have h1 := h1 (by
    intro k hk0 hk hv
    rcases hcases k hk with rfl | rfl
    · omega
    · rw [hidx1, hs1] at hv; exact absurd rfl hv)
  refine ⟨hs0, hs1, ctx', tx', hrun, h1, h2, h3, ?_, ?_⟩
  · apply hheads
    intro j hj hv
    rcases hcases j hj with rfl | rfl
    · show (5 : Nat) ≠ 6
      decide
    · rw [hidx1, hs1] at hv; exact absurd rfl hv
  · apply hacc
    intro j hj hji
    rcases hcases j hj with rfl | rfl
    · rw [hidx0] at hji; cases hji
    · exact hs1

/-! ## `new_row` that succeeds -/

/-- When the dedup bookkeeping returns, the transaction is as before or has
one more entry in the dedup map. -/
theorem record_access_ret (cfg : StaticConfig) (tx tx0 : Transaction) (key : AccessKey)
    (check : Bool) (h : record_access cfg tx key check = .ret tx0) :
    tx0 = tx ∨
    tx0 = { tx with access_history_ := tx.access_history_ ++ [(key, tx.access_size_)] } := by
  unfold record_access at h
  cases check with
  | false =>
    simp only [Bool.false_eq_true, if_false, Outcome.ret.injEq] at h
    exact Or.inl h.symm
  | true =>
    simp only [if_true, bind, Outcome.bind_eq_ret] at h
    obtain ⟨-, -, h⟩ := h
    cases hl : tx.access_history_.lookup key with
    | none =>
      rw [hl] at h
      simp only [Outcome.ret.injEq] at h
      exact Or.inr h.symm
    | some idx =>
      rw [hl] at h
      simp only [Outcome.bind_eq_ret, Outcome.ret.injEq] at h
      obtain ⟨-, -, h⟩ := h
      exact Or.inl h.symm

/-- Every way in which `new_row` returns true: the handle was unbound, the row
id usable, the version allocated at `w`, the copier returned true, and the
access set had room.  The version at `w` is the pending version with the bytes
the copier wrote, the new item is stored at the old `access_size`, its index is
appended to the insert set, and the handle points to it. -/
theorem new_row_ret_true (cfg : StaticConfig) (ctx : Context) (tx : Transaction)
    (rah : RowAccessHandle) (tbl cf_id row_id : Nat) (check_dup_access : Bool)
    (data_size : Nat) (data_copier : DataCopier) (allocated_row : Nat)
    (allocated_version : Option Nat) (r : OpResult)
    (h : new_row cfg ctx tx rah tbl cf_id row_id check_dup_access data_size data_copier
      allocated_row allocated_version = .ret r)
    (ht : r.result = true) :
    rah.valid_ = false ∧
    ((cf_id = 0 ∧ row_id = kNewRowID ∧ allocated_row ≠ uint64_minus_one) ∨
      (cf_id ≠ 0 ∧ row_id ≠ kNewRowID)) ∧
    tx.access_size_ < cfg.kMaxAccessSize ∧
    ∃ w c, allocated_version = some w ∧
      data_copier cf_id (pending_new_version (ctx.versions w) tx.ts_ data_size) none
        = .ret c ∧ c.1 = true ∧
      r.ctx = { ctx with versions := (Function.update ctx.versions w
        { pending_new_version (ctx.versions w) tx.ts_ data_size with data := c.2 }) } ∧
      r.rah = { rah with valid_ := true, set_item_ := some tx.access_size_ } ∧
      r.tx.accesses_ = Function.update tx.accesses_ tx.access_size_
        { i := tx.access_size_, inserted := 0, state := .kNew, tbl := tbl, cf_id := cf_id,
          row_id := if cf_id = 0 then allocated_row else row_id,
          head := ctx.table_head tbl cf_id (if cf_id = 0 then allocated_row else row_id),
          newer_rv := .head
            (ctx.table_head tbl cf_id (if cf_id = 0 then allocated_row else row_id)),
          write_rv := some w, read_rv := none } ∧
      r.tx.iset_idx_ = Function.update tx.iset_idx_ tx.iset_size_ tx.access_size_ ∧
      r.tx.iset_size_ = (tx.iset_size_ + 1) % 65536 ∧
      r.tx.access_size_ = (tx.access_size_ + 1) % 65536 ∧
      r.tx.ts_ = tx.ts_ ∧ r.tx.wset_size_ = tx.wset_size_ ∧ r.tx.wset_idx_ = tx.wset_idx_ := by
  unfold new_row at h
  simp only [bind, Outcome.bind_eq_ret, cassert_eq_ret] at h
  obtain ⟨-, -, -, -, -, -, h⟩ := h
  cases hv : rah.valid_ with
  | true =>
    simp only [hv, if_true, Outcome.ret.injEq] at h
    subst h
    simp at ht
  | false =>
    simp only [hv, Bool.false_eq_true, if_false] at h
    by_cases hrow : (cf_id = 0 ∧ row_id = kNewRowID ∧ allocated_row ≠ uint64_minus_one) ∨
        (cf_id ≠ 0 ∧ row_id ≠ kNewRowID)
    · have hchosen : (if cf_id = 0 then
            if row_id ≠ kNewRowID then ((none : Option Nat), tx)
            else if allocated_row = uint64_minus_one then (none, note_abort_reason cfg tx)
            else (some allocated_row, tx)
          else if row_id = kNewRowID then (none, tx)
          else (some row_id, tx)) = (some (if cf_id = 0 then allocated_row else row_id), tx) := by
        rcases hrow with ⟨h0, h1, h2⟩ | ⟨h0, h1⟩
        · simp [h0, h1, h2]
        · simp [h0, h1]
      rw [hchosen] at h
      simp only at h
      cases hav : allocated_version with
      | none =>
        rw [hav] at h
        simp only [Outcome.ret.injEq] at h
        subst h
        simp at ht
      | some w =>
        rw [hav] at h
        simp only [run_copier, Outcome.bind_eq_ret, Option.map_none'] at h
        obtain ⟨⟨copied, ctx1⟩, ⟨c, hc, hc1⟩, h⟩ := h
        have hprep : ((ctx.allocate_version w data_size).set_version w
            { (ctx.allocate_version w data_size).versions w with
              older_rv := none, wts := tx.ts_, rts := tx.ts_, status := .kPending }).versions w
            = pending_new_version (ctx.versions w) tx.ts_ data_size := by
          simp [Context.allocate_version, Context.set_version, pending_new_version]
        rw [hprep] at hc hc1
        simp only [Outcome.ret.injEq, Prod.mk.injEq] at hc1
        obtain ⟨hcop, hctx1⟩ := hc1
        cases hcc : copied with
        | false =>
          simp only [hcc, Bool.not_false, if_true, Outcome.ret.injEq] at h
          subst h
          simp at ht
        | true =>
          simp only [hcc, Bool.not_true, Bool.false_eq_true, if_false, Outcome.bind_eq_ret] at h
          obtain ⟨tx0, htx0, -, -, accesses, hstore, h⟩ := h
          simp only [Outcome.ret.injEq] at h
          have hacc : tx0.access_size_ = tx.access_size_ ∧ tx0.accesses_ = tx.accesses_ ∧
              tx0.iset_idx_ = tx.iset_idx_ ∧ tx0.iset_size_ = tx.iset_size_ ∧
              tx0.ts_ = tx.ts_ ∧ tx0.wset_size_ = tx.wset_size_ ∧
              tx0.wset_idx_ = tx.wset_idx_ := by
            rcases record_access_ret cfg tx tx0 _ _ htx0 with e | e <;> rw [e] <;> simp
          obtain ⟨e1, e2, e3, e4, e5, e6, e7⟩ := hacc
          unfold store_access at hstore
          by_cases hroom : tx0.access_size_ < cfg.kMaxAccessSize
          · rw [if_pos hroom] at hstore
            simp only [Outcome.ret.injEq] at hstore
            subst h
            subst hstore
            refine ⟨rfl, hrow, by rw [← e1]; exact hroom, w, c, rfl, hc,
              by rw [hcop, hcc], ?_, ?_, ?_, ?_, ?_, ?_, e5, e6, e7⟩
            · rw [← hctx1]
              simp [Context.allocate_version, Context.set_version, pending_new_version]
            · simp [e1]
            · simp [e1, e2]
            · simp [e1, e3, e4]
            · simp [e4]
            · simp [e1]
          · rw [if_neg hroom] at hstore
            cases hstore
    · have hchosen : ∃ tx0, (if cf_id = 0 then
            if row_id ≠ kNewRowID then ((none : Option Nat), tx)
            else if allocated_row = uint64_minus_one then (none, note_abort_reason cfg tx)
            else (some allocated_row, tx)
          else if row_id = kNewRowID then (none, tx)
          else (some row_id, tx)) = (none, tx0) := by
        by_cases h0 : cf_id = 0
        · by_cases h1 : row_id = kNewRowID
          · by_cases h2 : allocated_row = uint64_minus_one
            · exact ⟨note_abort_reason cfg tx, by simp [h0, h1, h2]⟩
            · exact absurd (Or.inl ⟨h0, h1, h2⟩) hrow
          · exact ⟨tx, by simp [h0, h1]⟩
        · by_cases h1 : row_id = kNewRowID
          · exact ⟨tx, by simp [h0, h1]⟩
          · exact absurd (Or.inr ⟨h0, h1⟩) hrow
      obtain ⟨tx0, hchosen⟩ := hchosen
      rw [hchosen] at h
      simp only [Outcome.ret.injEq] at h
      subst h
      simp at ht
/-! ## `peek_row` on a row whose newest version is committed and visible -/

/-- When the first block of the loop body of `locate` says `cont`, either the
version has `wts < ts` and `newer_rv` stays, or it has not and `newer_rv`
becomes that version. -/
theorem locate_visit_cont (cfg : StaticConfig) (ts : Nat) (fv : Bool)
    (newer_rv : RowCommonPtr) (p : Nat) (rv : RowVersion) (n : RowCommonPtr)
    (h : locate_visit cfg ts fv newer_rv p rv = .ret (.cont n)) :
    (rv.wts < ts ∧ n = newer_rv) ∨ (¬ rv.wts < ts ∧ n = .version p) := by
  unfold locate_visit at h
  by_cases hw : rv.wts < ts
  · left
    refine ⟨hw, ?_⟩
    simp only [hw, if_true, Outcome.bind_eq_ret] at h
    obtain ⟨sampled, -, h⟩ := h
    cases sampled with
    | none => simp at h
    | some status =>
      simp only at h
      split at h
      · simp at h
      · split at h
        · simp at h
        · simp only [Outcome.bind_eq_ret, Outcome.ret.injEq, LoopCtl.cont.injEq] at h
          obtain ⟨-, -, h⟩ := h
          exact h.symm
  · right
    refine ⟨hw, ?_⟩
    simp only [hw, if_false, Outcome.ret.injEq, LoopCtl.cont.injEq] at h
    exact h.symm

/-- When the loop of `locate` is started with `rv = newer_rv->older_rv` and
returns a version, the node it leaves in `newer_rv` points to a version with
`wts < ts`. -/
theorem locate_loop_newer_older (cfg : StaticConfig) (ts : Nat) (fr fw fv : Bool)
    (ctx : Context) :
    ∀ (fuel : Nat) (newer_rv : RowCommonPtr) (rv : Option Nat) (n : RowCommonPtr) (r : Nat),
      (ctx.older_rv newer_rv = rv ∨
        ∃ o, ctx.older_rv newer_rv = some o ∧ (ctx.versions o).wts < ts) →
      locate_loop cfg ts fr fw fv ctx.versions fuel newer_rv rv = .ret (n, some r) →
      ∃ o, ctx.older_rv n = some o ∧ (ctx.versions o).wts < ts := by
  intro fuel
  induction fuel with
  | zero => intro newer_rv rv n r _ h; simp [locate_loop] at h
  | succ fuel ih =>
    intro newer_rv rv n r hinv h
    cases rv with
    | none => simp [locate_loop] at h
    | some q =>
      simp only [locate_loop] at h
      split at h
      · rename_i r0 hv
        simp only [Outcome.ret.injEq, Prod.mk.injEq] at h
        obtain ⟨rfl, rfl⟩ := h
        obtain ⟨rfl, -, hw⟩ := locate_visit_brk_some cfg ts fv newer_rv q r _ hv
        rcases hinv with h0 | h0
        · exact ⟨r, h0, hw⟩
        · exact h0
      · rename_i n0 hv
        split at h
        · simp at h
        · split at h
          · simp at h
          · refine ih _ _ _ _ ?_ h
            rcases locate_visit_cont cfg ts fv newer_rv q _ n0 hv with ⟨hw, rfl⟩ | ⟨-, rfl⟩
            · rcases hinv with h0 | h0
              · exact Or.inr ⟨q, h0, hw⟩
              · exact Or.inr h0
            · exact Or.inl rfl
      · simp at h
      · simp at h
      · simp at h

/-- What the walk of `insert_version_deferred` tells about its result: the
node left in `newer_rv` points to a version with `wts < ts`, and the version
returned was not read after `ts`. -/
theorem insert_locate_some (cfg : StaticConfig) (fuel : Nat) (ctx : Context) (tx : Transaction)
    (i : Nat) (node : RowCommonPtr) (r : Nat)
    (h : insert_locate cfg fuel ctx tx i = .ret (node, some r)) :
    (∃ o, ctx.older_rv node = some o ∧ (ctx.versions o).wts < tx.ts_) ∧
    (ctx.versions r).rts ≤ tx.ts_ := by
  obtain ⟨r0, hloop, hpost⟩ := locate_ret cfg tx.ts_ _ true false ctx.versions fuel _ _ node
    (some r) h
  obtain ⟨rfl, hrts⟩ := locate_post_some tx.ts_ true ctx.versions r0 r hpost.symm
  exact ⟨locate_loop_newer_older cfg tx.ts_ _ true false ctx fuel _ _ node r (Or.inl rfl) hloop,
    hrts rfl⟩

/-! ## One write-set item of `insert_version_deferred` -/

/-- A store to `older_rv` of the version at `w` is seen through `node` only
when `node` is that version. -/
theorem older_rv_set_version (ctx : Context) (w : Nat) (x : Option Nat) (node : RowCommonPtr) :
    (ctx.set_version w { ctx.versions w with older_rv := x }).older_rv node
      = if node = .version w then x else ctx.older_rv node := by
  cases node with
  | head h => simp [Context.older_rv, Context.set_version]
  | version p =>
    by_cases hp : p = w
    · subst hp; simp [Context.older_rv, Context.set_version]
    · simp [Context.older_rv, Context.set_version, Function.update_noteq hp, hp]

/-- Stores to `older_rv` fields leave every `rts` alone. -/
theorem rts_set_older_rv (ctx : Context) (w : Nat) (x y : Option Nat) (node : RowCommonPtr)
    (r : Nat) :
    (((ctx.set_version w { ctx.versions w with older_rv := x }).set_older_rv node y).versions
      r).rts = (ctx.versions r).rts := by
  cases node with
  | head h =>
    by_cases hr : r = w
    · subst hr; simp [Context.set_older_rv, Context.set_version]
    · simp [Context.set_older_rv, Context.set_version, Function.update_noteq hr]
  | version p =>
    by_cases hp : r = p
    · subst hp
      by_cases hr : r = w
      · subst hr; simp [Context.set_older_rv, Context.set_version]
      · simp [Context.set_older_rv, Context.set_version, Function.update_noteq hr]
    · by_cases hr : r = w
      · subst hr; simp [Context.set_older_rv, Context.set_version, Function.update_noteq hp]
      · simp [Context.set_older_rv, Context.set_version, Function.update_noteq hr,
          Function.update_noteq hp]

/-- When the walk returns a version for the item (the read version, where the
item was read), the body of the retry loop runs once and splices `write_rv`
below the node the walk ended with. -/
theorem insert_version_item_splice (cfg : StaticConfig) (fuel : Nat) (i retries : Nat)
    (ctx : Context) (tx : Transaction) (node : RowCommonPtr) (w : Nat)
    (h : item_splices cfg fuel ctx tx i node w) :
    insert_version_item cfg fuel i (retries + 1) ctx tx
      = .ret (true, splice_version ctx node w, mark_inserted tx i node) := by
  obtain ⟨⟨r, hloc, hread⟩, hw, hstate⟩ := h
  obtain ⟨⟨o, ho, howts⟩, hrts⟩ := insert_locate_some cfg fuel ctx tx i node r hloc
  unfold insert_locate RowAccessItem.with_read at hloc
  unfold RowAccessItem.with_read at hread hstate
  have hcas : (ctx.set_version w { ctx.versions w with older_rv := some o }).older_rv node
      = some o := by
    rw [older_rv_set_version]
    split
    · rfl
    · exact ho
  have hrts2 : ¬ ((((ctx.set_version w { ctx.versions w with older_rv := some o }).set_older_rv
      node (some w)).versions r).rts > tx.ts_) := by
    rw [rts_set_older_rv]
    omega
  have hnot : ¬ ((ctx.versions o).wts > tx.ts_) := by omega
  have hres : (true, (ctx.set_version w { ctx.versions w with older_rv := some o }).set_older_rv
        node (some w),
      ({ tx with accesses_ := (Function.update
          (Function.update tx.accesses_ i { tx.accesses_ i with newer_rv := node }) i
          { tx.accesses_ i with newer_rv := node, inserted := 1 }) } : Transaction))
      = (true, splice_version ctx node w, mark_inserted tx i node) := by
    simp [splice_version, mark_inserted, ho]
  rw [← hres]
  unfold insert_version_item
  simp only [bind]
  cases hwr : decide ((tx.accesses_ i).state = .kReadWrite ∨
      (tx.accesses_ i).state = .kReadDelete) with
  | false =>
    have hA : cassert cfg (decide ((tx.accesses_ i).state = .kWrite ∨
        (tx.accesses_ i).state = .kDelete)) = .ret () :=
      cassert_ok _ _ fun hn => by simpa using hstate hn hwr
    rw [hwr] at hloc
    simp only [Bool.not_false, if_true, hA, Outcome.bind_ret, hloc, Bool.false_eq_true,
      false_and, if_false, ho, hnot, hw, hcas, hrts2]
  | true =>
    rw [hwr] at hloc
    have hpure : (pure PUnit.unit : Outcome PUnit) = .ret PUnit.unit := rfl
    simp only [Bool.not_true, Bool.false_eq_true, if_false, Outcome.bind_ret, hloc, ho,
      hnot, hw, hcas, hrts2, hpure, hread hwr, true_and, ne_eq, not_true_eq_false, if_true]

/-- When the walk returns null for the item, or a version other than the read
version where the item was read, the body of the retry loop returns false at
once: the shared state is untouched and the item only gets the `newer_rv` the
walk ended with (and the row may be noted for reservation). -/
theorem insert_version_item_fail (cfg : StaticConfig) (fuel : Nat) (i retries : Nat)
    (ctx : Context) (tx : Transaction) (node : RowCommonPtr)
    (h : item_fails cfg fuel ctx tx i node) :
    ∃ rh, insert_version_item cfg fuel i (retries + 1) ctx tx
      = .ret (false, ctx, reserve cfg (set_newer tx i node) (tx.accesses_ i).tbl
          (tx.accesses_ i).cf_id (tx.accesses_ i).row_id rh true) := by
  obtain ⟨⟨rv, hloc, hfail⟩, hstate⟩ := h
  unfold insert_locate RowAccessItem.with_read at hloc
  unfold RowAccessItem.with_read at hfail hstate
  have hpure : (pure PUnit.unit : Outcome PUnit) = .ret PUnit.unit := rfl
  unfold insert_version_item
  simp only [bind]
  cases hwr : decide ((tx.accesses_ i).state = .kReadWrite ∨
      (tx.accesses_ i).state = .kReadDelete) with
  | false =>
    have hA : cassert cfg (decide ((tx.accesses_ i).state = .kWrite ∨
        (tx.accesses_ i).state = .kDelete)) = .ret () :=
      cassert_ok _ _ fun hn => by simpa using hstate hn hwr
    rw [hwr] at hloc hfail
    have hnone : rv = none := by
      rcases hfail with h0 | ⟨h0, -⟩
      · exact h0
      · cases h0
    subst hnone
    refine ⟨false, ?_⟩
    simp only [Bool.not_false, if_true, hA, Outcome.bind_ret, hloc, Bool.false_eq_true,
      false_and, if_false]
    rfl
  | true =>
    rw [hwr] at hloc hfail
    by_cases hne : rv ≠ (tx.accesses_ i).read_rv
    · refine ⟨true, ?_⟩
      simp only [Bool.not_true, Bool.false_eq_true, if_false, Outcome.bind_ret, hloc, hpure,
        true_and, hne, ne_eq, not_false_eq_true, if_true]
      rfl
    · have hnone : rv = none := by
        rcases hfail with h0 | ⟨-, h0⟩
        · exact h0
        · exact absurd h0 hne
      subst hnone
      refine ⟨false, ?_⟩
      simp only [Bool.not_true, Bool.false_eq_true, if_false, Outcome.bind_ret, hloc, hpure,
        true_and, hne, if_false]
      rfl

/-- Every way in which the retry loop for one item returns: it spliced the
item (flag true), or the walk gave no usable version (flag false, shared state
untouched). -/
theorem insert_version_item_ret (cfg : StaticConfig) (fuel : Nat) (i retries : Nat)
    (ctx : Context) (tx : Transaction) (b : Bool) (ctx' : Context) (tx' : Transaction)
    (h : insert_version_item cfg fuel i (retries + 1) ctx tx = .ret (b, ctx', tx')) :
    (∃ node w, item_splices cfg fuel ctx tx i node w ∧ b = true ∧
      ctx' = splice_version ctx node w ∧ tx' = mark_inserted tx i node) ∨
    (∃ node rh, item_fails cfg fuel ctx tx i node ∧ b = false ∧ ctx' = ctx ∧
      tx' = reserve cfg (set_newer tx i node) (tx.accesses_ i).tbl
        (tx.accesses_ i).cf_id (tx.accesses_ i).row_id rh true) := by
  have hpure : (pure PUnit.unit : Outcome PUnit) = .ret PUnit.unit := rfl
  -- the assert was passed and the walk returned
  have hpre : (cfg.NDEBUG = false → (tx.accesses_ i).with_read = false →
        (tx.accesses_ i).state = .kWrite ∨ (tx.accesses_ i).state = .kDelete) ∧
      ∃ node rv, insert_locate cfg fuel ctx tx i = .ret (node, rv) := by
    have h2 := h
    unfold insert_version_item at h2
    unfold insert_locate RowAccessItem.with_read
    simp only [bind] at h2
    cases hwr : decide ((tx.accesses_ i).state = .kReadWrite ∨
        (tx.accesses_ i).state = .kReadDelete) with
    | false =>
      rw [hwr] at h2
      simp only [Bool.not_false, if_true, Outcome.bind_eq_ret, cassert_eq_ret] at h2
      obtain ⟨-, ha, ⟨node, rv⟩, hloc, -⟩ := h2
      exact ⟨fun hn _ => by simpa using ha hn, node, rv, hloc⟩
    | true =>
      rw [hwr] at h2
      simp only [Bool.not_true, Bool.false_eq_true, if_false, hpure, Outcome.bind_eq_ret] at h2
      obtain ⟨-, -, ⟨node, rv⟩, hloc, -⟩ := h2
      exact ⟨fun _ hx => (by cases hx), node, rv, hloc⟩
  obtain ⟨hstate, node, rv, hloc⟩ := hpre
  by_cases hfail : rv = none ∨
      ((tx.accesses_ i).with_read = true ∧ rv ≠ (tx.accesses_ i).read_rv)
  · right
    obtain ⟨rh, hval⟩ := insert_version_item_fail cfg fuel i retries ctx tx node
      ⟨⟨rv, hloc, hfail⟩, hstate⟩
    rw [hval] at h
    simp only [Outcome.ret.injEq, Prod.mk.injEq] at h
    exact ⟨node, rh, ⟨⟨rv, hloc, hfail⟩, hstate⟩, h.1.symm, h.2.1.symm, h.2.2.symm⟩
  · left
    obtain ⟨r, rfl⟩ : ∃ r, rv = some r := by
      cases rv with
      | none => exact absurd (Or.inl rfl) hfail
      | some r => exact ⟨r, rfl⟩
    have hread : (tx.accesses_ i).with_read = true → (tx.accesses_ i).read_rv = some r := by
      intro hwr
      by_contra hne
      exact hfail (Or.inr ⟨hwr, fun e => hne e.symm⟩)
    cases hw : (tx.accesses_ i).write_rv with
    | some w =>
      have hsp : item_splices cfg fuel ctx tx i node w := ⟨⟨r, hloc, hread⟩, hw, hstate⟩
      rw [insert_version_item_splice cfg fuel i retries ctx tx node w hsp] at h
      simp only [Outcome.ret.injEq, Prod.mk.injEq] at h
      exact ⟨node, w, hsp, h.1.symm, h.2.1.symm, h.2.2.symm⟩
    | none =>
      exfalso
      obtain ⟨⟨o, ho, howts⟩, -⟩ := insert_locate_some cfg fuel ctx tx i node r hloc
      have hnot : ¬ ((ctx.versions o).wts > tx.ts_) := by omega
      unfold insert_locate RowAccessItem.with_read at hloc
      unfold RowAccessItem.with_read at hread hstate
      unfold insert_version_item at h
      simp only [bind] at h
      cases hwr : decide ((tx.accesses_ i).state = .kReadWrite ∨
          (tx.accesses_ i).state = .kReadDelete) with
      | false =>
        have hA : cassert cfg (decide ((tx.accesses_ i).state = .kWrite ∨
            (tx.accesses_ i).state = .kDelete)) = .ret () :=
          cassert_ok _ _ fun hn => by simpa using hstate hn hwr
        rw [hwr] at hloc h
        simp only [Bool.not_false, if_true, hA, Outcome.bind_ret, hloc, Bool.false_eq_true,
          false_and, if_false, ho, hnot, hw] at h
        cases h
      | true =>
        rw [hwr] at hloc h
        simp only [Bool.not_true, Bool.false_eq_true, if_false, Outcome.bind_ret, hloc, ho,
          hnot, hw, hpure, hread hwr, true_and, ne_eq, not_true_eq_false] at h
        cases h

/-! ## The loop of `insert_version_deferred` over the write set -/

/-- The node the loop of `locate` leaves in `newer_rv` is the one it was
started with or a version with `wts >= ts`. -/
theorem locate_loop_newer_wts (cfg : StaticConfig) (ts : Nat) (fr fw fv : Bool)
    (versions : Nat → RowVersion) :
    ∀ (fuel : Nat) (newer_rv : RowCommonPtr) (rv : Option Nat) (n : RowCommonPtr)
      (r : Option Nat),
      locate_loop cfg ts fr fw fv versions fuel newer_rv rv = .ret (n, r) →
      n = newer_rv ∨ ∃ p, n = .version p ∧ ts ≤ (versions p).wts := by
  intro fuel
  induction fuel with
  | zero => intro newer_rv rv n r h; simp [locate_loop] at h
  | succ fuel ih =>
    intro newer_rv rv n r h
    cases rv with
    | none =>
      simp only [locate_loop, Outcome.ret.injEq, Prod.mk.injEq] at h
      exact Or.inl h.1.symm
    | some q =>
      simp only [locate_loop] at h
      split at h
      · simp only [Outcome.ret.injEq, Prod.mk.injEq] at h
        exact Or.inl h.1.symm
      · rename_i n0 hv
        have hn0 : n0 = newer_rv ∨ ∃ p, n0 = .version p ∧ ts ≤ (versions p).wts := by
          rcases locate_visit_cont cfg ts fv newer_rv q _ n0 hv with ⟨-, e⟩ | ⟨hw, e⟩
          · exact Or.inl e
          · exact Or.inr ⟨q, e, by omega⟩
        split at h
        · simp only [Outcome.ret.injEq, Prod.mk.injEq] at h
          rw [← h.1]; exact hn0
        · split at h
          · simp only [Outcome.ret.injEq, Prod.mk.injEq] at h
            rw [← h.1]; exact hn0
          · rcases ih _ _ _ _ h with e | e
            · rw [e]; exact hn0
            · exact Or.inr e
      · simp at h
      · simp at h
      · simp at h

/-- What the splice of C11 guarantees about `wts` for an item whose `write_rv`
carries `wts = ts` (as `write_row` sets it): the version placed below
`write_rv` has a smaller `wts`, the version the walk returned (the read
version of a ReadWrite or ReadDelete item) has a smaller `wts`, and the node
above is the item's old `newer_rv` or a version whose `wts` is at least that
of `write_rv`; it may be equal. -/
theorem splice_wts_bounds (cfg : StaticConfig) (fuel : Nat) (ctx : Context) (tx : Transaction)
    (i : Nat) (node : RowCommonPtr) (w : Nat)
    (h : item_splices cfg fuel ctx tx i node w) (hwts : (ctx.versions w).wts = tx.ts_) :
    (∃ o, ctx.older_rv node = some o ∧ (ctx.versions o).wts < (ctx.versions w).wts) ∧
    (∃ r, insert_locate cfg fuel ctx tx i = .ret (node, some r) ∧
      (ctx.versions r).wts < (ctx.versions w).wts) ∧
    (node = (tx.accesses_ i).newer_rv ∨
      ∃ p, node = .version p ∧ (ctx.versions w).wts ≤ (ctx.versions p).wts) := by
  obtain ⟨⟨r, hloc, -⟩, -, -⟩ := h
  obtain ⟨hold, -⟩ := insert_locate_some cfg fuel ctx tx i node r hloc
  obtain ⟨r0, hloop, hpost⟩ := locate_ret cfg tx.ts_ _ true false ctx.versions fuel _ _ node
    (some r) hloc
  obtain ⟨rfl, -⟩ := locate_post_some tx.ts_ true ctx.versions r0 r hpost.symm
  rw [hwts]
  exact ⟨hold, ⟨r, hloc, (locate_loop_some cfg tx.ts_ _ true false ctx.versions fuel _ _ node r
    hloop).2⟩, locate_loop_newer_wts cfg tx.ts_ _ true false ctx.versions fuel _ _ node _ hloop⟩

/-- C12 (the code departs from it).  One transaction at timestamp 20 holds the
same row in two write-set items because dedup was disabled
(`check_dup_access = false` in every call): two handles peek, read and write
row 0, whose only version (address 1) was committed at 10, so the chain from
the head has strictly decreasing `wts` before the insert.
`insert_version_deferred` returns true with both items spliced, and the chain
from the head is then the version at 2 (`wts = 20`), the version at 3
(`wts = 20`), the version at 1 (`wts = 10`): two adjacent versions with equal
`wts`, and for the second item `newer_rv` is the version at 2, whose `wts`
equals that of its `write_rv`.  The same holds with and without asserts. -/
theorem same_row_twice_breaks_monotonicity :
    scenarioSameRowTwice cfgDebug
      = .ret (true, (some 2, some 3, some 1, none), (20, 20, 10), 2,
          (.version 2, some 3, some 1, 1)) ∧
    scenarioSameRowTwice cfgRelease
      = .ret (true, (some 2, some 3, some 1, none), (20, 20, 10), 2,
          (.version 2, some 3, some 1, 1)) :=
  ⟨rfl, rfl⟩

/-! ## C26: the node `locate` leaves in `newer_rv` -/

/-- A version with `wts < ts` that the first block of the loop body passes
without a `break` is neither Committed nor Deleted. -/
theorem locate_visit_cont_status (cfg : StaticConfig) (ts : Nat) (fv : Bool)
    (newer_rv : RowCommonPtr) (p : Nat) (rv : RowVersion) (n : RowCommonPtr)
    (h : locate_visit cfg ts fv newer_rv p rv = .ret (.cont n)) (hw : rv.wts < ts) :
    rv.status ≠ .kCommitted ∧ rv.status ≠ .kDeleted := by
  obtain ⟨hD, hC, -, -⟩ := locate_visit_cases cfg ts fv newer_rv p rv
  constructor
  · intro hs
    rw [hC hw hs] at h
    cases h
  · intro hs
    rw [hD hw hs] at h
    cases h

/-- A walk that passes no version ends where it starts. -/
theorem ChainPath_nil (versions : Nat → RowVersion) (a dest : Option Nat) :
    ChainPath versions a [] dest ↔ a = dest := by
  cases a <;> simp [ChainPath]

/-- A walk that arrives at the version `q` goes on to `q->older_rv`. -/
theorem ChainPath_snoc (versions : Nat → RowVersion) (q : Nat) :
    ∀ (path : List Nat) (a : Option Nat), ChainPath versions a path (some q) →
      ChainPath versions a (path ++ [q]) (versions q).older_rv := by
  intro path
  induction path with
  | nil =>
    intro a h
    have ha : a = some q := (ChainPath_nil versions a _).mp h
    subst ha
    exact ⟨rfl, (ChainPath_nil versions _ _).mpr rfl⟩
  | cons p rest ih =>
    intro a h
    cases a with
    | none => simp [ChainPath] at h
    | some x =>
      obtain ⟨hx, hrest⟩ : x = p ∧ ChainPath versions (versions x).older_rv rest (some q) := by
        simpa [ChainPath] using h
      exact ⟨hx, ih _ hrest⟩

/-- When the loop of `locate` is started with `rv = newer_rv->older_rv` and
returns a version `r`, the node it leaves in `newer_rv` points to a version
with `wts < ts` from which the walk reaches `r`, and which is `r` itself or a
version that is neither Committed nor Deleted. -/
theorem locate_loop_newer_points (cfg : StaticConfig) (ts : Nat) (fr fw fv : Bool)
    (ctx : Context) :
    ∀ (fuel : Nat) (newer_rv : RowCommonPtr) (rv : Option Nat) (n : RowCommonPtr) (r : Nat),
      (ctx.older_rv newer_rv = rv ∨
        ∃ o path, ctx.older_rv newer_rv = some o ∧ (ctx.versions o).wts < ts ∧
          (ctx.versions o).status ≠ .kCommitted ∧ (ctx.versions o).status ≠ .kDeleted ∧
          ChainPath ctx.versions (some o) path rv) →
      locate_loop cfg ts fr fw fv ctx.versions fuel newer_rv rv = .ret (n, some r) →
      ∃ o path, ctx.older_rv n = some o ∧ (ctx.versions o).wts < ts ∧
        ChainPath ctx.versions (some o) path (some r) ∧
        (o = r ∨ ((ctx.versions o).status ≠ .kCommitted ∧
          (ctx.versions o).status ≠ .kDeleted)) := by
  intro fuel
  induction fuel with
  | zero => intro newer_rv rv n r _ h; simp [locate_loop] at h
  | succ fuel ih =>
    intro newer_rv rv n r hinv h
    cases rv with
    | none => simp [locate_loop] at h
    | some q =>
      simp only [locate_loop] at h
      split at h
      · rename_i r0 hv
        simp only [Outcome.ret.injEq, Prod.mk.injEq] at h
        obtain ⟨rfl, rfl⟩ := h
        obtain ⟨rfl, -, hw⟩ := locate_visit_brk_some cfg ts fv newer_rv q r _ hv
        rcases hinv with h0 | ⟨o, path, h0, h1, h2, h3, h4⟩
        · exact ⟨r, [], h0, hw, rfl, Or.inl rfl⟩
        · exact ⟨o, path, h0, h1, h4, Or.inr ⟨h2, h3⟩⟩
      · rename_i n0 hv
        split at h
        · simp at h
        · split at h
          · simp at h
          · refine ih _ _ _ _ ?_ h
            rcases locate_visit_cont cfg ts fv newer_rv q _ n0 hv with ⟨hw, rfl⟩ | ⟨-, rfl⟩
            · rcases hinv with h0 | ⟨o, path, h0, h1, h2, h3, h4⟩
              · have hst := locate_visit_cont_status cfg ts fv n0 q _ n0 hv hw
                exact Or.inr ⟨q, [q], h0, hw, hst.1, hst.2,
                  ⟨rfl, (ChainPath_nil ctx.versions _ _).mpr rfl⟩⟩
              · exact Or.inr ⟨o, path ++ [q], h0, h1, h2, h3,
                  ChainPath_snoc ctx.versions q path _ h4⟩
            · exact Or.inl rfl
      · simp at h
      · simp at h
      · simp at h

/-- C26 (counterexample).  On the chain head → version at 1 (Aborted,
`wts = 7`) → version at 2 (Committed, `wts = 5`), `locate` at `ts = 10` returns
the version at 2 and leaves `newer_rv` = the head, whose `older_rv` is the
Aborted version at 1, not the returned version; so it is for the plain walk
and for the walk for read and write.  Likewise on the chain 1 → 2 → 3 of
`versionsThree` the
walk returns the version at 3 and leaves `newer_rv` = the version at 1, whose
`older_rv` is the Aborted version at 2. -/
theorem locate_newer_rv_above_aborted :
    locate cfgDebug 10 false false false ctxAbortedAbove.versions 4 (.head 0)
      (ctxAbortedAbove.older_rv (.head 0)) = .ret (.head 0, some 2) ∧
    locate cfgRelease 10 true true false ctxAbortedAbove.versions 4 (.head 0)
      (ctxAbortedAbove.older_rv (.head 0)) = .ret (.head 0, some 2) ∧
    ctxAbortedAbove.older_rv (.head 0) = some 1 ∧
    (ctxAbortedAbove.versions 1).status = .kAborted ∧
    locate cfgDebug 10 false false false versionsThree 4 (.head 0) (some 1)
      = .ret (.version 1, some 3) ∧
    (versionsThree 1).older_rv = some 2 :=
  ⟨rfl, rfl, rfl, rfl, rfl, rfl⟩

/-- C26 (amended).  Whenever `locate`, started with `rv = newer_rv->older_rv`,
returns a non-null version `r`, the node it leaves in `newer_rv` is the start
node or a version with `wts >= ts`, and that node's `older_rv` is a version
with `wts < ts` from which `r` is reached along `older_rv`: `r` itself, or a
version above `r` that is neither Committed nor Deleted (an Aborted version,
or a Pending one skipped in non-waiting mode); so `newer_rv->older_rv == r`
whenever that version is Committed. -/
theorem locate_newer_rv_position (cfg : StaticConfig) (ts : Nat)
    (ForRead ForWrite ForValidation : Bool) (ctx : Context) (fuel : Nat)
    (newer_rv n : RowCommonPtr) (r : Nat)
    (h : locate cfg ts ForRead ForWrite ForValidation ctx.versions fuel newer_rv
      (ctx.older_rv newer_rv) = .ret (n, some r)) :
    (n = newer_rv ∨ ∃ p, n = .version p ∧ ts ≤ (ctx.versions p).wts) ∧
    ∃ o path, ctx.older_rv n = some o ∧ (ctx.versions o).wts < ts ∧
      ChainPath ctx.versions (some o) path (some r) ∧
      (o = r ∨ ((ctx.versions o).status ≠ .kCommitted ∧
        (ctx.versions o).status ≠ .kDeleted)) ∧
      ((ctx.versions o).status = .kCommitted → ctx.older_rv n = some r) := by
  obtain ⟨r0, hloop, hpost⟩ := locate_ret cfg ts ForRead ForWrite ForValidation ctx.versions
    fuel _ _ n (some r) h
  obtain ⟨rfl, -⟩ := locate_post_some ts ForWrite ctx.versions r0 r hpost.symm
  refine ⟨locate_loop_newer_wts cfg ts _ _ _ ctx.versions fuel _ _ n _ hloop, ?_⟩
  obtain ⟨o, path, ho, hw, hpath, hcase⟩ := locate_loop_newer_points cfg ts _ _ _ ctx fuel
    _ _ n r (Or.inl rfl) hloop
  refine ⟨o, path, ho, hw, hpath, hcase, fun hc => ?_⟩
  rcases hcase with rfl | ⟨hn, -⟩
  · exact ho
  · exact absurd hc hn

/-- On the chain head → Aborted → Committed the walk returns the version at 2
and the head's `older_rv` is the Aborted version at 1, with `wts = 7 < 10`,
from which the version at 2 is reached. -/
theorem locate_newer_rv_position_witness :
    ∃ o path, ctxAbortedAbove.older_rv (.head 0) = some o ∧
      (ctxAbortedAbove.versions o).wts < 10 ∧
      ChainPath ctxAbortedAbove.versions (some o) path (some 2) ∧
      (o = 2 ∨ ((ctxAbortedAbove.versions o).status ≠ .kCommitted ∧
        (ctxAbortedAbove.versions o).status ≠ .kDeleted)) := by
  obtain ⟨-, o, path, h1, h2, h3, h4, -⟩ := locate_newer_rv_position cfgDebug 10 false false
    false ctxAbortedAbove 4 (.head 0) (.head 0) 2 rfl
  exact ⟨o, path, h1, h2, h3, h4⟩

/-! ## C27: the newest-only guard of `locate` -/

/-- One iteration of the loop of `locate` on a version that the first block
of the body passes: the guard, then the debug-only null check, then the next
version. -/
theorem locate_loop_step_cont (cfg : StaticConfig) (ts : Nat) (fr fw fv : Bool)
    (versions : Nat → RowVersion) (fuel : Nat) (newer_rv n : RowCommonPtr) (q : Nat)
    (hv : locate_visit cfg ts fv newer_rv q (versions q) = .ret (.cont n)) :
    locate_loop cfg ts fr fw fv versions (fuel + 1) newer_rv (some q) =
      if cfg.kInsertNewestVersionOnly && fr && fw && (versions q).status ≠ .kAborted &&
          (versions q).wts ≠ ts then .ret (n, none)
      else if !cfg.NDEBUG && (versions q).older_rv = none then .ret (n, none)
      else locate_loop cfg ts fr fw fv versions fuel n (versions q).older_rv := by
  simp only [locate_loop, hv]

/-- Under the newest-only policy the loop of `locate<true, true>` returns a
version only when every version passed before it is Aborted or was written at
`ts`. -/
theorem locate_loop_newest_only_passed (cfg : StaticConfig) (ts : Nat) (fv : Bool)
    (versions : Nat → RowVersion) (hpol : cfg.kInsertNewestVersionOnly = true) :
    ∀ (fuel : Nat) (newer_rv : RowCommonPtr) (rv : Option Nat) (n : RowCommonPtr) (r : Nat)
      (above : List Nat),
      ChainPath versions rv above (some r) → r ∉ above →
      locate_loop cfg ts true true fv versions fuel newer_rv rv = .ret (n, some r) →
      ∀ q ∈ above, (versions q).status = .kAborted ∨ (versions q).wts = ts := by
  intro fuel
  induction fuel with
  | zero => intro newer_rv rv n r above _ _ h; simp [locate_loop] at h
  | succ fuel ih =>
    intro newer_rv rv n r above hpath hnot h
    cases above with
    | nil => intro q hq; cases hq
    | cons a rest =>
      cases rv with
      | none => simp [ChainPath] at hpath
      | some p =>
        obtain ⟨rfl, hrest⟩ : p = a ∧ ChainPath versions (versions p).older_rv rest (some r) := by
          simpa [ChainPath] using hpath
        have hne : r ≠ p := fun hr => hnot (by rw [hr]; exact List.mem_cons_self _ _)
        have hnr : r ∉ rest := fun hr => hnot (List.mem_cons_of_mem _ hr)
        cases hv : locate_visit cfg ts fv newer_rv p (versions p) with
        | ret c =>
          cases c with
          | brk r0 =>
            simp only [locate_loop, hv, Outcome.ret.injEq, Prod.mk.injEq] at h
            obtain ⟨-, rfl⟩ := h
            exact absurd (locate_visit_brk_some cfg ts fv newer_rv p r _ hv).1 hne
          | cont n0 =>
            rw [locate_loop_step_cont cfg ts true true fv versions fuel newer_rv n0 p hv] at h
            split at h
            · simp at h
            · rename_i hg
              split at h
              · simp at h
              · intro q hq
                rcases List.mem_cons.mp hq with rfl | hq
                · by_cases hs : (versions q).status = .kAborted
                  · exact Or.inl hs
                  · by_cases hw : (versions q).wts = ts
                    · exact Or.inr hw
                    · exact absurd (by simp [hpol, hs, hw]) hg
                · exact ih _ _ _ _ rest hrest hnr h q hq
        | assertFailed => simp [locate_loop, hv] at h
        | undefined => simp [locate_loop, hv] at h
        | diverges => simp [locate_loop, hv] at h

/-- The first block of the loop body on a version that is not the visible one:
it returns, unless the build waits for a Pending version or meets a status the
assertion excludes. -/
theorem locate_visit_returns (cfg : StaticConfig) (ts : Nat) (fv : Bool)
    (newer_rv : RowCommonPtr) (p : Nat) (rv : RowVersion)
    (h : cfg.kNoWaitForPending = true ∨ ts ≤ rv.wts ∨ rv.status = .kDeleted) :
    ∃ c, locate_visit cfg ts fv newer_rv p rv = .ret c := by
  unfold locate_visit
  by_cases hw : rv.wts < ts
  · rw [if_pos hw]
    rcases h with h | h | h
    · cases hs : rv.status <;> cases hk : cfg.kSkipPending <;> cases fv <;>
        cases hn : cfg.NDEBUG <;>
        simp [h, hs, hk, hn, cassert, bind, Outcome.bind]
    · omega
    · cases hc : cfg.kNoWaitForPending <;> cases hk : cfg.kSkipPending <;> cases fv <;>
        simp [h, hc, hk, wait_for_pending, cassert, bind, Outcome.bind]
  · rw [if_neg hw]
    exact ⟨_, rfl⟩

/-- C27.  The newest-only guard of `locate`.  (1) Under
`kInsertNewestVersionOnly`, when `locate<true, true>` returns a version `r`,
every version passed before reaching `r` is Aborted or has `wts == ts`.
(2) Under the policy, on meeting a version that is not Aborted, has
`wts != ts` and is not the visible version (Committed with `wts < ts`),
`locate<true, true>` never returns a version, and it returns null whenever the
first block of the body completes (the build does not wait for Pending
versions, or `wts >= ts`, or the version is Deleted).  (3) A version with
`wts == ts` never triggers the guard: the walk goes on to the debug-only null
check and the next version, for every policy and all flags.  (4) With the
policy off, or with `ForRead` or `ForWrite` false, the guard fires on no
version: every version the first block passes is followed by the debug-only
null check and the next version. -/
theorem newest_only_guard (cfg : StaticConfig) (ts : Nat) (versions : Nat → RowVersion) :
    (cfg.kInsertNewestVersionOnly = true →
      ∀ (fv : Bool) (fuel : Nat) (newer_rv : RowCommonPtr) (rv : Option Nat)
        (n : RowCommonPtr) (r : Nat) (above : List Nat),
        ChainPath versions rv above (some r) → r ∉ above →
        locate cfg ts true true fv versions fuel newer_rv rv = .ret (n, some r) →
        ∀ q ∈ above, (versions q).status = .kAborted ∨ (versions q).wts = ts) ∧
    (cfg.kInsertNewestVersionOnly = true →
      ∀ (fv : Bool) (fuel : Nat) (newer_rv : RowCommonPtr) (q : Nat),
        (versions q).status ≠ .kAborted → (versions q).wts ≠ ts →
        ¬ ((versions q).wts < ts ∧ (versions q).status = .kCommitted) →
        (∀ n r, locate cfg ts true true fv versions (fuel + 1) newer_rv (some q)
          ≠ .ret (n, some r)) ∧
        (cfg.kNoWaitForPending = true ∨ ts ≤ (versions q).wts ∨
            (versions q).status = .kDeleted →
          ∃ n, locate cfg ts true true fv versions (fuel + 1) newer_rv (some q)
            = .ret (n, none))) ∧
    (∀ (fr fw fv : Bool) (fuel : Nat) (newer_rv : RowCommonPtr) (q : Nat),
      (versions q).wts = ts →
      locate_loop cfg ts fr fw fv versions (fuel + 1) newer_rv (some q) =
        if !cfg.NDEBUG && (versions q).older_rv = none then .ret (.version q, none)
        else locate_loop cfg ts fr fw fv versions fuel (.version q) (versions q).older_rv) ∧
    (∀ (fr fw fv : Bool) (fuel : Nat) (newer_rv n : RowCommonPtr) (q : Nat),
      cfg.kInsertNewestVersionOnly = false ∨ fr = false ∨ fw = false →
      locate_visit cfg ts fv newer_rv q (versions q) = .ret (.cont n) →
      locate_loop cfg ts fr fw fv versions (fuel + 1) newer_rv (some q) =
        if !cfg.NDEBUG && (versions q).older_rv = none then .ret (n, none)
        else locate_loop cfg ts fr fw fv versions fuel n (versions q).older_rv) := by
  refine ⟨?_, ?_, ?_, ?_⟩
  · intro hpol fv fuel newer_rv rv n r above hpath hnot h
    obtain ⟨r0, hloop, hpost⟩ := locate_ret cfg ts true true fv versions fuel _ _ n (some r) h
    obtain ⟨rfl, -⟩ := locate_post_some ts true versions r0 r hpost.symm
    exact locate_loop_newest_only_passed cfg ts fv versions hpol fuel newer_rv rv n r above
      hpath hnot hloop
  · intro hpol fv fuel newer_rv q hs hw hvis
    have hstep : ∀ c, locate_visit cfg ts fv newer_rv q (versions q) = .ret c →
        ∃ n, locate_loop cfg ts true true fv versions (fuel + 1) newer_rv (some q)
          = .ret (n, none) := by
      intro c hv
      cases c with
      | brk r0 =>
        cases r0 with
        | none => exact ⟨newer_rv, by simp only [locate_loop, hv]⟩
        | some r =>
          obtain ⟨-, h1, h2⟩ := locate_visit_brk_some cfg ts fv newer_rv q r _ hv
          exact absurd ⟨h2, h1⟩ hvis
      | cont n0 =>
        refine ⟨n0, ?_⟩
        rw [locate_loop_step_cont cfg ts true true fv versions fuel newer_rv n0 q hv]
        simp [hpol, hs, hw]
    constructor
    · intro n r h
      obtain ⟨r0, hloop, hpost⟩ := locate_ret cfg ts true true fv versions _ _ _ n (some r) h
      obtain ⟨rfl, -⟩ := locate_post_some ts true versions r0 r hpost.symm
      cases hv : locate_visit cfg ts fv newer_rv q (versions q) with
      | ret c =>
        obtain ⟨n1, h1⟩ := hstep c hv
        rw [h1] at hloop
        simp at hloop
      | assertFailed => simp [locate_loop, hv] at hloop
      | undefined => simp [locate_loop, hv] at hloop
      | diverges => simp [locate_loop, hv] at hloop
    · intro hret
      obtain ⟨c, hv⟩ := locate_visit_returns cfg ts fv newer_rv q (versions q) hret
      obtain ⟨n, h1⟩ := hstep c hv
      exact ⟨n, by simp only [locate, h1, Outcome.bind_ret, locate_post]⟩
  · intro fr fw fv fuel newer_rv q hw
    have hv : locate_visit cfg ts fv newer_rv q (versions q) = .ret (.cont (.version q)) :=
      (locate_visit_cases cfg ts fv newer_rv q (versions q)).2.2.2 (by omega)
    rw [locate_loop_step_cont cfg ts fr fw fv versions fuel newer_rv _ q hv]
    simp [hw]
  · intro fr fw fv fuel newer_rv n q hoff hv
    rw [locate_loop_step_cont cfg ts fr fw fv versions fuel newer_rv n q hv]
    rcases hoff with h | h | h <;> simp [h]

/-- Under the policy, at `ts = 10`: the walk over the Aborted version at 1 of
`ctxAbortedAbove` returns the version at 2, and the version passed is Aborted;
on `versionsThree` the walk meets the version at 1, Committed at 30, and returns
null, while the build without the policy returns the version at 3. -/
theorem newest_only_guard_witness :
    locate cfgNewestOnly 10 true true false ctxAbortedAbove.versions 4 (.head 0) (some 1)
      = .ret (.head 0, some 2) ∧
    (∀ q ∈ [1], (ctxAbortedAbove.versions q).status = .kAborted ∨
      (ctxAbortedAbove.versions q).wts = 10) ∧
    (∃ n, locate cfgNewestOnly 10 true true false versionsThree 4 (.head 0) (some 1)
      = .ret (n, none)) ∧
    locate cfgDebug 10 true true false versionsThree 4 (.head 0) (some 1)
      = .ret (.version 1, some 3) :=
  ⟨rfl,
   (newest_only_guard cfgNewestOnly 10 ctxAbortedAbove.versions).1 rfl false 4 (.head 0)
     (some 1) (.head 0) 2 [1] ⟨rfl, rfl⟩ (by decide) rfl,
   ((newest_only_guard cfgNewestOnly 10 versionsThree).2.1 rfl false 3 (.head 0) 1
     (by decide) (by decide) (by decide)).2 (Or.inr (Or.inl (by decide))),
   rfl⟩

/-! ## C28: Pending versions in non-waiting mode -/

/-- In non-waiting mode the first block of the loop body, on a Pending version
with `wts < ts`, leaves the loop with null when `kSkipPending` is off or the
walk is one for validation, and passes the version without moving `newer_rv`
otherwise. -/
theorem locate_visit_pending (cfg : StaticConfig) (ts : Nat) (fv : Bool)
    (newer_rv : RowCommonPtr) (p : Nat) (rv : RowVersion)
    (hnw : cfg.kNoWaitForPending = true) (hw : rv.wts < ts) (hs : rv.status = .kPending) :
    locate_visit cfg ts fv newer_rv p rv =
      if cfg.kSkipPending = false ∨ fv = true then .ret (.brk none)
      else .ret (.cont newer_rv) := by
  cases hk : cfg.kSkipPending <;> cases fv <;> cases hn : cfg.NDEBUG <;>
    simp [locate_visit, hnw, hw, hs, hk, hn, cassert, bind, Outcome.bind]

/-- C28 (counterexample).  The build has `kNoWaitForPending`, `kSkipPending`
and `kInsertNewestVersionOnly` set; the chain is head → version at 1 (Pending,
`wts = 7`) → version at 2 (Committed, `wts = 5`) and `ts = 10`.
`locate<true, true, false>`, which `auto_locate` selects for `hint_flags = 3`,
does not go on to the older version after the Pending one: it returns null.
The same build without `kInsertNewestVersionOnly` skips the Pending version
and returns the Committed version at 2. -/
theorem skip_pending_stops_at_guard :
    cfgSkipPendingNewestOnly.kNoWaitForPending = true ∧
    cfgSkipPendingNewestOnly.kSkipPending = true ∧
    (ctxPendingAbove.versions 1).status = .kPending ∧
    (ctxPendingAbove.versions 1).wts < 10 ∧
    locate cfgSkipPendingNewestOnly 10 true true false ctxPendingAbove.versions 4 (.head 0)
      (ctxPendingAbove.older_rv (.head 0)) = .ret (.head 0, none) ∧
    auto_locate cfgSkipPendingNewestOnly 10 ctxPendingAbove.versions 4 (.head 0)
      (ctxPendingAbove.older_rv (.head 0)) 3 = .ret (.head 0, none) ∧
    locate cfgSkipPending 10 true true false ctxPendingAbove.versions 4 (.head 0)
      (ctxPendingAbove.older_rv (.head 0)) = .ret (.head 0, some 2) :=
  ⟨rfl, rfl, rfl, by decide, rfl, rfl, rfl⟩

/-- C28 (amended).  In non-waiting mode (`kNoWaitForPending`), on a Pending
version with `wts < ts`: (1) if `kSkipPending` is false or `ForValidation` is
true, `locate` returns null and leaves `newer_rv` as it was; (2) if
`kSkipPending` is true and `ForValidation` is false, and the newest-only guard
does not apply (`kInsertNewestVersionOnly` off, or `ForRead` or `ForWrite`
false), the walk skips the version without advancing `newer_rv` and goes on
with the older version (after the debug-only null check); (3) if the guard
applies, `locate` returns null instead.  (4) `auto_locate` maps
`hint_flags = (read_hint << 1) | write_hint` to
`locate<read_hint, write_hint, false>`, and every other value of `hint_flags`
to `locate<false, false, false>`, so never to `ForValidation = true`. -/
theorem pending_no_wait (cfg : StaticConfig) (ts : Nat) (versions : Nat → RowVersion)
    (hnw : cfg.kNoWaitForPending = true) :
    (∀ (fr fw fv : Bool) (fuel : Nat) (newer_rv : RowCommonPtr) (p : Nat),
      (versions p).status = .kPending → (versions p).wts < ts →
      cfg.kSkipPending = false ∨ fv = true →
      locate cfg ts fr fw fv versions (fuel + 1) newer_rv (some p) = .ret (newer_rv, none)) ∧
    (∀ (fr fw : Bool) (fuel : Nat) (newer_rv : RowCommonPtr) (p : Nat),
      (versions p).status = .kPending → (versions p).wts < ts →
      cfg.kSkipPending = true →
      cfg.kInsertNewestVersionOnly = false ∨ fr = false ∨ fw = false →
      locate_loop cfg ts fr fw false versions (fuel + 1) newer_rv (some p) =
        if !cfg.NDEBUG && (versions p).older_rv = none then .ret (newer_rv, none)
        else locate_loop cfg ts fr fw false versions fuel newer_rv (versions p).older_rv) ∧
    (∀ (fuel : Nat) (newer_rv : RowCommonPtr) (p : Nat),
      (versions p).status = .kPending → (versions p).wts < ts →
      cfg.kSkipPending = true → cfg.kInsertNewestVersionOnly = true →
      locate cfg ts true true false versions (fuel + 1) newer_rv (some p)
        = .ret (newer_rv, none)) ∧
    (∀ (read_hint write_hint : Bool) (fuel : Nat) (newer_rv : RowCommonPtr) (rv : Option Nat),
      auto_locate cfg ts versions fuel newer_rv rv (hint_flags read_hint write_hint) =
        locate cfg ts read_hint write_hint false versions fuel newer_rv rv) ∧
    (∀ (flags fuel : Nat) (newer_rv : RowCommonPtr) (rv : Option Nat), 3 < flags →
      auto_locate cfg ts versions fuel newer_rv rv flags =
        locate cfg ts false false false versions fuel newer_rv rv) := by
  refine ⟨?_, ?_, ?_, ?_, ?_⟩
  · intro fr fw fv fuel newer_rv p hs hw hstop
    have hv := locate_visit_pending cfg ts fv newer_rv p (versions p) hnw hw hs
    rw [if_pos hstop] at hv
    simp only [locate, locate_loop, hv, Outcome.bind_ret, locate_post]
  · intro fr fw fuel newer_rv p hs hw hk hoff
    have hv := locate_visit_pending cfg ts false newer_rv p (versions p) hnw hw hs
    rw [if_neg (by simp [hk])] at hv
    rw [locate_loop_step_cont cfg ts fr fw false versions fuel newer_rv newer_rv p hv]
    rcases hoff with h | h | h <;> simp [h]
  · intro fuel newer_rv p hs hw hk hpol
    have hv := locate_visit_pending cfg ts false newer_rv p (versions p) hnw hw hs
    rw [if_neg (by simp [hk])] at hv
    have hne : (versions p).wts ≠ ts := by omega
    have hloop : locate_loop cfg ts true true false versions (fuel + 1) newer_rv (some p)
        = .ret (newer_rv, none) := by
      rw [locate_loop_step_cont cfg ts true true false versions fuel newer_rv newer_rv p hv]
      simp [hpol, hs, hne]
    simp only [locate, hloop, Outcome.bind_ret, locate_post]
  · intro rh wh fuel newer_rv rv
    cases rh <;> cases wh <;> rfl
  · intro flags fuel newer_rv rv hf
    match flags, hf with
    | n + 4, _ => rfl

/-- On the chain head → Pending → Committed at `ts = 10`, the build that skips
Pending versions and has no newest-only policy passes the Pending version at 1
and goes on with the version at 2, which it returns. -/
theorem pending_no_wait_witness :
    locate_loop cfgSkipPending 10 true true false ctxPendingAbove.versions 4 (.head 0) (some 1) =
      locate_loop cfgSkipPending 10 true true false ctxPendingAbove.versions 3 (.head 0)
        (some 2) ∧
    locate cfgSkipPending 10 true true false ctxPendingAbove.versions 4 (.head 0) (some 1)
      = .ret (.head 0, some 2) :=
  ⟨((pending_no_wait cfgSkipPending 10 ctxPendingAbove.versions rfl).2.1 true true 3 (.head 0) 1
      rfl (by decide) rfl (Or.inl rfl)).trans rfl, rfl⟩

/-! ## C21: the peek-only path next to the regular path -/

/-- The first block of the loop body reads only `wts` and `status` of the
version. -/
theorem locate_visit_congr (cfg : StaticConfig) (ts : Nat) (fv : Bool)
    (newer_rv : RowCommonPtr) (p : Nat) (rv rv2 : RowVersion)
    (hw : rv2.wts = rv.wts) (hs : rv2.status = rv.status) :
    locate_visit cfg ts fv newer_rv p rv2 = locate_visit cfg ts fv newer_rv p rv := by
  unfold locate_visit wait_for_pending
  rw [hw, hs]

/-- The loop of `locate` reads only `wts`, `status` and `older_rv` of the
versions: it gives the same result on two memories that agree on these. -/
theorem locate_loop_congr (cfg : StaticConfig) (ts : Nat) (fr fw fv : Bool)
    (versions versions2 : Nat → RowVersion)
    (h : ∀ p, (versions2 p).wts = (versions p).wts ∧
      (versions2 p).status = (versions p).status ∧
      (versions2 p).older_rv = (versions p).older_rv) :
    ∀ (fuel : Nat) (newer_rv : RowCommonPtr) (rv : Option Nat),
      locate_loop cfg ts fr fw fv versions2 fuel newer_rv rv =
        locate_loop cfg ts fr fw fv versions fuel newer_rv rv := by
  intro fuel
  induction fuel with
  | zero => intro newer_rv rv; rfl
  | succ fuel ih =>
    intro newer_rv rv
    cases rv with
    | none => rfl
    | some p =>
      obtain ⟨h1, h2, h3⟩ := h p
      simp only [locate_loop]
      rw [locate_visit_congr cfg ts fv newer_rv p (versions p) (versions2 p) h1 h2, h1, h2, h3]
      cases locate_visit cfg ts fv newer_rv p (versions p) with
      | ret c =>
        cases c with
        | brk r => rfl
        | cont n => simp only [ih]
      | assertFailed => rfl
      | undefined => rfl
      | diverges => rfl

/-- A walk that is not for a write is not affected by the `rts` update that
`peek_row` makes between its two walks. -/
theorem locate_after_rts_update (cfg : StaticConfig) (ts : Nat) (fr fv : Bool) (ctx : Context)
    (v t fuel : Nat) (newer_rv : RowCommonPtr) (rv : Option Nat) :
    locate cfg ts fr false fv (ctx.set_version v (rts_update (ctx.versions v) t)).versions
        fuel newer_rv rv =
      locate cfg ts fr false fv ctx.versions fuel newer_rv rv := by
  have hframe := (set_rts_frame ctx v t).2
  have hpost : ∀ (vs : Nat → RowVersion) r, locate_post ts false vs r = r := by
    intro vs r
    cases r <;> simp [locate_post]
  unfold locate
  rw [locate_loop_congr cfg ts fr false fv ctx.versions _
    (fun p => ⟨(hframe p).1, (hframe p).2.1, (hframe p).2.2.1⟩)]
  simp only [hpost]

/-- C21.  Without a dedup hit, on unbound handles: (1) `peek_row` on a
peek-only handle and `peek_row` on a regular handle with
`read_hint = write_hint = false` come to the same end, and when they return
they return the same flag; (2) when both return true, the peek-only handle
holds in `read_rv_` the version the regular handle holds as `read_rv` of its
item, so both expose the same version; (3) the peek-only call writes nothing
(its model returns the flag and the handle only), and the hints given to the
handle's `peek_row` are ignored; (4) `new_row`, `read_row`, `write_row` and
`delete_row` on a peek-only handle return false. -/
theorem peek_only_agrees_with_regular (cfg : StaticConfig) (fuel : Nat) (ctx : Context)
    (tx : Transaction) (rah : RowAccessHandle) (rpo : RowAccessHandlePeekOnly)
    (tbl cf_id row_id : Nat) (check_dup_access : Bool)
    (hrah : rah.valid_ = false ∧ rah.set_item_ = none) (hrpo : rpo.bound = false)
    (hmiss : check_dup_access = true → tx.access_history_.lookup ⟨tbl, row_id, cf_id⟩ = none) :
    ((peek_row cfg fuel ctx tx rah tbl cf_id row_id check_dup_access false false).bind
        fun r => .ret r.result) =
      ((peek_row_peek_only cfg fuel ctx tx rpo tbl cf_id row_id check_dup_access).bind
        fun r => .ret r.1) ∧
    (∀ r flag rpo2,
      peek_row cfg fuel ctx tx rah tbl cf_id row_id check_dup_access false false = .ret r →
      peek_row_peek_only cfg fuel ctx tx rpo tbl cf_id row_id check_dup_access
        = .ret (flag, rpo2) →
      flag = r.result ∧
      (flag = true → rpo2.read_rv_ ≠ none ∧ rpo2.read_rv_ = (held_item r.tx r.rah).read_rv ∧
        (held_item r.tx r.rah).write_rv = none ∧
        rpo2.tbl_ = some (held_item r.tx r.rah).tbl ∧
        rpo2.cf_id_ = (held_item r.tx r.rah).cf_id ∧
        rpo2.row_id_ = (held_item r.tx r.rah).row_id)) ∧
    (∀ read_hint write_hint,
      rpo.peek_row cfg fuel ctx tx tbl cf_id row_id check_dup_access read_hint write_hint =
        peek_row_peek_only cfg fuel ctx tx rpo tbl cf_id row_id check_dup_access) ∧
    (∀ (h : RowAccessHandlePeekOnly) (t c r d : Nat) (check : Bool) (copier : DataCopier),
      h.new_row t c r check d copier = false ∧ h.read_row copier = false ∧
      h.write_row d copier check = false ∧ h.delete_row = false) := by
  have hlook : (if check_dup_access then tx.access_history_.lookup ⟨tbl, row_id, cf_id⟩
      else none) = none := by
    cases hc : check_dup_access
    · rfl
    · simpa using hmiss hc
  have hflags : hint_flags false false = 0 := rfl
  have hpure : (pure PUnit.unit : Outcome PUnit) = .ret PUnit.unit := rfl
  -- both calls, reduced to the walk from the row head
  have key : ∀ u1 u2, cassert cfg tx.began_ = .ret u1 →
      cassert cfg (decide (row_id < ctx.table_row_count tbl)) = .ret u2 →
      (peek_row cfg fuel ctx tx rah tbl cf_id row_id check_dup_access false false =
        (locate cfg tx.ts_ false false false ctx.versions fuel
          (.head (ctx.table_head tbl cf_id row_id))
          (ctx.heads (ctx.table_head tbl cf_id row_id)).older_rv).bind fun x =>
          match x.2 with
          | none => .ret ⟨false, ctx,
              note_abort_reason cfg (reserve cfg tx tbl cf_id row_id false false), rah⟩
          | some v => .ret ⟨true, ctx.set_version v (rts_update (ctx.versions v) tx.ts_), tx,
              { rah with valid_ := true, local_item_ :=
                { i := tx.access_size_, inserted := 0, state := .kPeek, tbl := tbl,
                  cf_id := cf_id, row_id := row_id, head := ctx.table_head tbl cf_id row_id,
                  newer_rv := x.1, write_rv := none, read_rv := some v } }⟩) ∧
      (peek_row_peek_only cfg fuel ctx tx rpo tbl cf_id row_id check_dup_access =
        (locate cfg tx.ts_ false false false ctx.versions fuel
          (.head (ctx.table_head tbl cf_id row_id))
          (ctx.heads (ctx.table_head tbl cf_id row_id)).older_rv).bind fun x =>
          match x.2 with
          | none => .ret (false, rpo)
          | some v => .ret (true, { tbl_ := some tbl, cf_id_ := cf_id, row_id_ := row_id,
                                    read_rv_ := some v })) := by
    intro u1 u2 hb hrow
    constructor
    · unfold peek_row
      simp only [bind, hb, hrow, Outcome.bind_ret, hrah.1, Bool.false_eq_true, if_false, hlook]
      unfold peek_row_locate
      simp only [bind, hflags, auto_locate]
      cases hL : locate cfg tx.ts_ false false false ctx.versions fuel
          (.head (ctx.table_head tbl cf_id row_id))
          (ctx.heads (ctx.table_head tbl cf_id row_id)).older_rv with
      | ret x =>
        obtain ⟨n, rv⟩ := x
        cases rv with
        | none => rfl
        | some v =>
          simp only [Outcome.bind_ret]
          rw [locate_after_rts_update, (set_rts_frame ctx v tx.ts_).1, hL]
          simp only [Outcome.bind_ret, ne_eq, not_true_eq_false, if_false,
            RowAccessHandle.add_fresh_item, bind, hrah.1, hrah.2, Bool.not_false,
            decide_True, Bool.and_self, cassert, Bool.or_true, if_true, hpure]
      | assertFailed => rfl
      | undefined => rfl
      | diverges => rfl
    · unfold peek_row_peek_only
      simp only [bind, hb, hrow, Outcome.bind_ret, hrpo, Bool.false_eq_true, if_false, hlook]
  refine ⟨?_, ?_, fun _ _ => rfl, fun _ _ _ _ _ _ _ => ⟨rfl, rfl, rfl, rfl⟩⟩
  · cases hb : cassert cfg tx.began_ with
    | ret u1 =>
      cases hrow : cassert cfg (decide (row_id < ctx.table_row_count tbl)) with
      | ret u2 =>
        obtain ⟨k1, k2⟩ := key u1 u2 hb hrow
        rw [k1, k2]
        cases locate cfg tx.ts_ false false false ctx.versions fuel
            (.head (ctx.table_head tbl cf_id row_id))
            (ctx.heads (ctx.table_head tbl cf_id row_id)).older_rv with
        | ret x =>
          obtain ⟨n, rv⟩ := x
          cases rv <;> rfl
        | assertFailed => rfl
        | undefined => rfl
        | diverges => rfl
      | assertFailed =>
        simp [peek_row, peek_row_peek_only, bind, Outcome.bind, hb, hrow, hrah.1, hrpo]
      | undefined =>
        simp [peek_row, peek_row_peek_only, bind, Outcome.bind, hb, hrow, hrah.1, hrpo]
      | diverges =>
        simp [peek_row, peek_row_peek_only, bind, Outcome.bind, hb, hrow, hrah.1, hrpo]
    | assertFailed => simp [peek_row, peek_row_peek_only, bind, Outcome.bind, hb]
    | undefined => simp [peek_row, peek_row_peek_only, bind, Outcome.bind, hb]
    | diverges => simp [peek_row, peek_row_peek_only, bind, Outcome.bind, hb]
  · intro r flag rpo2 h1 h2
    have hb : cassert cfg tx.began_ = .ret () := by
      cases hb : cassert cfg tx.began_ with
      | ret u => rfl
      | assertFailed => simp [peek_row, bind, Outcome.bind, hb] at h1
      | undefined => simp [peek_row, bind, Outcome.bind, hb] at h1
      | diverges => simp [peek_row, bind, Outcome.bind, hb] at h1
    have hrow : cassert cfg (decide (row_id < ctx.table_row_count tbl)) = .ret () := by
      cases hrow : cassert cfg (decide (row_id < ctx.table_row_count tbl)) with
      | ret u => rfl
      | assertFailed => simp [peek_row, bind, Outcome.bind, hb, hrow, hrah.1] at h1
      | undefined => simp [peek_row, bind, Outcome.bind, hb, hrow, hrah.1] at h1
      | diverges => simp [peek_row, bind, Outcome.bind, hb, hrow, hrah.1] at h1
    obtain ⟨k1, k2⟩ := key () () hb hrow
    rw [k1] at h1
    rw [k2] at h2
    cases hL : locate cfg tx.ts_ false false false ctx.versions fuel
        (.head (ctx.table_head tbl cf_id row_id))
        (ctx.heads (ctx.table_head tbl cf_id row_id)).older_rv with
    | ret x =>
      obtain ⟨n, rv⟩ := x
      rw [hL] at h1 h2
      cases rv with
      | none =>
        simp only [Outcome.bind_ret, Outcome.ret.injEq, Prod.mk.injEq] at h1 h2
        subst h1
        obtain ⟨rfl, -⟩ := h2
        exact ⟨rfl, fun hf => by cases hf⟩
      | some v =>
        simp only [Outcome.bind_ret, Outcome.ret.injEq, Prod.mk.injEq] at h1 h2
        subst h1
        obtain ⟨rfl, rfl⟩ := h2
        refine ⟨rfl, fun _ => ?_⟩
        simp [held_item, hrah.2]
    | assertFailed => rw [hL] at h1; simp [Outcome.bind] at h1
    | undefined => rw [hL] at h1; simp [Outcome.bind] at h1
    | diverges => rw [hL] at h1; simp [Outcome.bind] at h1

/-- On row 0 of `ctxOneRow 10` at timestamp 20 both paths return true and both
handles hold the version at address 1. -/
theorem peek_only_agrees_with_regular_witness :
    ((peek_row cfgDebug 4 (ctxOneRow 10) (beginTx 20) freshHandle 0 0 0 true false false).bind
        fun r => .ret r.result) = .ret true ∧
    ((peek_row_peek_only cfgDebug 4 (ctxOneRow 10) (beginTx 20) RowAccessHandlePeekOnly.fresh
        0 0 0 true).bind fun r => .ret r.1) = .ret true ∧
    (∀ r flag rpo2,
      peek_row cfgDebug 4 (ctxOneRow 10) (beginTx 20) freshHandle 0 0 0 true false false
        = .ret r →
      peek_row_peek_only cfgDebug 4 (ctxOneRow 10) (beginTx 20) RowAccessHandlePeekOnly.fresh
        0 0 0 true = .ret (flag, rpo2) →
      flag = r.result) :=
  ⟨rfl, rfl, fun r flag rpo2 h1 h2 =>
    ((peek_only_agrees_with_regular cfgDebug 4 (ctxOneRow 10) (beginTx 20) freshHandle
      RowAccessHandlePeekOnly.fresh 0 0 0 true ⟨rfl, rfl⟩ rfl (fun _ => rfl)).2.1
      r flag rpo2 h1 h2).1⟩

/-! ## C25: `TrivialDataCopier` -/

/-- What `TrivialDataCopier` does when it copies, and when it does not. -/
theorem trivial_copier_eq (cfg : StaticConfig) (cf_id : Nat) (dest : RowVersion) :
    (∀ s, dest.data_size ≠ 0 → s.data_size ≤ dest.data_size →
      TrivialDataCopier cfg cf_id dest (some s)
        = .ret (true, s.data.take s.data_size ++ dest.data.drop s.data_size)) ∧
    (∀ src, src = none ∨ dest.data_size = 0 →
      TrivialDataCopier cfg cf_id dest src = .ret (true, dest.data)) := by
  constructor
  · intro s h0 hle
    have ha : cassert cfg (decide (dest.data_size ≥ s.data_size)) = .ret () :=
      cassert_ok _ _ fun _ => by simpa using hle
    simp only [TrivialDataCopier, ne_eq, h0, not_false_eq_true, if_true, ha, bind,
      Outcome.bind]
  · intro src h
    cases src with
    | none => rfl
    | some s =>
      rcases h with h | h
      · cases h
      · simp [TrivialDataCopier, h]

/-- The first `n` bytes of a buffer after `n` bytes were copied into it, and
the bytes behind them. -/
theorem take_drop_copied (src dest : List Nat) (n : Nat) (h : n ≤ src.length) :
    (src.take n ++ dest.drop n).take n = src.take n ∧
    (src.take n ++ dest.drop n).drop n = dest.drop n := by
  have hl : (src.take n).length = n := by simp [List.length_take, h]
  constructor
  · rw [List.take_append_of_le_length (by omega), List.take_take]
    simp
  · rw [List.drop_append_of_le_length (by omega)]
    rw [List.drop_eq_nil_of_le (by omega)]
    rfl

/-- The upgrade part of `write_row` on an item of the access set in state Read
whose version read is at `rd`, with `TrivialDataCopier` and a fresh version at
`w` that is at least as large as the version read: it returns true, the item
is in state ReadWrite with `write_rv = w`, the version read is untouched, and
the data of the new version are those of the slot with the first
`read_rv->data_size` bytes taken from the version read (unless the size asked
for is 0, when nothing is copied). -/
theorem write_row_upgrade_trivial (cfg : StaticConfig) (ctx : Context) (tx : Transaction)
    (rah : RowAccessHandle) (data_size w rd idx : Nat)
    (hv : rah.valid_ = true) (hs : rah.set_item_ = some idx)
    (hst : (tx.accesses_ idx).state = .kRead) (hrd : (tx.accesses_ idx).read_rv = some rd)
    (hw : w ≠ rd) (hsz : (ctx.versions rd).data_size ≤ write_size ctx data_size rd) :
    ∃ r, write_row_upgrade cfg ctx tx rah data_size (TrivialDataCopier cfg) (some w) = .ret r ∧
      r.result = true ∧ r.rah = rah ∧
      (r.tx.accesses_ idx).state = .kReadWrite ∧
      (r.tx.accesses_ idx).write_rv = some w ∧
      (r.tx.accesses_ idx).read_rv = some rd ∧
      r.ctx.versions rd = ctx.versions rd ∧
      (r.ctx.versions w).data =
        (if write_size ctx data_size rd = 0 then (ctx.versions w).data
         else (ctx.versions rd).data.take (ctx.versions rd).data_size ++
           (ctx.versions w).data.drop (ctx.versions rd).data_size) := by
  have hitem : rah.item cfg tx = .ret (tx.accesses_ idx) := by
    rw [item_of_bound cfg tx rah hv]; simp [held_item, hs]
  have hpk : cassert cfg (RowAccessState.kRead != RowAccessState.kPeek) = .ret () :=
    cassert_ok _ _ fun _ => rfl
  have hsize : (if data_size = kDefaultWriteDataSize then
        Outcome.ret (ctx.versions rd).data_size
      else Outcome.ret data_size) = .ret (write_size ctx data_size rd) := by
    unfold write_size
    split <;> rfl
  have hrdw : rd ≠ w := fun h => hw h.symm
  -- the copier's arguments
  have hcop : TrivialDataCopier cfg (tx.accesses_ idx).cf_id
      { ctx.versions w with data_size := write_size ctx data_size rd, wts := tx.ts_,
                            rts := tx.ts_, status := .kPending }
      (some (ctx.versions rd)) =
      .ret (true, if write_size ctx data_size rd = 0 then (ctx.versions w).data
        else (ctx.versions rd).data.take (ctx.versions rd).data_size ++
          (ctx.versions w).data.drop (ctx.versions rd).data_size) := by
    by_cases h0 : write_size ctx data_size rd = 0
    · rw [if_pos h0]
      exact (trivial_copier_eq cfg _ _).2 _ (Or.inr h0)
    · rw [if_neg h0]
      exact (trivial_copier_eq cfg _ _).1 _ h0 hsz
  unfold write_row_upgrade
  simp only [hitem, bind, Outcome.bind_ret, hst, hpk, reduceCtorEq, if_false,
    false_or, or_self, ne_eq, not_true_eq_false, and_false, not_false_eq_true, store_item, hs,
    run_copier, hrd, hsize, Option.map_some', Context.allocate_version, Context.set_version,
    Function.update_same, Function.update_noteq hrdw, hcop, Function.update_idem,
    Bool.not_true, Bool.false_eq_true]
  refine ⟨_, rfl, rfl, rfl, ?_⟩
  simp [Function.update_noteq hrdw]

/-- `write_row` on a bound handle whose item is still local, with room in the
access set, is the upgrade part run on the published item. -/
theorem write_row_local_upgrade (cfg : StaticConfig) (ctx : Context) (tx : Transaction)
    (rah : RowAccessHandle) (data_size : Nat) (data_copier : DataCopier)
    (check_dup_access : Bool) (allocated_version : Option Nat)
    (hv : rah.valid_ = true) (hs : rah.set_item_ = none)
    (hsize : tx.access_size_ < cfg.kMaxAccessSize) (hcap : cfg.kMaxAccessSize ≤ 65535)
    (hpre : cfg.NDEBUG = false → tx.began_ = true ∧ tx.peek_only_ = false ∧
      (check_dup_access = true → tx.access_history_.lookup
        ⟨rah.local_item_.tbl, rah.local_item_.row_id, rah.local_item_.cf_id⟩ = none)) :
    ∃ tx0 : Transaction,
      write_row cfg ctx tx rah data_size data_copier check_dup_access allocated_version =
      write_row_upgrade cfg ctx
        { tx0 with
          accesses_ := Function.update tx.accesses_ tx.access_size_
            { rah.local_item_ with i := tx.access_size_ },
          access_size_ := tx.access_size_ + 1 }
        { rah with local_item_ := { rah.local_item_ with i := tx.access_size_ },
                   set_item_ := some tx.access_size_ }
        data_size data_copier allocated_version := by
  have hb : cassert cfg tx.began_ = .ret () := cassert_ok _ _ fun hn => (hpre hn).1
  have hp : cassert cfg (!tx.peek_only_) = .ret () :=
    cassert_ok _ _ fun hn => by simp [(hpre hn).2.1]
  have hitem : rah.item cfg tx = .ret rah.local_item_ := by
    rw [item_of_bound cfg tx rah hv]; simp [held_item, hs]
  obtain ⟨tx0, htx0, hacc, -, -, haccs, -⟩ :=
    record_access_ok cfg tx
      ⟨rah.local_item_.tbl, rah.local_item_.row_id, rah.local_item_.cf_id⟩ check_dup_access
      (fun hn => (hpre hn).2.2)
  have hadd := write_row_add_to_set_local cfg tx tx0 rah rah.local_item_ check_dup_access
    hv hs hsize hcap htx0 hacc haccs
  have hnv : (!rah.valid_) = false := by simp [hv]
  refine ⟨tx0, ?_⟩
  simp only [write_row, hb, hnv, hp, hitem, hadd, bind, Outcome.bind, Bool.false_eq_true,
    if_false]

/-- C25.  `TrivialDataCopier`: (1) whenever it returns, it returns true;
(2) for a non-null `src` with `dest.data_size != 0` and
`dest.data_size >= src.data_size` it returns, and afterwards the first
`src.data_size` bytes of `dest.data` are those of `src.data` and the bytes
behind them are as before (`src` is an argument that is only read);
(3) with `src == null` or `dest.data_size == 0` it returns and `dest.data` is
unchanged.  (4), (5) Hence `write_row` from state Read with the trivial copier
and a new version at least as large as the version read, on a handle whose
item is in the access set (4) or still local (5), returns true and leaves a
`write_rv` whose data start with a copy of the data of `read_rv`, while the
version read is untouched. -/
theorem trivial_copier_contract (cfg : StaticConfig) :
    (∀ cf_id dest src c, TrivialDataCopier cfg cf_id dest src = .ret c → c.1 = true) ∧
    (∀ cf_id (dest s : RowVersion), dest.data_size ≠ 0 → s.data_size ≤ dest.data_size →
      ∃ d, TrivialDataCopier cfg cf_id dest (some s) = .ret (true, d) ∧
        (s.data_size ≤ s.data.length →
          d.take s.data_size = s.data.take s.data_size ∧
          d.drop s.data_size = dest.data.drop s.data_size) ∧
        (s.data.length = s.data_size → d.take s.data_size = s.data)) ∧
    (∀ cf_id (dest : RowVersion) src, src = none ∨ dest.data_size = 0 →
      TrivialDataCopier cfg cf_id dest src = .ret (true, dest.data)) ∧
    (∀ (ctx : Context) (tx : Transaction) (rah : RowAccessHandle) (data_size : Nat)
      (check_dup_access : Bool) (w rd idx : Nat),
      (cfg.NDEBUG = false → tx.began_ = true ∧ tx.peek_only_ = false) →
      rah.valid_ = true → rah.set_item_ = some idx →
      (tx.accesses_ idx).state = .kRead → (tx.accesses_ idx).read_rv = some rd → w ≠ rd →
      (ctx.versions rd).data_size ≤ write_size ctx data_size rd →
      ∃ r, write_row cfg ctx tx rah data_size (TrivialDataCopier cfg) check_dup_access (some w)
          = .ret r ∧
        r.result = true ∧ (held_item r.tx r.rah).write_rv = some w ∧
        (held_item r.tx r.rah).read_rv = some rd ∧
        r.ctx.versions rd = ctx.versions rd ∧
        (write_size ctx data_size rd ≠ 0 →
          (ctx.versions rd).data_size ≤ (ctx.versions rd).data.length →
          (r.ctx.versions w).data.take (ctx.versions rd).data_size
            = (ctx.versions rd).data.take (ctx.versions rd).data_size)) ∧
    (∀ (ctx : Context) (tx : Transaction) (rah : RowAccessHandle) (data_size : Nat)
      (check_dup_access : Bool) (w rd : Nat),
      (cfg.NDEBUG = false → tx.began_ = true ∧ tx.peek_only_ = false ∧
        (check_dup_access = true → tx.access_history_.lookup
          ⟨rah.local_item_.tbl, rah.local_item_.row_id, rah.local_item_.cf_id⟩ = none)) →
      rah.valid_ = true → rah.set_item_ = none →
      tx.access_size_ < cfg.kMaxAccessSize → cfg.kMaxAccessSize ≤ 65535 →
      rah.local_item_.state = .kRead → rah.local_item_.read_rv = some rd → w ≠ rd →
      (ctx.versions rd).data_size ≤ write_size ctx data_size rd →
      ∃ r, write_row cfg ctx tx rah data_size (TrivialDataCopier cfg) check_dup_access (some w)
          = .ret r ∧
        r.result = true ∧ (held_item r.tx r.rah).write_rv = some w ∧
        (held_item r.tx r.rah).read_rv = some rd ∧
        r.ctx.versions rd = ctx.versions rd ∧
        (write_size ctx data_size rd ≠ 0 →
          (ctx.versions rd).data_size ≤ (ctx.versions rd).data.length →
          (r.ctx.versions w).data.take (ctx.versions rd).data_size
            = (ctx.versions rd).data.take (ctx.versions rd).data_size)) := by
  refine ⟨?_, ?_, ?_, ?_, ?_⟩
  · intro cf_id dest src c h
    unfold TrivialDataCopier at h
    cases src with
    | none =>
      simp only [Outcome.ret.injEq] at h
      rw [← h]
    | some s =>
      simp only at h
      split at h
      · simp only [bind, Outcome.bind_eq_ret] at h
        obtain ⟨-, -, h⟩ := h
        simp only [Outcome.ret.injEq] at h
        rw [← h]
      · simp only [Outcome.ret.injEq] at h
        rw [← h]
  · intro cf_id dest s h0 hle
    refine ⟨_, (trivial_copier_eq cfg cf_id dest).1 s h0 hle, fun hlen => ?_, fun hlen => ?_⟩
    · exact take_drop_copied s.data dest.data s.data_size hlen
    · rw [(take_drop_copied s.data dest.data s.data_size (by omega)).1, ← hlen,
        List.take_length]
  · intro cf_id dest src h
    exact (trivial_copier_eq cfg cf_id dest).2 src h
  · intro ctx tx rah data_size check w rd idx hpre hv hs hst hrd hw hsz
    obtain ⟨r, hr, h1, h2, -, h4, h5, h6, h7⟩ :=
      write_row_upgrade_trivial cfg ctx tx rah data_size w rd idx hv hs hst hrd hw hsz
    refine ⟨r, ?_, h1, ?_, ?_, h6, fun h0 hlen => ?_⟩
    · rw [write_row_on_set_item cfg ctx tx rah data_size _ check (some w) idx hpre hv hs]
      exact hr
    · simp only [held_item, h2, hs]; exact h4
    · simp only [held_item, h2, hs]; exact h5
    · rw [h7, if_neg h0]
      exact (take_drop_copied _ _ _ hlen).1
  · intro ctx tx rah data_size check w rd hpre hv hs hsize hcap hst hrd hw hsz
    obtain ⟨tx0, heq⟩ := write_row_local_upgrade cfg ctx tx rah data_size
      (TrivialDataCopier cfg) check (some w) hv hs hsize hcap hpre
    obtain ⟨r, hr, h1, h2, -, h4, h5, h6, h7⟩ :=
      write_row_upgrade_trivial cfg ctx
        { tx0 with
          accesses_ := Function.update tx.accesses_ tx.access_size_
            { rah.local_item_ with i := tx.access_size_ },
          access_size_ := tx.access_size_ + 1 }
        { rah with local_item_ := { rah.local_item_ with i := tx.access_size_ },
                   set_item_ := some tx.access_size_ }
        data_size w rd tx.access_size_ hv rfl
        (by simpa using hst) (by simpa using hrd) hw hsz
    refine ⟨r, heq.trans hr, h1, ?_, ?_, h6, fun h0 hlen => ?_⟩
    · simp only [held_item, h2]; exact h4
    · simp only [held_item, h2]; exact h5
    · rw [h7, if_neg h0]
      exact (take_drop_copied _ _ _ hlen).1

/-- On row 0 of `ctxOneRow 10`, whose version at address 1 holds the one byte
65: `write_row` with the default size at timestamp 20, from a local item in
state Read, with the trivial copier and the fresh version at address 2,
returns true and the new version starts with that byte. -/
theorem trivial_copier_contract_witness :
    ∃ r, write_row cfgDebug (ctxOneRow 10) (beginTx 20) readHandle kDefaultWriteDataSize
        (TrivialDataCopier cfgDebug) true (some 2) = .ret r ∧
      r.result = true ∧ (held_item r.tx r.rah).write_rv = some 2 ∧
      (r.ctx.versions 2).data.take 1 = [65] := by
  obtain ⟨r, hr, h1, h2, -, -, h5⟩ := (trivial_copier_contract cfgDebug).2.2.2.2
    (ctxOneRow 10) (beginTx 20) readHandle kDefaultWriteDataSize true 2 1
    (fun _ => ⟨rfl, rfl, fun _ => rfl⟩) rfl rfl (by decide) (by decide) rfl rfl (by decide)
    (by decide)
  exact ⟨r, hr, h1, h2, h5 (by decide) (by decide)⟩

/-! ## The free list of `PagePool` -/

/-- The pages of a pool are distinct. -/
theorem page_list_nodup (pool : PagePool) : pool.page_list.Nodup := by
  unfold PagePool.page_list
  refine List.Nodup.map ?_ (List.nodup_range _)
  intro i j h
  simp only [kPageSize] at h
  omega

/-- The free list starts at `next`. -/
theorem FreeList_head (mem : PageMem) (next : Option Nat) (fl : List Nat)
    (h : FreeList mem next fl) : next = fl.head? := by
  cases next <;> cases fl <;> simp_all [FreeList]

/-- A store to a page that is not on the free list leaves the free list as it
is. -/
theorem FreeList_update (mem : PageMem) (p : Nat) (v : Option Nat) :
    ∀ (fl : List Nat) (next : Option Nat), p ∉ fl → FreeList mem next fl →
      FreeList (Function.update mem p v) next fl := by
  intro fl
  induction fl with
  | nil => intro next _ h; cases next <;> simp_all [FreeList]
  | cons q rest ih =>
    intro next hp h
    cases next with
    | none => simp [FreeList] at h
    | some a =>
      obtain ⟨rfl, hrest⟩ : a = q ∧ FreeList mem (mem a) rest := by simpa [FreeList] using h
      have hne : a ≠ p := fun e => hp (by rw [e]; exact List.mem_cons_self _ _)
      refine ⟨rfl, ?_⟩
      rw [Function.update_noteq hne]
      exact ih _ (fun hr => hp (List.mem_cons_of_mem _ hr)) hrest

/-- Following the free list for as many steps as it is long gives the list. -/
theorem follow_free_eq (mem : PageMem) :
    ∀ (fl : List Nat) (next : Option Nat), FreeList mem next fl →
      follow_free mem fl.length next = fl := by
  intro fl
  induction fl with
  | nil => intro next _; rfl
  | cons q rest ih =>
    intro next h
    cases next with
    | none => simp [FreeList] at h
    | some a =>
      obtain ⟨rfl, hrest⟩ : a = q ∧ FreeList mem (mem a) rest := by simpa [FreeList] using h
      simp [follow_free, ih _ hrest]

/-- Between calls `free_pages` is the free list. -/
theorem free_pages_eq (s : PoolState) (fl : List Nat) (h : PoolInv s fl) :
    s.pool.free_pages s.mem = fl := by
  obtain ⟨-, hfl, hc, -, -⟩ := h
  unfold PagePool.free_pages
  rw [hc]
  exact follow_free_eq _ _ _ hfl

/-- Between calls the numbers of free and of allocated pages add up to
`total_count_`. -/
theorem PoolInv_count (s : PoolState) (fl : List Nat) (h : PoolInv s fl) :
    fl.length + s.allocated.length = s.pool.total_count_ ∧ fl.Nodup ∧ s.allocated.Nodup ∧
    (∀ a, a ∈ fl → a ∉ s.allocated) ∧ (∀ a, a ∈ fl → a ∈ s.pool.page_list) ∧
    (∀ a, a ∈ s.allocated → a ∈ s.pool.page_list) ∧
    (∀ a, a ∈ s.pool.page_list → a ∈ fl ∨ a ∈ s.allocated) := by
  obtain ⟨-, -, -, hperm, -⟩ := h
  have hnd : (fl ++ s.allocated).Nodup := hperm.nodup_iff.mpr (page_list_nodup _)
  have hlen := hperm.length_eq
  simp only [List.length_append, PagePool.page_list, List.length_map, List.length_range] at hlen
  refine ⟨hlen, (List.nodup_append.mp hnd).1, (List.nodup_append.mp hnd).2.1,
    fun a h1 h2 => (List.nodup_append.mp hnd).2.2 h1 h2, ?_, ?_, ?_⟩
  · intro a ha
    exact hperm.subset (List.mem_append_left _ ha)
  · intro a ha
    exact hperm.subset (List.mem_append_right _ ha)
  · intro a ha
    exact List.mem_append.mp (hperm.symm.subset ha)

/-- `allocate()` between calls: with an empty free list it returns null and
leaves the pool as it is; otherwise it returns the head of the free list, which
becomes an allocated page, and `free_count_` goes down by one. -/
theorem allocate_inv (s : PoolState) (fl : List Nat) (h : PoolInv s fl) :
    (fl = [] → s.pool.allocate s.mem = .ret (none, s.pool)) ∧
    (∀ a rest, fl = a :: rest →
      ∃ pool2, s.pool.allocate s.mem = .ret (some a, pool2) ∧
        PoolInv ⟨pool2, s.mem, a :: s.allocated⟩ rest ∧
        pool2.free_count_ + 1 = s.pool.free_count_ ∧
        pool2.total_count_ = s.pool.total_count_ ∧ pool2.pages_ = s.pool.pages_ ∧
        pool2.size_ = s.pool.size_ ∧ pool2.numa_id_ = s.pool.numa_id_) := by
  have hcount := (PoolInv_count s fl h).1
  obtain ⟨hlock, hfl, hc, hperm, htot⟩ := h
  have hl : ¬ s.pool.lock_ = 1 := by omega
  constructor
  · intro he
    subst he
    have hn : s.pool.next_ = none := FreeList_head _ _ _ hfl
    unfold PagePool.allocate
    rw [if_neg hl]
    cases hp : s.pool with
    | mk f1 f2 f3 f4 f5 f6 f7 =>
      rw [hp] at hlock hn
      simp only at hlock hn
      subst hlock
      subst hn
      rfl
  · intro a rest he
    subst he
    have hn : s.pool.next_ = some a := FreeList_head _ _ _ hfl
    rw [hn] at hfl
    obtain ⟨-, hrest⟩ : a = a ∧ FreeList s.mem (s.mem a) rest := by simpa [FreeList] using hfl
    simp only [List.length_cons] at hc hcount
    have hdec : (s.pool.free_count_ + 2 ^ 64 - 1) % 2 ^ 64 = rest.length := by
      rw [hc]
      omega
    refine ⟨{ s.pool with next_ := s.mem a,
                          free_count_ := (s.pool.free_count_ + 2 ^ 64 - 1) % 2 ^ 64,
                          lock_ := 0 }, ?_, ⟨rfl, hrest, hdec, ?_, htot⟩, ?_, rfl, rfl, rfl, rfl⟩
    · unfold PagePool.allocate
      rw [if_neg hl, hn]
    · show (rest ++ a :: s.allocated).Perm s.pool.page_list
      exact (List.perm_middle).trans hperm
    · show (s.pool.free_count_ + 2 ^ 64 - 1) % 2 ^ 64 + 1 = s.pool.free_count_
      rw [hdec, hc]

/-- `free(p)` of an allocated page between calls: it returns, the page is the
new head of the free list and is no longer allocated, and `free_count_` goes
up by one. -/
theorem free_inv (s : PoolState) (fl : List Nat) (p : Nat) (h : PoolInv s fl)
    (hp : p ∈ s.allocated) :
    ∃ pool2 mem2, s.pool.free s.mem (some p) = .ret (pool2, mem2) ∧
      PoolInv ⟨pool2, mem2, s.allocated.erase p⟩ (p :: fl) ∧
      pool2.free_count_ = s.pool.free_count_ + 1 ∧
      pool2.total_count_ = s.pool.total_count_ ∧ pool2.pages_ = s.pool.pages_ ∧
      pool2.size_ = s.pool.size_ ∧ pool2.numa_id_ = s.pool.numa_id_ := by
  obtain ⟨hcount, -, -, hdisj, -, -, -⟩ := PoolInv_count s fl h
  obtain ⟨hlock, hfl, hc, hperm, htot⟩ := h
  have hl : ¬ s.pool.lock_ = 1 := by omega
  have hpos : 0 < s.allocated.length := List.length_pos_of_mem hp
  have hinc : (s.pool.free_count_ + 1) % 2 ^ 64 = fl.length + 1 := by
    rw [hc]
    exact Nat.mod_eq_of_lt (by omega)
  have hnot : p ∉ fl := fun hf => hdisj p hf hp
  refine ⟨{ s.pool with next_ := some p, free_count_ := (s.pool.free_count_ + 1) % 2 ^ 64,
                        lock_ := 0 }, Function.update s.mem p s.pool.next_, ?_,
    ⟨rfl, ?_, hinc, ?_, htot⟩, ?_, rfl, rfl, rfl, rfl⟩
  · unfold PagePool.free
    rw [if_neg hl]
  · show FreeList (Function.update s.mem p s.pool.next_) (some p) (p :: fl)
    refine ⟨rfl, ?_⟩
    rw [Function.update_same]
    exact FreeList_update _ _ _ _ _ hnot hfl
  · show ((p :: fl) ++ s.allocated.erase p).Perm s.pool.page_list
    refine List.Perm.trans ?_ hperm
    have h1 : (p :: s.allocated.erase p).Perm s.allocated := (List.perm_cons_erase hp).symm
    exact (List.perm_middle.symm).trans (List.Perm.append_left fl h1)
  · show (s.pool.free_count_ + 1) % 2 ^ 64 = s.pool.free_count_ + 1
    rw [hinc, hc]

/-! ## The constructor of `PagePool` -/

/-- The loop of the constructor that links the pages stores, in the first word
of page `i`, the address of page `i + 1`, and leaves the other words alone. -/
theorem link_pages_apply (pages : Nat) (mem : PageMem) :
    ∀ (n : Nat), (∀ i, i < n →
        link_pages pages n mem (pages + i * kPageSize) = some (pages + (i + 1) * kPageSize)) ∧
      (∀ a, (∀ i, i < n → a ≠ pages + i * kPageSize) → link_pages pages n mem a = mem a) := by
  intro n
  induction n with
  | zero =>
    exact ⟨fun i hi => absurd hi (Nat.not_lt_zero _), fun _ _ => rfl⟩
  | succ n ih =>
    have hstep : link_pages pages (n + 1) mem =
        Function.update (link_pages pages n mem) (pages + n * kPageSize)
          (some (pages + (n + 1) * kPageSize)) := by
      simp [link_pages, List.range_succ, List.foldl_append]
    rw [hstep]
    constructor
    · intro i hi
      by_cases hin : i = n
      · subst hin
        rw [Function.update_same]
      · have hne : pages + i * kPageSize ≠ pages + n * kPageSize := by
          simp only [kPageSize]
          omega
        rw [Function.update_noteq hne]
        exact ih.1 i (by omega)
    · intro a ha
      rw [Function.update_noteq (ha n (Nat.lt_succ_self n))]
      exact ih.2 a fun i hi => ha i (by omega)

/-- In a memory where page `i` points to page `i + 1` and the last page holds
null, the pages from number `k` on form a free list. -/
theorem FreeList_linked (pages n : Nat) (mem : PageMem)
    (hlink : ∀ i, i + 1 < n → mem (pages + i * kPageSize) = some (pages + (i + 1) * kPageSize))
    (hlast : ∀ i, i + 1 = n → mem (pages + i * kPageSize) = none) :
    ∀ (r k : Nat), k + r = n →
      FreeList mem (if r = 0 then none else some (pages + k * kPageSize))
        ((List.range' k r).map fun i => pages + i * kPageSize) := by
  intro r
  induction r with
  | zero => intro k _; simp [FreeList]
  | succ r ih =>
    intro k hk
    simp only [Nat.succ_ne_zero, if_false, List.range'_succ, List.map_cons, FreeList, true_and]
    have hnext := ih (k + 1) (by omega)
    by_cases hr : r = 0
    · subst hr
      rw [hlast k (by omega)]
      simpa using hnext
    · rw [hlink k (by omega)]
      simpa [hr] using hnext

/-- The page count of the constructor for a size that does not wrap: the least
number of pages that hold `size` bytes. -/
theorem page_count_in_range (size : Nat) (hsize : size ≤ 2 ^ 64 - kPageSize) :
    PagePool.page_count size = (size + kPageSize - 1) / kPageSize ∧
    size ≤ PagePool.page_count size * kPageSize ∧
    PagePool.page_count size * kPageSize < size + kPageSize ∧
    PagePool.page_count size * kPageSize < 2 ^ 64 ∧
    (0 < size → 0 < PagePool.page_count size) := by
  have hk : kPageSize = 2097152 := rfl
  have hmod : (size + kPageSize - 1) % 2 ^ 64 = size + kPageSize - 1 :=
    Nat.mod_eq_of_lt (by rw [hk] at hsize ⊢; omega)
  have h1 : PagePool.page_count size = (size + kPageSize - 1) / kPageSize := by
    unfold PagePool.page_count
    rw [hmod]
  rw [h1, hk]
  rw [hk] at hsize
  refine ⟨rfl, ?_, ?_, ?_, ?_⟩ <;> omega

/-- The page count is below `2 ^ 64` for every size. -/
theorem page_count_lt (size : Nat) : PagePool.page_count size < 2 ^ 64 := by
  unfold PagePool.page_count kPageSize
  omega

/-- When the constructor returns a pool, the pool has at least one page, its
counters are the page count, and it is in the state between calls with every
page on the free list, lowest address first, and no page allocated. -/
theorem create_inv (lc : LCore) (size numa_id : Nat) (allocated : Option Nat)
    (mem0 : PageMem) (pool : PagePool) (mem : PageMem)
    (h : PagePool.create lc size numa_id allocated mem0 = .ret (.ok (pool, mem))) :
    0 < PagePool.page_count size ∧
    pool.total_count_ = PagePool.page_count size ∧
    pool.free_count_ = PagePool.page_count size ∧
    pool.size_ = (PagePool.page_count size * kPageSize) % 2 ^ 64 ∧
    allocated = some pool.pages_ ∧
    PoolInv ⟨pool, mem, []⟩ pool.page_list := by
  unfold PagePool.create at h
  split at h
  · simp at h
  · simp only at h
    split at h
    · simp at h
    · split at h
      · simp at h
      · rename_i pages
        unfold store_page_word at h
        split at h
        · rename_i hidx
          simp only [Outcome.bind_ret, Outcome.ret.injEq, Except.ok.injEq, Prod.mk.injEq] at h
          obtain ⟨hp, hm⟩ := h
          have hlt := page_count_lt size
          have hpos : 0 < PagePool.page_count size := by
            by_contra hz
            have hz0 : PagePool.page_count size = 0 := by omega
            rw [hz0] at hidx
            simp at hidx
          have hidx2 : (PagePool.page_count size + 2 ^ 64 - 1) % 2 ^ 64
              = PagePool.page_count size - 1 := by omega
          rw [hidx2] at hm
          subst hp
          refine ⟨hpos, rfl, rfl, rfl, rfl, rfl, ?_, ?_, ?_, hlt⟩
          · -- the free list
            have hl := link_pages_apply pages mem0 (PagePool.page_count size)
            have hfl := FreeList_linked pages (PagePool.page_count size) mem
              (fun i hi => by
                rw [← hm]
                have hne : pages + i * kPageSize
                    ≠ pages + (PagePool.page_count size - 1) * kPageSize := by
                  simp only [kPageSize]
                  omega
                rw [Function.update_noteq hne]
                exact hl.1 i (by omega))
              (fun i hi => by
                rw [← hm]
                have he : i = PagePool.page_count size - 1 := by omega
                rw [he, Function.update_same])
              (PagePool.page_count size) 0 (by omega)
            have hne0 : ¬ PagePool.page_count size = 0 := by omega
            simp only [hne0, if_false, Nat.zero_mul, Nat.add_zero] at hfl
            show FreeList mem (some pages) _
            simpa [PagePool.page_list, List.range_eq_range'] using hfl
          · simp [PagePool.page_list]
          · simp
        · simp [Outcome.bind] at h

/-- The constructor returns a pool whenever the NUMA node exists and has an
lcore, the region was allocated, and the page count is not 0. -/
theorem create_returns (lc : LCore) (size numa_id pages lcore : Nat) (mem0 : PageMem)
    (hnuma : numa_id < lc.numa_count)
    (hlcore : lowest_lcore_in_numa_node lc numa_id lc.lcore_count 0 = some lcore)
    (hcount : 0 < PagePool.page_count size) :
    ∃ pool mem, PagePool.create lc size numa_id (some pages) mem0 = .ret (.ok (pool, mem)) := by
  have hlt := page_count_lt size
  have hidx : (PagePool.page_count size + 2 ^ 64 - 1) % 2 ^ 64 < PagePool.page_count size := by
    omega
  unfold PagePool.create
  rw [if_neg (by omega)]
  simp only [hlcore, store_page_word, if_pos hidx, Outcome.bind_ret]
  exact ⟨_, _, rfl⟩

/-- The constructor on a page count of 0 with an allocated region: the store
of the null pointer into the last page goes to page number `2 ^ 64 - 1`,
outside the region. -/
theorem create_no_pages (lc : LCore) (size numa_id pages lcore : Nat) (mem0 : PageMem)
    (hnuma : numa_id < lc.numa_count)
    (hlcore : lowest_lcore_in_numa_node lc numa_id lc.lcore_count 0 = some lcore)
    (hcount : PagePool.page_count size = 0) :
    PagePool.create lc size numa_id (some pages) mem0 = .undefined := by
  unfold PagePool.create
  rw [if_neg (by omega)]
  simp only [hlcore, hcount, store_page_word]
  rfl

/-! ## Histories of a `PagePool` -/

/-- Two pools in the state between calls with the same free list and the same
fixed members are the same pool. -/
theorem pool_eq_of_inv (s1 s2 : PoolState) (fl : List Nat) (h1 : PoolInv s1 fl)
    (h2 : PoolInv s2 fl) (ht : s1.pool.total_count_ = s2.pool.total_count_)
    (hp : s1.pool.pages_ = s2.pool.pages_) (hs : s1.pool.size_ = s2.pool.size_)
    (hn : s1.pool.numa_id_ = s2.pool.numa_id_) : s1.pool = s2.pool := by
  obtain ⟨a1, a2, a3, -, -⟩ := h1
  obtain ⟨b1, b2, b3, -, -⟩ := h2
  have hnext : s1.pool.next_ = s2.pool.next_ := by
    rw [FreeList_head _ _ _ a2, FreeList_head _ _ _ b2]
  cases h1 : s1.pool
  cases h2 : s2.pool
  rw [h1] at a1 a3 ht hp hs hn hnext
  rw [h2] at b1 b3 ht hp hs hn hnext
  simp only at a1 a3 b1 b3 ht hp hs hn hnext
  simp only [PagePool.mk.injEq]
  exact ⟨hs, hn, ht, hp, by rw [a1, b1], by rw [a3, b3], hnext⟩

/-- A history whose frees are given allocated pages runs to its end and leaves
the pool in the state between calls, with the pages it had. -/
theorem run_history_inv :
    ∀ (ops : List PoolOp) (s0 : PoolState) (fl0 : List Nat), PoolInv s0 fl0 →
      frees_allocated ops s0 →
      ∃ s fl, run_history ops s0 = .ret s ∧ PoolInv s fl ∧
        s.pool.total_count_ = s0.pool.total_count_ ∧ s.pool.pages_ = s0.pool.pages_ ∧
        s.pool.size_ = s0.pool.size_ ∧ s.pool.numa_id_ = s0.pool.numa_id_ := by
  intro ops
  induction ops with
  | nil => intro s0 fl0 h _; exact ⟨s0, fl0, rfl, h, rfl, rfl, rfl, rfl⟩
  | cons op rest ih =>
    intro s0 fl0 h hok
    cases op with
    | allocate =>
      cases fl0 with
      | nil =>
        have ha := (allocate_inv s0 [] h).1 rfl
        have hstep : s0.step .allocate = .ret s0 := by
          simp only [PoolState.step, ha, Outcome.bind_ret]
        simp only [frees_allocated, hstep, true_and] at hok
        obtain ⟨s, fl, hr, hinv, g⟩ := ih s0 [] h hok
        exact ⟨s, fl, by simp only [run_history, hstep, Outcome.bind_ret, hr], hinv, g⟩
      | cons a fl1 =>
        obtain ⟨pool2, ha, hinv2, -, g1, g2, g3, g4⟩ := (allocate_inv s0 (a :: fl1) h).2 a fl1 rfl
        have hstep : s0.step .allocate = .ret ⟨pool2, s0.mem, a :: s0.allocated⟩ := by
          simp only [PoolState.step, ha, Outcome.bind_ret]
        simp only [frees_allocated, hstep, true_and] at hok
        obtain ⟨s, fl, hr, hinv, k1, k2, k3, k4⟩ := ih _ fl1 hinv2 hok
        exact ⟨s, fl, by simp only [run_history, hstep, Outcome.bind_ret, hr], hinv,
          k1.trans g1, k2.trans g2, k3.trans g3, k4.trans g4⟩
    | free p =>
      have hp : p ∈ s0.allocated := hok.1
      obtain ⟨pool2, mem2, hf, hinv2, -, g1, g2, g3, g4⟩ := free_inv s0 fl0 p h hp
      have hstep : s0.step (.free p) = .ret ⟨pool2, mem2, s0.allocated.erase p⟩ := by
        simp only [PoolState.step, hf, Outcome.bind_ret]
      have hok2 := hok.2
      simp only [hstep] at hok2
      obtain ⟨s, fl, hr, hinv, k1, k2, k3, k4⟩ := ih _ (p :: fl0) hinv2 hok2
      exact ⟨s, fl, by simp only [run_history, hstep, Outcome.bind_ret, hr], hinv,
        k1.trans g1, k2.trans g2, k3.trans g3, k4.trans g4⟩

/-- As many calls of `allocate()` as the free list has pages in front of `fl`
return these pages, head first, and leave `fl`. -/
theorem allocate_n_inv :
    ∀ (xs : List Nat) (s : PoolState) (fl : List Nat), PoolInv s (xs ++ fl) →
      ∃ pool2, allocate_n xs.length s.pool s.mem = .ret (xs.map some, pool2) ∧
        PoolInv ⟨pool2, s.mem, xs.reverse ++ s.allocated⟩ fl ∧
        pool2.total_count_ = s.pool.total_count_ ∧ pool2.pages_ = s.pool.pages_ ∧
        pool2.size_ = s.pool.size_ ∧ pool2.numa_id_ = s.pool.numa_id_ := by
  intro xs
  induction xs with
  | nil => intro s fl h; exact ⟨s.pool, rfl, h, rfl, rfl, rfl, rfl⟩
  | cons x xs ih =>
    intro s fl h
    obtain ⟨pool1, ha, hinv1, -, g1, g2, g3, g4⟩ := (allocate_inv s _ h).2 x (xs ++ fl) rfl
    obtain ⟨pool2, hn, hinv2, k1, k2, k3, k4⟩ := ih ⟨pool1, s.mem, x :: s.allocated⟩ fl hinv1
    refine ⟨pool2, ?_, ?_, k1.trans g1, k2.trans g2, k3.trans g3, k4.trans g4⟩
    · simp only [List.length_cons, allocate_n, ha, Outcome.bind_ret, hn, List.map_cons]
    · have he : (x :: xs).reverse ++ s.allocated = xs.reverse ++ x :: s.allocated := by simp
      rw [he]
      exact hinv2

/-- Freeing distinct allocated pages one after the other puts them on the free
list, the last one first. -/
theorem free_all_inv :
    ∀ (ps : List Nat) (s : PoolState) (fl : List Nat), PoolInv s fl → ps.Nodup →
      (∀ p ∈ ps, p ∈ s.allocated) →
      ∃ pool1 mem1 al1, free_all ps s.pool s.mem = .ret (pool1, mem1) ∧
        PoolInv ⟨pool1, mem1, al1⟩ (ps.reverse ++ fl) ∧
        pool1.free_count_ = s.pool.free_count_ + ps.length ∧
        pool1.total_count_ = s.pool.total_count_ ∧ pool1.pages_ = s.pool.pages_ ∧
        pool1.size_ = s.pool.size_ ∧ pool1.numa_id_ = s.pool.numa_id_ := by
  intro ps
  induction ps with
  | nil => intro s fl h _ _; exact ⟨s.pool, s.mem, s.allocated, rfl, h, rfl, rfl, rfl, rfl, rfl⟩
  | cons p ps ih =>
    intro s fl h hnd hall
    obtain ⟨hpn, hnd2⟩ := List.nodup_cons.mp hnd
    obtain ⟨pool2, mem2, hf, hinv2, c1, g1, g2, g3, g4⟩ :=
      free_inv s fl p h (hall p (List.mem_cons_self _ _))
    obtain ⟨pool1, mem1, al1, hr, hinv1, c2, k1, k2, k3, k4⟩ :=
      ih ⟨pool2, mem2, s.allocated.erase p⟩ (p :: fl) hinv2 hnd2 (fun q hq =>
        (List.mem_erase_of_ne (fun (e : q = p) => hpn (by rw [← e]; exact hq))).mpr
          (hall q (List.mem_cons_of_mem _ hq)))
    refine ⟨pool1, mem1, al1, ?_, ?_, ?_, k1.trans g1, k2.trans g2, k3.trans g3, k4.trans g4⟩
    · simp only [free_all, hf, Outcome.bind_ret, hr]
    · have he : (p :: ps).reverse ++ fl = ps.reverse ++ p :: fl := by simp
      rw [he]
      exact hinv1
    · rw [c2]
      show pool2.free_count_ + ps.length = s.pool.free_count_ + (ps.length + 1)
      rw [c1]
      omega

/-- Pages freed in the order `p1..pk` and the `k` calls of `allocate()` that
follow: the calls return `pk..p1` and the pool and its free list are as
before the frees. -/
theorem free_all_then_allocate (s : PoolState) (fl : List Nat) (ps : List Nat)
    (h : PoolInv s fl) (hnd : ps.Nodup) (hall : ∀ p ∈ ps, p ∈ s.allocated) :
    ∃ pool1 mem1 pool2, free_all ps s.pool s.mem = .ret (pool1, mem1) ∧
      pool1.free_count_ = s.pool.free_count_ + ps.length ∧
      allocate_n ps.length pool1 mem1 = .ret (ps.reverse.map some, pool2) ∧
      pool2 = s.pool ∧ pool2.free_pages mem1 = s.pool.free_pages s.mem := by
  obtain ⟨pool1, mem1, al1, hf, hinv1, c1, g1, g2, g3, g4⟩ := free_all_inv ps s fl h hnd hall
  obtain ⟨pool2, ha, hinv2, k1, k2, k3, k4⟩ :=
    allocate_n_inv ps.reverse ⟨pool1, mem1, al1⟩ fl hinv1
  rw [List.length_reverse] at ha
  have heq : pool2 = s.pool :=
    pool_eq_of_inv ⟨pool2, mem1, _⟩ s fl hinv2 h (k1.trans g1) (k2.trans g2) (k3.trans g3)
      (k4.trans g4)
  refine ⟨pool1, mem1, pool2, hf, c1, ha, heq, ?_⟩
  rw [free_pages_eq _ fl hinv2, free_pages_eq s fl h]

/-! ## C22: `allocate()` returns null exactly when the pool is exhausted -/

/-- The pages of a pool depend on `pages_` and `total_count_` only. -/
theorem page_list_congr (p1 p2 : PagePool) (ht : p1.total_count_ = p2.total_count_)
    (hp : p1.pages_ = p2.pages_) : p1.page_list = p2.page_list := by
  unfold PagePool.page_list
  rw [ht, hp]

/-- C22.  A pool made by the constructor, after any history of `allocate` and
`free` calls in which `free` is only given pages that are allocated at that
time: the history runs to its end, `free_count()` is 0 exactly when all pages
of the pool are allocated, and `allocate()` returns; it returns null exactly
when `free_count() == 0` (and then leaves the pool as it is), and otherwise
returns a page of the pool that was not allocated and decrements
`free_count()` by one.  A fresh pool serves `total_count()` allocations that
return distinct pages of the pool, and the next `allocate()` returns null. -/
theorem allocate_null_iff_exhausted (lc : LCore) (size numa_id : Nat)
    (allocated : Option Nat) (mem0 : PageMem) (pool : PagePool) (mem : PageMem)
    (ops : List PoolOp)
    (hnew : PagePool.create lc size numa_id allocated mem0 = .ret (.ok (pool, mem)))
    (hok : frees_allocated ops ⟨pool, mem, []⟩) :
    (∃ s, run_history ops ⟨pool, mem, []⟩ = .ret s ∧
      (s.pool.free_count = 0 ↔ ∀ a ∈ pool.page_list, a ∈ s.allocated) ∧
      ∃ p pool2, s.pool.allocate s.mem = .ret (p, pool2) ∧
        (p = none ↔ s.pool.free_count = 0) ∧
        (p = none → pool2 = s.pool) ∧
        (∀ a, p = some a → a ∈ pool.page_list ∧ a ∉ s.allocated ∧
          pool2.free_count + 1 = s.pool.free_count)) ∧
    (∃ (pages : List Nat) (pool3 pool4 : PagePool),
      allocate_n pool.total_count pool mem = .ret (pages.map some, pool3) ∧
      pages.length = pool.total_count ∧ pages.Nodup ∧ (∀ a ∈ pages, a ∈ pool.page_list) ∧
      pool3.allocate mem = .ret (none, pool4)) := by
  obtain ⟨-, -, -, -, -, hinv0⟩ := create_inv lc size numa_id allocated mem0 pool mem hnew
  constructor
  · obtain ⟨s, fl, hr, hinv, g1, g2, -, -⟩ := run_history_inv ops _ _ hinv0 hok
    have hpl : s.pool.page_list = pool.page_list := page_list_congr _ _ g1 g2
    obtain ⟨-, -, -, hdisj, hflp, -, hcover⟩ := PoolInv_count s fl hinv
    have hc : s.pool.free_count_ = fl.length := hinv.2.2.1
    have hzero : s.pool.free_count = 0 ↔ fl = [] := by
      unfold PagePool.free_count
      rw [hc]
      exact List.length_eq_zero
    refine ⟨s, hr, ?_, ?_⟩
    · rw [hzero]
      constructor
      · intro hfl a ha
        rw [← hpl] at ha
        rcases hcover a ha with h1 | h1
        · rw [hfl] at h1; cases h1
        · exact h1
      · intro hall
        cases fl with
        | nil => rfl
        | cons a rest =>
          have ha : a ∈ s.pool.page_list := hflp a (List.mem_cons_self _ _)
          rw [hpl] at ha
          exact absurd (hall a ha) (hdisj a (List.mem_cons_self _ _))
    · cases fl with
      | nil =>
        refine ⟨none, s.pool, (allocate_inv s [] hinv).1 rfl, ?_, fun _ => rfl, ?_⟩
        · simp [hzero]
        · intro a ha; cases ha
      | cons a rest =>
        obtain ⟨pool2, ha, -, hdec, -⟩ := (allocate_inv s _ hinv).2 a rest rfl
        refine ⟨some a, pool2, ha, ?_, ?_, ?_⟩
        · simp [hzero]
        · intro h; cases h
        · intro b hb
          obtain rfl : a = b := by simpa using hb
          refine ⟨?_, hdisj a (List.mem_cons_self _ _), hdec⟩
          rw [← hpl]
          exact hflp a (List.mem_cons_self _ _)
  · have hinv1 : PoolInv ⟨pool, mem, []⟩ (pool.page_list ++ []) := by
      rw [List.append_nil]; exact hinv0
    obtain ⟨pool3, hn, hinv3, -⟩ := allocate_n_inv pool.page_list ⟨pool, mem, []⟩ [] hinv1
    have hlen : pool.page_list.length = pool.total_count := by
      simp [PagePool.page_list, PagePool.total_count]
    rw [hlen] at hn
    exact ⟨pool.page_list, pool3, pool3, hn, hlen, page_list_nodup pool, fun _ h => h,
      (allocate_inv _ [] hinv3).1 rfl⟩

/-- The pool of two pages at address 4096: after the history allocate,
allocate, free(4096) the next `allocate()` returns the page at 4096, and the
fresh pool serves its two pages and then null. -/
theorem allocate_null_iff_exhausted_witness :
    (∃ s, run_history [.allocate, .allocate, .free 4096] stateTwoPages = .ret s ∧
      ∃ p pool2, s.pool.allocate s.mem = .ret (p, pool2) ∧
        (p = none ↔ s.pool.free_count = 0)) ∧
    (∃ (pages : List Nat) (pool3 pool4 : PagePool),
      allocate_n 2 stateTwoPages.pool stateTwoPages.mem = .ret (pages.map some, pool3) ∧
      pages.Nodup ∧ pool3.allocate stateTwoPages.mem = .ret (none, pool4)) := by
  have hnew : PagePool.create lcoreOne (3 * 1048576) 0 (some 4096) memZero
      = .ret (.ok (poolTwoPages, memTwoPages)) := rfl
  have hok : frees_allocated [.allocate, .allocate, .free 4096] ⟨poolTwoPages, memTwoPages, []⟩ :=
    ⟨trivial, trivial, List.mem_cons_of_mem _ (List.mem_cons_self _ _), trivial⟩
  have h := allocate_null_iff_exhausted lcoreOne (3 * 1048576) 0 (some 4096) memZero
    poolTwoPages memTwoPages [.allocate, .allocate, .free 4096] hnew hok
  obtain ⟨⟨s, hr, -, p, pool2, ha, hp, -⟩, pages, pool3, pool4, hn, -, hnd, -, hlast⟩ := h
  exact ⟨⟨s, hr, p, pool2, ha, hp⟩, pages, pool3, pool4, hn, hnd, hlast⟩

/-! ## C23: the free list is a stack -/

/-- C23.  A pool made by the constructor, after any history of `allocate` and
`free` calls in which `free` is only given allocated pages: (1) for every
allocated page `p`, `free(p)` puts `p` at the head of the free list and raises
`free_count()` by one, the `allocate()` that follows returns `p`, and then the
pool, its free list and `free_count()` are exactly as before the free;
(2) distinct allocated pages freed in the order `p1..pk` are returned by the
next `k` calls of `allocate()` in the order `pk..p1`, after which the pool and
its free list are as before the frees. -/
theorem free_list_is_stack (lc : LCore) (size numa_id : Nat)
    (allocated : Option Nat) (mem0 : PageMem) (pool : PagePool) (mem : PageMem)
    (ops : List PoolOp)
    (hnew : PagePool.create lc size numa_id allocated mem0 = .ret (.ok (pool, mem)))
    (hok : frees_allocated ops ⟨pool, mem, []⟩) :
    ∃ s, run_history ops ⟨pool, mem, []⟩ = .ret s ∧
      (∀ p ∈ s.allocated, ∃ (pool1 : PagePool) (mem1 : PageMem) (pool2 : PagePool),
        s.pool.free s.mem (some p) = .ret (pool1, mem1) ∧
        pool1.free_pages mem1 = p :: s.pool.free_pages s.mem ∧
        pool1.free_count = s.pool.free_count + 1 ∧
        pool1.allocate mem1 = .ret (some p, pool2) ∧
        pool2 = s.pool ∧ pool2.free_pages mem1 = s.pool.free_pages s.mem ∧
        pool2.free_count = s.pool.free_count) ∧
      (∀ ps : List Nat, ps.Nodup → (∀ p ∈ ps, p ∈ s.allocated) →
        ∃ (pool1 : PagePool) (mem1 : PageMem) (pool2 : PagePool),
          free_all ps s.pool s.mem = .ret (pool1, mem1) ∧
          pool1.free_count = s.pool.free_count + ps.length ∧
          allocate_n ps.length pool1 mem1 = .ret (ps.reverse.map some, pool2) ∧
          pool2 = s.pool ∧ pool2.free_pages mem1 = s.pool.free_pages s.mem) := by
  obtain ⟨-, -, -, -, -, hinv0⟩ := create_inv lc size numa_id allocated mem0 pool mem hnew
  obtain ⟨s, fl, hr, hinv, -⟩ := run_history_inv ops _ _ hinv0 hok
  refine ⟨s, hr, ?_, ?_⟩
  · intro p hp
    obtain ⟨pool1, mem1, hf, hinv1, c1, g1, g2, g3, g4⟩ := free_inv s fl p hinv hp
    obtain ⟨pool2, ha, hinv2, -, k1, k2, k3, k4⟩ := (allocate_inv _ _ hinv1).2 p fl rfl
    have heq : pool2 = s.pool :=
      pool_eq_of_inv ⟨pool2, mem1, _⟩ s fl hinv2 hinv (k1.trans g1) (k2.trans g2)
        (k3.trans g3) (k4.trans g4)
    refine ⟨pool1, mem1, pool2, hf, ?_, c1, ha, heq, ?_, by rw [heq]⟩
    · rw [free_pages_eq _ _ hinv1, free_pages_eq s fl hinv]
    · rw [free_pages_eq _ fl hinv2, free_pages_eq s fl hinv]
  · intro ps hnd hall
    exact free_all_then_allocate s fl ps hinv hnd hall

/-- The pool of two pages at address 4096 with both pages allocated: freeing
the page at 4096 and then the other one, the next two calls of `allocate()`
return the other page first and the page at 4096 second. -/
theorem free_list_is_stack_witness :
    ∃ s, run_history [.allocate, .allocate] stateTwoPages = .ret s ∧
      ∃ (pool1 : PagePool) (mem1 : PageMem) (pool2 : PagePool),
        free_all [4096, 2101248] s.pool s.mem = .ret (pool1, mem1) ∧
        allocate_n 2 pool1 mem1 = .ret ([some 2101248, some 4096], pool2) ∧
        pool2 = s.pool := by
  have hnew : PagePool.create lcoreOne (3 * 1048576) 0 (some 4096) memZero
      = .ret (.ok (poolTwoPages, memTwoPages)) := rfl
  have hok : frees_allocated [.allocate, .allocate] ⟨poolTwoPages, memTwoPages, []⟩ :=
    ⟨trivial, trivial, trivial⟩
  obtain ⟨s, hr, -, h2⟩ := free_list_is_stack lcoreOne (3 * 1048576) 0 (some 4096) memZero
    poolTwoPages memTwoPages [.allocate, .allocate] hnew hok
  have hs : s = ⟨{ poolTwoPages with next_ := none, free_count_ := 0 }, memTwoPages,
      [2101248, 4096]⟩ := by
    have hr2 : run_history [.allocate, .allocate] ⟨poolTwoPages, memTwoPages, []⟩
        = .ret ⟨{ poolTwoPages with next_ := none, free_count_ := 0 }, memTwoPages,
            [2101248, 4096]⟩ := rfl
    rw [hr2] at hr
    exact (Outcome.ret.inj hr).symm
  obtain ⟨pool1, mem1, pool2, hf, -, ha, heq, -⟩ := h2 [4096, 2101248] (by decide)
    (by rw [hs]; decide)
  exact ⟨s, hr, pool1, mem1, pool2, hf, ha, heq⟩

/-! ## C24: the page count of the constructor -/

/-- C24 (failing input).  For `size = 2^64 - 1` the sum
`size + kPageSize - 1` wraps in 64-bit arithmetic and the constructor computes
`page_count = 0`, while `size` needs `2^43` pages; the same holds for every
size above `2^64 - 2097152`.  With `page_count = 0` (also for `size = 0`) and
an allocated region the constructor then stores the null pointer into the
first word of page number `2^64 - 1`, outside the region; for these sizes the
constructor never returns a pool.  For every size
from 1 to `2^64 - 2097152` the page count is the least number of pages that
hold `size` bytes, and a pool the constructor returns has `total_count()` and
`free_count()` equal to it and a region of `total_count() * 2097152` bytes. -/
theorem page_count_wraps :
    PagePool.page_count (2 ^ 64 - 1) = 0 ∧
    (2 ^ 64 - 1 + 2097152 - 1) / 2097152 = 2 ^ 43 ∧
    (∀ size, 2 ^ 64 - 2097152 < size → size < 2 ^ 64 → PagePool.page_count size = 0) ∧
    PagePool.create lcoreOne (2 ^ 64 - 1) 0 (some 4096) memZero = .undefined ∧
    PagePool.page_count 0 = 0 ∧
    PagePool.create lcoreOne 0 0 (some 4096) memZero = .undefined ∧
    (∀ (lc : LCore) (size numa_id : Nat) (allocated : Option Nat) (mem0 : PageMem)
      (pool : PagePool) (mem : PageMem),
      size = 0 ∨ (2 ^ 64 - 2097152 < size ∧ size < 2 ^ 64) →
      PagePool.create lc size numa_id allocated mem0 ≠ .ret (.ok (pool, mem))) ∧
    (∀ (lc : LCore) (size numa_id : Nat) (allocated : Option Nat) (mem0 : PageMem)
      (pool : PagePool) (mem : PageMem),
      0 < size → size ≤ 2 ^ 64 - 2097152 →
      PagePool.create lc size numa_id allocated mem0 = .ret (.ok (pool, mem)) →
      pool.total_count = (size + 2097152 - 1) / 2097152 ∧
      pool.size_ = pool.total_count * 2097152 ∧
      size ≤ pool.size_ ∧ pool.size_ < size + 2097152 ∧
      pool.free_count = pool.total_count) := by
  have hwrap : ∀ size, 2 ^ 64 - 2097152 < size → size < 2 ^ 64 →
      PagePool.page_count size = 0 := by
    intro size h1 h2
    unfold PagePool.page_count kPageSize
    omega
  refine ⟨by decide, by decide, hwrap, ?_, by decide, ?_, ?_, ?_⟩
  · exact create_no_pages lcoreOne _ 0 4096 0 memZero (by decide) rfl (by decide)
  · exact create_no_pages lcoreOne _ 0 4096 0 memZero (by decide) rfl (by decide)
  · intro lc size numa_id allocated mem0 pool mem hsize hnew
    have hpos := (create_inv lc size numa_id allocated mem0 pool mem hnew).1
    rcases hsize with h0 | ⟨h1, h2⟩
    · rw [h0] at hpos
      exact absurd hpos (by decide)
    · rw [hwrap size h1 h2] at hpos
      exact absurd hpos (by decide)
  · intro lc size numa_id allocated mem0 pool mem hpos hle hnew
    obtain ⟨-, ht, hf, hs, -, -⟩ := create_inv lc size numa_id allocated mem0 pool mem hnew
    obtain ⟨h1, h2, h3, h4, -⟩ := page_count_in_range size hle
    have hk : kPageSize = 2097152 := rfl
    rw [hk] at h1 h2 h3 h4 hs
    have hs2 : pool.size_ = PagePool.page_count size * 2097152 := by
      rw [hs]
      exact Nat.mod_eq_of_lt h4
    unfold PagePool.total_count PagePool.free_count
    rw [ht, hf, hs2]
    exact ⟨h1, rfl, h2, h3, rfl⟩

/-! ## `HHAccounter::account` -/

/-- What the first loop of `account` finds, started at index `i` with no
matching key below `i` and with `empty_slot` the lowest slot below `i` whose
count is 0 (`n` if there is none): the lowest slot whose key is `key`, or else
the lowest slot whose count is 0 (`n` if there is none). -/
theorem account_scan_spec {K : Type} [DecidableEq K] (cnts : Nat → CntElem K) (key : K)
    (n : Nat) :
    ∀ (r i e : Nat), i + r = n → (∀ j, j < i → (cnts j).k_ ≠ key) →
      ((e = n ∧ ∀ j, j < i → (cnts j).cnt_ ≠ 0) ∨
        (e < i ∧ (cnts e).cnt_ = 0 ∧ ∀ j, j < e → (cnts j).cnt_ ≠ 0)) →
      (∃ m, account_scan cnts key n r i e = .found m ∧ m < n ∧ (cnts m).k_ = key ∧
        ∀ j, j < m → (cnts j).k_ ≠ key) ∨
      (∃ e2, account_scan cnts key n r i e = .not_found e2 ∧
        (∀ j, j < n → (cnts j).k_ ≠ key) ∧
        ((e2 = n ∧ ∀ j, j < n → (cnts j).cnt_ ≠ 0) ∨
          (e2 < n ∧ (cnts e2).cnt_ = 0 ∧ ∀ j, j < e2 → (cnts j).cnt_ ≠ 0))) := by
  intro r
  induction r with
  | zero =>
    intro i e hi hk he
    have hin : i = n := by omega
    subst hin
    refine Or.inr ⟨e, rfl, hk, ?_⟩
    rcases he with ⟨h1, h2⟩ | ⟨h1, h2, h3⟩
    · exact Or.inl ⟨h1, h2⟩
    · exact Or.inr ⟨h1, h2, h3⟩
  | succ r ih =>
    intro i e hi hk he
    by_cases hm : (cnts i).k_ = key
    · exact Or.inl ⟨i, by simp [account_scan, hm], by omega, hm, hk⟩
    · have hk2 : ∀ j, j < i + 1 → (cnts j).k_ ≠ key := by
        intro j hj
        by_cases hji : j = i
        · rw [hji]; exact hm
        · exact hk j (by omega)
      have hstep : account_scan cnts key n (r + 1) i e =
          account_scan cnts key n r (i + 1)
            (if e = n ∧ (cnts i).cnt_ = 0 then i else e) := by
        simp [account_scan, hm]
      rw [hstep]
      refine ih (i + 1) _ (by omega) hk2 ?_
      rcases he with ⟨h1, h2⟩ | ⟨h1, h2, h3⟩
      · by_cases hz : (cnts i).cnt_ = 0
        · rw [if_pos ⟨h1, hz⟩]
          exact Or.inr ⟨by omega, hz, h2⟩
        · rw [if_neg (fun hc => hz hc.2)]
          refine Or.inl ⟨h1, fun j hj => ?_⟩
          by_cases hji : j = i
          · rw [hji]; exact hz
          · exact h2 j (by omega)
      · have hne : e ≠ n := by omega
        rw [if_neg (fun hc => hne hc.1)]
        exact Or.inr ⟨by omega, h2, h3⟩

/-- The three ways in which `account(key)` changes the table. -/
theorem account_cases {K : Type} [DecidableEq K] (h : HHAccounter K) (key : K) :
    (∃ m, m < h.n_ ∧ (h.cnts_ m).k_ = key ∧ (∀ j, j < m → (h.cnts_ j).k_ ≠ key) ∧
      h.account key = { h with cnts_ := (Function.update h.cnts_ m
        { h.cnts_ m with cnt_ := ((h.cnts_ m).cnt_ + 1) % 2 ^ 64 }) }) ∨
    ((∀ j, j < h.n_ → (h.cnts_ j).k_ ≠ key) ∧
      ∃ e, e < h.n_ ∧ (h.cnts_ e).cnt_ = 0 ∧ (∀ j, j < e → (h.cnts_ j).cnt_ ≠ 0) ∧
        h.account key = { h with cnts_ := (Function.update h.cnts_ e
          { k_ := key, cnt_ := 1 }) }) ∨
    ((∀ j, j < h.n_ → (h.cnts_ j).k_ ≠ key) ∧ (∀ j, j < h.n_ → (h.cnts_ j).cnt_ ≠ 0) ∧
      h.account key = { h with cnts_ := (fun i =>
        if i < h.n_ then { h.cnts_ i with cnt_ := ((h.cnts_ i).cnt_ + 2 ^ 64 - 1) % 2 ^ 64 }
        else h.cnts_ i) }) := by
  rcases account_scan_spec h.cnts_ key h.n_ h.n_ 0 h.n_ (by omega)
      (fun j hj => absurd hj (Nat.not_lt_zero _))
      (Or.inl ⟨rfl, fun j hj => absurd hj (Nat.not_lt_zero _)⟩) with
    ⟨m, hs, hm, hk, hlow⟩ | ⟨e, hs, hno, he⟩
  · refine Or.inl ⟨m, hm, hk, hlow, ?_⟩
    simp only [HHAccounter.account, hs]
  · rcases he with ⟨h1, h2⟩ | ⟨h1, h2, h3⟩
    · refine Or.inr (Or.inr ⟨hno, h2, ?_⟩)
      simp only [HHAccounter.account, hs, h1, ne_eq, not_true_eq_false, if_false]
      congr 1
      funext i
      by_cases hi : i < h.n_
      · simp [hi, h2 i hi]
      · simp [hi]
    · refine Or.inr (Or.inl ⟨hno, e, h1, h2, h3, ?_⟩)
      have hne : e ≠ h.n_ := by omega
      simp only [HHAccounter.account, hs, ne_eq, hne, not_false_eq_true, if_true, h2]
      rfl

/-! ## C29: one step of the sketch -/

/-- C29.  `account(key)` on a table of `n` slots makes one Misra–Gries step.
(1) If some slot holds `key`, the count of the lowest such slot is incremented
(in `uint64_t`; it grows by one unless it was `2^64 - 1`) and nothing else
changes.  (2) Otherwise, if some slot has count 0, the lowest such slot takes
the key, its count becomes 1, and nothing else changes.  (3) Otherwise every
slot's count is decremented by one, and no key, no other memory and not `n`
changes. -/
theorem account_step {K : Type} [DecidableEq K] (h : HHAccounter K) (key : K) :
    (h.account key).n_ = h.n_ ∧
    (∀ m, m < h.n_ → (h.cnts_ m).k_ = key → (∀ j, j < m → (h.cnts_ j).k_ ≠ key) →
      ((h.account key).cnts_ m).k_ = key ∧
      ((h.account key).cnts_ m).cnt_ = ((h.cnts_ m).cnt_ + 1) % 2 ^ 64 ∧
      ((h.cnts_ m).cnt_ + 1 < 2 ^ 64 →
        ((h.account key).cnts_ m).cnt_ = (h.cnts_ m).cnt_ + 1) ∧
      ∀ i, i ≠ m → (h.account key).cnts_ i = h.cnts_ i) ∧
    ((∀ j, j < h.n_ → (h.cnts_ j).k_ ≠ key) →
      ∀ e, e < h.n_ → (h.cnts_ e).cnt_ = 0 → (∀ j, j < e → (h.cnts_ j).cnt_ ≠ 0) →
        (h.account key).cnts_ e = { k_ := key, cnt_ := 1 } ∧
        ∀ i, i ≠ e → (h.account key).cnts_ i = h.cnts_ i) ∧
    ((∀ j, j < h.n_ → (h.cnts_ j).k_ ≠ key) → (∀ j, j < h.n_ → (h.cnts_ j).cnt_ ≠ 0) →
      (∀ i, i < h.n_ → ((h.account key).cnts_ i).k_ = (h.cnts_ i).k_ ∧
        ((h.account key).cnts_ i).cnt_ = ((h.cnts_ i).cnt_ + 2 ^ 64 - 1) % 2 ^ 64 ∧
        ((h.cnts_ i).cnt_ < 2 ^ 64 →
          ((h.account key).cnts_ i).cnt_ + 1 = (h.cnts_ i).cnt_)) ∧
      ∀ i, h.n_ ≤ i → (h.account key).cnts_ i = h.cnts_ i) := by
  have hc := account_cases h key
  refine ⟨?_, ?_, ?_, ?_⟩
  · rcases hc with ⟨m, -, -, -, heq⟩ | ⟨-, e, -, -, -, heq⟩ | ⟨-, -, heq⟩ <;> rw [heq]
  · intro m hm hk hlow
    rcases hc with ⟨m2, hm2, hk2, hlow2, heq⟩ | ⟨hno, -⟩ | ⟨hno, -⟩
    · have hmm : m2 = m := by
        rcases Nat.lt_trichotomy m2 m with hlt | he | hgt
        · exact absurd hk2 (hlow m2 hlt)
        · exact he
        · exact absurd hk (hlow2 m hgt)
      subst hmm
      rw [heq]
      refine ⟨?_, ?_, ?_, ?_⟩
      · simp [hk]
      · simp
      · intro hlt
        simp only [Function.update_same]
        exact Nat.mod_eq_of_lt hlt
      · intro i hi
        simp [Function.update_noteq hi]
    · exact absurd hk (hno m hm)
    · exact absurd hk (hno m hm)
  · intro hno e he hz hlow
    rcases hc with ⟨m, hm, hk, -, -⟩ | ⟨-, e2, he2, hz2, hlow2, heq⟩ | ⟨-, hnz, -⟩
    · exact absurd hk (hno m hm)
    · have hee : e2 = e := by
        rcases Nat.lt_trichotomy e2 e with hlt | h0 | hgt
        · exact absurd hz2 (hlow e2 hlt)
        · exact h0
        · exact absurd hz (hlow2 e hgt)
      subst hee
      rw [heq]
      refine ⟨by simp, fun i hi => ?_⟩
      simp [Function.update_noteq hi]
    · exact absurd hz (hnz e he)
  · intro hno hnz
    rcases hc with ⟨m, hm, hk, -, -⟩ | ⟨-, e, he, hz, -, -⟩ | ⟨-, -, heq⟩
    · exact absurd hk (hno m hm)
    · exact absurd hz (hnz e he)
    · rw [heq]
      refine ⟨fun i hi => ⟨by simp [hi], by simp [hi], fun hlt => ?_⟩, fun i hi => ?_⟩
      · have := hnz i hi
        simp only [hi, if_true]
        omega
      · simp [Nat.not_lt.mpr hi]

/-- On the table that holds 7 twice and 9 once: `account(9)` increments the
count of slot 1, and `account(5)`, with no slot for 5 and no count 0,
decrements both counts. -/
theorem account_step_witness :
    ((tableTwoSlots.account 9).cnts_ 1).cnt_ = 2 ∧
    (tableTwoSlots.account 9).cnts_ 0 = tableTwoSlots.cnts_ 0 ∧
    ((tableTwoSlots.account 5).cnts_ 0).cnt_ + 1 = (tableTwoSlots.cnts_ 0).cnt_ ∧
    ((tableTwoSlots.account 5).cnts_ 1).cnt_ + 1 = (tableTwoSlots.cnts_ 1).cnt_ :=
  ⟨((account_step tableTwoSlots 9).2.1 1 (by decide) rfl (by decide)).2.2.1 (by decide),
   ((account_step tableTwoSlots 9).2.1 1 (by decide) rfl (by decide)).2.2.2 0 (by decide),
   (((account_step tableTwoSlots 5).2.2.2 (by decide) (by decide)).1 0 (by decide)).2.2
     (by decide),
   (((account_step tableTwoSlots 5).2.2.2 (by decide) (by decide)).1 1 (by decide)).2.2
     (by decide)⟩

/-! ## The Misra–Gries invariant of `HHAccounter` -/

/-- The sum of the counters after a store to one slot. -/
theorem sum_cnt_update {K : Type} (cnts : Nat → CntElem K) (n m : Nat) (v : CntElem K)
    (hm : m < n) :
    (Finset.range n).sum (fun i => (Function.update cnts m v i).cnt_) + (cnts m).cnt_ =
      (Finset.range n).sum (fun i => (cnts i).cnt_) + v.cnt_ := by
  have hmem : m ∈ Finset.range n := Finset.mem_range.mpr hm
  rw [← Finset.add_sum_erase _ _ hmem, ← Finset.add_sum_erase (Finset.range n)
    (fun i => (cnts i).cnt_) hmem]
  have hrest : (Finset.sum ((Finset.range n).erase m)
        fun i => (Function.update cnts m v i).cnt_) =
      Finset.sum ((Finset.range n).erase m) fun i => (cnts i).cnt_ := by
    refine Finset.sum_congr rfl fun i hi => ?_
    rw [Function.update_noteq (Finset.ne_of_mem_erase hi)]
  rw [hrest, Function.update_same]
  omega

/-- The sum of the counters after each of them was decremented. -/
theorem sum_cnt_decrement (f g : Nat → Nat) (n : Nat) (h : ∀ i, i < n → g i + 1 = f i) :
    (Finset.range n).sum g + n = (Finset.range n).sum f := by
  have h1 : (Finset.range n).sum (fun i => g i + 1) = (Finset.range n).sum g + n := by
    rw [Finset.sum_add_distrib]
    simp
  rw [← h1]
  exact Finset.sum_congr rfl fun i hi => h i (Finset.mem_range.mp hi)

/-- The frequency of a key after one more key was accounted. -/
theorem count_snoc {K : Type} [DecidableEq K] (keys : List K) (k x : K) :
    (keys ++ [k]).count x = keys.count x + if k = x then 1 else 0 := by
  rw [List.count_append]
  by_cases h : k = x
  · subst h; simp
  · simp [h, List.count_singleton']

/-- One call of `account` keeps the invariant, as long as the number of calls
stays below `2^64`. -/
theorem sketch_inv_step {K : Type} [DecidableEq K] (h : HHAccounter K) (keys : List K)
    (d : Nat) (k : K) (hinv : SketchInv h keys d) (hN : keys.length + 1 < 2 ^ 64) :
    (h.account k).n_ = h.n_ ∧ ∃ d2, SketchInv (h.account k) (keys ++ [k]) d2 := by
  obtain ⟨I1, I2, I3, I4⟩ := hinv
  have hcl : ∀ x, keys.count x ≤ keys.length := fun x => List.count_le_length x keys
  rcases account_cases h k with ⟨m, hm, hk, hlow, heq⟩ | ⟨hno, e, he, hz, -, heq⟩ |
      ⟨hno, hnz, heq⟩
  · -- the count of the slot that holds the key goes up
    have hmod : ((h.cnts_ m).cnt_ + 1) % 2 ^ 64 = (h.cnts_ m).cnt_ + 1 := by
      have := I2 m hm
      have := hcl (h.cnts_ m).k_
      exact Nat.mod_eq_of_lt (by omega)
    rw [heq, hmod]
    refine ⟨rfl, d, ?_, ?_, ?_, ?_⟩
    · intro i j hij hj hkeys
      simp only at hj hkeys ⊢
      by_cases hjm : j = m
      · subst hjm
        have hne : i ≠ j := by omega
        rw [Function.update_noteq hne, Function.update_same] at hkeys
        exact absurd (hkeys.trans hk) (hlow i hij)
      · rw [Function.update_noteq hjm]
        by_cases him : i = m
        · subst him
          rw [Function.update_same, Function.update_noteq hjm] at hkeys
          exact I1 i j hij hj hkeys
        · rw [Function.update_noteq him, Function.update_noteq hjm] at hkeys
          exact I1 i j hij hj hkeys
    · intro i hi
      simp only at hi ⊢
      by_cases him : i = m
      · subst him
        rw [Function.update_same]
        simp only [count_snoc, hk, if_true]
        have := I2 i hi
        rw [hk] at this
        omega
      · rw [Function.update_noteq him, count_snoc]
        have := I2 i hi
        omega
    · simp only [List.length_append, List.length_singleton]
      have := sum_cnt_update h.cnts_ h.n_ m
        { h.cnts_ m with cnt_ := (h.cnts_ m).cnt_ + 1 } hm
      simp only at this
      omega
    · intro x
      simp only
      rw [count_snoc]
      by_cases hx : k = x
      · subst hx
        refine Or.inr ⟨m, hm, by rw [Function.update_same]; exact hk, ?_⟩
        rw [Function.update_same]
        simp only [if_true]
        rcases I4 k with h1 | ⟨i, hi, hki, h1⟩
        · omega
        · by_cases him : i = m
          · subst him; omega
          · rcases Nat.lt_or_gt_of_ne him with hlt | hgt
            · exact absurd hki (hlow i hlt)
            · have := I1 m i hgt hi (hk.trans hki.symm)
              omega
      · simp only [hx, if_false, Nat.add_zero]
        rcases I4 x with h1 | ⟨i, hi, hki, h1⟩
        · exact Or.inl h1
        · have him : i ≠ m := fun e => hx (by rw [← hk, ← e, hki])
          exact Or.inr ⟨i, hi, by rw [Function.update_noteq him]; exact hki,
            by rw [Function.update_noteq him]; exact h1⟩
  · -- an empty slot takes the key
    rw [heq]
    refine ⟨rfl, d, ?_, ?_, ?_, ?_⟩
    · intro i j hij hj hkeys
      simp only at hj hkeys ⊢
      by_cases hje : j = e
      · subst hje
        have hne : i ≠ j := by omega
        rw [Function.update_noteq hne, Function.update_same] at hkeys
        exact absurd hkeys (hno i (by omega))
      · rw [Function.update_noteq hje]
        by_cases hie : i = e
        · subst hie
          rw [Function.update_same, Function.update_noteq hje] at hkeys
          exact absurd hkeys.symm (hno j hj)
        · rw [Function.update_noteq hie, Function.update_noteq hje] at hkeys
          exact I1 i j hij hj hkeys
    · intro i hi
      simp only at hi ⊢
      by_cases hie : i = e
      · subst hie
        rw [Function.update_same]
        simp only [count_snoc, if_true]
        omega
      · rw [Function.update_noteq hie, count_snoc]
        have := I2 i hi
        omega
    · simp only [List.length_append, List.length_singleton]
      have := sum_cnt_update h.cnts_ h.n_ e { k_ := k, cnt_ := 1 } he
      simp only at this
      omega
    · intro x
      simp only
      rw [count_snoc]
      by_cases hx : k = x
      · subst hx
        refine Or.inr ⟨e, he, by rw [Function.update_same], ?_⟩
        rw [Function.update_same]
        simp only [if_true]
        rcases I4 k with h1 | ⟨i, hi, hki, -⟩
        · omega
        · exact absurd hki (hno i hi)
      · simp only [hx, if_false, Nat.add_zero]
        rcases I4 x with h1 | ⟨i, hi, hki, h1⟩
        · exact Or.inl h1
        · by_cases hie : i = e
          · subst hie
            exact Or.inl (by omega)
          · exact Or.inr ⟨i, hi, by rw [Function.update_noteq hie]; exact hki,
              by rw [Function.update_noteq hie]; exact h1⟩
  · -- every count goes down
    have hdec : ∀ i, i < h.n_ →
        ((h.cnts_ i).cnt_ + 2 ^ 64 - 1) % 2 ^ 64 + 1 = (h.cnts_ i).cnt_ := by
      intro i hi
      have := I2 i hi
      have := hcl (h.cnts_ i).k_
      have := hnz i hi
      omega
    rw [heq]
    refine ⟨rfl, d + 1, ?_, ?_, ?_, ?_⟩
    · intro i j hij hj hkeys
      simp only at hj hkeys ⊢
      have hi : i < h.n_ := by omega
      simp only [hi, hj, if_true] at hkeys
      exact absurd (I1 i j hij hj hkeys) (hnz j hj)
    · intro i hi
      simp only at hi ⊢
      simp only [hi, if_true, count_snoc]
      have := I2 i hi
      have := hdec i hi
      omega
    · simp only [List.length_append, List.length_singleton]
      have hsum := sum_cnt_decrement (fun i => (h.cnts_ i).cnt_)
        (fun i => (if i < h.n_ then
            ({ h.cnts_ i with cnt_ := ((h.cnts_ i).cnt_ + 2 ^ 64 - 1) % 2 ^ 64 } : CntElem K)
          else h.cnts_ i).cnt_) h.n_ (fun i hi => by simp only [hi, if_true]; exact hdec i hi)
      have hmul : (h.n_ + 1) * (d + 1) = (h.n_ + 1) * d + (h.n_ + 1) := Nat.mul_succ _ _
      simp only at hsum ⊢
      omega
    · intro x
      simp only
      rw [count_snoc]
      by_cases hx : k = x
      · subst hx
        simp only [if_true]
        rcases I4 k with h1 | ⟨i, hi, hki, -⟩
        · exact Or.inl (by omega)
        · exact absurd hki (hno i hi)
      · simp only [hx, if_false, Nat.add_zero]
        rcases I4 x with h1 | ⟨i, hi, hki, h1⟩
        · exact Or.inl (by omega)
        · refine Or.inr ⟨i, hi, by simp only [hi, if_true]; exact hki, ?_⟩
          simp only [hi, if_true]
          have := hdec i hi
          omega

/-- After `account` was called for the keys `keys`, fewer than `2^64` of them,
on a fresh table of `n` slots, the table still has `n` slots and the invariant
holds. -/
theorem sketch_inv_all {K : Type} [DecidableEq K] [Inhabited K] (n : Nat) :
    ∀ (keys : List K), keys.length < 2 ^ 64 →
      (account_all keys (HHAccounter.create n)).n_ = n ∧
      ∃ d, SketchInv (account_all keys (HHAccounter.create n)) keys d := by
  intro keys
  induction keys using List.reverseRecOn with
  | nil =>
    intro _
    refine ⟨rfl, 0, ?_, ?_, ?_, ?_⟩
    · intro i j _ _ _; rfl
    · intro i _; exact Nat.zero_le _
    · simp [account_all, HHAccounter.create]
    · intro x; exact Or.inl (by simp)
  | append_singleton keys k ih =>
    intro hN
    rw [List.length_append, List.length_singleton] at hN
    obtain ⟨hn, d, hinv⟩ := ih (by omega)
    have hstep : account_all (keys ++ [k]) (HHAccounter.create n) =
        (account_all keys (HHAccounter.create n)).account k := by
      simp [account_all, List.foldl_append]
    obtain ⟨hn2, d2, hinv2⟩ := sketch_inv_step _ keys d k hinv hN
    rw [hstep]
    exact ⟨hn2.trans hn, d2, hinv2⟩

/-- Under the invariant the count of a slot is at most the count the table
holds for its key, and that count is at most the frequency of the key. -/
theorem count_of_bounds {K : Type} [DecidableEq K] (h : HHAccounter K) (keys : List K)
    (d : Nat) (hinv : SketchInv h keys d) (x : K) :
    (∀ i, i < h.n_ → (h.cnts_ i).k_ = x → (h.cnts_ i).cnt_ ≤ h.count_of x) ∧
    h.count_of x ≤ keys.count x := by
  obtain ⟨I1, I2, -, -⟩ := hinv
  constructor
  · intro i hi hk
    have hle := Finset.single_le_sum
      (f := fun i => if (h.cnts_ i).k_ = x then (h.cnts_ i).cnt_ else 0)
      (fun _ _ => Nat.zero_le _) (Finset.mem_range.mpr hi)
    simp only [hk, if_true] at hle
    exact hle
  · unfold HHAccounter.count_of
    by_cases hex : ∃ a, a < h.n_ ∧ (h.cnts_ a).k_ = x ∧ (h.cnts_ a).cnt_ ≠ 0
    · obtain ⟨a, ha, hka, hca⟩ := hex
      rw [Finset.sum_eq_single a]
      · simp only [hka, if_true]
        have := I2 a ha
        rw [hka] at this
        exact this
      · intro b hb hba
        have hb2 := Finset.mem_range.mp hb
        by_cases hkb : (h.cnts_ b).k_ = x
        · simp only [hkb, if_true]
          rcases Nat.lt_or_gt_of_ne hba with hlt | hgt
          · exact absurd (I1 b a hlt ha (hkb.trans hka.symm)) hca
          · exact I1 a b hgt hb2 (hka.trans hkb.symm)
        · simp [hkb]
      · intro hna
        exact absurd (Finset.mem_range.mpr ha) hna
    · rw [Finset.sum_eq_zero]
      · exact Nat.zero_le _
      · intro i hi
        by_cases hk : (h.cnts_ i).k_ = x
        · simp only [hk, if_true]
          by_contra hc
          exact hex ⟨i, Finset.mem_range.mp hi, hk, hc⟩
        · simp [hk]

/-! ## C30: the guarantee of the sketch -/

/-- C30.  After `account` was called for the `N` keys of `keys`, with
`N < 2^64`, on a fresh table of `n` slots: (1) no two slots with non-zero
count hold the same key; (2) the count of each slot is at most the frequency
of its key in `keys`; (3) for every key `x`, the count `c(x)` the table holds
for `x` is at most the frequency `f(x)`, and `f(x) - c(x) <= N / (n + 1)`;
(4) every key accounted more than `N / (n + 1)` times is in the table with a
non-zero count. -/
theorem heavy_hitters_bound {K : Type} [DecidableEq K] [Inhabited K] (n : Nat)
    (keys : List K) (hN : keys.length < 2 ^ 64) :
    (account_all keys (HHAccounter.create n)).n_ = n ∧
    (∀ i j, i < n → j < n → i ≠ j →
      ((account_all keys (HHAccounter.create n)).cnts_ i).cnt_ ≠ 0 →
      ((account_all keys (HHAccounter.create n)).cnts_ j).cnt_ ≠ 0 →
      ((account_all keys (HHAccounter.create n)).cnts_ i).k_ ≠
        ((account_all keys (HHAccounter.create n)).cnts_ j).k_) ∧
    (∀ i, i < n →
      ((account_all keys (HHAccounter.create n)).cnts_ i).cnt_ ≤
        keys.count ((account_all keys (HHAccounter.create n)).cnts_ i).k_) ∧
    (∀ x, (account_all keys (HHAccounter.create n)).count_of x ≤ keys.count x ∧
      keys.count x - (account_all keys (HHAccounter.create n)).count_of x
        ≤ keys.length / (n + 1)) ∧
    (∀ x, keys.length / (n + 1) < keys.count x →
      ∃ i, i < n ∧ ((account_all keys (HHAccounter.create n)).cnts_ i).k_ = x ∧
        ((account_all keys (HHAccounter.create n)).cnts_ i).cnt_ ≠ 0) := by
  obtain ⟨hn, d, hinv⟩ := sketch_inv_all (K := K) n keys hN
  have hb := count_of_bounds _ keys d hinv
  obtain ⟨I1, I2, I3, I4⟩ := hinv
  rw [hn] at I1 I2 I3 I4
  have hd : d ≤ keys.length / (n + 1) := by
    have hle : (n + 1) * d ≤ keys.length := by omega
    exact (Nat.le_div_iff_mul_le (Nat.succ_pos n)).mpr (by rw [Nat.mul_comm]; exact hle)
  refine ⟨hn, ?_, I2, ?_, ?_⟩
  · intro i j hi hj hij hci hcj hk
    rcases Nat.lt_or_gt_of_ne hij with hlt | hgt
    · exact hcj (I1 i j hlt hj hk)
    · exact hci (I1 j i hgt hi hk.symm)
  · intro x
    refine ⟨(hb x).2, ?_⟩
    rcases I4 x with h1 | ⟨i, hi, hk, h1⟩
    · omega
    · have := (hb x).1 i (by rw [hn]; exact hi) hk
      omega
  · intro x hx
    rcases I4 x with h1 | ⟨i, hi, hk, h1⟩
    · omega
    · exact ⟨i, hi, hk, by omega⟩

/-- Five calls on a table of two slots, for the keys 7, 9, 7, 5, 7: the key 7
was accounted three times, more than `5 / 3`, and is in the table. -/
theorem heavy_hitters_bound_witness :
    [7, 9, 7, 5, 7].length < 2 ^ 64 ∧
    ∃ i, i < 2 ∧ ((account_all [7, 9, 7, 5, 7] (HHAccounter.create 2)).cnts_ i).k_ = 7 ∧
      ((account_all [7, 9, 7, 5, 7] (HHAccounter.create 2)).cnts_ i).cnt_ ≠ 0 :=
  ⟨by decide, (heavy_hitters_bound 2 [7, 9, 7, 5, 7] (by decide)).2.2.2.2 7 (by decide)⟩

/-! ## C33: a peek-only handle after `peek_row` returned true -/

/-- Every way in which `peek_row` of a peek-only handle returns true: on a
dedup hit the handle takes `write_rv`, or else `read_rv`, of the item found;
otherwise it takes the version the walk found, which is not null. -/
theorem peek_row_peek_only_true (cfg : StaticConfig) (fuel : Nat) (ctx : Context)
    (tx : Transaction) (rah rah2 : RowAccessHandlePeekOnly) (tbl cf_id row_id : Nat)
    (check_dup_access : Bool)
    (h : peek_row_peek_only cfg fuel ctx tx rah tbl cf_id row_id check_dup_access
      = .ret (true, rah2)) :
    (∃ idx, check_dup_access = true ∧
      tx.access_history_.lookup ⟨tbl, row_id, cf_id⟩ = some idx ∧
      rah2.read_rv_ = (if (tx.accesses_ idx).write_rv ≠ none then (tx.accesses_ idx).write_rv
        else (tx.accesses_ idx).read_rv)) ∨
    ((check_dup_access = false ∨ tx.access_history_.lookup ⟨tbl, row_id, cf_id⟩ = none) ∧
      ∃ r, rah2.read_rv_ = some r) := by
  unfold peek_row_peek_only at h
  simp only [bind, Outcome.bind_eq_ret] at h
  obtain ⟨-, -, h⟩ := h
  split at h
  · simp at h
  · simp only [Outcome.bind_eq_ret] at h
    obtain ⟨-, -, h⟩ := h
    split at h
    · rename_i idx hl
      simp only [Outcome.bind_eq_ret] at h
      obtain ⟨-, -, h⟩ := h
      simp only [Outcome.ret.injEq, Prod.mk.injEq, true_and] at h
      left
      cases hc : check_dup_access with
      | false => simp [hc] at hl
      | true =>
        simp only [hc, if_true] at hl
        exact ⟨idx, rfl, hl, by rw [← h]⟩
    · rename_i hl
      right
      constructor
      · cases hc : check_dup_access with
        | false => exact Or.inl rfl
        | true =>
          simp only [hc, if_true] at hl
          exact Or.inr hl
      · simp only [Outcome.bind_eq_ret] at h
        obtain ⟨x, -, h⟩ := h
        split at h
        · simp at h
        · rename_i r _
          simp only [Outcome.ret.injEq, Prod.mk.injEq, true_and] at h
          exact ⟨r, by rw [← h]⟩

/-- C33 (the code departs from it).  Scenario S5: a transaction at timestamp 20
creates row 6 with `new_row` and `check_dup_access`, which records the key in
the dedup map, and removes it with `delete_row`, which leaves the item in state
Invalid with `write_rv` and `read_rv` null and the key in the map.  `peek_row`
of a fresh peek-only handle for row 6 with `check_dup_access` then returns
true, but the handle is not bound: it tests false, `state()` is Invalid and
`cdata()` is null.  On the same state `peek_row` of a regular handle returns
true with a bound handle.  In general, whenever `peek_row` of a peek-only
handle returns true, the handle is bound unless the call hit the dedup map on
an item whose `write_rv` and `read_rv` are both null. -/
theorem peek_only_true_but_unbound :
    stateS5.result = true ∧
    stateS5.tx.access_history_.lookup ⟨0, 6, 0⟩ = some 1 ∧
    (stateS5.tx.accesses_ 1).state = .kInvalid ∧
    (stateS5.tx.accesses_ 1).write_rv = none ∧ (stateS5.tx.accesses_ 1).read_rv = none ∧
    (∃ h, peek_row_peek_only cfgDebug 4 stateS5.ctx stateS5.tx RowAccessHandlePeekOnly.fresh
        0 0 6 true = .ret (true, h) ∧
      h.bound = false ∧ h.state = .kInvalid ∧ h.cdata = none ∧ h.can_read = false) ∧
    (∃ h, peek_row_peek_only cfgRelease 4 stateS5.ctx stateS5.tx RowAccessHandlePeekOnly.fresh
        0 0 6 true = .ret (true, h) ∧ h.bound = false) ∧
    ((peek_row cfgDebug 4 stateS5.ctx stateS5.tx freshHandle 0 0 6 true false false).bind
        fun r => .ret (r.result, r.rah.valid_)) = .ret (true, true) ∧
    (∀ (cfg : StaticConfig) (fuel : Nat) (ctx : Context) (tx : Transaction)
      (rah rah2 : RowAccessHandlePeekOnly) (tbl cf_id row_id : Nat) (check_dup_access : Bool),
      peek_row_peek_only cfg fuel ctx tx rah tbl cf_id row_id check_dup_access
        = .ret (true, rah2) →
      (rah2.bound = true ∧ rah2.state = .kPeek ∧ rah2.cdata ≠ none) ∨
      ∃ idx, check_dup_access = true ∧
        tx.access_history_.lookup ⟨tbl, row_id, cf_id⟩ = some idx ∧
        (tx.accesses_ idx).write_rv = none ∧ (tx.accesses_ idx).read_rv = none) := by
  refine ⟨rfl, rfl, rfl, rfl, rfl, ⟨_, rfl, rfl, rfl, rfl, rfl⟩, ⟨_, rfl, rfl⟩, rfl, ?_⟩
  intro cfg fuel ctx tx rah rah2 tbl cf_id row_id check h
  have hb : ∀ r, rah2.read_rv_ = some r →
      rah2.bound = true ∧ rah2.state = .kPeek ∧ rah2.cdata ≠ none := by
    intro r hr
    simp [RowAccessHandlePeekOnly.bound, RowAccessHandlePeekOnly.state,
      RowAccessHandlePeekOnly.cdata, hr]
  rcases peek_row_peek_only_true cfg fuel ctx tx rah rah2 tbl cf_id row_id check h with
    ⟨idx, hc, hl, hrv⟩ | ⟨-, r, hr⟩
  · cases hw : (tx.accesses_ idx).write_rv with
    | some w =>
      rw [hw] at hrv
      exact Or.inl (hb w (by simpa using hrv))
    | none =>
      rw [hw] at hrv
      simp only [ne_eq, not_true_eq_false, if_false] at hrv
      cases hrd : (tx.accesses_ idx).read_rv with
      | some rd => exact Or.inl (hb rd (by rw [hrv, hrd]))
      | none => exact Or.inr ⟨idx, hc, hl, hw, hrd⟩
  · exact Or.inl (hb r hr)

/-! ## C32: the free-list invariant of `PagePool` -/

/-- C32.  A pool made by the constructor, after any history of `allocate` and
`free` calls in which `free` is only given pages that are allocated at that
time: the history runs to its end; the free list (the pages reached from
`next_`, ending at the null pointer) has no duplicates and holds exactly the
pages of the pool that are not allocated; `free_count()` is its length;
`free_count() <= total_count()`, and the free and the allocated pages together
are `total_count()` many; `total_count()` is as the constructor set it; and a
page that `allocate()` returns is not among the allocated pages. -/
theorem free_list_invariant (lc : LCore) (size numa_id : Nat)
    (allocated : Option Nat) (mem0 : PageMem) (pool : PagePool) (mem : PageMem)
    (ops : List PoolOp)
    (hnew : PagePool.create lc size numa_id allocated mem0 = .ret (.ok (pool, mem)))
    (hok : frees_allocated ops ⟨pool, mem, []⟩) :
    ∃ s, run_history ops ⟨pool, mem, []⟩ = .ret s ∧
      FreeList s.mem s.pool.next_ (s.pool.free_pages s.mem) ∧
      (s.pool.free_pages s.mem).Nodup ∧
      (∀ a, a ∈ s.pool.free_pages s.mem ↔ a ∈ pool.page_list ∧ a ∉ s.allocated) ∧
      s.pool.free_count = (s.pool.free_pages s.mem).length ∧
      s.pool.free_count ≤ s.pool.total_count ∧
      s.pool.free_count + s.allocated.length = s.pool.total_count ∧
      s.pool.total_count = pool.total_count ∧
      (∀ a pool2, s.pool.allocate s.mem = .ret (some a, pool2) →
        a ∉ s.allocated ∧ a ∈ pool.page_list) := by
  obtain ⟨-, -, -, -, -, hinv0⟩ := create_inv lc size numa_id allocated mem0 pool mem hnew
  obtain ⟨s, fl, hr, hinv, g1, g2, -, -⟩ := run_history_inv ops _ _ hinv0 hok
  have hpl : s.pool.page_list = pool.page_list := page_list_congr _ _ g1 g2
  obtain ⟨hlen, hnd, -, hdisj, hflp, halp, hcover⟩ := PoolInv_count s fl hinv
  have hfp := free_pages_eq s fl hinv
  have hc : s.pool.free_count_ = fl.length := hinv.2.2.1
  rw [hpl] at hflp halp hcover
  refine ⟨s, hr, ?_, ?_, ?_, ?_, ?_, ?_, g1, ?_⟩
  · rw [hfp]; exact hinv.2.1
  · rw [hfp]; exact hnd
  · intro a
    rw [hfp]
    constructor
    · intro ha
      exact ⟨hflp a ha, hdisj a ha⟩
    · rintro ⟨ha, hna⟩
      rcases hcover a ha with h1 | h1
      · exact h1
      · exact absurd h1 hna
  · rw [hfp]; exact hc
  · show s.pool.free_count_ ≤ s.pool.total_count_
    omega
  · show s.pool.free_count_ + s.allocated.length = s.pool.total_count_
    omega
  · intro a pool2 ha
    cases fl with
    | nil =>
      rw [(allocate_inv s [] hinv).1 rfl] at ha
      simp at ha
    | cons b rest =>
      obtain ⟨pool3, hb, -⟩ := (allocate_inv s _ hinv).2 b rest rfl
      rw [hb] at ha
      simp only [Outcome.ret.injEq, Prod.mk.injEq, Option.some.injEq] at ha
      obtain ⟨rfl, -⟩ := ha
      exact ⟨hdisj b (List.mem_cons_self _ _), hflp b (List.mem_cons_self _ _)⟩

/-- The pool of two pages at address 4096 after the history allocate,
allocate, free(4096): the free list holds the page at 4096 alone, the other
page is allocated, and `free_count()` is 1. -/
theorem free_list_invariant_witness :
    ∃ s, run_history [.allocate, .allocate, .free 4096] stateTwoPages = .ret s ∧
      (s.pool.free_pages s.mem).Nodup ∧
      s.pool.free_count = (s.pool.free_pages s.mem).length ∧
      s.pool.free_count + s.allocated.length = s.pool.total_count := by
  have hnew : PagePool.create lcoreOne (3 * 1048576) 0 (some 4096) memZero
      = .ret (.ok (poolTwoPages, memTwoPages)) := rfl
  have hok : frees_allocated [.allocate, .allocate, .free 4096] ⟨poolTwoPages, memTwoPages, []⟩ :=
    ⟨trivial, trivial, List.mem_cons_of_mem _ (List.mem_cons_self _ _), trivial⟩
  obtain ⟨s, hr, -, h2, -, h4, -, h6, -⟩ := free_list_invariant lcoreOne (3 * 1048576) 0
    (some 4096) memZero poolTwoPages memTwoPages [.allocate, .allocate, .free 4096] hnew hok
  exact ⟨s, hr, h2, h4, h6⟩

/-! ## The write set and the insert set -/

/-- The invariant gives the well-formedness. -/
theorem SetsInv_well_formed (tx : Transaction) (h : SetsInv tx) : WellFormedSets tx := by
  obtain ⟨hA, hB, hC, hD, hE, -⟩ := h
  refine ⟨hA, hB, hC, hD, fun k hk => ?_⟩
  rcases hE k hk with h1 | ⟨-, h2⟩
  · exact Or.inl h1
  · exact Or.inr h2

/-- A transaction with an empty access set, insert set, write set and dedup
map satisfies the invariant. -/
theorem SetsInv_empty (tx : Transaction) (h1 : tx.access_size_ = 0) (h2 : tx.wset_size_ = 0)
    (h3 : tx.iset_size_ = 0) (h4 : tx.access_history_ = []) : SetsInv tx := by
  unfold SetsInv
  rw [h1, h2, h3, h4]
  refine ⟨?_, ?_, ?_, ?_, ?_, ?_, ?_, ?_, by omega⟩ <;> intros <;> simp_all

/-- An injective function from the numbers below `n` to the numbers below `m`
other than `x`: then `n < m`. -/
theorem lt_of_inj_avoiding (f : Nat → Nat) (n m x : Nat) (hx : x < m)
    (hlt : ∀ k, k < n → f k < m) (hne : ∀ k, k < n → f k ≠ x)
    (hinj : ∀ k l, k < n → l < n → f k = f l → k = l) : n < m := by
  have hcard := Finset.card_le_card_of_injOn f (s := Finset.range n)
    (t := (Finset.range m).erase x)
    (fun a ha => Finset.mem_erase.mpr
      ⟨hne a (Finset.mem_range.mp (Finset.mem_coe.mp ha)),
        Finset.mem_range.mpr (hlt a (Finset.mem_range.mp (Finset.mem_coe.mp ha)))⟩)
    (fun a ha b hb hab => hinj a b (Finset.mem_range.mp (Finset.mem_coe.mp ha))
      (Finset.mem_range.mp (Finset.mem_coe.mp hb)) hab)
  rw [Finset.card_range, Finset.card_erase_of_mem (Finset.mem_range.mpr hx),
    Finset.card_range] at hcard
  omega

/-- An injective function from the numbers below `n` to the numbers below
`m`: then `n <= m`. -/
theorem le_of_inj_below (f : Nat → Nat) (n m : Nat) (hlt : ∀ k, k < n → f k < m)
    (hinj : ∀ k l, k < n → l < n → f k = f l → k = l) : n ≤ m := by
  have := lt_of_inj_avoiding f n (m + 1) m (by omega) (fun k hk => by have := hlt k hk; omega)
    (fun k hk => by have := hlt k hk; omega) hinj
  omega

/-- The invariant depends on the access set, the two index arrays with their
sizes and the dedup map only. -/
theorem SetsInv_congr (tx tx2 : Transaction) (h : SetsInv tx)
    (h1 : tx2.access_size_ = tx.access_size_) (h2 : tx2.accesses_ = tx.accesses_)
    (h3 : tx2.wset_size_ = tx.wset_size_) (h4 : tx2.wset_idx_ = tx.wset_idx_)
    (h5 : tx2.iset_size_ = tx.iset_size_) (h6 : tx2.iset_idx_ = tx.iset_idx_)
    (h7 : tx2.access_history_ = tx.access_history_) : SetsInv tx2 := by
  unfold SetsInv
  rw [h1, h2, h3, h4, h5, h6, h7]
  exact h

/-- A store to one item that keeps its `i`, keeps an item of the write set an
item of the write set and keeps an item of the insert set Invalid or New with a
`write_rv`, keeps the invariant. -/
theorem SetsInv_store (tx tx2 : Transaction) (idx : Nat) (it : RowAccessItem)
    (h : SetsInv tx)
    (h1 : tx2.access_size_ = tx.access_size_)
    (h2 : tx2.accesses_ = Function.update tx.accesses_ idx it)
    (h3 : tx2.wset_size_ = tx.wset_size_) (h4 : tx2.wset_idx_ = tx.wset_idx_)
    (h5 : tx2.iset_size_ = tx.iset_size_) (h6 : tx2.iset_idx_ = tx.iset_idx_)
    (h7 : tx2.access_history_ = tx.access_history_)
    (hi : it.i = (tx.accesses_ idx).i)
    (hw : (tx.accesses_ idx).write_rv ≠ none ∧ is_write_state (tx.accesses_ idx).state →
      it.write_rv ≠ none ∧ is_write_state it.state)
    (hn : (tx.accesses_ idx).state = .kInvalid ∨
        ((tx.accesses_ idx).state = .kNew ∧ (tx.accesses_ idx).write_rv ≠ none) →
      it.state = .kInvalid ∨ (it.state = .kNew ∧ it.write_rv ≠ none)) :
    SetsInv tx2 := by
  obtain ⟨hA, hB, hC, hD, hE, hG, hK, hH, hJ⟩ := h
  unfold SetsInv
  rw [h1, h2, h3, h4, h5, h6, h7]
  refine ⟨hA, hB, ?_, ?_, ?_, hG, hK, hH, hJ⟩
  · intro j hj
    by_cases hji : j = idx
    · subst hji
      rw [Function.update_same, hi]
      exact hC j hj
    · rw [Function.update_noteq hji]
      exact hC j hj
  · intro k hk
    by_cases hki : tx.wset_idx_ k = idx
    · rw [hki, Function.update_same]
      exact hw (hki ▸ hD k hk)
    · rw [Function.update_noteq hki]
      exact hD k hk
  · intro k hk
    by_cases hki : tx.iset_idx_ k = idx
    · rw [hki, Function.update_same]
      exact hn (hki ▸ hE k hk)
    · rw [Function.update_noteq hki]
      exact hE k hk

/-- Publishing an item at index `access_size_`, with `i` set to that index and
perhaps with the key recorded in the dedup map, keeps the invariant. -/
theorem SetsInv_publish (tx tx2 : Transaction) (it : RowAccessItem) (key : AccessKey)
    (h : SetsInv tx) (hroom : tx.access_size_ < 65535)
    (h1 : tx2.access_size_ = tx.access_size_ + 1)
    (h2 : tx2.accesses_ = Function.update tx.accesses_ tx.access_size_ it)
    (h3 : tx2.wset_size_ = tx.wset_size_) (h4 : tx2.wset_idx_ = tx.wset_idx_)
    (h5 : tx2.iset_size_ = tx.iset_size_) (h6 : tx2.iset_idx_ = tx.iset_idx_)
    (h7 : tx2.access_history_ = tx.access_history_ ∨
      tx2.access_history_ = tx.access_history_ ++ [(key, tx.access_size_)])
    (hi : it.i = tx.access_size_) : SetsInv tx2 := by
  obtain ⟨hA, hB, hC, hD, hE, hG, hK, hH, hJ⟩ := h
  unfold SetsInv
  rw [h1, h2, h3, h4, h5, h6]
  refine ⟨?_, hB, ?_, ?_, ?_, ?_, hK, ?_, by omega⟩
  · intro k hk
    have := hA k hk
    omega
  · intro j hj
    by_cases hji : j = tx.access_size_
    · rw [hji, Function.update_same, hi]
    · rw [Function.update_noteq hji]
      exact hC j (by omega)
  · intro k hk
    have hne : tx.wset_idx_ k ≠ tx.access_size_ := by have := hA k hk; omega
    rw [Function.update_noteq hne]
    exact hD k hk
  · intro k hk
    have hne : tx.iset_idx_ k ≠ tx.access_size_ := by have := hG k hk; omega
    rw [Function.update_noteq hne]
    exact hE k hk
  · intro k hk
    have := hG k hk
    omega
  · intro p hp
    rcases h7 with h7 | h7
    · rw [h7] at hp
      have := hH p hp
      omega
    · rw [h7] at hp
      rcases List.mem_append.mp hp with hp | hp
      · have := hH p hp
        omega
      · have hp2 : p = (key, tx.access_size_) := by simpa using hp
        rw [hp2]
        exact Nat.lt_succ_self _

/-- What `new_row` does to the transaction when it succeeds keeps the
invariant, and the insert set grows by one. -/
theorem SetsInv_new_item (tx tx2 : Transaction) (it : RowAccessItem) (key : AccessKey)
    (h : SetsInv tx) (hroom : tx.access_size_ < 65535)
    (h1 : tx2.access_size_ = (tx.access_size_ + 1) % 65536)
    (h2 : tx2.accesses_ = Function.update tx.accesses_ tx.access_size_ it)
    (h3 : tx2.wset_size_ = tx.wset_size_) (h4 : tx2.wset_idx_ = tx.wset_idx_)
    (h5 : tx2.iset_size_ = (tx.iset_size_ + 1) % 65536)
    (h6 : tx2.iset_idx_ = Function.update tx.iset_idx_ tx.iset_size_ tx.access_size_)
    (h7 : tx2.access_history_ = tx.access_history_ ∨
      tx2.access_history_ = tx.access_history_ ++ [(key, tx.access_size_)])
    (hi : it.i = tx.access_size_) (hs : it.state = .kNew) (hw : it.write_rv ≠ none) :
    SetsInv tx2 ∧ tx2.iset_size_ = tx.iset_size_ + 1 ∧
      tx2.access_size_ = tx.access_size_ + 1 := by
  obtain ⟨hA, hB, hC, hD, hE, hG, hK, hH, hJ⟩ := h
  have hisz : tx.iset_size_ ≤ tx.access_size_ := le_of_inj_below tx.iset_idx_ _ _ hG hK
  have ha : (tx.access_size_ + 1) % 65536 = tx.access_size_ + 1 := Nat.mod_eq_of_lt (by omega)
  have hb : (tx.iset_size_ + 1) % 65536 = tx.iset_size_ + 1 := Nat.mod_eq_of_lt (by omega)
  rw [ha] at h1
  rw [hb] at h5
  refine ⟨?_, h5, h1⟩
  unfold SetsInv
  rw [h1, h2, h3, h4, h5, h6]
  refine ⟨?_, hB, ?_, ?_, ?_, ?_, ?_, ?_, by omega⟩
  · intro k hk
    have := hA k hk
    omega
  · intro j hj
    by_cases hji : j = tx.access_size_
    · rw [hji, Function.update_same, hi]
    · rw [Function.update_noteq hji]
      exact hC j (by omega)
  · intro k hk
    have hne : tx.wset_idx_ k ≠ tx.access_size_ := by have := hA k hk; omega
    rw [Function.update_noteq hne]
    exact hD k hk
  · intro k hk
    by_cases hki : k = tx.iset_size_
    · rw [hki, Function.update_same, Function.update_same]
      exact Or.inr ⟨hs, hw⟩
    · rw [Function.update_noteq hki]
      have hk2 : k < tx.iset_size_ := by omega
      have hne : tx.iset_idx_ k ≠ tx.access_size_ := by have := hG k hk2; omega
      rw [Function.update_noteq hne]
      exact hE k hk2
  · intro k hk
    by_cases hki : k = tx.iset_size_
    · rw [hki, Function.update_same]
      exact Nat.lt_succ_self _
    · rw [Function.update_noteq hki]
      have := hG k (by omega)
      omega
  · intro k l hk hl hkl
    by_cases hki : k = tx.iset_size_
    · by_cases hli : l = tx.iset_size_
      · rw [hki, hli]
      · rw [hki, Function.update_same, Function.update_noteq hli] at hkl
        have := hG l (by omega)
        omega
    · by_cases hli : l = tx.iset_size_
      · rw [hli, Function.update_same, Function.update_noteq hki] at hkl
        have := hG k (by omega)
        omega
      · rw [Function.update_noteq hki, Function.update_noteq hli] at hkl
        exact hK k l (by omega) (by omega) hkl
  · intro p hp
    rcases h7 with h7 | h7
    · rw [h7] at hp
      have := hH p hp
      omega
    · rw [h7] at hp
      rcases List.mem_append.mp hp with hp | hp
      · have := hH p hp
        omega
      · have hp2 : p = (key, tx.access_size_) := by simpa using hp
        rw [hp2]
        exact Nat.lt_succ_self _

/-- Appending to the write set the index of a published item that has a
`write_rv`, is in a write state and is not in the write set yet keeps the
invariant, and `wset_size_` grows by one without wrapping. -/
theorem SetsInv_wset_append (tx tx2 : Transaction) (idx : Nat) (h : SetsInv tx)
    (hidx : idx < tx.access_size_)
    (hitem : (tx.accesses_ idx).write_rv ≠ none ∧ is_write_state (tx.accesses_ idx).state)
    (hnew : ∀ k, k < tx.wset_size_ → tx.wset_idx_ k ≠ idx)
    (h1 : tx2.access_size_ = tx.access_size_) (h2 : tx2.accesses_ = tx.accesses_)
    (h3 : tx2.wset_size_ = (tx.wset_size_ + 1) % 65536)
    (h4 : tx2.wset_idx_ = Function.update tx.wset_idx_ tx.wset_size_ idx)
    (h5 : tx2.iset_size_ = tx.iset_size_) (h6 : tx2.iset_idx_ = tx.iset_idx_)
    (h7 : tx2.access_history_ = tx.access_history_) :
    SetsInv tx2 ∧ tx2.wset_size_ = tx.wset_size_ + 1 := by
  obtain ⟨hA, hB, hC, hD, hE, hG, hK, hH, hJ⟩ := h
  have hwsz : tx.wset_size_ < tx.access_size_ :=
    lt_of_inj_avoiding tx.wset_idx_ _ _ idx hidx hA hnew hB
  have hb : (tx.wset_size_ + 1) % 65536 = tx.wset_size_ + 1 := Nat.mod_eq_of_lt (by omega)
  rw [hb] at h3
  refine ⟨?_, h3⟩
  unfold SetsInv
  rw [h1, h2, h3, h4, h5, h6, h7]
  refine ⟨?_, ?_, hC, ?_, hE, hG, hK, hH, hJ⟩
  · intro k hk
    by_cases hki : k = tx.wset_size_
    · rw [hki, Function.update_same]
      exact hidx
    · rw [Function.update_noteq hki]
      exact hA k (by omega)
  · intro k l hk hl hkl
    by_cases hki : k = tx.wset_size_
    · by_cases hli : l = tx.wset_size_
      · rw [hki, hli]
      · rw [hki, Function.update_same, Function.update_noteq hli] at hkl
        exact absurd hkl.symm (hnew l (by omega))
    · by_cases hli : l = tx.wset_size_
      · rw [hli, Function.update_same, Function.update_noteq hki] at hkl
        exact absurd hkl (hnew k (by omega))
      · rw [Function.update_noteq hki, Function.update_noteq hli] at hkl
        exact hB k l (by omega) (by omega) hkl
  · intro k hk
    by_cases hki : k = tx.wset_size_
    · rw [hki, Function.update_same]
      exact hitem
    · rw [Function.update_noteq hki]
      exact hD k (by omega)

/-- An index found in the dedup map is the index of one of its entries. -/
theorem lookup_mem (key : AccessKey) :
    ∀ (l : List (AccessKey × Nat)) (idx : Nat), l.lookup key = some idx → (key, idx) ∈ l := by
  intro l
  induction l with
  | nil => intro idx h; simp at h
  | cons p rest ih =>
    intro idx h
    obtain ⟨k, v⟩ := p
    rw [List.lookup_cons] at h
    cases hk : key == k with
    | true =>
      rw [hk] at h
      simp only [Option.some.injEq] at h
      have hkk : key = k := by simpa using hk
      rw [hkk, h]
      exact List.mem_cons_self _ _
    | false =>
      rw [hk] at h
      exact List.mem_cons_of_mem _ (ih idx h)

/-- The notes an operation leaves when it gives up do not touch the sets. -/
theorem SetsInv_notes (cfg : StaticConfig) (tx : Transaction) (tbl cf_id row_id : Nat)
    (rh wh : Bool) (h : SetsInv tx) :
    SetsInv (note_abort_reason cfg tx) ∧
    SetsInv (note_abort_reason cfg (reserve cfg tx tbl cf_id row_id rh wh)) ∧
    (note_abort_reason cfg tx).access_size_ = tx.access_size_ ∧
    (note_abort_reason cfg (reserve cfg tx tbl cf_id row_id rh wh)).access_size_
      = tx.access_size_ := by
  refine ⟨?_, ?_, ?_, ?_⟩
  · refine SetsInv_congr tx _ h ?_ ?_ ?_ ?_ ?_ ?_ ?_ <;>
      (unfold note_abort_reason; split <;> rfl)
  · refine SetsInv_congr tx _ h ?_ ?_ ?_ ?_ ?_ ?_ ?_ <;>
      (unfold note_abort_reason reserve; split <;> split <;> rfl)
  · unfold note_abort_reason; split <;> rfl
  · unfold note_abort_reason reserve; split <;> split <;> rfl

/-- `peek_row` on a regular handle keeps the invariant and leaves `access_size_`
as it is, and the handle it leaves points, if into the access set, to a
published item. -/
theorem peek_row_keeps_sets (cfg : StaticConfig) (fuel : Nat) (ctx : Context)
    (tx : Transaction) (rah : RowAccessHandle) (tbl cf_id row_id : Nat)
    (check_dup_access read_hint write_hint : Bool) (r : OpResult)
    (hinv : SetsInv tx) (hrah : HandleOk tx rah)
    (h : peek_row cfg fuel ctx tx rah tbl cf_id row_id check_dup_access read_hint write_hint
      = .ret r) :
    SetsInv r.tx ∧ HandleOk r.tx r.rah ∧ r.tx.access_size_ = tx.access_size_ := by
  rcases peek_row_ret cfg fuel ctx tx rah tbl cf_id row_id check_dup_access read_hint write_hint
      r h with ⟨-, hr⟩ | ⟨-, idx, -, hl, hr⟩ | ⟨-, -, hloc⟩
  · rw [hr]
    exact ⟨hinv, hrah, rfl⟩
  · rw [hr]
    refine ⟨hinv, ?_, rfl⟩
    intro j hj
    have hji : idx = j := by simpa using hj
    rw [← hji]
    exact hinv.2.2.2.2.2.2.2.1 _ (lookup_mem _ _ _ hl)
  · unfold peek_row_locate at hloc
    simp only [bind, Outcome.bind_eq_ret] at hloc
    obtain ⟨x, -, hloc⟩ := hloc
    obtain ⟨n1, rv1⟩ := x
    cases rv1 with
    | none =>
      simp only [Outcome.ret.injEq] at hloc
      rw [← hloc]
      obtain ⟨-, h2, -, h4⟩ := SetsInv_notes cfg tx tbl cf_id row_id read_hint write_hint hinv
      exact ⟨h2, fun j hj => by rw [h4]; exact hrah j hj, h4⟩
    | some v =>
      simp only [Outcome.bind_eq_ret] at hloc
      obtain ⟨y, -, hloc⟩ := hloc
      obtain ⟨n2, rv2⟩ := y
      simp only at hloc
      split at hloc
      · simp only [Outcome.ret.injEq] at hloc
        rw [← hloc]
        obtain ⟨-, h2, -, h4⟩ := SetsInv_notes cfg tx tbl cf_id row_id read_hint write_hint hinv
        exact ⟨h2, fun j hj => by rw [h4]; exact hrah j hj, h4⟩
      · simp only [Outcome.bind_eq_ret] at hloc
        obtain ⟨rah2, hadd, hloc⟩ := hloc
        simp only [Outcome.ret.injEq] at hloc
        rw [← hloc]
        refine ⟨hinv, ?_, rfl⟩
        unfold RowAccessHandle.add_fresh_item at hadd
        simp only [bind, Outcome.bind_eq_ret] at hadd
        obtain ⟨-, -, hadd⟩ := hadd
        simp only [Outcome.ret.injEq] at hadd
        rw [← hadd]
        exact hrah

/-- The dedup map after `new_row` returned true: as before, or with the key of
the new row recorded for the index of the new item. -/
theorem new_row_history (cfg : StaticConfig) (ctx : Context) (tx : Transaction)
    (rah : RowAccessHandle) (tbl cf_id row_id : Nat) (check_dup_access : Bool)
    (data_size : Nat) (data_copier : DataCopier) (allocated_row : Nat)
    (allocated_version : Option Nat) (r : OpResult)
    (h : new_row cfg ctx tx rah tbl cf_id row_id check_dup_access data_size data_copier
      allocated_row allocated_version = .ret r)
    (ht : r.result = true) :
    ∃ key, r.tx.access_history_ = tx.access_history_ ∨
      r.tx.access_history_ = tx.access_history_ ++ [(key, tx.access_size_)] := by
  unfold new_row at h
  simp only [bind, Outcome.bind_eq_ret, cassert_eq_ret] at h
  obtain ⟨-, -, -, -, -, -, h⟩ := h
  cases hv : rah.valid_ with
  | true =>
    simp only [hv, if_true, Outcome.ret.injEq] at h
    subst h
    simp at ht
  | false =>
    simp only [hv, Bool.false_eq_true, if_false] at h
    split at h
    · simp only [Outcome.ret.injEq] at h
      subst h
      simp at ht
    · rename_i rid tx1 hchosen
      have htx1 : tx1 = tx := by
        by_cases h0 : cf_id = 0
        · by_cases h1 : row_id = kNewRowID
          · by_cases h2 : allocated_row = uint64_minus_one
            · simp [h0, h1, h2] at hchosen
            · simp only [h0, h1, h2, ne_eq, not_true_eq_false, if_true, if_false,
                Prod.mk.injEq] at hchosen
              exact hchosen.2.symm
          · simp [h0, h1] at hchosen
        · by_cases h1 : row_id = kNewRowID
          · simp [h0, h1] at hchosen
          · simp only [h0, h1, if_false, Prod.mk.injEq] at hchosen
            exact hchosen.2.symm
      subst htx1
      split at h
      · simp only [Outcome.ret.injEq] at h
        subst h
        simp at ht
      · simp only [Outcome.bind_eq_ret] at h
        obtain ⟨⟨copied, ctx1⟩, -, h⟩ := h
        simp only at h
        split at h
        · simp only [Outcome.ret.injEq] at h
          subst h
          simp at ht
        · simp only [Outcome.bind_eq_ret] at h
          obtain ⟨tx0, htx0, -, -, accesses, -, h⟩ := h
          simp only [Outcome.ret.injEq] at h
          subst h
          refine ⟨⟨tbl, rid, cf_id⟩, ?_⟩
          rcases record_access_ret cfg tx1 tx0 _ _ htx0 with e | e
          · left; rw [e]
          · right; rw [e]

/-- `new_row` keeps the invariant, and the handle it leaves points, if into
the access set, to a published item; `access_size_` does not go down. -/
theorem new_row_keeps_sets (cfg : StaticConfig) (ctx : Context) (tx : Transaction)
    (rah : RowAccessHandle) (tbl cf_id row_id : Nat) (check_dup_access : Bool)
    (data_size : Nat) (data_copier : DataCopier) (allocated_row : Nat)
    (allocated_version : Option Nat) (r : OpResult)
    (hcap : cfg.kMaxAccessSize ≤ 65535) (hinv : SetsInv tx) (hrah : HandleOk tx rah)
    (h : new_row cfg ctx tx rah tbl cf_id row_id check_dup_access data_size data_copier
      allocated_row allocated_version = .ret r) :
    SetsInv r.tx ∧ HandleOk r.tx r.rah ∧ tx.access_size_ ≤ r.tx.access_size_ := by
  cases hres : r.result with
  | false =>
    obtain ⟨hr, htx, -⟩ := new_row_ret_false cfg ctx tx rah tbl cf_id row_id check_dup_access
      data_size data_copier allocated_row allocated_version r h hres
    rw [hr]
    rcases htx with e | e
    · rw [e]; exact ⟨hinv, hrah, Nat.le_refl _⟩
    · rw [e]
      obtain ⟨h1, -, h3, -⟩ := SetsInv_notes cfg tx 0 0 0 false false hinv
      exact ⟨h1, fun j hj => by rw [h3]; exact hrah j hj, by rw [h3]⟩
  | true =>
    obtain ⟨key, hhist⟩ := new_row_history cfg ctx tx rah tbl cf_id row_id check_dup_access
      data_size data_copier allocated_row allocated_version r h hres
    obtain ⟨-, -, hroom, w, c, -, -, -, -, hrh, hacc, hii, his, has, -, hws, hwi⟩ :=
      new_row_ret_true cfg ctx tx rah tbl cf_id row_id check_dup_access
        data_size data_copier allocated_row allocated_version r h hres
    obtain ⟨hI, -, hsz⟩ := SetsInv_new_item tx r.tx _ key hinv (by omega) has hacc hws hwi his
      hii hhist rfl rfl (by simp)
    refine ⟨hI, ?_, by omega⟩
    rw [hrh]
    intro j hj
    have hji : tx.access_size_ = j := by simpa using hj
    omega

/-- A store through `item()` of a bound handle that keeps `i`, keeps an item of
the write set an item of the write set and keeps an item of the insert set
Invalid or New with a `write_rv`, keeps the invariant. -/
theorem SetsInv_store_item (tx : Transaction) (rah : RowAccessHandle) (it : RowAccessItem)
    (h : SetsInv tx) (hi : it.i = (held_item tx rah).i)
    (hw : (held_item tx rah).write_rv ≠ none ∧ is_write_state (held_item tx rah).state →
      it.write_rv ≠ none ∧ is_write_state it.state)
    (hn : (held_item tx rah).state = .kInvalid ∨
        ((held_item tx rah).state = .kNew ∧ (held_item tx rah).write_rv ≠ none) →
      it.state = .kInvalid ∨ (it.state = .kNew ∧ it.write_rv ≠ none)) :
    SetsInv (store_item tx rah it).1 ∧
    (store_item tx rah it).1.access_size_ = tx.access_size_ ∧
    (store_item tx rah it).2.set_item_ = rah.set_item_ ∧
    (store_item tx rah it).2.valid_ = rah.valid_ := by
  unfold store_item
  cases hs : rah.set_item_ with
  | none => exact ⟨h, rfl, rfl, rfl⟩
  | some idx =>
    simp only [held_item, hs] at hi hw hn
    exact ⟨SetsInv_store tx _ idx it h rfl rfl rfl rfl rfl rfl rfl hi hw hn, rfl, hs, rfl⟩

/-- `delete_row` keeps the invariant and `access_size_`, and the handle it
leaves points, if into the access set, to a published item. -/
theorem delete_row_keeps_sets (cfg : StaticConfig) (ctx : Context) (tx : Transaction)
    (rah : RowAccessHandle) (r : OpResult) (hinv : SetsInv tx) (hrah : HandleOk tx rah)
    (h : delete_row cfg ctx tx rah = .ret r) :
    SetsInv r.tx ∧ HandleOk r.tx r.rah ∧ r.tx.access_size_ = tx.access_size_ := by
  unfold delete_row at h
  simp only [bind, Outcome.bind_eq_ret] at h
  obtain ⟨-, -, -, -, h⟩ := h
  cases hv : rah.valid_ with
  | false =>
    simp only [hv, Bool.not_false, if_true, Outcome.ret.injEq] at h
    rw [← h]
    exact ⟨hinv, hrah, rfl⟩
  | true =>
    simp only [hv, Bool.not_true, Bool.false_eq_true, if_false, Outcome.bind_eq_ret] at h
    obtain ⟨item, hitem, h⟩ := h
    rw [item_of_bound cfg tx rah hv] at hitem
    simp only [Outcome.ret.injEq] at hitem
    subst hitem
    have hreset : ∀ (t : Transaction) (x : RowAccessHandle), HandleOk t x.reset := by
      intro t x j hj
      simp [RowAccessHandle.reset] at hj
    split at h
    · rename_i hst
      simp only [Outcome.ret.injEq] at h
      rw [← h]
      obtain ⟨h1, h2, -, -⟩ := SetsInv_store_item tx rah
        { held_item tx rah with state := .kInvalid, write_rv := none } hinv rfl
        (fun hw => by
          rcases hw.2 with e | e | e | e <;> rw [hst] at e <;> cases e)
        (fun _ => Or.inl rfl)
      exact ⟨h1, hreset _ _, h2⟩
    · rename_i hst
      simp only [Outcome.ret.injEq] at h
      rw [← h]
      obtain ⟨h1, h2, -, -⟩ := SetsInv_store_item tx rah
        { held_item tx rah with state := .kDelete } hinv rfl
        (fun hw => ⟨hw.1, Or.inr (Or.inr (Or.inl rfl))⟩)
        (fun hn => by
          rcases hn with e | ⟨e, -⟩ <;> rw [hst] at e <;> cases e)
      exact ⟨h1, hreset _ _, h2⟩
    · rename_i hst
      simp only [Outcome.ret.injEq] at h
      rw [← h]
      obtain ⟨h1, h2, -, -⟩ := SetsInv_store_item tx rah
        { held_item tx rah with state := .kReadDelete } hinv rfl
        (fun hw => ⟨hw.1, Or.inr (Or.inr (Or.inr rfl))⟩)
        (fun hn => by
          rcases hn with e | ⟨e, -⟩ <;> rw [hst] at e <;> cases e)
      exact ⟨h1, hreset _ _, h2⟩
    · simp only [Outcome.ret.injEq] at h
      rw [← h]
      exact ⟨hinv, hrah, rfl⟩

/-- The block of `write_row` that publishes a local item keeps the invariant;
afterwards the handle points to a published item, and `access_size_` has not
gone down. -/
theorem write_row_add_to_set_keeps_sets (cfg : StaticConfig) (tx tx1 : Transaction)
    (rah rah1 : RowAccessHandle) (item : RowAccessItem) (check_dup_access : Bool)
    (hcap : cfg.kMaxAccessSize ≤ 65535) (hinv : SetsInv tx) (hrah : HandleOk tx rah)
    (hv : rah.valid_ = true)
    (h : write_row_add_to_set cfg tx rah item check_dup_access = .ret (tx1, rah1)) :
    SetsInv tx1 ∧ rah1.valid_ = true ∧ (∃ idx, rah1.set_item_ = some idx ∧
      idx < tx1.access_size_) ∧ tx.access_size_ ≤ tx1.access_size_ := by
  unfold write_row_add_to_set at h
  cases hs : rah.set_item_ with
  | some idx =>
    simp only [hs, reduceCtorEq, if_false, Outcome.ret.injEq, Prod.mk.injEq] at h
    obtain ⟨rfl, rfl⟩ := h
    exact ⟨hinv, hv, ⟨idx, hs, hrah idx hs⟩, Nat.le_refl _⟩
  | none =>
    simp only [hs, if_true, bind, Outcome.bind_eq_ret] at h
    obtain ⟨tx0, htx0, -, -, ⟨accesses, rah2⟩, hadd, h⟩ := h
    simp only [Outcome.ret.injEq, Prod.mk.injEq] at h
    obtain ⟨htx1, hrah1⟩ := h
    unfold RowAccessHandle.add_item_to_set at hadd
    simp only [bind, Outcome.bind_eq_ret] at hadd
    obtain ⟨-, -, -, -, acc2, hstore, hadd⟩ := hadd
    simp only [Outcome.ret.injEq, Prod.mk.injEq] at hadd
    obtain ⟨hacc, hrah2⟩ := hadd
    unfold store_access at hstore
    have hfields : tx0.access_size_ = tx.access_size_ ∧ tx0.accesses_ = tx.accesses_ ∧
        tx0.iset_idx_ = tx.iset_idx_ ∧ tx0.iset_size_ = tx.iset_size_ ∧
        tx0.wset_size_ = tx.wset_size_ ∧ tx0.wset_idx_ = tx.wset_idx_ ∧
        (tx0.access_history_ = tx.access_history_ ∨ tx0.access_history_ =
          tx.access_history_ ++ [(⟨item.tbl, item.row_id, item.cf_id⟩, tx.access_size_)]) := by
      rcases record_access_ret cfg tx tx0 _ _ htx0 with e | e <;> rw [e] <;> simp
    obtain ⟨e1, e2, e3, e4, e5, e6, e7⟩ := hfields
    by_cases hroom : tx0.access_size_ < cfg.kMaxAccessSize
    · rw [if_pos hroom] at hstore
      simp only [Outcome.ret.injEq] at hstore
      rw [e1] at hroom
      have hmod : tx.access_size_ % 65536 = tx.access_size_ := Nat.mod_eq_of_lt (by omega)
      have hmod1 : (tx.access_size_ + 1) % 65536 = tx.access_size_ + 1 :=
        Nat.mod_eq_of_lt (by omega)
      have hsz : tx1.access_size_ = tx.access_size_ + 1 := by
        rw [← htx1]
        show (tx0.access_size_ + 1) % 65536 = _
        rw [e1, hmod1]
      have hI : SetsInv tx1 := by
        refine SetsInv_publish tx tx1 { rah.local_item_ with i := tx.access_size_ }
          ⟨item.tbl, item.row_id, item.cf_id⟩ hinv (by omega) hsz ?_ ?_ ?_ ?_ ?_ ?_ rfl
        · rw [← htx1, ← hacc, ← hstore]
          show Function.update tx0.accesses_ tx0.access_size_ _ = _
          rw [e1, e2, hmod]
        · rw [← htx1]; exact e5
        · rw [← htx1]; exact e6
        · rw [← htx1]; exact e4
        · rw [← htx1]; exact e3
        · rw [← htx1]; exact e7
      refine ⟨hI, ?_, ⟨tx.access_size_, ?_, by omega⟩, by omega⟩
      · rw [← hrah1, ← hrah2]; exact hv
      · rw [← hrah1, ← hrah2]
        show some tx0.access_size_ = _
        rw [e1]
    · rw [if_neg hroom] at hstore
      cases hstore

/-- The upgrade part of `write_row` on a handle that points to a published
item keeps the invariant, the handle and `access_size_`. -/
theorem write_row_upgrade_keeps_sets (cfg : StaticConfig) (ctx : Context) (tx : Transaction)
    (rah : RowAccessHandle) (data_size : Nat) (data_copier : DataCopier)
    (allocated_version : Option Nat) (idx : Nat) (r : OpResult)
    (hinv : SetsInv tx) (hv : rah.valid_ = true) (hs : rah.set_item_ = some idx)
    (hidx : idx < tx.access_size_)
    (h : write_row_upgrade cfg ctx tx rah data_size data_copier allocated_version = .ret r) :
    SetsInv r.tx ∧ r.rah = rah ∧ r.tx.access_size_ = tx.access_size_ := by
  have hitem : rah.item cfg tx = .ret (tx.accesses_ idx) := by
    rw [item_of_bound cfg tx rah hv]; simp [held_item, hs]
  unfold write_row_upgrade at h
  simp only [bind, Outcome.bind_eq_ret, hitem, Outcome.ret.injEq, exists_eq_left'] at h
  obtain ⟨-, -, h⟩ := h
  by_cases hN : (tx.accesses_ idx).state = .kNew
  · rw [if_pos hN] at h
    simp only [Outcome.ret.injEq] at h
    subst h
    exact ⟨hinv, rfl, rfl⟩
  rw [if_neg hN] at h
  by_cases hW : (tx.accesses_ idx).state = .kWrite ∨ (tx.accesses_ idx).state = .kReadWrite
  · rw [if_pos hW] at h
    simp only [Outcome.ret.injEq] at h
    subst h
    exact ⟨hinv, rfl, rfl⟩
  rw [if_neg hW] at h
  by_cases hO : (tx.accesses_ idx).state ≠ .kPeek ∧ (tx.accesses_ idx).state ≠ .kRead
  · rw [if_pos hO] at h
    simp only [Outcome.ret.injEq] at h
    subst h
    exact ⟨hinv, rfl, rfl⟩
  rw [if_neg hO, Outcome.bind_eq_ret] at h
  obtain ⟨ds, -, h⟩ := h
  simp only [store_item, hs] at h
  -- the item is in state Peek or Read: it is not in either set
  have hPR : (tx.accesses_ idx).state = .kPeek ∨ (tx.accesses_ idx).state = .kRead := by
    by_cases hp : (tx.accesses_ idx).state = .kPeek
    · exact Or.inl hp
    · by_cases hr : (tx.accesses_ idx).state = .kRead
      · exact Or.inr hr
      · exact absurd ⟨hp, hr⟩ hO
  have hnw : ¬ is_write_state (tx.accesses_ idx).state := by
    intro hw
    rcases hPR with e | e <;> rcases hw with w | w | w | w <;> rw [e] at w <;> cases w
  have hnn : ¬ ((tx.accesses_ idx).state = .kInvalid ∨
      ((tx.accesses_ idx).state = .kNew ∧ (tx.accesses_ idx).write_rv ≠ none)) := by
    rintro (e | ⟨e, -⟩)
    · rcases hPR with p | p <;> rw [p] at e <;> cases e
    · exact hN e
  -- the store of `write_rv`
  have hI1 : SetsInv { tx with accesses_ := (Function.update tx.accesses_ idx
      { tx.accesses_ idx with write_rv := allocated_version }) } :=
    SetsInv_store tx _ idx _ hinv rfl rfl rfl rfl rfl rfl rfl rfl
      (fun hw => absurd hw.2 hnw) (fun hn => absurd hn hnn)
  cases hav : allocated_version with
  | none =>
    rw [hav] at h hI1
    simp only [Outcome.ret.injEq] at h
    subst h
    obtain ⟨g1, -, g3, -⟩ := SetsInv_notes cfg _ 0 0 0 false false hI1
    exact ⟨g1, rfl, g3⟩
  | some w =>
    rw [hav] at h hI1
    simp only [run_copier, Outcome.bind_eq_ret] at h
    obtain ⟨⟨copied, ctx1⟩, -, h⟩ := h
    cases hcc : copied with
    | false =>
      simp only [hcc, Bool.not_false, if_true, Outcome.ret.injEq] at h
      subst h
      exact ⟨hI1, rfl, rfl⟩
    | true =>
      simp only [hcc, Bool.not_true, Bool.false_eq_true, if_false, Outcome.ret.injEq] at h
      subst h
      simp only [Function.update_same, Function.update_idem]
      -- the store of the new state
      have hI2 : SetsInv { tx with accesses_ := (Function.update tx.accesses_ idx
          { i := (tx.accesses_ idx).i, inserted := (tx.accesses_ idx).inserted,
            state := (if (tx.accesses_ idx).state = .kPeek then .kWrite else .kReadWrite),
            tbl := (tx.accesses_ idx).tbl, cf_id := (tx.accesses_ idx).cf_id,
            row_id := (tx.accesses_ idx).row_id, head := (tx.accesses_ idx).head,
            newer_rv := (tx.accesses_ idx).newer_rv, write_rv := some w,
            read_rv := (tx.accesses_ idx).read_rv }) } :=
        SetsInv_store tx _ idx _ hinv rfl rfl rfl rfl rfl rfl rfl rfl
          (fun hw => absurd hw.2 hnw) (fun hn => absurd hn hnn)
      have hi : (tx.accesses_ idx).i = idx := hinv.2.2.1 idx hidx
      have hnew : ∀ k, k < tx.wset_size_ → tx.wset_idx_ k ≠ idx := by
        intro k hk hki
        have := (hinv.2.2.2.1 k hk).2
        rw [hki] at this
        exact hnw this
      refine ⟨?_, trivial, trivial⟩
      refine (SetsInv_wset_append _ _ idx hI2 hidx ?_ hnew ?_ ?_ ?_ ?_ ?_ ?_ ?_).1
      · show (Function.update tx.accesses_ idx _ idx).write_rv ≠ none ∧
          is_write_state (Function.update tx.accesses_ idx _ idx).state
        rw [Function.update_same]
        refine ⟨by simp, ?_⟩
        show is_write_state (if (tx.accesses_ idx).state = .kPeek then .kWrite else .kReadWrite)
        split
        · exact Or.inl rfl
        · exact Or.inr (Or.inl rfl)
      · rfl
      · rfl
      · rfl
      · show Function.update tx.wset_idx_ tx.wset_size_ _ = _
        rw [hi]
      · rfl
      · rfl
      · rfl

/-- `write_row` keeps the invariant, and the handle it leaves points, if into
the access set, to a published item; `access_size_` does not go down. -/
theorem write_row_keeps_sets (cfg : StaticConfig) (ctx : Context) (tx : Transaction)
    (rah : RowAccessHandle) (data_size : Nat) (data_copier : DataCopier)
    (check_dup_access : Bool) (allocated_version : Option Nat) (r : OpResult)
    (hcap : cfg.kMaxAccessSize ≤ 65535) (hinv : SetsInv tx) (hrah : HandleOk tx rah)
    (h : write_row cfg ctx tx rah data_size data_copier check_dup_access allocated_version
      = .ret r) :
    SetsInv r.tx ∧ HandleOk r.tx r.rah ∧ tx.access_size_ ≤ r.tx.access_size_ := by
  unfold write_row at h
  simp only [bind, Outcome.bind_eq_ret] at h
  obtain ⟨-, -, h⟩ := h
  cases hv : rah.valid_ with
  | false =>
    simp only [hv, Bool.not_false, if_true, Outcome.ret.injEq] at h
    rw [← h]
    exact ⟨hinv, hrah, Nat.le_refl _⟩
  | true =>
    simp only [hv, Bool.not_true, Bool.false_eq_true, if_false, Outcome.bind_eq_ret] at h
    obtain ⟨-, -, item, -, ⟨tx1, rah1⟩, hadd, h⟩ := h
    obtain ⟨hI1, hv1, ⟨idx, hs1, hidx⟩, hle⟩ := write_row_add_to_set_keeps_sets cfg tx tx1 rah
      rah1 item check_dup_access hcap hinv hrah hv hadd
    obtain ⟨hI, hr, hsz⟩ := write_row_upgrade_keeps_sets cfg ctx tx1 rah1 data_size data_copier
      allocated_version idx r hI1 hv1 hs1 hidx h
    refine ⟨hI, ?_, by omega⟩
    rw [hr]
    intro j hj
    rw [hs1] at hj
    have hji : idx = j := by simpa using hj
    omega

/-- `read_row` keeps the invariant, also when it promotes the version and so
calls `write_row`; the handle it leaves points, if into the access set, to a
published item, and `access_size_` does not go down. -/
theorem read_row_keeps_sets (cfg : StaticConfig) (ctx : Context) (tx : Transaction)
    (rah : RowAccessHandle) (data_copier : DataCopier) (allocated_version : Option Nat)
    (r : OpResult)
    (hcap : cfg.kMaxAccessSize ≤ 65535) (hinv : SetsInv tx) (hrah : HandleOk tx rah)
    (h : read_row cfg ctx tx rah data_copier allocated_version = .ret r) :
    SetsInv r.tx ∧ HandleOk r.tx r.rah ∧ tx.access_size_ ≤ r.tx.access_size_ := by
  unfold read_row at h
  simp only [bind, Outcome.bind_eq_ret] at h
  obtain ⟨-, -, h⟩ := h
  cases hv : rah.valid_ with
  | false =>
    simp only [hv, Bool.not_false, if_true, Outcome.ret.injEq] at h
    rw [← h]
    exact ⟨hinv, hrah, Nat.le_refl _⟩
  | true =>
    simp only [hv, Bool.not_true, Bool.false_eq_true, if_false, Outcome.bind_eq_ret] at h
    obtain ⟨-, -, item, hitem, h⟩ := h
    rw [item_of_bound cfg tx rah hv] at hitem
    simp only [Outcome.ret.injEq] at hitem
    subst hitem
    split at h
    · simp only [Outcome.ret.injEq] at h
      rw [← h]
      exact ⟨hinv, hrah, Nat.le_refl _⟩
    · split at h
      · simp only [Outcome.ret.injEq] at h
        rw [← h]
        exact ⟨hinv, hrah, Nat.le_refl _⟩
      · split at h
        · simp only [Outcome.ret.injEq] at h
          rw [← h]
          exact ⟨hinv, hrah, Nat.le_refl _⟩
        · rename_i hN hR hP
          have hpk : (held_item tx rah).state = .kPeek := by
            by_contra hc
            exact hP hc
          obtain ⟨hI1, hsz1, hs1, -⟩ := SetsInv_store_item tx rah
            { held_item tx rah with state := .kRead } hinv rfl
            (fun hw => by
              rcases hw.2 with e | e | e | e <;> rw [hpk] at e <;> cases e)
            (fun hn => by
              rcases hn with e | ⟨e, -⟩ <;> rw [hpk] at e <;> cases e)
          have hrah1 : HandleOk (store_item tx rah { held_item tx rah with state := .kRead }).1
              (store_item tx rah { held_item tx rah with state := .kRead }).2 := by
            intro j hj
            rw [hs1] at hj
            rw [hsz1]
            exact hrah j hj
          simp only [Outcome.bind_eq_ret] at h
          obtain ⟨promote, -, h⟩ := h
          cases promote with
          | false =>
            simp only [Bool.false_eq_true, if_false, Outcome.ret.injEq] at h
            rw [← h]
            exact ⟨hI1, hrah1, by rw [hsz1]⟩
          | true =>
            simp only [if_true] at h
            obtain ⟨g1, g2, g3⟩ := write_row_keeps_sets cfg ctx _ _ _ data_copier true
              allocated_version r hcap hI1 hrah1 h
            exact ⟨g1, g2, by rw [hsz1] at g3; exact g3⟩

/-- The retry loop of `insert_version_deferred` writes only `newer_rv` and
`inserted` of the item: the write set, and the state and `write_rv` of every
item, are as before. -/
theorem insert_version_item_sets (cfg : StaticConfig) (fuel i retries : Nat) (ctx : Context)
    (tx : Transaction) (b : Bool) (ctx' : Context) (tx' : Transaction)
    (h : insert_version_item cfg fuel i retries ctx tx = .ret (b, ctx', tx')) :
    tx'.wset_size_ = tx.wset_size_ ∧ tx'.wset_idx_ = tx.wset_idx_ ∧
      ∀ k, (tx'.accesses_ k).state = (tx.accesses_ k).state ∧
        (tx'.accesses_ k).write_rv = (tx.accesses_ k).write_rv := by
  cases retries with
  | zero => simp [insert_version_item] at h
  | succ n =>
    rcases insert_version_item_ret cfg fuel i n ctx tx b ctx' tx' h with
      ⟨node, w, -, -, -, rfl⟩ | ⟨node, rh, -, -, -, rfl⟩
    · refine ⟨rfl, rfl, fun k => ?_⟩
      unfold mark_inserted
      by_cases hk : k = i
      · subst hk
        simp only [Function.update_same, and_self]
      · simp only [Function.update_noteq hk, and_self]
    · have hres : ∀ t : Transaction, ∀ a c d e f,
          (reserve cfg t a c d e f).wset_size_ = t.wset_size_ ∧
          (reserve cfg t a c d e f).wset_idx_ = t.wset_idx_ ∧
          (reserve cfg t a c d e f).accesses_ = t.accesses_ := by
        intro t a c d e f
        unfold reserve
        split <;> exact ⟨rfl, rfl, rfl⟩
      obtain ⟨e1, e2, e3⟩ := hres (set_newer tx i node) (tx.accesses_ i).tbl
        (tx.accesses_ i).cf_id (tx.accesses_ i).row_id rh true
      refine ⟨e1, e2, fun k => ?_⟩
      rw [e3]
      unfold set_newer
      by_cases hk : k = i
      · subst hk
        simp only [Function.update_same, and_self]
      · simp only [Function.update_noteq hk, and_self]

/-- The loop of `insert_version_deferred` leaves the write set, and the state
and `write_rv` of every item, as they were. -/
theorem insert_version_loop_sets (cfg : StaticConfig) (fuel : Nat) :
    ∀ (js : List Nat) (ctx : Context) (tx : Transaction) (b : Bool) (ctx' : Context)
      (tx' : Transaction),
      insert_version_loop cfg fuel js ctx tx = .ret (b, ctx', tx') →
      tx'.wset_size_ = tx.wset_size_ ∧ tx'.wset_idx_ = tx.wset_idx_ ∧
        ∀ k, (tx'.accesses_ k).state = (tx.accesses_ k).state ∧
          (tx'.accesses_ k).write_rv = (tx.accesses_ k).write_rv := by
  intro js
  induction js with
  | nil =>
    intro ctx tx b ctx' tx' h
    simp only [insert_version_loop, Outcome.ret.injEq, Prod.mk.injEq] at h
    obtain ⟨-, -, rfl⟩ := h
    exact ⟨rfl, rfl, fun _ => ⟨rfl, rfl⟩⟩
  | cons j js ih =>
    intro ctx tx b ctx' tx' h
    simp only [insert_version_loop, bind, Outcome.bind_eq_ret] at h
    obtain ⟨-, -, ⟨ins, ctx1, tx1⟩, hitem, h⟩ := h
    obtain ⟨a1, a2, a3⟩ := insert_version_item_sets cfg fuel _ fuel ctx tx ins ctx1 tx1 hitem
    cases ins with
    | false =>
      simp only [Bool.false_eq_true, if_false, Outcome.ret.injEq, Prod.mk.injEq] at h
      obtain ⟨-, -, rfl⟩ := h
      exact ⟨a1, a2, a3⟩
    | true =>
      simp only [if_true] at h
      obtain ⟨c1, c2, c3⟩ := ih ctx1 tx1 b ctx' tx' h
      exact ⟨c1.trans a1, c2.trans a2, fun k =>
        ⟨(c3 k).1.trans (a3 k).1, (c3 k).2.trans (a3 k).2⟩⟩

/-- The loop over `done ++ rest` is the loop over `done` followed, when that
one returned true, by the loop over `rest`. -/
theorem insert_version_loop_append (cfg : StaticConfig) (fuel : Nat) :
    ∀ (done rest : List Nat) (ctx : Context) (tx : Transaction) (ctx' : Context)
      (tx' : Transaction),
      insert_version_loop cfg fuel done ctx tx = .ret (true, ctx', tx') →
      insert_version_loop cfg fuel (done ++ rest) ctx tx
        = insert_version_loop cfg fuel rest ctx' tx' := by
  intro done
  induction done with
  | nil =>
    intro rest ctx tx ctx' tx' h
    simp only [insert_version_loop, Outcome.ret.injEq, Prod.mk.injEq, true_and] at h
    obtain ⟨rfl, rfl⟩ := h
    rfl
  | cons j js ih =>
    intro rest ctx tx ctx' tx' h
    have h2 := h
    simp only [insert_version_loop, bind, Outcome.bind_eq_ret] at h2
    obtain ⟨u, hu, ⟨ins, ctx1, tx1⟩, hitem, h2⟩ := h2
    cases ins with
    | false => simp at h2
    | true =>
      simp only [if_true] at h2
      have hrec := ih rest ctx1 tx1 ctx' tx' h2
      simp only [List.cons_append, insert_version_loop, bind, hu, hitem, Outcome.bind_ret,
        if_true]
      exact hrec

/-- A handle that pointed to a published item still does when `access_size_`
has not gone down. -/
theorem HandleOk_mono (tx tx2 : Transaction) (rah : RowAccessHandle)
    (hle : tx.access_size_ ≤ tx2.access_size_) (h : HandleOk tx rah) : HandleOk tx2 rah :=
  fun idx hidx => Nat.lt_of_lt_of_le (h idx hidx) hle

/-- With well-formed sets every item of the insert set that is not Invalid has
a `write_rv`, so `insert_row_deferred` passes its assertion at every item and
returns. -/
theorem insert_row_deferred_returns (cfg : StaticConfig) (ctx : Context) (tx : Transaction)
    (h : WellFormedSets tx) :
    ∃ ctx' tx', insert_row_deferred cfg ctx tx = .ret (ctx', tx') := by
  obtain ⟨-, -, -, -, hE⟩ := h
  obtain ⟨ctx', tx', hr, -⟩ := insert_row_loop_frame cfg (List.range tx.iset_size_) ctx tx
    (fun j hj hst => by
      rcases hE j (List.mem_range.mp hj) with e | e
      · exact absurd e hst
      · exact e)
  exact ⟨ctx', tx', hr⟩

/-- With well-formed sets, whenever the loop of `insert_version_deferred` has
done the positions `done` and comes to position `j`, the run continues with
the item of `j`, that item has a `write_rv` and is in a write state, so that
the assertion on `write_rv` and the assertion on the state both pass. -/
theorem insert_version_deferred_asserts (cfg : StaticConfig) (fuel : Nat) (ctx : Context)
    (tx : Transaction) (done : List Nat) (j : Nat) (rest : List Nat) (ctx' : Context)
    (tx' : Transaction) (h : WellFormedSets tx)
    (hsplit : List.range tx.wset_size_ = done ++ j :: rest)
    (hrun : insert_version_loop cfg fuel done ctx tx = .ret (true, ctx', tx')) :
    insert_version_deferred cfg fuel ctx tx
        = insert_version_loop cfg fuel (j :: rest) ctx' tx' ∧
      cassert cfg (decide ((tx'.accesses_ (tx'.wset_idx_ j)).write_rv ≠ none)) = .ret () ∧
      ((tx'.accesses_ (tx'.wset_idx_ j)).with_read = false →
        cassert cfg (decide ((tx'.accesses_ (tx'.wset_idx_ j)).state = .kWrite ∨
          (tx'.accesses_ (tx'.wset_idx_ j)).state = .kDelete)) = .ret ()) := by
  obtain ⟨-, -, -, hD, -⟩ := h
  have hj : j < tx.wset_size_ := by
    have : j ∈ List.range tx.wset_size_ := by
      rw [hsplit]
      simp
    exact List.mem_range.mp this
  obtain ⟨-, e2, e3⟩ := insert_version_loop_sets cfg fuel done ctx tx true ctx' tx' hrun
  obtain ⟨hw, hs⟩ := hD j hj
  refine ⟨?_, ?_, ?_⟩
  · unfold insert_version_deferred
    rw [hsplit]
    exact insert_version_loop_append cfg fuel done (j :: rest) ctx tx ctx' tx' hrun
  · apply cassert_ok
    intro _
    rw [e2, (e3 _).2]
    simpa using hw
  · intro hwr
    apply cassert_ok
    intro _
    rw [e2, (e3 _).1]
    rw [e2] at hwr
    unfold RowAccessItem.with_read at hwr
    rw [(e3 _).1] at hwr
    rcases hs with e | e | e | e
    · simp [e]
    · simp [e] at hwr
    · simp [e]
    · simp [e] at hwr

/-- C31. Well-formedness of the write set and the insert set is kept by every
operation.  With `kMaxAccessSize` at most 65535 (the indices are 16 bits wide):
a transaction whose access set, write set, insert set and dedup map are empty
satisfies the invariant `SetsInv`; `SetsInv` gives the five facts of
`WellFormedSets` (every entry of `wset_idx_` is below `access_size_`, no index
occurs twice in `wset_idx_`, `accesses_[idx].i == idx` for every published
item, each write-set item has a `write_rv` and is in state Write, ReadWrite,
Delete or ReadDelete, each insert-set item is Invalid or has a `write_rv`);
each of `new_row`, `peek_row`, `read_row`, `write_row` and `delete_row`, called
in a state with `SetsInv` through a handle that points to a published item if
it points into the access set, and returning (true or false), leaves a state
with `SetsInv` in which its handle and every such handle still points to a
published item; and with well-formed sets `insert_row_deferred` returns, so its
assertion passes at every item, and each time the loop of
`insert_version_deferred` comes to a position `j` after the positions before
it, the assertion on `write_rv` and the assertion on the state pass. -/
theorem sets_stay_well_formed (cfg : StaticConfig) (hcap : cfg.kMaxAccessSize ≤ 65535) :
    (∀ tx : Transaction, tx.access_size_ = 0 → tx.wset_size_ = 0 → tx.iset_size_ = 0 →
      tx.access_history_ = [] → SetsInv tx) ∧
    (∀ tx : Transaction, SetsInv tx → WellFormedSets tx) ∧
    (∀ (ctx : Context) (tx : Transaction) (rah : RowAccessHandle) (tbl cf_id row_id : Nat)
      (check_dup_access : Bool) (data_size : Nat) (data_copier : DataCopier)
      (allocated_row : Nat) (allocated_version : Option Nat) (r : OpResult),
      SetsInv tx → HandleOk tx rah →
      new_row cfg ctx tx rah tbl cf_id row_id check_dup_access data_size data_copier
        allocated_row allocated_version = .ret r →
      KeepsSets tx r) ∧
    (∀ (fuel : Nat) (ctx : Context) (tx : Transaction) (rah : RowAccessHandle)
      (tbl cf_id row_id : Nat) (check_dup_access read_hint write_hint : Bool) (r : OpResult),
      SetsInv tx → HandleOk tx rah →
      peek_row cfg fuel ctx tx rah tbl cf_id row_id check_dup_access read_hint write_hint
        = .ret r →
      KeepsSets tx r) ∧
    (∀ (ctx : Context) (tx : Transaction) (rah : RowAccessHandle) (data_copier : DataCopier)
      (allocated_version : Option Nat) (r : OpResult),
      SetsInv tx → HandleOk tx rah →
      read_row cfg ctx tx rah data_copier allocated_version = .ret r →
      KeepsSets tx r) ∧
    (∀ (ctx : Context) (tx : Transaction) (rah : RowAccessHandle) (data_size : Nat)
      (data_copier : DataCopier) (check_dup_access : Bool) (allocated_version : Option Nat)
      (r : OpResult),
      SetsInv tx → HandleOk tx rah →
      write_row cfg ctx tx rah data_size data_copier check_dup_access allocated_version
        = .ret r →
      KeepsSets tx r) ∧
    (∀ (ctx : Context) (tx : Transaction) (rah : RowAccessHandle) (r : OpResult),
      SetsInv tx → HandleOk tx rah →
      delete_row cfg ctx tx rah = .ret r →
      KeepsSets tx r) ∧
    (∀ (ctx : Context) (tx : Transaction), WellFormedSets tx →
      ∃ ctx' tx', insert_row_deferred cfg ctx tx = .ret (ctx', tx')) ∧
    (∀ (fuel : Nat) (ctx : Context) (tx : Transaction) (done : List Nat) (j : Nat)
      (rest : List Nat) (ctx' : Context) (tx' : Transaction),
      WellFormedSets tx →
      List.range tx.wset_size_ = done ++ j :: rest →
      insert_version_loop cfg fuel done ctx tx = .ret (true, ctx', tx') →
      insert_version_deferred cfg fuel ctx tx
          = insert_version_loop cfg fuel (j :: rest) ctx' tx' ∧
        cassert cfg (decide ((tx'.accesses_ (tx'.wset_idx_ j)).write_rv ≠ none)) = .ret () ∧
        ((tx'.accesses_ (tx'.wset_idx_ j)).with_read = false →
          cassert cfg (decide ((tx'.accesses_ (tx'.wset_idx_ j)).state = .kWrite ∨
            (tx'.accesses_ (tx'.wset_idx_ j)).state = .kDelete)) = .ret ())) := by
  refine ⟨fun tx h1 h2 h3 h4 => SetsInv_empty tx h1 h2 h3 h4,
    fun tx h => SetsInv_well_formed tx h, ?_, ?_, ?_, ?_, ?_, ?_, ?_⟩
  · intro ctx tx rah tbl cf_id row_id cd ds dc ar av r hinv hrah h
    obtain ⟨g1, g2, g3⟩ := new_row_keeps_sets cfg ctx tx rah tbl cf_id row_id cd ds dc ar av r
      hcap hinv hrah h
    exact ⟨g1, g2, fun rah2 h2 => HandleOk_mono tx r.tx rah2 g3 h2⟩
  · intro fuel ctx tx rah tbl cf_id row_id cd rh wh r hinv hrah h
    obtain ⟨g1, g2, g3⟩ := peek_row_keeps_sets cfg fuel ctx tx rah tbl cf_id row_id cd rh wh r
      hinv hrah h
    exact ⟨g1, g2, fun rah2 h2 => HandleOk_mono tx r.tx rah2 (Nat.le_of_eq g3.symm) h2⟩
  · intro ctx tx rah dc av r hinv hrah h
    obtain ⟨g1, g2, g3⟩ := read_row_keeps_sets cfg ctx tx rah dc av r hcap hinv hrah h
    exact ⟨g1, g2, fun rah2 h2 => HandleOk_mono tx r.tx rah2 g3 h2⟩
  · intro ctx tx rah ds dc cd av r hinv hrah h
    obtain ⟨g1, g2, g3⟩ := write_row_keeps_sets cfg ctx tx rah ds dc cd av r hcap hinv hrah h
    exact ⟨g1, g2, fun rah2 h2 => HandleOk_mono tx r.tx rah2 g3 h2⟩
  · intro ctx tx rah r hinv hrah h
    obtain ⟨g1, g2, g3⟩ := delete_row_keeps_sets cfg ctx tx rah r hinv hrah h
    exact ⟨g1, g2, fun rah2 h2 => HandleOk_mono tx r.tx rah2 (Nat.le_of_eq g3.symm) h2⟩
  · intro ctx tx h
    exact insert_row_deferred_returns cfg ctx tx h
  · intro fuel ctx tx done j rest ctx' tx' h hsplit hrun
    exact insert_version_deferred_asserts cfg fuel ctx tx done j rest ctx' tx' h hsplit hrun

/-- The invariant in two runs of a build with asserts and room for four
items.  Scenario S5: the transaction that has just begun satisfies `SetsInv`,
the two calls of `new_row` and the call of `delete_row` keep it, so the state
S5 has well-formed sets, with two items in the insert set, and
`insert_row_deferred` returns on it.  The written row: `peek_row`, `read_row`
and `write_row` keep the invariant, the write set holds one item, and the
assertion on `write_rv` at the top of the loop of `insert_version_deferred`
passes for it. -/
theorem sets_stay_well_formed_witness :
    cfgDebug.kMaxAccessSize ≤ 65535 ∧ WellFormedSets stateS5.tx ∧
      stateS5.tx.iset_size_ = 2 ∧ stateS5.tx.access_size_ = 2 ∧
      (∃ ctx' tx', insert_row_deferred cfgDebug stateS5.ctx stateS5.tx = .ret (ctx', tx')) ∧
      WellFormedSets stateWritten.tx ∧ stateWritten.tx.wset_size_ = 1 ∧
      cassert cfgDebug
        (decide ((stateWritten.tx.accesses_ (stateWritten.tx.wset_idx_ 0)).write_rv ≠ none))
        = .ret () := by
  have hcap : cfgDebug.kMaxAccessSize ≤ 65535 := by decide
  obtain ⟨hbase, hwf, hnew, hpeek, hread, hwrite, hdel, hrow, hver⟩ :=
    sets_stay_well_formed cfgDebug hcap
  have h0 : SetsInv (beginTx 20) := hbase (beginTx 20) rfl rfl rfl rfl
  have hf0 : HandleOk (beginTx 20) freshHandle := fun idx hidx => by cases hidx
  have hrun : ∃ a b : OpResult,
      new_row cfgDebug (ctxOneRow 10) (beginTx 20) freshHandle 0 0 kNewRowID true 8
        NoopDataCopier 5 (some 2) = .ret a ∧
      new_row cfgDebug a.ctx a.tx freshHandle 0 0 kNewRowID true 8 NoopDataCopier 6 (some 3)
        = .ret b ∧
      delete_row cfgDebug b.ctx b.tx b.rah = .ret stateS5 := ⟨_, _, rfl, rfl, rfl⟩
  obtain ⟨a, b, ha, hb, hc⟩ := hrun
  obtain ⟨ia, -, oa⟩ := hnew _ _ _ _ _ _ _ _ _ _ _ _ h0 hf0 ha
  obtain ⟨ib, rb, -⟩ := hnew _ _ _ _ _ _ _ _ _ _ _ _ ia (oa freshHandle hf0) hb
  obtain ⟨ic, -, -⟩ := hdel _ _ _ _ ib rb hc
  have hrun2 : ∃ p q : OpResult,
      peek_row cfgDebug 4 (ctxOneRow 10) (beginTx 20) freshHandle 0 0 0 true true true
        = .ret p ∧
      read_row cfgDebug p.ctx p.tx p.rah NoopDataCopier none = .ret q ∧
      write_row cfgDebug q.ctx q.tx q.rah 1 NoopDataCopier true (some 2) = .ret stateWritten :=
    ⟨_, _, rfl, rfl, rfl⟩
  obtain ⟨p, q, hp, hq, hw⟩ := hrun2
  obtain ⟨ip, rp, -⟩ := hpeek _ _ _ _ _ _ _ _ _ _ _ h0 hf0 hp
  obtain ⟨iq, rq, -⟩ := hread _ _ _ _ _ _ ip rp hq
  obtain ⟨iw, -, -⟩ := hwrite _ _ _ _ _ _ _ _ iq rq hw
  have hsz : stateWritten.tx.wset_size_ = 1 := rfl
  have hsplit : List.range stateWritten.tx.wset_size_ = [] ++ 0 :: [] := by
    rw [hsz]
    rfl
  obtain ⟨-, hassert, -⟩ := hver 4 stateWritten.ctx stateWritten.tx [] 0 []
    stateWritten.ctx stateWritten.tx (hwf _ iw) hsplit rfl
  exact ⟨hcap, hwf _ ic, rfl, rfl, hrow _ _ (hwf _ ic), hwf _ iw, hsz, hassert⟩

/-! ## A created row through the operations of its transaction -/

end Cicada
